import Mathlib

/-!
# BusTub storage core: buffer pool, clock replacer, linear-probe hash table

A shallow embedding of

* `src/buffer/clock_replacer.cpp`
* `src/buffer/buffer_pool_manager.cpp` (with `src/include/buffer/buffer_pool_manager.h`)
* `src/storage/page/hash_table_block_page.cpp`
* `src/container/hash/linear_probe_hash_table.cpp`

Conventions of the embedding.

* Every member function becomes a function from the object state to
  `Option (result × state)`.  The outer `none` means that the call does not
  return: a failed `assert`, undefined behaviour of the C++ (indexing outside
  an array, `back()` of an empty list, dereferencing a null page) or a loop
  that never ends.  A C++ `nullptr` / `-1` / `false` result is an ordinary
  returned value.
* `page_id_t` is `Int` (`INVALID_PAGE_ID = -1`), `frame_id_t` an index `Nat`.
  `pin_count_` is an `int`; it is an unbounded `Int` here (overflow after
  `2^31` pins is not modelled).
* The latch calls (`latch_.lock()` and friends, `has_latch`) have no effect on
  a sequential run and are left out.
* The disk manager is an external collaborator: it is a parameter
  (`DiskManager`), and every call made to it is also recorded in a ghost event
  list together with the calls made to the replacer.
-/

namespace bustub

/-! ## Clock replacer (`clock_replacer.cpp`) -/

/-- Modelled from the spec: the element type of `clock_vector` is declared in
`clock_replacer.h`, which is absent; the spec gives each frame two independent
booleans, `pinned` and `referenced`. -/
structure ClockItem where
  ref_flag : Bool
  pin_flag : Bool
deriving DecidableEq, Repr

/-- The state of `ClockReplacer`: `clock_vector`, `ClockReplacer_frame_counter`
and `clock_hand` (an iterator, here its index). -/
structure ClockReplacer where
  clock_vector : List ClockItem
  ClockReplacer_frame_counter : Nat
  clock_hand : Nat
deriving DecidableEq, Repr

namespace ClockReplacer

/-- `ClockReplacer::ClockReplacer(num_pages)`.  Modelled from the spec: the
default value of a clock item is declared in the absent `clock_replacer.h`;
the spec says every frame starts pinned (size 0).  The initial reference flag
is not stated and is the parameter `ref0`. -/
def new (num_pages : Nat) (ref0 : Bool) : ClockReplacer :=
  { clock_vector := List.replicate num_pages ⟨ref0, true⟩
    ClockReplacer_frame_counter := 0
    clock_hand := 0 }

/-- `ClockReplacer::move_clock_hand`. -/
def move_clock_hand (r : ClockReplacer) : ClockReplacer :=
  if r.clock_hand + 1 = r.clock_vector.length then
    { r with clock_hand := 0 }
  else
    { r with clock_hand := r.clock_hand + 1 }

/-- The `while (true)` loop of `ClockReplacer::Victim`, run for at most `fuel`
iterations.  `none`: the hand points outside the vector (undefined behaviour)
or the fuel ran out. -/
def victimLoop : Nat → ClockReplacer → Option (Nat × ClockReplacer)
  | 0, _ => none
  | fuel + 1, r =>
    match r.clock_vector[r.clock_hand]? with
    | none => none
    | some it =>
      if (!it.pin_flag) && (!it.ref_flag) then
        let frame_id := r.clock_hand
        some (frame_id,
          { r with
            ClockReplacer_frame_counter :=
              if !it.pin_flag then r.ClockReplacer_frame_counter - 1
              else r.ClockReplacer_frame_counter
            clock_vector := r.clock_vector.set frame_id ⟨true, true⟩ })
      else if (!it.pin_flag) && it.ref_flag then
        victimLoop fuel
          (move_clock_hand
            { r with clock_vector := r.clock_vector.set r.clock_hand { it with ref_flag := false } })
      else
        victimLoop fuel (move_clock_hand r)

/-- `ClockReplacer::Victim`.  Returns `some (none, r)` for `false`,
`some (some f, r')` for `true` with `*frame_id = f`.  The loop is given
`2 * n + 1` iterations, which is enough whenever it ends at all
(`victimLoop_total`, `victimLoop_none_of_all_pinned`). -/
def Victim (r : ClockReplacer) : Option (Option Nat × ClockReplacer) :=
  if r.ClockReplacer_frame_counter = 0 then
    some (none, r)
  else
    match victimLoop (2 * r.clock_vector.length + 1) r with
    | none => none
    | some (f, r') => some (some f, r')

/-- `ClockReplacer::Pin`.  `none`: `frame_id` is outside the vector. -/
def Pin (r : ClockReplacer) (frame_id : Nat) : Option ClockReplacer :=
  match r.clock_vector[frame_id]? with
  | none => none
  | some it =>
    some { r with
      ClockReplacer_frame_counter :=
        if !it.pin_flag then r.ClockReplacer_frame_counter - 1
        else r.ClockReplacer_frame_counter
      clock_vector := r.clock_vector.set frame_id ⟨true, true⟩ }

/-- `ClockReplacer::Unpin`.  `none`: `frame_id` is outside the vector. -/
def Unpin (r : ClockReplacer) (frame_id : Nat) : Option ClockReplacer :=
  match r.clock_vector[frame_id]? with
  | none => none
  | some it =>
    some { r with
      ClockReplacer_frame_counter :=
        if it.pin_flag then r.ClockReplacer_frame_counter + 1
        else r.ClockReplacer_frame_counter
      clock_vector := r.clock_vector.set frame_id { it with pin_flag := false } }

/-- `ClockReplacer::Size`. -/
def Size (r : ClockReplacer) : Nat := r.ClockReplacer_frame_counter

/-- The number of hand advances from position `h` to position `j` on a clock
of `n` positions. -/
def cyclicDist (n h j : Nat) : Nat := if h ≤ j then j - h else j + n - h

/-- The pin flag held for a frame, `none` outside the vector. -/
def pinFlag (r : ClockReplacer) (frame_id : Nat) : Option Bool :=
  (r.clock_vector[frame_id]?).map (fun it => it.pin_flag)

/-- The counter agrees with the number of unpinned items. -/
def CounterOk (r : ClockReplacer) : Prop :=
  r.ClockReplacer_frame_counter = r.clock_vector.countP (fun it => !it.pin_flag)

/-- What the hand of `Victim` leaves of an item it passes over: a pinned item
as it is, an unpinned item unreferenced. -/
def sweep (it : ClockItem) : ClockItem := if it.pin_flag then it else ⟨false, false⟩

/-- The reference flag held for a frame, `none` outside the vector. -/
def refFlag (r : ClockReplacer) (frame_id : Nat) : Option Bool :=
  (r.clock_vector[frame_id]?).map (fun it => it.ref_flag)

/-- The number of frames whose pin flag is false. -/
def unpinnedCount (r : ClockReplacer) : Nat :=
  r.clock_vector.countP (fun it => !it.pin_flag)

/-- The states a replacer over `n` frames can be in: constructed, then changed
by `Pin(f)` and `Unpin(f)` calls with `f < n` and by `Victim` calls that
returned. -/
inductive Reachable (n : Nat) (ref0 : Bool) : ClockReplacer → Prop where
  | init : Reachable n ref0 (ClockReplacer.new n ref0)
  | pin (f : Nat) {r r' : ClockReplacer} :
      Reachable n ref0 r → f < n → r.Pin f = some r' → Reachable n ref0 r'
  | unpin (f : Nat) {r r' : ClockReplacer} :
      Reachable n ref0 r → f < n → r.Unpin f = some r' → Reachable n ref0 r'
  | victim {r r' : ClockReplacer} {o : Option Nat} :
      Reachable n ref0 r → r.Victim = some (o, r') → Reachable n ref0 r'

/-- A call on the replacer. -/
inductive Call where
  | pin (frame_id : Nat)
  | unpin (frame_id : Nat)
  | victim
deriving DecidableEq, Repr

/-- The frame of a call lies in `[0, n)`. -/
def Call.ok (n : Nat) : Call → Bool
  | Call.pin f => decide (f < n)
  | Call.unpin f => decide (f < n)
  | Call.victim => true

/-- The replacer after one call. -/
def call (r : ClockReplacer) : Call → Option ClockReplacer
  | Call.pin f => r.Pin f
  | Call.unpin f => r.Unpin f
  | Call.victim => r.Victim.map Prod.snd

/-- The replacer after a sequence of calls. -/
def calls (r : ClockReplacer) : List Call → Option ClockReplacer
  | [] => some r
  | c :: cs =>
    match call r c with
    | none => none
    | some r' => calls r' cs

/-- The replacer of the concrete scenarios: two frames, after the calls
given (the constructed replacer if a call does not return). -/
def scenario (ref0 : Bool) (cs : List Call) : ClockReplacer :=
  (calls (ClockReplacer.new 2 ref0) cs).getD (ClockReplacer.new 2 ref0)

end ClockReplacer

/-- A replacer over two frames, both unpinned and referenced: after `Pin(0)`,
`Pin(1)`, `Unpin(0)`, `Unpin(1)`. -/
def referencedPair : ClockReplacer :=
  ClockReplacer.scenario false [ClockReplacer.Call.pin 0, ClockReplacer.Call.pin 1,
    ClockReplacer.Call.unpin 0, ClockReplacer.Call.unpin 1]

/-! ## Buffer pool manager (`buffer_pool_manager.cpp`) -/

/-- The reserved page id. -/
def INVALID_PAGE_ID : Int := -1

/-- Modelled from the spec: `Page` is declared in the absent
`storage/page/page.h`; the spec gives a frame its bytes, the page-id currently
resident, a pin count and a dirty flag. -/
structure Page (B : Type) where
  data : B
  page_id : Int
  pin_count : Int
  is_dirty : Bool
deriving DecidableEq, Repr

/-- Modelled from the spec: the disk manager is an external collaborator
(`storage/disk/disk_manager.h` is absent); the spec lists `read_page`,
`write_page`, `allocate_page` and `deallocate_page`.  `D` is the state of the
disk, `B` the type of a page's bytes; `ReadPage d p buf` is the buffer after
reading page `p` into the buffer `buf`. -/
structure DiskManager (D B : Type) where
  ReadPage : D → Int → B → B
  WritePage : D → Int → B → D
  AllocatePage : D → Int × D
  DeallocatePage : D → Int → D

/-- Ghost record of the calls the pool makes to its collaborators. -/
inductive Event (B : Type) where
  | ReadPage (page_id : Int)
  | WritePage (page_id : Int) (data : B)
  | AllocatePage (page_id : Int)
  | DeallocatePage (page_id : Int)
  | ReplacerPin (frame_id : Nat)
  | ReplacerUnpin (frame_id : Nat)
  | ReplacerVictim (result : Option Nat)
deriving DecidableEq, Repr

/-- `std::unordered_map<page_id_t, frame_id_t>` as an association list with
at most one entry per key. -/
abbrev PageTable := List (Int × Nat)

namespace PageTable

/-- `page_table_.find(page_id)`: the frame, or `none` for `end()`. -/
def find (pt : PageTable) (page_id : Int) : Option Nat :=
  match pt with
  | [] => none
  | (p, f) :: rest => if p = page_id then some f else find rest page_id

/-- `page_table_.erase(page_id)`. -/
def erase (pt : PageTable) (page_id : Int) : PageTable :=
  pt.filter (fun e => decide (e.1 ≠ page_id))

/-- `page_table_[page_id] = frame_id`. -/
def insert (pt : PageTable) (page_id : Int) (frame_id : Nat) : PageTable :=
  (page_id, frame_id) :: erase pt page_id

end PageTable

/-- The state of `BufferPoolManager`, with the disk state `disk` behind
`disk_manager_` and the ghost event list `events`. -/
structure BufferPoolManager (D B : Type) where
  pool_size : Nat
  pages : List (Page B)
  disk : D
  page_table : PageTable
  replacer : ClockReplacer
  free_list : List Nat
  events : List (Event B)
deriving DecidableEq, Repr

namespace BufferPoolManager

variable {D B : Type}

/-- `BufferPoolManager::BufferPoolManager`.  A fresh `Page` has zeroed bytes
(`zero`), `page_id_ = INVALID_PAGE_ID`, `pin_count_ = 0`, `is_dirty_ = false`;
every frame is put on the free list in increasing order. -/
def new (pool_size : Nat) (disk : D) (zero : B) (ref0 : Bool) : BufferPoolManager D B :=
  { pool_size := pool_size
    pages := List.replicate pool_size ⟨zero, INVALID_PAGE_ID, 0, false⟩
    disk := disk
    page_table := []
    replacer := ClockReplacer.new pool_size ref0
    free_list := List.range pool_size
    events := [] }

/-- `BufferPoolManager::FlushPageImpl`. -/
def FlushPageImpl (dm : DiskManager D B) (s : BufferPoolManager D B) (page_id : Int) :
    Option (Bool × BufferPoolManager D B) :=
  if page_id = INVALID_PAGE_ID then none
  else
    match s.page_table.find page_id with
    | none => some (false, s)
    | some frame_id =>
      match s.pages[frame_id]? with
      | none => none
      | some pg =>
        if pg.is_dirty then
          some (true,
            { s with
              disk := dm.WritePage s.disk page_id pg.data
              events := s.events ++ [Event.WritePage page_id pg.data] })
        else some (true, s)

/-- `BufferPoolManager::DeletePageImpl`. -/
def DeletePageImpl (dm : DiskManager D B) (s : BufferPoolManager D B) (page_id : Int) :
    Option (Bool × BufferPoolManager D B) :=
  match s.page_table.find page_id with
  | none => some (true, s)
  | some frame_id =>
    match s.pages[frame_id]? with
    | none => none
    | some pg =>
      if pg.pin_count ≠ 0 then some (false, s)
      else
        let s1 : BufferPoolManager D B :=
          { s with
            disk := dm.DeallocatePage s.disk page_id
            events := s.events ++ [Event.DeallocatePage page_id] }
        match FlushPageImpl dm s1 page_id with
        | none => none
        | some (_, s2) =>
          some (true,
            { s2 with
              page_table := s2.page_table.erase page_id
              pages := s2.pages.set frame_id
                { pg with page_id := INVALID_PAGE_ID, pin_count := 0, is_dirty := false }
              free_list := s2.free_list ++ [frame_id] })

/-- The tail of `get_free_page`: `frame_id = free_list_.back();
free_list_.pop_back(); replacer_->Pin(frame_id); return frame_id;`. -/
def take_free_frame (s : BufferPoolManager D B) : Option (Option Nat × BufferPoolManager D B) :=
  match s.free_list.getLast? with
  | none => none
  | some frame_id =>
    match s.replacer.Pin frame_id with
    | none => none
    | some r =>
      some (some frame_id,
        { s with
          free_list := s.free_list.dropLast
          replacer := r
          events := s.events ++ [Event.ReplacerPin frame_id] })

/-- `BufferPoolManager::get_free_page`; `some (none, _)` is the result `-1`. -/
def get_free_page (dm : DiskManager D B) (s : BufferPoolManager D B) :
    Option (Option Nat × BufferPoolManager D B) :=
  if s.free_list.isEmpty then
    match s.replacer.Victim with
    | none => none
    | some (none, r) =>
      some (none, { s with replacer := r, events := s.events ++ [Event.ReplacerVictim none] })
    | some (some frame_id, r) =>
      let s1 : BufferPoolManager D B :=
        { s with replacer := r, events := s.events ++ [Event.ReplacerVictim (some frame_id)] }
      match s1.pages[frame_id]? with
      | none => none
      | some pg =>
        match DeletePageImpl dm s1 pg.page_id with
        | none => none
        | some (_, s2) => take_free_frame s2
  else take_free_frame s

/-- The reference procedure of the spec for acquiring a frame (`AcquireFrame`,
the direct design), in the spec's words: if the free list is not empty pop a
frame from it, without touching the replacer; otherwise take the replacer's
victim; if there is none, fail; if the victim hosts a page, evict it (write it
back if dirty, remove the page-table entry, reset the frame's metadata); return
the victim itself.  The frame popped is the last one of the free list, as in
the source.  The ghost event list records the calls of the source and is left
as it is. -/
def AcquireFrame_reference (dm : DiskManager D B) (s : BufferPoolManager D B) :
    Option (Option Nat × BufferPoolManager D B) :=
  match s.free_list.getLast? with
  | some frame_id => some (some frame_id, { s with free_list := s.free_list.dropLast })
  | none =>
    match s.replacer.Victim with
    | none => none
    | some (none, r) => some (none, { s with replacer := r })
    | some (some frame_id, r) =>
      match s.pages[frame_id]? with
      | none => none
      | some pg =>
        if pg.page_id = INVALID_PAGE_ID then some (some frame_id, { s with replacer := r })
        else
          some (some frame_id,
            { s with
              replacer := r
              disk := if pg.is_dirty then dm.WritePage s.disk pg.page_id pg.data else s.disk
              page_table := s.page_table.erase pg.page_id
              pages := s.pages.set frame_id
                { pg with page_id := INVALID_PAGE_ID, pin_count := 0, is_dirty := false } })

/-- `BufferPoolManager::FetchPageImpl`; the result is the frame of the
returned `Page *`, `none` for `nullptr`. -/
def FetchPageImpl (dm : DiskManager D B) (zero : B) (s : BufferPoolManager D B) (page_id : Int) :
    Option (Option Nat × BufferPoolManager D B) :=
  match s.page_table.find page_id with
  | some frame_id =>
    match s.pages[frame_id]? with
    | none => none
    | some pg =>
      if pg.pin_count = 0 then
        match s.replacer.Pin frame_id with
        | none => none
        | some r =>
          some (some frame_id,
            { s with
              replacer := r
              events := s.events ++ [Event.ReplacerPin frame_id]
              pages := s.pages.set frame_id { pg with pin_count := pg.pin_count + 1 } })
      else
        some (some frame_id,
          { s with pages := s.pages.set frame_id { pg with pin_count := pg.pin_count + 1 } })
  | none =>
    match get_free_page dm s with
    | none => none
    | some (none, s1) => some (none, s1)
    | some (some frame_id, s1) =>
      match s1.pages[frame_id]? with
      | none => none
      | some _ =>
        -- page_id_, pin_count_, is_dirty_, ResetMemory(), then ReadPage into data_
        some (some frame_id,
          { s1 with
            pages := s1.pages.set frame_id
              { data := dm.ReadPage s1.disk page_id zero, page_id := page_id, pin_count := 1,
                is_dirty := false }
            events := s1.events ++ [Event.ReadPage page_id]
            page_table := s1.page_table.insert page_id frame_id })

/-- `BufferPoolManager::UnpinPageImpl`. -/
def UnpinPageImpl (s : BufferPoolManager D B) (page_id : Int) (is_dirty : Bool) :
    Option (Bool × BufferPoolManager D B) :=
  match s.page_table.find page_id with
  | none => none
  | some frame_id =>
    match s.pages[frame_id]? with
    | none => none
    | some pg =>
      let pg1 : Page B := { pg with is_dirty := is_dirty || pg.is_dirty }
      if pg1.pin_count ≤ 0 then
        some (false, { s with pages := s.pages.set frame_id pg1 })
      else
        let pg2 : Page B := { pg1 with pin_count := pg1.pin_count - 1 }
        if pg2.pin_count = 0 then
          match s.replacer.Unpin frame_id with
          | none => none
          | some r =>
            some (true,
              { s with
                pages := s.pages.set frame_id pg2
                replacer := r
                events := s.events ++ [Event.ReplacerUnpin frame_id] })
        else
          some (true, { s with pages := s.pages.set frame_id pg2 })

/-- `BufferPoolManager::NewPageImpl`; the result is `(*page_id, frame)`,
`none` for `nullptr` (then `*page_id` is not written). -/
def NewPageImpl (dm : DiskManager D B) (zero : B) (s : BufferPoolManager D B) :
    Option (Option (Int × Nat) × BufferPoolManager D B) :=
  match get_free_page dm s with
  | none => none
  | some (none, s1) => some (none, s1)
  | some (some frame_id, s1) =>
    match s1.pages[frame_id]? with
    | none => none
    | some _ =>
      let page_id := (dm.AllocatePage s1.disk).1
      some (some (page_id, frame_id),
        { s1 with
          disk := (dm.AllocatePage s1.disk).2
          events := s1.events ++ [Event.AllocatePage page_id]
          pages := s1.pages.set frame_id
            { data := zero, page_id := page_id, pin_count := 1, is_dirty := false }
          page_table := s1.page_table.insert page_id frame_id })

/-- The loop of `FlushAllPagesImpl` over the given page ids. -/
def flushEach (dm : DiskManager D B) :
    List Int → BufferPoolManager D B → Option (BufferPoolManager D B)
  | [], s => some s
  | page_id :: rest, s =>
    match FlushPageImpl dm s page_id with
    | none => none
    | some (_, s1) => flushEach dm rest s1

/-- `BufferPoolManager::FlushAllPagesImpl`.  The iteration order of the
`unordered_map` is unspecified; the order of the association list is used. -/
def FlushAllPagesImpl (dm : DiskManager D B) (s : BufferPoolManager D B) :
    Option (BufferPoolManager D B) :=
  flushEach dm (s.page_table.map Prod.fst) s

/-- A client writes into the bytes of a frame it holds pinned (`GetData()`
returns a writable pointer). -/
def writeData (s : BufferPoolManager D B) (frame_id : Nat) (data : B) : BufferPoolManager D B :=
  match s.pages[frame_id]? with
  | none => s
  | some pg => { s with pages := s.pages.set frame_id { pg with data := data } }

/-- The states a pool can be in: reached from construction by the public
operations, each of which returned, and by clients writing into frames they
hold pinned.  Page ids handed to `Fetch` are valid, and the disk manager
allocates page ids that are valid and not resident at that moment. -/
inductive Reachable (dm : DiskManager D B) (zero : B) : BufferPoolManager D B → Prop where
  | init (pool_size : Nat) (disk : D) (ref0 : Bool) :
      Reachable dm zero (BufferPoolManager.new pool_size disk zero ref0)
  | fetch {s s' : BufferPoolManager D B} {r : Option Nat} (page_id : Int) :
      Reachable dm zero s → page_id ≠ INVALID_PAGE_ID →
      FetchPageImpl dm zero s page_id = some (r, s') → Reachable dm zero s'
  | newPage {s s' : BufferPoolManager D B} {r : Option (Int × Nat)} :
      Reachable dm zero s →
      (∀ f s1, get_free_page dm s = some (some f, s1) →
        (dm.AllocatePage s1.disk).1 ≠ INVALID_PAGE_ID ∧
        s1.page_table.find (dm.AllocatePage s1.disk).1 = none) →
      NewPageImpl dm zero s = some (r, s') → Reachable dm zero s'
  | unpin {s s' : BufferPoolManager D B} {r : Bool} (page_id : Int) (is_dirty : Bool) :
      Reachable dm zero s →
      UnpinPageImpl s page_id is_dirty = some (r, s') → Reachable dm zero s'
  | flush {s s' : BufferPoolManager D B} {r : Bool} (page_id : Int) :
      Reachable dm zero s →
      FlushPageImpl dm s page_id = some (r, s') → Reachable dm zero s'
  | flushAll {s s' : BufferPoolManager D B} :
      Reachable dm zero s →
      FlushAllPagesImpl dm s = some s' → Reachable dm zero s'
  | delete {s s' : BufferPoolManager D B} {r : Bool} (page_id : Int) :
      Reachable dm zero s →
      DeletePageImpl dm s page_id = some (r, s') → Reachable dm zero s'
  | write {s : BufferPoolManager D B} (frame_id : Nat) (data : B) :
      Reachable dm zero s →
      (∀ pg : Page B, s.pages[frame_id]? = some pg → 0 < pg.pin_count) →
      Reachable dm zero (writeData s frame_id data)

/-- The structural invariant of the pool. -/
structure Inv (s : BufferPoolManager D B) : Prop where
  pages_len : s.pages.length = s.pool_size
  clock_len : s.replacer.clock_vector.length = s.pool_size
  hand : s.replacer.clock_hand < s.pool_size ∨ s.pool_size = 0
  counter : s.replacer.CounterOk
  table : ∀ p f, s.page_table.find p = some f →
      ∃ pg : Page B, s.pages[f]? = some pg ∧ pg.page_id = p
  table_valid : ∀ p f, s.page_table.find p = some f → p ≠ INVALID_PAGE_ID
  table_free : ∀ p f, s.page_table.find p = some f → f ∉ s.free_list
  free_nodup : s.free_list.Nodup
  free_pin : ∀ f, f ∈ s.free_list → ∃ pg : Page B, s.pages[f]? = some pg ∧ pg.pin_count = 0
  cover : ∀ (f : Nat) (pg : Page B), s.pages[f]? = some pg →
      f ∈ s.free_list ∨ s.page_table.find pg.page_id = some f
  pin_nonneg : ∀ (f : Nat) (pg : Page B), s.pages[f]? = some pg → 0 ≤ pg.pin_count
  flag : ∀ (f : Nat) (pg : Page B), s.pages[f]? = some pg → f ∉ s.free_list →
      (s.replacer.pinFlag f = some false ↔ pg.pin_count = 0)

/-- A call of one of the public operations of the pool. -/
inductive Op where
  | fetch (page_id : Int)
  | newPage
  | unpin (page_id : Int) (is_dirty : Bool)
  | flush (page_id : Int)
  | flushAll
  | delete (page_id : Int)
deriving DecidableEq, Repr

/-- The side conditions `Reachable` puts on a call: a fetched page id is
valid, and the page id the disk manager allocates is valid and not resident. -/
def Op.admissible (dm : DiskManager D B) (s : BufferPoolManager D B) : Op → Bool
  | Op.fetch page_id => decide (page_id ≠ INVALID_PAGE_ID)
  | Op.newPage =>
    match get_free_page dm s with
    | some (some _, s1) =>
      decide ((dm.AllocatePage s1.disk).1 ≠ INVALID_PAGE_ID)
        && (s1.page_table.find (dm.AllocatePage s1.disk).1).isNone
    | _ => true
  | _ => true

/-- The state after a call, `none` if the call does not return. -/
def Op.apply (dm : DiskManager D B) (zero : B) (s : BufferPoolManager D B) :
    Op → Option (BufferPoolManager D B)
  | Op.fetch page_id => (FetchPageImpl dm zero s page_id).map (fun x => x.2)
  | Op.newPage => (NewPageImpl dm zero s).map (fun x => x.2)
  | Op.unpin page_id is_dirty => (UnpinPageImpl s page_id is_dirty).map (fun x => x.2)
  | Op.flush page_id => (FlushPageImpl dm s page_id).map (fun x => x.2)
  | Op.flushAll => FlushAllPagesImpl dm s
  | Op.delete page_id => (DeletePageImpl dm s page_id).map (fun x => x.2)

/-- The state after a sequence of admissible calls, each of which returns. -/
def run (dm : DiskManager D B) (zero : B) :
    BufferPoolManager D B → List Op → Option (BufferPoolManager D B)
  | s, [] => some s
  | s, op :: ops =>
    if op.admissible dm s then
      match op.apply dm zero s with
      | none => none
      | some s' => run dm zero s' ops
    else none

/-- No frame can be acquired: the free list is empty and every resident page
has a pin count above zero. -/
def Exhausted (s : BufferPoolManager D B) : Prop :=
  s.free_list = [] ∧
    ∀ (q : Int) (g : Nat) (pg : Page B),
      s.page_table.find q = some g → s.pages[g]? = some pg → 0 < pg.pin_count

/-- `k` consecutive calls of `NewPageImpl`, with their results. -/
def newPages (dm : DiskManager D B) (zero : B) :
    Nat → BufferPoolManager D B → Option (List (Option (Int × Nat)) × BufferPoolManager D B)
  | 0, s => some ([], s)
  | k + 1, s =>
    match NewPageImpl dm zero s with
    | none => none
    | some (r, s1) =>
      match newPages dm zero k s1 with
      | none => none
      | some (rs, s2) => some (r :: rs, s2)

/-- `k` consecutive calls of `FetchPageImpl` on the same page, each of which
has to return a frame. -/
def fetchTimes (dm : DiskManager D B) (zero : B) (page_id : Int) :
    Nat → BufferPoolManager D B → Option (BufferPoolManager D B)
  | 0, s => some s
  | k + 1, s =>
    match FetchPageImpl dm zero s page_id with
    | some (some _, s1) => fetchTimes dm zero page_id k s1
    | _ => none

/-- Consecutive calls of `UnpinPageImpl` on the same page, one for each dirty
flag of the list, with their results. -/
def unpinAll (page_id : Int) :
    List Bool → BufferPoolManager D B → Option (List Bool × BufferPoolManager D B)
  | [], s => some ([], s)
  | d :: ds, s =>
    match UnpinPageImpl s page_id d with
    | none => none
    | some (r, s1) =>
      match unpinAll page_id ds s1 with
      | none => none
      | some (rs, s2) => some (r :: rs, s2)

/-- A call of `Fetch` or `Unpin`. -/
inductive PinOp where
  | fetch (page_id : Int)
  | unpin (page_id : Int) (is_dirty : Bool)
deriving DecidableEq, Repr

/-- The page a call names. -/
def PinOp.page_id : PinOp → Int
  | PinOp.fetch page_id => page_id
  | PinOp.unpin page_id _ => page_id

/-- A sequence of `Fetch` and `Unpin` calls, each of which has to return
(a `Fetch` with a frame). -/
def pinRun (dm : DiskManager D B) (zero : B) :
    List PinOp → BufferPoolManager D B → Option (BufferPoolManager D B)
  | [], s => some s
  | PinOp.fetch page_id :: ops, s =>
    match FetchPageImpl dm zero s page_id with
    | some (some _, s1) => pinRun dm zero ops s1
    | _ => none
  | PinOp.unpin page_id is_dirty :: ops, s =>
    match UnpinPageImpl s page_id is_dirty with
    | some (_, s1) => pinRun dm zero ops s1
    | none => none

/-- Every frame keeps its page id and bytes, and a set dirty flag stays set. -/
def DirtyKept (s s' : BufferPoolManager D B) : Prop :=
  ∀ (g : Nat) (pg : Page B), s.pages[g]? = some pg →
    ∃ pg' : Page B, s'.pages[g]? = some pg' ∧ pg'.page_id = pg.page_id ∧
      pg'.data = pg.data ∧ (pg.is_dirty = true → pg'.is_dirty = true)

/-- The number of frames with a pin count above zero. -/
def pinnedCount (s : BufferPoolManager D B) : Nat :=
  s.pages.countP (fun pg => decide (0 < pg.pin_count))

/-- The number of frames on the free list that the replacer still holds as
unpinned: frames freed by `Delete` and not handed out again yet. -/
def staleCount (s : BufferPoolManager D B) : Nat :=
  s.free_list.countP (fun f => s.replacer.pinFlag f == some false)

/-- A disk that keeps what is written: a page reads back as it was last
written, and writing or deallocating another page does not change it
(`DeallocatePage` of the real disk manager does nothing). -/
structure DiskLaws (dm : DiskManager D B) : Prop where
  read_write : ∀ d p x buf, dm.ReadPage (dm.WritePage d p x) p buf = x
  read_write_ne : ∀ d p q x buf, q ≠ p →
    dm.ReadPage (dm.WritePage d p x) q buf = dm.ReadPage d q buf
  read_dealloc : ∀ d p q buf, dm.ReadPage (dm.DeallocatePage d p) q buf = dm.ReadPage d q buf

/-- The bytes of page `p` as a `Fetch` would deliver them: the bytes of its
frame if it is resident, what the disk reads otherwise. -/
def content (dm : DiskManager D B) (zero : B) (s : BufferPoolManager D B) (p : Int) : B :=
  match s.page_table.find p with
  | some f =>
    match s.pages[f]? with
    | some pg => pg.data
    | none => zero
  | none => dm.ReadPage s.disk p zero

/-- Every resident page whose frame is clean has the bytes the disk holds,
except in the frames `ex` (pinned frames being written by their holder). -/
def Coh (dm : DiskManager D B) (zero : B) (ex : List Nat) (s : BufferPoolManager D B) : Prop :=
  ∀ (p : Int) (f : Nat) (pg : Page B), s.page_table.find p = some f →
    s.pages[f]? = some pg → pg.is_dirty = false → f ∉ ex →
    pg.data = dm.ReadPage s.disk p zero

/-- The frames `ex` are pinned. -/
def Pinned (ex : List Nat) (s : BufferPoolManager D B) : Prop :=
  ∀ g ∈ ex, ∃ pg : Page B, s.pages[g]? = some pg ∧ 0 < pg.pin_count

/-- A disk manager that hands out page ids in increasing order: `next d` is the
id `AllocatePage` returns in state `d`; writing and deallocating do not
change it, and allocating does not change what pages read. -/
structure AllocLaws (dm : DiskManager D B) (next : D → Int) : Prop where
  alloc_id : ∀ d, (dm.AllocatePage d).1 = next d
  alloc_next : ∀ d, next (dm.AllocatePage d).2 = next d + 1
  write_next : ∀ d p x, next (dm.WritePage d p x) = next d
  dealloc_next : ∀ d p, next (dm.DeallocatePage d p) = next d
  read_alloc : ∀ d q buf, dm.ReadPage (dm.AllocatePage d).2 q buf = dm.ReadPage d q buf

/-- Every resident page has an id the disk manager has handed out, and the ids
handed out are not negative. -/
def Fresh (next : D → Int) (s : BufferPoolManager D B) : Prop :=
  0 ≤ next s.disk ∧ ∀ (q : Int) (g : Nat), s.page_table.find q = some g → q < next s.disk

/-- Pinned pages of `s` are in the same frame in `s'`. -/
def Stay (s s' : BufferPoolManager D B) : Prop :=
  ∀ (q : Int) (g : Nat) (pg : Page B), s.page_table.find q = some g →
    s.pages[g]? = some pg → 0 < pg.pin_count → s'.page_table.find q = some g

/-- The pin counts of the frames, in frame order. -/
def pinList (s : BufferPoolManager D B) : List Int := s.pages.map (fun pg => pg.pin_count)

/-- The state of `simpleDisk`: the next page id to hand out and the pages
written so far, newest first. -/
structure SimpleDisk where
  next_page_id : Int
  written : List (Int × Nat)
deriving DecidableEq, Repr

/-- Modelled from the spec: a disk manager for the concrete scenarios (the
real one is an external collaborator).  A page's bytes are a number;
`allocate_page` counts upwards, `deallocate_page` does nothing, `write_page`
stores the bytes and `read_page` delivers the bytes last written, leaving the
buffer as it is for a page never written. -/
def simpleDisk : DiskManager SimpleDisk Nat where
  ReadPage := fun d p buf =>
    match d.written.lookup p with
    | some b => b
    | none => buf
  WritePage := fun d p b => { d with written := (p, b) :: d.written }
  AllocatePage := fun d => (d.next_page_id, { d with next_page_id := d.next_page_id + 1 })
  DeallocatePage := fun d _ => d

/-- Scenario 2 of the spec, before the evicting call: a pool of three frames
on `simpleDisk`, `New` three times (pages 0, 1, 2), then `Unpin(0, true)`. -/
def evictionScenario : BufferPoolManager SimpleDisk Nat :=
  (run simpleDisk 0 (BufferPoolManager.new 3 ⟨0, []⟩ 0 false)
    [Op.newPage, Op.newPage, Op.newPage, Op.unpin 0 true]).getD
    (BufferPoolManager.new 3 ⟨0, []⟩ 0 false)

/-- As `evictionScenario`, with page 0 unpinned clean: `New` three times, then
`Unpin(0, false)`. -/
def cleanEvictionScenario : BufferPoolManager SimpleDisk Nat :=
  (run simpleDisk 0 (BufferPoolManager.new 3 ⟨0, []⟩ 0 false)
    [Op.newPage, Op.newPage, Op.newPage, Op.unpin 0 false]).getD
    (BufferPoolManager.new 3 ⟨0, []⟩ 0 false)

/-- Scenario 1 of the spec, before the failing call: a pool of three frames
on `simpleDisk` after three `New` calls (pages 0, 1, 2, all pinned). -/
def exhaustedScenario : BufferPoolManager SimpleDisk Nat :=
  (run simpleDisk 0 (BufferPoolManager.new 3 ⟨0, []⟩ 0 false)
    [Op.newPage, Op.newPage, Op.newPage]).getD
    (BufferPoolManager.new 3 ⟨0, []⟩ 0 false)

/-- A pool of one frame on `simpleDisk` after `New` (page 0), `Unpin(0, false)`
and `Delete(0)`. -/
def deleteScenario : BufferPoolManager SimpleDisk Nat :=
  (run simpleDisk 0 (BufferPoolManager.new 1 ⟨0, []⟩ 0 false)
    [Op.newPage, Op.unpin 0 false, Op.delete 0]).getD
    (BufferPoolManager.new 1 ⟨0, []⟩ 0 false)

/-- Modelled from the spec: a disk manager like `simpleDisk` whose
`deallocate_page` gives the page up: the bytes written for it are dropped. -/
def reclaimDisk : DiskManager SimpleDisk Nat where
  ReadPage := simpleDisk.ReadPage
  WritePage := simpleDisk.WritePage
  AllocatePage := simpleDisk.AllocatePage
  DeallocatePage := fun d p => { d with written := d.written.filter (fun e => decide (e.1 ≠ p)) }

/-- A pool of three frames on `reclaimDisk` in which page 0 is resident, clean
and unpinned, with its bytes on the disk, and the free list is empty: `New`
three times (pages 0, 1, 2), `Unpin(0, true)`, `New` (page 3; page 0 is
written back), `Unpin(1, false)`, `Fetch(0)` (page 1 gives way), and
`Unpin(0, false)`. -/
def reclaimScenario : BufferPoolManager SimpleDisk Nat :=
  (run reclaimDisk 0 (BufferPoolManager.new 3 ⟨0, []⟩ 0 false)
    [Op.newPage, Op.newPage, Op.newPage, Op.unpin 0 true, Op.newPage, Op.unpin 1 false,
      Op.fetch 0, Op.unpin 0 false]).getD
    (BufferPoolManager.new 3 ⟨0, []⟩ 0 false)

/-- The invariant between `get_free_page` handing out frame `frame_id` and
the caller giving it a page: the frame is off the free list, pinned in the
replacer, and the pool would be consistent with the frame put back. -/
def InvHolding (s : BufferPoolManager D B) (frame_id : Nat) : Prop :=
  frame_id ∉ s.free_list ∧ s.replacer.pinFlag frame_id = some true ∧
    Inv { s with free_list := s.free_list ++ [frame_id] }

end BufferPoolManager

/-! ## Hash table block page (`hash_table_block_page.cpp`) -/

/-- Modelled from the spec: the members of `HashTableBlockPage` are declared in
the absent `hash_table_block_page.h`; the spec gives a block page three
parallel arrays, the `occupied` and `readable` bitmaps (one bit per slot, bit
`i` of byte `b` for slot `8*b + i`) and the slots `(key, value)`.  A byte is a
number below 256. -/
structure HashTableBlockPage (K V : Type) where
  occupied : List Nat
  readable : List Nat
  array : List (K × V)
deriving DecidableEq, Repr

namespace HashTableBlockPage

variable {K V : Type}

/-- `HashTableBlockPage::Clear`. -/
def Clear (bp : HashTableBlockPage K V) : HashTableBlockPage K V :=
  { bp with occupied := bp.occupied.map (fun _ => 0), readable := bp.readable.map (fun _ => 0) }

/-- `HashTableBlockPage::check_byte_bit`: `std::bitset<8>(a_byte).test(bit_offset)`. -/
def check_byte_bit (a_byte : Nat) (bit_offset : Nat) : Bool := a_byte.testBit bit_offset

/-- `HashTableBlockPage::KeyAt`; `none` outside the array. -/
def KeyAt (bp : HashTableBlockPage K V) (bucket_ind : Nat) : Option K :=
  (bp.array[bucket_ind]?).map (fun kv => kv.1)

/-- `HashTableBlockPage::ValueAt`; `none` outside the array. -/
def ValueAt (bp : HashTableBlockPage K V) (bucket_ind : Nat) : Option V :=
  (bp.array[bucket_ind]?).map (fun kv => kv.2)

/-- `HashTableBlockPage::IsOccupied`; `none` outside the bitmap. -/
def IsOccupied (bp : HashTableBlockPage K V) (bucket_ind : Nat) : Option Bool :=
  let byte_offset := bucket_ind / 8
  let bit_offset := bucket_ind % 8
  (bp.occupied[byte_offset]?).map (fun b => check_byte_bit b bit_offset)

/-- `HashTableBlockPage::IsReadable`; `none` outside the bitmaps. -/
def IsReadable (bp : HashTableBlockPage K V) (bucket_ind : Nat) : Option Bool :=
  match bp.IsOccupied bucket_ind with
  | none => none
  | some false => some false
  | some true =>
    let byte_offset := bucket_ind / 8
    let bit_offset := bucket_ind % 8
    (bp.readable[byte_offset]?).map (fun b => check_byte_bit b bit_offset)

/-- `HashTableBlockPage::Insert`: both `fetch_or` calls are made, then the slot
is written unless its readable bit was already set.  The result is the
returned flag and the page afterwards; `none` outside the arrays. -/
def Insert (bp : HashTableBlockPage K V) (bucket_ind : Nat) (key : K) (value : V) :
    Option (Bool × HashTableBlockPage K V) :=
  let byte_offset := bucket_ind / 8
  let bit_offset := bucket_ind % 8
  match bp.occupied[byte_offset]?, bp.readable[byte_offset]? with
  | some occ, some rd =>
    let bp1 : HashTableBlockPage K V :=
      { bp with
        occupied := bp.occupied.set byte_offset (occ ||| (1 <<< bit_offset))
        readable := bp.readable.set byte_offset (rd ||| (1 <<< bit_offset)) }
    if check_byte_bit rd bit_offset then some (false, bp1)
    else if bucket_ind < bp.array.length then
      some (true, { bp1 with array := bp1.array.set bucket_ind (key, value) })
    else none
  | _, _ => none

/-- `HashTableBlockPage::Remove`: `fetch_and` with `~(1 << bit_offset)` on the
readable byte if the slot is occupied. -/
def Remove (bp : HashTableBlockPage K V) (bucket_ind : Nat) : Option (HashTableBlockPage K V) :=
  match bp.IsOccupied bucket_ind with
  | none => none
  | some false => some bp
  | some true =>
    let byte_offset := bucket_ind / 8
    let bit_offset := bucket_ind % 8
    match bp.readable[byte_offset]? with
    | none => none
    | some rd =>
      some { bp with
             readable := bp.readable.set byte_offset (rd &&& (255 ^^^ (1 <<< bit_offset))) }

/-- The occupied bit of a slot, read directly (`false` outside the bitmap). -/
def occBit (bp : HashTableBlockPage K V) (i : Nat) : Bool :=
  (bp.occupied.getD (i / 8) 0).testBit (i % 8)

/-- The readable bit of a slot, read directly (`false` outside the bitmap). -/
def rdBit (bp : HashTableBlockPage K V) (i : Nat) : Bool :=
  (bp.readable.getD (i / 8) 0).testBit (i % 8)

/-- A block page of `n` slots as `Clear`, `Insert` and `Remove` leave it: the
arrays have their declared lengths and a set readable bit comes with a set
occupied bit. -/
structure WF (n : Nat) (bp : HashTableBlockPage K V) : Prop where
  occupied_len : bp.occupied.length = (n - 1) / 8 + 1
  readable_len : bp.readable.length = (n - 1) / 8 + 1
  array_len : bp.array.length = n
  readable_occupied : ∀ i, i < n → bp.rdBit i = true → bp.occBit i = true

/-- The states a block page of `n` slots can be in: a page of `n` slots after
`Clear`, then changed by `Insert` and `Remove` calls on slots below `n`. -/
inductive Reachable (n : Nat) : HashTableBlockPage K V → Prop where
  | clear (bp : HashTableBlockPage K V) :
      bp.occupied.length = (n - 1) / 8 + 1 → bp.readable.length = (n - 1) / 8 + 1 →
      bp.array.length = n → Reachable n bp.Clear
  | insert (i : Nat) (key : K) (value : V) {b : Bool} {bp bp' : HashTableBlockPage K V} :
      Reachable n bp → i < n → bp.Insert i key value = some (b, bp') → Reachable n bp'
  | remove (i : Nat) {bp bp' : HashTableBlockPage K V} :
      Reachable n bp → i < n → bp.Remove i = some bp' → Reachable n bp'

/-- Bit `t` of byte `b` of the occupied bitmap (`false` outside the bitmap). -/
def occupiedBit (bp : HashTableBlockPage K V) (b t : Nat) : Bool :=
  (bp.occupied.getD b 0).testBit t

/-- Bit `t` of byte `b` of the readable bitmap (`false` outside the bitmap). -/
def readableBit (bp : HashTableBlockPage K V) (b t : Nat) : Bool :=
  (bp.readable.getD b 0).testBit t

end HashTableBlockPage

/-! ## Hash table header page -/

/-- Modelled from the spec: `HashTableHeaderPage` lives in the absent
`hash_table_header_page.{h,cpp}`; the spec gives it a page id, a logical size
and the ordered sequence of block page ids. -/
structure HashTableHeaderPage where
  page_id : Int
  size : Nat
  block_page_ids : List Int
deriving DecidableEq, Repr

namespace HashTableHeaderPage

/-- Modelled from the spec: `GetBlockPageId(index)`; `none` outside the list. -/
def GetBlockPageId (hp : HashTableHeaderPage) (index : Nat) : Option Int :=
  hp.block_page_ids[index]?

/-- Modelled from the spec: `NumBlocks()`. -/
def NumBlocks (hp : HashTableHeaderPage) : Nat := hp.block_page_ids.length

/-- Modelled from the spec: `AddBlockPageId(page_id)`. -/
def AddBlockPageId (hp : HashTableHeaderPage) (page_id : Int) : HashTableHeaderPage :=
  { hp with block_page_ids := hp.block_page_ids ++ [page_id] }

/-- Modelled from the spec: `SetPageId(page_id)`. -/
def SetPageId (hp : HashTableHeaderPage) (page_id : Int) : HashTableHeaderPage :=
  { hp with page_id := page_id }

/-- Modelled from the spec: `SetSize(size)`. -/
def SetSize (hp : HashTableHeaderPage) (size : Nat) : HashTableHeaderPage :=
  { hp with size := size }

/-- Modelled from the spec: `GetSize()`. -/
def GetSize (hp : HashTableHeaderPage) : Nat := hp.size

end HashTableHeaderPage

/-! ## Linear probe hash table (`linear_probe_hash_table.cpp`) -/

/-- The bytes of a page as the index reads them: all zero (`ResetMemory`), a
header page or a block page. -/
inductive PageData (K V : Type) where
  | zero
  | header (hp : HashTableHeaderPage)
  | block (bp : HashTableBlockPage K V)
deriving DecidableEq, Repr

/-- The template parameters and constants of a hash table.
`BLOCK_ARRAY_SIZE` is a macro of the absent `hash_table_page_defs.h`.
`comparator a b = 0` means that the keys compare equal.  `zeroKey` and
`zeroValue` are the key and value whose bytes are all zero.  `headerAsBlock`
is what the bytes of a header page are when read through the block page
layout (`Resize` does so); it depends on the memory layout and is left
open. -/
structure HashTableConfig (K V : Type) where
  BLOCK_ARRAY_SIZE : Nat
  comparator : K → K → Int
  hash_fn : K → Nat
  zeroKey : K
  zeroValue : V
  headerAsBlock : HashTableHeaderPage → HashTableBlockPage K V

/-- The members of `LinearProbeHashTable` that change: the pool behind
`buffer_pool_manager_` and `header_page_id_`. -/
structure LinearProbeHashTable (D K V : Type) where
  buffer_pool_manager : BufferPoolManager D (PageData K V)
  header_page_id : Int
deriving DecidableEq, Repr

namespace LinearProbeHashTable

variable {D K V : Type}

/-- A block page whose bytes are all zero. -/
def zeroBlock (cfg : HashTableConfig K V) : HashTableBlockPage K V :=
  { occupied := List.replicate ((cfg.BLOCK_ARRAY_SIZE - 1) / 8 + 1) 0
    readable := List.replicate ((cfg.BLOCK_ARRAY_SIZE - 1) / 8 + 1) 0
    array := List.replicate cfg.BLOCK_ARRAY_SIZE (cfg.zeroKey, cfg.zeroValue) }

/-- `reinterpret_cast<HashTableHeaderPage *>(data)`.  Zero bytes are a header
with no blocks; reading a block page as a header is not modelled. -/
def asHeader : PageData K V → Option HashTableHeaderPage
  | PageData.zero => some { page_id := 0, size := 0, block_page_ids := [] }
  | PageData.header hp => some hp
  | PageData.block _ => none

/-- `reinterpret_cast<HASH_TABLE_BLOCK_TYPE *>(data)`. -/
def asBlock (cfg : HashTableConfig K V) : PageData K V → Option (HashTableBlockPage K V)
  | PageData.zero => some (zeroBlock cfg)
  | PageData.header hp => some (cfg.headerAsBlock hp)
  | PageData.block bp => some bp

/-- `buffer_pool_manager_->FetchPage(page_id)->GetData()`: the frame, its
bytes and the pool afterwards; `none` if the page is null. -/
def fetchData (dm : DiskManager D (PageData K V)) (s : BufferPoolManager D (PageData K V))
    (page_id : Int) : Option (Nat × PageData K V × BufferPoolManager D (PageData K V)) :=
  match BufferPoolManager.FetchPageImpl dm PageData.zero s page_id with
  | some (some frame_id, s1) =>
    match s1.pages[frame_id]? with
    | some pg => some (frame_id, pg.data, s1)
    | none => none
  | _ => none

/-- The lines the three bucket helpers start with: fetch the header page, look
up the block page id of `prob / BLOCK_ARRAY_SIZE`, fetch the block page.  The
result is the block page id, the frame of the block page, the block page and
the pool. -/
def openBucket (cfg : HashTableConfig K V) (dm : DiskManager D (PageData K V))
    (ht : LinearProbeHashTable D K V) (prob : Nat) :
    Option (Int × Nat × HashTableBlockPage K V × BufferPoolManager D (PageData K V)) :=
  match fetchData dm ht.buffer_pool_manager ht.header_page_id with
  | none => none
  | some (_, hd, s1) =>
    match asHeader hd with
    | none => none
    | some hp =>
      match hp.GetBlockPageId (prob / cfg.BLOCK_ARRAY_SIZE) with
      | none => none
      | some block_page_id =>
        match fetchData dm s1 block_page_id with
        | none => none
        | some (fb, bd, s2) =>
          match asBlock cfg bd with
          | none => none
          | some bp => some (block_page_id, fb, bp, s2)

/-- The lines the three bucket helpers end with:
`UnpinPage(header_page_id_, false); UnpinPage(block_page_id, is_dirty)`. -/
def closeBucket (ht : LinearProbeHashTable D K V) (s : BufferPoolManager D (PageData K V))
    (block_page_id : Int) (is_dirty : Bool) : Option (LinearProbeHashTable D K V) :=
  match BufferPoolManager.UnpinPageImpl s ht.header_page_id false with
  | none => none
  | some (_, s1) =>
    match BufferPoolManager.UnpinPageImpl s1 block_page_id is_dirty with
    | none => none
    | some (_, s2) => some { ht with buffer_pool_manager := s2 }

/-- `readable && comparator_(key, KeyAt(slot)) == 0`, the key being read only
if the slot is readable. -/
def keyMatches (cfg : HashTableConfig K V) (bp : HashTableBlockPage K V) (slot_index : Nat)
    (key : K) : Option Bool :=
  match bp.IsReadable slot_index with
  | none => none
  | some false => some false
  | some true =>
    match bp.KeyAt slot_index with
    | none => none
    | some k => some (cfg.comparator key k == 0)

/-- `readable && comparator_(key, KeyAt(slot)) == 0 && ValueAt(slot) == value`. -/
def pairMatches [DecidableEq V] (cfg : HashTableConfig K V) (bp : HashTableBlockPage K V)
    (slot_index : Nat) (key : K) (value : V) : Option Bool :=
  match keyMatches cfg bp slot_index key with
  | none => none
  | some false => some false
  | some true =>
    match bp.ValueAt slot_index with
    | none => none
    | some v => some (decide (v = value))

/-- `LinearProbeHashTable::get_bucket_id_value`. -/
def get_bucket_id_value (cfg : HashTableConfig K V) (dm : DiskManager D (PageData K V))
    (ht : LinearProbeHashTable D K V) (prob : Nat) (key : K) (result : List V) :
    Option (Bool × List V × LinearProbeHashTable D K V) :=
  match openBucket cfg dm ht prob with
  | none => none
  | some (block_page_id, _, bp, s2) =>
    let slot_index := prob % cfg.BLOCK_ARRAY_SIZE
    match bp.IsOccupied slot_index with
    | none => none
    | some false =>
      match closeBucket ht s2 block_page_id false with
      | none => none
      | some ht' => some (false, result, ht')
    | some true =>
      match keyMatches cfg bp slot_index key with
      | none => none
      | some m =>
        match (if m then (bp.ValueAt slot_index).map (fun v => result ++ [v])
               else some result) with
        | none => none
        | some result' =>
          match closeBucket ht s2 block_page_id false with
          | none => none
          | some ht' => some (true, result', ht')

/-- `LinearProbeHashTable::insert_bucket_id_kv`: `0` the pair is there, `1`
inserted, `-1` the slot is taken. -/
def insert_bucket_id_kv [DecidableEq V] (cfg : HashTableConfig K V)
    (dm : DiskManager D (PageData K V)) (ht : LinearProbeHashTable D K V) (prob : Nat)
    (key : K) (value : V) : Option (Int × LinearProbeHashTable D K V) :=
  match openBucket cfg dm ht prob with
  | none => none
  | some (block_page_id, fb, bp, s2) =>
    let slot_index := prob % cfg.BLOCK_ARRAY_SIZE
    match pairMatches cfg bp slot_index key value with
    | none => none
    | some true =>
      match closeBucket ht s2 block_page_id false with
      | none => none
      | some ht' => some (0, ht')
    | some false =>
      match bp.Insert slot_index key value with
      | none => none
      | some (true, bp') =>
        match closeBucket ht (BufferPoolManager.writeData s2 fb (PageData.block bp'))
            block_page_id true with
        | none => none
        | some ht' => some (1, ht')
      | some (false, bp') =>
        match closeBucket ht (BufferPoolManager.writeData s2 fb (PageData.block bp'))
            block_page_id false with
        | none => none
        | some ht' => some (-1, ht')

/-- `LinearProbeHashTable::remove_bucket_id_kv`: `-1` the slot is not occupied,
`1` removed, `0` not this pair. -/
def remove_bucket_id_kv [DecidableEq V] (cfg : HashTableConfig K V)
    (dm : DiskManager D (PageData K V)) (ht : LinearProbeHashTable D K V) (prob : Nat)
    (key : K) (value : V) : Option (Int × LinearProbeHashTable D K V) :=
  match openBucket cfg dm ht prob with
  | none => none
  | some (block_page_id, fb, bp, s2) =>
    let slot_index := prob % cfg.BLOCK_ARRAY_SIZE
    match bp.IsOccupied slot_index with
    | none => none
    | some false =>
      match closeBucket ht s2 block_page_id false with
      | none => none
      | some ht' => some (-1, ht')
    | some true =>
      match pairMatches cfg bp slot_index key value with
      | none => none
      | some true =>
        match bp.Remove slot_index with
        | none => none
        | some bp' =>
          match closeBucket ht (BufferPoolManager.writeData s2 fb (PageData.block bp'))
              block_page_id true with
          | none => none
          | some ht' => some (1, ht')
      | some false =>
        match closeBucket ht s2 block_page_id false with
        | none => none
        | some ht' => some (0, ht')

/-- `LinearProbeHashTable::GetSize`. -/
def GetSize (cfg : HashTableConfig K V) (dm : DiskManager D (PageData K V))
    (ht : LinearProbeHashTable D K V) : Option (Nat × LinearProbeHashTable D K V) :=
  match fetchData dm ht.buffer_pool_manager ht.header_page_id with
  | none => none
  | some (_, hd, s1) =>
    match asHeader hd with
    | none => none
    | some hp =>
      let size := hp.NumBlocks * cfg.BLOCK_ARRAY_SIZE
      match BufferPoolManager.UnpinPageImpl s1 ht.header_page_id false with
      | none => none
      | some (_, s2) => some (size, { ht with buffer_pool_manager := s2 })

/-- `x % GetSize()`; the division by zero of an empty table does not return. -/
def modSize (cfg : HashTableConfig K V) (dm : DiskManager D (PageData K V))
    (ht : LinearProbeHashTable D K V) (x : Nat) :
    Option (Nat × LinearProbeHashTable D K V) :=
  match GetSize cfg dm ht with
  | none => none
  | some (size, ht') => if size = 0 then none else some (x % size, ht')

/-- The `do ... while (prob != bucket_id)` loop of `GetValue`, for at most
`fuel` iterations. -/
def getValueLoop (cfg : HashTableConfig K V) (dm : DiskManager D (PageData K V))
    (bucket_id : Nat) (key : K) :
    Nat → LinearProbeHashTable D K V → Nat → List V →
      Option (List V × LinearProbeHashTable D K V)
  | 0, _, _, _ => none
  | fuel + 1, ht, prob, result =>
    match get_bucket_id_value cfg dm ht prob key result with
    | none => none
    | some (false, result', ht1) => some (result', ht1)
    | some (true, result', ht1) =>
      match modSize cfg dm ht1 (prob + 1) with
      | none => none
      | some (prob', ht2) =>
        if prob' ≠ bucket_id then getValueLoop cfg dm bucket_id key fuel ht2 prob' result'
        else some (result', ht2)

/-- `LinearProbeHashTable::GetValue`: the flag returned and `*result`
afterwards.  The loop visits every slot at most once, so it is given as many
iterations as the table has slots. -/
def GetValue (cfg : HashTableConfig K V) (dm : DiskManager D (PageData K V))
    (ht : LinearProbeHashTable D K V) (key : K) (result : List V) :
    Option (Bool × List V × LinearProbeHashTable D K V) :=
  match GetSize cfg dm ht with
  | none => none
  | some (size, ht0) =>
    if size = 0 then none
    else
      let bucket_id := cfg.hash_fn key % size
      match getValueLoop cfg dm bucket_id key size ht0 bucket_id result with
      | none => none
      | some (result', ht1) => some (!result'.isEmpty, result', ht1)

/-- The `do ... while (prob != bucket_id)` loop of `Insert`: the final
`status`. -/
def insertLoop [DecidableEq V] (cfg : HashTableConfig K V) (dm : DiskManager D (PageData K V))
    (bucket_id : Nat) (key : K) (value : V) :
    Nat → LinearProbeHashTable D K V → Nat → Option (Int × LinearProbeHashTable D K V)
  | 0, _, _ => none
  | fuel + 1, ht, prob =>
    match insert_bucket_id_kv cfg dm ht prob key value with
    | none => none
    | some (status, ht1) =>
      if status ≠ -1 then some (status, ht1)
      else
        match modSize cfg dm ht1 (prob + 1) with
        | none => none
        | some (prob', ht2) =>
          if prob' ≠ bucket_id then insertLoop cfg dm bucket_id key value fuel ht2 prob'
          else some (status, ht2)

/-- The `do ... while (prob != bucket_id)` loop of `Remove`: the final
`status`. -/
def removeLoop [DecidableEq V] (cfg : HashTableConfig K V) (dm : DiskManager D (PageData K V))
    (bucket_id : Nat) (key : K) (value : V) :
    Nat → LinearProbeHashTable D K V → Nat → Option (Int × LinearProbeHashTable D K V)
  | 0, _, _ => none
  | fuel + 1, ht, prob =>
    match remove_bucket_id_kv cfg dm ht prob key value with
    | none => none
    | some (status, ht1) =>
      if status ≠ 0 then some (status, ht1)
      else
        match modSize cfg dm ht1 (prob + 1) with
        | none => none
        | some (prob', ht2) =>
          if prob' ≠ bucket_id then removeLoop cfg dm bucket_id key value fuel ht2 prob'
          else some (status, ht2)

/-- `LinearProbeHashTable::Remove`. -/
def Remove [DecidableEq V] (cfg : HashTableConfig K V) (dm : DiskManager D (PageData K V))
    (ht : LinearProbeHashTable D K V) (key : K) (value : V) :
    Option (Bool × LinearProbeHashTable D K V) :=
  match GetSize cfg dm ht with
  | none => none
  | some (size, ht0) =>
    if size = 0 then none
    else
      let bucket_id := cfg.hash_fn key % size
      match removeLoop cfg dm bucket_id key value size ht0 bucket_id with
      | none => none
      | some (status, ht1) => some (decide (status = 1), ht1)

/-- The loop `while (new_hp->NumBlocks() * BLOCK_ARRAY_SIZE < new_hp->GetSize())`
of `Resize`, for at most `fuel` iterations; `fh` is the frame `new_hp` points
into. -/
def addBlocks (cfg : HashTableConfig K V) (dm : DiskManager D (PageData K V)) (fh : Nat) :
    Nat → BufferPoolManager D (PageData K V) → Option (BufferPoolManager D (PageData K V))
  | 0, _ => none
  | fuel + 1, s =>
    match s.pages[fh]? with
    | none => none
    | some pg =>
      match asHeader pg.data with
      | none => none
      | some new_hp =>
        if new_hp.NumBlocks * cfg.BLOCK_ARRAY_SIZE < new_hp.GetSize then
          match BufferPoolManager.NewPageImpl dm PageData.zero s with
          | some (some (new_block_page_id, fb), s1) =>
            match s1.pages[fb]? with
            | none => none
            | some pgb =>
              match asBlock cfg pgb.data with
              | none => none
              | some new_bp =>
                let s2 := BufferPoolManager.writeData s1 fb (PageData.block new_bp.Clear)
                let s3 := BufferPoolManager.writeData s2 fh
                  (PageData.header (new_hp.AddBlockPageId new_block_page_id))
                match BufferPoolManager.UnpinPageImpl s3 new_block_page_id true with
                | none => none
                | some (_, s4) => addBlocks cfg dm fh fuel s4
          | _ => none
        else some s

/-- The loop `do { status = insert_bucket_id_kv(prob, key, value);
prob = (prob + 1) % GetSize(); } while (status == -1)` of `Resize`, for at
most `fuel` iterations. -/
def rehashLoop [DecidableEq V] (cfg : HashTableConfig K V) (dm : DiskManager D (PageData K V))
    (key : K) (value : V) :
    Nat → LinearProbeHashTable D K V → Nat → Option (LinearProbeHashTable D K V)
  | 0, _, _ => none
  | fuel + 1, ht, prob =>
    match insert_bucket_id_kv cfg dm ht prob key value with
    | none => none
    | some (status, ht1) =>
      match modSize cfg dm ht1 (prob + 1) with
      | none => none
      | some (prob', ht2) =>
        if status = -1 then rehashLoop cfg dm key value fuel ht2 prob' else some ht2

/-- The loop over `j < BLOCK_ARRAY_SIZE` of `Resize`, over the slot indices
given: every readable slot of `old_bp` is inserted into the new table. -/
def rehashSlots [DecidableEq V] (cfg : HashTableConfig K V) (dm : DiskManager D (PageData K V))
    (fuel : Nat) (old_bp : HashTableBlockPage K V) :
    List Nat → LinearProbeHashTable D K V → Option (LinearProbeHashTable D K V)
  | [], ht => some ht
  | j :: js, ht =>
    match old_bp.IsReadable j with
    | none => none
    | some false => rehashSlots cfg dm fuel old_bp js ht
    | some true =>
      match old_bp.array[j]? with
      | none => none
      | some (key, value) =>
        match modSize cfg dm ht (cfg.hash_fn key) with
        | none => none
        | some (bucket_id, ht1) =>
          match rehashLoop cfg dm key value fuel ht1 bucket_id with
          | none => none
          | some ht2 => rehashSlots cfg dm fuel old_bp js ht2

/-- The loop over the old block pages of `Resize`.  For each one the source
fetches `old_hp_id` (not `old_bp_id`) and reads the returned `Page` through
the block page layout, rehashes its readable slots, then unpins and deletes
`old_bp_id`.  The old header stays pinned and unwritten during the loop, so
its list of block page ids is read once. -/
def rehashBlocks [DecidableEq V] (cfg : HashTableConfig K V) (dm : DiskManager D (PageData K V))
    (fuel : Nat) (old_hp_id : Int) :
    List Int → LinearProbeHashTable D K V → Option (LinearProbeHashTable D K V)
  | [], ht => some ht
  | old_bp_id :: rest, ht =>
    match fetchData dm ht.buffer_pool_manager old_hp_id with
    | none => none
    | some (_, od, s1) =>
      match asBlock cfg od with
      | none => none
      | some old_bp =>
        match rehashSlots cfg dm fuel old_bp (List.range cfg.BLOCK_ARRAY_SIZE)
            { ht with buffer_pool_manager := s1 } with
        | none => none
        | some ht1 =>
          match BufferPoolManager.UnpinPageImpl ht1.buffer_pool_manager old_bp_id false with
          | none => none
          | some (_, s2) =>
            match BufferPoolManager.DeletePageImpl dm s2 old_bp_id with
            | none => none
            | some (_, s3) =>
              rehashBlocks cfg dm fuel old_hp_id rest { ht1 with buffer_pool_manager := s3 }

/-- `LinearProbeHashTable::Resize`.  `fuel` bounds each rehash loop. -/
def Resize [DecidableEq V] (cfg : HashTableConfig K V) (dm : DiskManager D (PageData K V))
    (fuel : Nat) (ht : LinearProbeHashTable D K V) (initial_size : Nat) :
    Option (LinearProbeHashTable D K V) :=
  match BufferPoolManager.NewPageImpl dm PageData.zero ht.buffer_pool_manager with
  | some (some (new_hp_id, fh), s1) =>
    match s1.pages[fh]? with
    | none => none
    | some pg =>
      match asHeader pg.data with
      | none => none
      | some new_hp =>
        let s2 := BufferPoolManager.writeData s1 fh
          (PageData.header ((new_hp.SetPageId new_hp_id).SetSize (2 * initial_size)))
        match addBlocks cfg dm fh (2 * initial_size + 1) s2 with
        | none => none
        | some s3 =>
          match BufferPoolManager.UnpinPageImpl s3 new_hp_id true with
          | none => none
          | some (_, s4) =>
            let old_hp_id := ht.header_page_id
            match fetchData dm s4 old_hp_id with
            | none => none
            | some (_, ohd, s5) =>
              match asHeader ohd with
              | none => none
              | some old_hp =>
                match rehashBlocks cfg dm fuel old_hp_id old_hp.block_page_ids
                    { buffer_pool_manager := s5, header_page_id := new_hp_id } with
                | none => none
                | some ht1 =>
                  match BufferPoolManager.UnpinPageImpl ht1.buffer_pool_manager
                      old_hp_id false with
                  | none => none
                  | some (_, s6) =>
                    match BufferPoolManager.DeletePageImpl dm s6 old_hp_id with
                    | none => none
                    | some (_, s7) => some { ht1 with buffer_pool_manager := s7 }
  | _ => none

/-- `LinearProbeHashTable::Insert`.  `fuel` bounds the number of passes
through the label `start` (and each rehash loop of `Resize`). -/
def Insert [DecidableEq V] (cfg : HashTableConfig K V) (dm : DiskManager D (PageData K V)) :
    Nat → LinearProbeHashTable D K V → K → V → Option (Bool × LinearProbeHashTable D K V)
  | 0, _, _, _ => none
  | fuel + 1, ht, key, value =>
    match GetSize cfg dm ht with
    | none => none
    | some (size, ht0) =>
      if size = 0 then none
      else
        let bucket_id := cfg.hash_fn key % size
        match insertLoop cfg dm bucket_id key value size ht0 bucket_id with
        | none => none
        | some (status, ht1) =>
          if status = -1 then
            match GetSize cfg dm ht1 with
            | none => none
            | some (size1, ht2) =>
              match Resize cfg dm fuel ht2 size1 with
              | none => none
              | some ht3 => Insert cfg dm fuel ht3 key value
          else some (decide (status = 1), ht1)

/-- `LinearProbeHashTable::LinearProbeHashTable`: the table built on the pool
`s` for `num_buckets`. -/
def new [DecidableEq V] (cfg : HashTableConfig K V) (dm : DiskManager D (PageData K V))
    (fuel : Nat) (s : BufferPoolManager D (PageData K V)) (num_buckets : Nat) :
    Option (LinearProbeHashTable D K V) :=
  match BufferPoolManager.NewPageImpl dm PageData.zero s with
  | some (some (header_page_id, fh), s1) =>
    let s2 := BufferPoolManager.writeData s1 fh
      (PageData.header { page_id := header_page_id, size := 0, block_page_ids := [] })
    match BufferPoolManager.UnpinPageImpl s2 header_page_id true with
    | none => none
    | some (_, s3) =>
      Resize cfg dm fuel { buffer_pool_manager := s3, header_page_id := header_page_id }
        (num_buckets / 2 + 1)
  | _ => none

/-! ### The table as the block pages in header order

What the helpers and loops compute from the contents of the block pages,
without the pool. -/

/-- The occupied bit of global slot `p`. -/
def gOcc (cfg : HashTableConfig K V) (blocks : List (HashTableBlockPage K V)) (p : Nat) : Bool :=
  match blocks[p / cfg.BLOCK_ARRAY_SIZE]? with
  | some bp => bp.occBit (p % cfg.BLOCK_ARRAY_SIZE)
  | none => false

/-- The readable bit of global slot `p`. -/
def gRd (cfg : HashTableConfig K V) (blocks : List (HashTableBlockPage K V)) (p : Nat) : Bool :=
  match blocks[p / cfg.BLOCK_ARRAY_SIZE]? with
  | some bp => bp.rdBit (p % cfg.BLOCK_ARRAY_SIZE)
  | none => false

/-- The pair stored in global slot `p`. -/
def gKV (cfg : HashTableConfig K V) (blocks : List (HashTableBlockPage K V)) (p : Nat) :
    Option (K × V) :=
  match blocks[p / cfg.BLOCK_ARRAY_SIZE]? with
  | some bp => bp.array[p % cfg.BLOCK_ARRAY_SIZE]?
  | none => none

/-- Global slot `p` is readable and holds a pair that `insert_bucket_id_kv`
and `remove_bucket_id_kv` take for `(key, value)`. -/
def holdsPair (cfg : HashTableConfig K V) (blocks : List (HashTableBlockPage K V)) (p : Nat)
    (key : K) (value : V) : Prop :=
  gRd cfg blocks p = true ∧
    ∃ k v, gKV cfg blocks p = some (k, v) ∧ cfg.comparator key k = 0 ∧ v = value

/-- What `get_bucket_id_value` computes from the block pages. -/
def pureGetBucket (cfg : HashTableConfig K V) (blocks : List (HashTableBlockPage K V))
    (prob : Nat) (key : K) (result : List V) : Option (Bool × List V) :=
  match blocks[prob / cfg.BLOCK_ARRAY_SIZE]? with
  | none => none
  | some bp =>
    let slot_index := prob % cfg.BLOCK_ARRAY_SIZE
    match bp.IsOccupied slot_index with
    | none => none
    | some false => some (false, result)
    | some true =>
      match keyMatches cfg bp slot_index key with
      | none => none
      | some m =>
        match (if m then (bp.ValueAt slot_index).map (fun v => result ++ [v])
               else some result) with
        | none => none
        | some result' => some (true, result')

/-- What `insert_bucket_id_kv` computes from the block pages: the status and
the block pages afterwards. -/
def pureInsertBucket [DecidableEq V] (cfg : HashTableConfig K V)
    (blocks : List (HashTableBlockPage K V)) (prob : Nat) (key : K) (value : V) :
    Option (Int × List (HashTableBlockPage K V)) :=
  match blocks[prob / cfg.BLOCK_ARRAY_SIZE]? with
  | none => none
  | some bp =>
    let slot_index := prob % cfg.BLOCK_ARRAY_SIZE
    match pairMatches cfg bp slot_index key value with
    | none => none
    | some true => some (0, blocks)
    | some false =>
      match bp.Insert slot_index key value with
      | none => none
      | some (true, bp') => some (1, blocks.set (prob / cfg.BLOCK_ARRAY_SIZE) bp')
      | some (false, bp') => some (-1, blocks.set (prob / cfg.BLOCK_ARRAY_SIZE) bp')

/-- What the loop of `GetValue` computes from the block pages. -/
def pureGetLoop (cfg : HashTableConfig K V) (blocks : List (HashTableBlockPage K V))
    (bucket_id : Nat) (key : K) : Nat → Nat → List V → Option (List V)
  | 0, _, _ => none
  | fuel + 1, prob, result =>
    match pureGetBucket cfg blocks prob key result with
    | none => none
    | some (false, result') => some result'
    | some (true, result') =>
      let prob' := (prob + 1) % (blocks.length * cfg.BLOCK_ARRAY_SIZE)
      if prob' ≠ bucket_id then pureGetLoop cfg blocks bucket_id key fuel prob' result'
      else some result'

/-- What the loop of `Insert` computes from the block pages. -/
def pureInsertLoop [DecidableEq V] (cfg : HashTableConfig K V) (bucket_id : Nat) (key : K)
    (value : V) :
    Nat → List (HashTableBlockPage K V) → Nat → Option (Int × List (HashTableBlockPage K V))
  | 0, _, _ => none
  | fuel + 1, blocks, prob =>
    match pureInsertBucket cfg blocks prob key value with
    | none => none
    | some (status, blocks1) =>
      if status ≠ -1 then some (status, blocks1)
      else
        let prob' := (prob + 1) % (blocks1.length * cfg.BLOCK_ARRAY_SIZE)
        if prob' ≠ bucket_id then pureInsertLoop cfg bucket_id key value fuel blocks1 prob'
        else some (status, blocks1)

/-- What `remove_bucket_id_kv` computes from the block pages: the status and
the block pages afterwards. -/
def pureRemoveBucket [DecidableEq V] (cfg : HashTableConfig K V)
    (blocks : List (HashTableBlockPage K V)) (prob : Nat) (key : K) (value : V) :
    Option (Int × List (HashTableBlockPage K V)) :=
  match blocks[prob / cfg.BLOCK_ARRAY_SIZE]? with
  | none => none
  | some bp =>
    let slot_index := prob % cfg.BLOCK_ARRAY_SIZE
    match bp.IsOccupied slot_index with
    | none => none
    | some false => some (-1, blocks)
    | some true =>
      match pairMatches cfg bp slot_index key value with
      | none => none
      | some true =>
        match bp.Remove slot_index with
        | none => none
        | some bp' => some (1, blocks.set (prob / cfg.BLOCK_ARRAY_SIZE) bp')
      | some false => some (0, blocks)

/-- What the loop of `Remove` computes from the block pages. -/
def pureRemoveLoop [DecidableEq V] (cfg : HashTableConfig K V) (bucket_id : Nat) (key : K)
    (value : V) :
    Nat → List (HashTableBlockPage K V) → Nat → Option (Int × List (HashTableBlockPage K V))
  | 0, _, _ => none
  | fuel + 1, blocks, prob =>
    match pureRemoveBucket cfg blocks prob key value with
    | none => none
    | some (status, blocks1) =>
      if status ≠ 0 then some (status, blocks1)
      else
        let prob' := (prob + 1) % (blocks1.length * cfg.BLOCK_ARRAY_SIZE)
        if prob' ≠ bucket_id then pureRemoveLoop cfg bucket_id key value fuel blocks1 prob'
        else some (status, blocks1)

/-- The slots a lookup with home slot `b` visits, in probe order: from `b` on,
cyclically, up to (not including) the first slot that is not occupied, and at
most once around the table. -/
def visitedSlots (cfg : HashTableConfig K V) (blocks : List (HashTableBlockPage K V))
    (b : Nat) : List Nat :=
  ((List.range (blocks.length * cfg.BLOCK_ARRAY_SIZE)).map
    (fun i => (b + i) % (blocks.length * cfg.BLOCK_ARRAY_SIZE))).takeWhile
    (fun p => gOcc cfg blocks p)

/-- Slot `p` is readable and its key compares equal to `key`. -/
def slotMatches (cfg : HashTableConfig K V) (blocks : List (HashTableBlockPage K V))
    (key : K) (p : Nat) : Bool :=
  gRd cfg blocks p &&
    match gKV cfg blocks p with
    | some (k, _) => cfg.comparator key k == 0
    | none => false

/-- The values of the given slots. -/
def slotValues (cfg : HashTableConfig K V) (blocks : List (HashTableBlockPage K V))
    (ps : List Nat) : List V :=
  ps.filterMap (fun p => (gKV cfg blocks p).map Prod.snd)

/-- The values of the readable slots whose key compares equal to `key` among
the slots visited from home slot `b`, in probe order. -/
def matchingValues (cfg : HashTableConfig K V) (blocks : List (HashTableBlockPage K V))
    (key : K) (b : Nat) : List V :=
  slotValues cfg blocks ((visitedSlots cfg blocks b).filter (slotMatches cfg blocks key))

/-- The header page of the table, as the pool delivers it. -/
def headerOf (dm : DiskManager D (PageData K V)) (ht : LinearProbeHashTable D K V) :
    Option HashTableHeaderPage :=
  asHeader (BufferPoolManager.content dm PageData.zero ht.buffer_pool_manager ht.header_page_id)

/-- The block pages of the table in header order, as the pool delivers them. -/
def blocksOf (cfg : HashTableConfig K V) (dm : DiskManager D (PageData K V))
    (ht : LinearProbeHashTable D K V) : List (HashTableBlockPage K V) :=
  match headerOf dm ht with
  | none => []
  | some hp =>
    hp.block_page_ids.map (fun bid =>
      (asBlock cfg (BufferPoolManager.content dm PageData.zero ht.buffer_pool_manager bid)).getD
        (zeroBlock cfg))

/-- The number of slots of the table, as `GetSize` computes it. -/
def slots (cfg : HashTableConfig K V) (dm : DiskManager D (PageData K V))
    (ht : LinearProbeHashTable D K V) : Nat :=
  (blocksOf cfg dm ht).length * cfg.BLOCK_ARRAY_SIZE

/-- The pool of `ht` holds a table with header `hp` and block pages `blocks`
(in header order): the pool is consistent and coherent with the disk, the
header page and the block pages have these contents, their page ids are
valid, distinct and were handed out by the disk manager, the block pages are
well formed, there is at least one slot, and no page of the table is pinned. -/
structure TableInv (cfg : HashTableConfig K V) (dm : DiskManager D (PageData K V))
    (next : D → Int) (ht : LinearProbeHashTable D K V) (hp : HashTableHeaderPage)
    (blocks : List (HashTableBlockPage K V)) : Prop where
  inv : BufferPoolManager.Inv ht.buffer_pool_manager
  coh : BufferPoolManager.Coh dm PageData.zero [] ht.buffer_pool_manager
  fresh : BufferPoolManager.Fresh next ht.buffer_pool_manager
  header : BufferPoolManager.content dm PageData.zero ht.buffer_pool_manager ht.header_page_id
    = PageData.header hp
  header_valid : ht.header_page_id ≠ INVALID_PAGE_ID
  header_lt : ht.header_page_id < next ht.buffer_pool_manager.disk
  nblocks : hp.block_page_ids.length = blocks.length
  block : ∀ (i : Nat) (bid : Int) (bp : HashTableBlockPage K V),
    hp.block_page_ids[i]? = some bid → blocks[i]? = some bp →
    BufferPoolManager.content dm PageData.zero ht.buffer_pool_manager bid = PageData.block bp
  ids_valid : ∀ bid ∈ hp.block_page_ids, bid ≠ INVALID_PAGE_ID ∧ bid ≠ ht.header_page_id ∧
    bid < next ht.buffer_pool_manager.disk
  ids_nodup : hp.block_page_ids.Nodup
  wf : ∀ bp ∈ blocks, bp.WF cfg.BLOCK_ARRAY_SIZE
  nonempty : 0 < blocks.length * cfg.BLOCK_ARRAY_SIZE
  unpinned : ∀ (q : Int) (f : Nat) (pg : Page (PageData K V)),
    ht.buffer_pool_manager.page_table.find q = some f →
    ht.buffer_pool_manager.pages[f]? = some pg → 0 < pg.pin_count →
    q ≠ ht.header_page_id ∧ q ∉ hp.block_page_ids

/-- Two more frames of the pool can be pinned. -/
def Spare (s : BufferPoolManager D (PageData K V)) : Prop :=
  BufferPoolManager.pinnedCount s + 2 ≤ s.pool_size

/-- The pool `sX` between `openBucket` and `closeBucket`, relative to the pool
`s0` before: the header page sits in frame `fh`, the block page in `fb`, the
pin counts are those of `s0` with these two frames pinned once, and pinned
pages are where they were. -/
structure Opened (next : D → Int) (s0 sX : BufferPoolManager D (PageData K V))
    (hid bid : Int) (fh fb : Nat) : Prop where
  inv : BufferPoolManager.Inv sX
  fresh : BufferPoolManager.Fresh next sX
  next_eq : next sX.disk = next s0.disk
  find_h : sX.page_table.find hid = some fh
  find_b : sX.page_table.find bid = some fb
  frames_ne : fh ≠ fb
  pool_size : sX.pool_size = s0.pool_size
  stay : BufferPoolManager.Stay s0 sX
  pins : BufferPoolManager.pinList sX
      = ((BufferPoolManager.pinList s0).set fh 1).set fb 1
  pin_h : (BufferPoolManager.pinList s0)[fh]? = some 0
  pin_b : (BufferPoolManager.pinList s0)[fb]? = some 0

/-- The pool `s` while `Resize` builds the new table: the new header page
`hid` is pinned once in frame `fh` and being written, it lists the block
pages `blocks` created so far, and every page id of the new table is at least
`n0`, the first id handed out to the `Resize`; any other pinned page has an
id below `n0`. -/
structure Building (cfg : HashTableConfig K V) (dm : DiskManager D (PageData K V))
    (next : D → Int) (n0 : Int) (s : BufferPoolManager D (PageData K V)) (hid : Int)
    (fh : Nat) (hp : HashTableHeaderPage) (blocks : List (HashTableBlockPage K V)) :
    Prop where
  inv : BufferPoolManager.Inv s
  coh : BufferPoolManager.Coh dm PageData.zero [fh] s
  fresh : BufferPoolManager.Fresh next s
  n0_nonneg : 0 ≤ n0
  find_h : s.page_table.find hid = some fh
  pin_h : (BufferPoolManager.pinList s)[fh]? = some 1
  header : BufferPoolManager.content dm PageData.zero s hid = PageData.header hp
  hid_ge : n0 ≤ hid
  nblocks : hp.block_page_ids.length = blocks.length
  block : ∀ (i : Nat) (bid : Int) (bp : HashTableBlockPage K V),
    hp.block_page_ids[i]? = some bid → blocks[i]? = some bp →
    BufferPoolManager.content dm PageData.zero s bid = PageData.block bp
  ids : ∀ bid ∈ hp.block_page_ids, n0 ≤ bid ∧ bid ≠ hid ∧ bid < next s.disk
  ids_nodup : hp.block_page_ids.Nodup
  wf : ∀ bp ∈ blocks, bp.WF cfg.BLOCK_ARRAY_SIZE
  pinned_old : ∀ (q : Int) (f : Nat) (pg : Page (PageData K V)),
    s.page_table.find q = some f → s.pages[f]? = some pg → 0 < pg.pin_count →
    q < n0 ∨ q = hid

/-- The states a hash table can be in: built by the constructor on a fresh
pool over a disk whose next page id is not negative, then changed by `Insert`,
`Remove` and `GetValue` calls that returned. -/
inductive Reachable [DecidableEq V] (cfg : HashTableConfig K V)
    (dm : DiskManager D (PageData K V)) : LinearProbeHashTable D K V → Prop where
  | init (pool_size : Nat) (disk : D) (ref0 : Bool) (fuel num_buckets : Nat)
      {ht : LinearProbeHashTable D K V} :
      0 ≤ (dm.AllocatePage disk).1 →
      LinearProbeHashTable.new cfg dm fuel
        (BufferPoolManager.new pool_size disk PageData.zero ref0) num_buckets = some ht →
      Reachable cfg dm ht
  | insert (fuel : Nat) (key : K) (value : V) {b : Bool}
      {ht ht' : LinearProbeHashTable D K V} :
      Reachable cfg dm ht → Insert cfg dm fuel ht key value = some (b, ht') →
      Reachable cfg dm ht'
  | remove (key : K) (value : V) {b : Bool} {ht ht' : LinearProbeHashTable D K V} :
      Reachable cfg dm ht → Remove cfg dm ht key value = some (b, ht') →
      Reachable cfg dm ht'
  | getValue (key : K) (result : List V) {b : Bool} {res : List V}
      {ht ht' : LinearProbeHashTable D K V} :
      Reachable cfg dm ht → GetValue cfg dm ht key result = some (b, res, ht') →
      Reachable cfg dm ht'

end LinearProbeHashTable

/-- A disk for pages of any kind, for the concrete scenarios: the next page id
and the pages written so far, newest first. -/
structure PageDisk (B : Type) where
  next_page_id : Int
  written : List (Int × B)
deriving DecidableEq, Repr

/-- Modelled from the spec: `simpleDisk` for pages of any kind (the real disk
manager is an external collaborator): `allocate_page` counts upwards,
`deallocate_page` does nothing, `write_page` stores the bytes, `read_page`
delivers the bytes last written and leaves the buffer as it is for a page
never written. -/
def pageDisk (B : Type) : DiskManager (PageDisk B) B where
  ReadPage := fun d p buf =>
    match d.written.lookup p with
    | some b => b
    | none => buf
  WritePage := fun d p b => { d with written := (p, b) :: d.written }
  AllocatePage := fun d => (d.next_page_id, { d with next_page_id := d.next_page_id + 1 })
  DeallocatePage := fun d _ => d

/-- The table of the spec's scenarios: keys and values are numbers, four slots
per block page, every key hashes to 0, keys compare by subtraction.  A header
page read through the block page layout shows no occupied and no readable
slot: the two bitmap bytes fall on the first bytes of the header page, which
the hash table never writes. -/
def collidingConfig : HashTableConfig Nat Nat where
  BLOCK_ARRAY_SIZE := 4
  comparator := fun a b => (a : Int) - (b : Int)
  hash_fn := fun _ => 0
  zeroKey := 0
  zeroValue := 0
  headerAsBlock := fun _ => ⟨[0], [0], [(0, 0), (0, 0), (0, 0), (0, 0)]⟩

/-- The table of the concrete scenarios: built by the constructor for two
buckets on a fresh pool of four frames over an empty `pageDisk`; it has one
block page of four slots. -/
def scenarioTable : LinearProbeHashTable (PageDisk (PageData Nat Nat)) Nat Nat :=
  (LinearProbeHashTable.new collidingConfig (pageDisk (PageData Nat Nat)) 8
    (BufferPoolManager.new 4 ⟨0, []⟩ PageData.zero false) 2).getD
    ⟨BufferPoolManager.new 4 ⟨0, []⟩ PageData.zero false, 0⟩

/-- `scenarioTable` after `Insert(5, 7)`. -/
def scenarioInserted : LinearProbeHashTable (PageDisk (PageData Nat Nat)) Nat Nat :=
  ((LinearProbeHashTable.Insert collidingConfig (pageDisk (PageData Nat Nat)) 1
    scenarioTable 5 7).map Prod.snd).getD scenarioTable

/-- The table after `Insert(key, value)` in the concrete scenarios (the table
itself if the call does not return). -/
def scenarioInsert (ht : LinearProbeHashTable (PageDisk (PageData Nat Nat)) Nat Nat)
    (key value : Nat) : LinearProbeHashTable (PageDisk (PageData Nat Nat)) Nat Nat :=
  ((LinearProbeHashTable.Insert collidingConfig (pageDisk (PageData Nat Nat)) 1
    ht key value).map Prod.snd).getD ht

/-- The table after `Remove(key, value)` in the concrete scenarios (the table
itself if the call does not return). -/
def scenarioRemove (ht : LinearProbeHashTable (PageDisk (PageData Nat Nat)) Nat Nat)
    (key value : Nat) : LinearProbeHashTable (PageDisk (PageData Nat Nat)) Nat Nat :=
  ((LinearProbeHashTable.Remove collidingConfig (pageDisk (PageData Nat Nat))
    ht key value).map Prod.snd).getD ht

/-- What `GetValue(key)` returns and appends to an empty result list in the
concrete scenarios. -/
def scenarioLookup (ht : LinearProbeHashTable (PageDisk (PageData Nat Nat)) Nat Nat)
    (key : Nat) : Option (Bool × List Nat) :=
  (LinearProbeHashTable.GetValue collidingConfig (pageDisk (PageData Nat Nat))
    ht key []).map (fun r => (r.1, r.2.1))

/-- A table with a tombstone in front of a stored pair: `scenarioTable` after
`Insert(1, 1)` (slot 0), `Insert(5, 7)` (slot 1) and `Remove(1, 1)`. -/
def tombstoneTable : LinearProbeHashTable (PageDisk (PageData Nat Nat)) Nat Nat :=
  scenarioRemove (scenarioInsert (scenarioInsert scenarioTable 1 1) 5 7) 1 1

/-- `tombstoneTable` after `Insert(5, 7)`. -/
def duplicateTable : LinearProbeHashTable (PageDisk (PageData Nat Nat)) Nat Nat :=
  scenarioInsert tombstoneTable 5 7

/-- `scenarioInserted` (one block page holding the pair `(5, 7)`) after
`Resize(4)`. -/
def resizedTable : LinearProbeHashTable (PageDisk (PageData Nat Nat)) Nat Nat :=
  (LinearProbeHashTable.Resize collidingConfig (pageDisk (PageData Nat Nat)) 8
    scenarioInserted 4).getD scenarioInserted

/-- The table of the spec's tombstone scenario: keys 1 and 5 both hash to slot
0; `scenarioTable` after `Insert(1, 1)` (slot 0) and `Insert(5, 7)` (slot 1). -/
def collidingTable : LinearProbeHashTable (PageDisk (PageData Nat Nat)) Nat Nat :=
  scenarioInsert (scenarioInsert scenarioTable 1 1) 5 7

/-- The table after `GetValue(key)` on an empty result list in the concrete
scenarios (the table itself if the call does not return). -/
def scenarioAfterLookup (ht : LinearProbeHashTable (PageDisk (PageData Nat Nat)) Nat Nat)
    (key : Nat) : LinearProbeHashTable (PageDisk (PageData Nat Nat)) Nat Nat :=
  ((LinearProbeHashTable.GetValue collidingConfig (pageDisk (PageData Nat Nat))
    ht key []).map (fun r => r.2.2)).getD ht

/-- `scenarioInserted` after `Resize(1)`. -/
def roundedTable : LinearProbeHashTable (PageDisk (PageData Nat Nat)) Nat Nat :=
  (LinearProbeHashTable.Resize collidingConfig (pageDisk (PageData Nat Nat)) 8
    scenarioInserted 1).getD scenarioInserted

/-- A block page of four slots after `Clear`. -/
def scenarioBlock : HashTableBlockPage Nat Nat :=
  (⟨[0], [0], [(0, 0), (0, 0), (0, 0), (0, 0)]⟩ : HashTableBlockPage Nat Nat).Clear

/-- `scenarioBlock` after `Insert(1, 5, 7)` (the page itself if the call does
not return). -/
def scenarioBlockInserted : HashTableBlockPage Nat Nat :=
  ((scenarioBlock.Insert 1 5 7).map Prod.snd).getD scenarioBlock

end bustub

/-! # Theorems -/

namespace bustub

/-! ## Page table -/

namespace PageTable

theorem erase_cons (e : Int × Nat) (rest : PageTable) (p : Int) :
    erase (e :: rest) p = if e.1 = p then erase rest p else e :: erase rest p := by
  by_cases h : e.1 = p <;> simp [erase, List.filter_cons, h]

theorem find_cons (e : Int × Nat) (rest : PageTable) (q : Int) :
    find (e :: rest) q = if e.1 = q then some e.2 else find rest q := by
  obtain ⟨a, f⟩ := e
  rfl

theorem find_erase_self (pt : PageTable) (p : Int) : (pt.erase p).find p = none := by
  induction pt with
  | nil => rfl
  | cons e rest ih =>
    rw [erase_cons]
    by_cases h : e.1 = p
    · simpa [h] using ih
    · simpa [h, find_cons] using ih

theorem find_erase_ne (pt : PageTable) {p q : Int} (h : q ≠ p) :
    (pt.erase p).find q = pt.find q := by
  induction pt with
  | nil => rfl
  | cons e rest ih =>
    rw [erase_cons, find_cons]
    by_cases ha : e.1 = p
    · have : e.1 ≠ q := fun hq => h (hq ▸ ha)
      simpa [ha, this, ha ▸ this] using ih
    · by_cases hq : e.1 = q
      · subst hq
        simp [ha, find_cons]
      · simpa [ha, find_cons, hq] using ih

theorem find_insert_self (pt : PageTable) (p : Int) (f : Nat) :
    (pt.insert p f).find p = some f := by
  simp [insert, find]

theorem find_insert_ne (pt : PageTable) {p q : Int} (f : Nat) (h : q ≠ p) :
    (pt.insert p f).find q = pt.find q := by
  have : p ≠ q := fun e => h e.symm
  simp [insert, find, this, find_erase_ne pt h]

theorem find_insert (pt : PageTable) (p q : Int) (f : Nat) :
    (pt.insert p f).find q = if q = p then some f else pt.find q := by
  by_cases h : q = p
  · subst h; simp [find_insert_self]
  · simp [h, find_insert_ne pt f h]

theorem find_erase (pt : PageTable) (p q : Int) :
    (pt.erase p).find q = if q = p then none else pt.find q := by
  by_cases h : q = p
  · subst h; simp [find_erase_self]
  · simp [h, find_erase_ne pt h]

end PageTable

/-! ## Clock replacer -/

namespace ClockReplacer

@[simp] theorem move_clock_hand_vector (r : ClockReplacer) :
    (move_clock_hand r).clock_vector = r.clock_vector := by
  unfold move_clock_hand; split <;> rfl

@[simp] theorem move_clock_hand_counter (r : ClockReplacer) :
    (move_clock_hand r).ClockReplacer_frame_counter = r.ClockReplacer_frame_counter := by
  unfold move_clock_hand; split <;> rfl

theorem move_clock_hand_hand (r : ClockReplacer) :
    (move_clock_hand r).clock_hand
      = if r.clock_hand + 1 = r.clock_vector.length then 0 else r.clock_hand + 1 := by
  unfold move_clock_hand; split <;> rfl

theorem countP_set_same_flag (l : List ClockItem) (i : Nat) (it x : ClockItem)
    (h : l[i]? = some it) (hx : x.pin_flag = it.pin_flag) :
    (l.set i x).countP (fun it => !it.pin_flag) = l.countP (fun it => !it.pin_flag) := by
  obtain ⟨hi, rfl⟩ := List.getElem?_eq_some.1 h
  rw [List.countP_set _ _ _ _ hi]
  have := List.boole_getElem_le_countP (fun it : ClockItem => !it.pin_flag) l i hi
  simp only [hx] at this ⊢
  omega

theorem countP_set_pinned (l : List ClockItem) (i : Nat) (it x : ClockItem)
    (h : l[i]? = some it) (hx : x.pin_flag = true) :
    (l.set i x).countP (fun it => !it.pin_flag)
      = l.countP (fun it => !it.pin_flag) - (if !it.pin_flag then 1 else 0) := by
  obtain ⟨hi, rfl⟩ := List.getElem?_eq_some.1 h
  rw [List.countP_set _ _ _ _ hi]
  simp [hx]

theorem countP_set_unpinned (l : List ClockItem) (i : Nat) (it x : ClockItem)
    (h : l[i]? = some it) (hx : x.pin_flag = false) :
    (l.set i x).countP (fun it => !it.pin_flag)
      = l.countP (fun it => !it.pin_flag) + (if it.pin_flag then 1 else 0) := by
  obtain ⟨hi, rfl⟩ := List.getElem?_eq_some.1 h
  rw [List.countP_set _ _ _ _ hi]
  have := List.boole_getElem_le_countP (fun it : ClockItem => !it.pin_flag) l i hi
  cases hp : l[i].pin_flag
  · simp only [hx, hp, Bool.not_false, if_true] at this ⊢
    simp
    omega
  · simp [hx, hp]

theorem pinFlag_set (l : List ClockItem) (c h i g : Nat) (x : ClockItem) :
    pinFlag ⟨l.set i x, c, h⟩ g
      = if g = i ∧ i < l.length then some x.pin_flag else pinFlag ⟨l, c, h⟩ g := by
  unfold pinFlag
  simp only [List.getElem?_set]
  by_cases hg : i = g
  · subst hg
    by_cases hi : i < l.length
    · simp [hi]
    · simp [hi, List.getElem?_eq_none (Nat.le_of_not_lt hi)]
  · have : ¬ g = i := fun e => hg e.symm
    simp [hg, this]

theorem Pin_props {r r' : ClockReplacer} {f : Nat} (h : r.Pin f = some r') :
    f < r.clock_vector.length ∧
    r'.clock_vector.length = r.clock_vector.length ∧
    r'.clock_hand = r.clock_hand ∧
    (∀ g, r'.pinFlag g = if g = f then some true else r.pinFlag g) ∧
    (r.CounterOk → r'.CounterOk) := by
  unfold Pin at h
  cases hit : r.clock_vector[f]? with
  | none => simp [hit] at h
  | some it =>
    simp only [hit] at h
    obtain ⟨hf, -⟩ := List.getElem?_eq_some.1 hit
    injection h with h
    subst h
    refine ⟨hf, by simp, rfl, ?_, ?_⟩
    · intro g
      rw [pinFlag_set]
      by_cases hg : g = f <;> simp [hg, hf]
      rfl
    · intro hc
      unfold CounterOk at hc ⊢
      simp only
      rw [countP_set_pinned _ _ it _ hit rfl, hc]
      cases it.pin_flag <;> simp

theorem Unpin_props {r r' : ClockReplacer} {f : Nat} (h : r.Unpin f = some r') :
    f < r.clock_vector.length ∧
    r'.clock_vector.length = r.clock_vector.length ∧
    r'.clock_hand = r.clock_hand ∧
    (∀ g, r'.pinFlag g = if g = f then some false else r.pinFlag g) ∧
    (r.CounterOk → r'.CounterOk) := by
  unfold Unpin at h
  cases hit : r.clock_vector[f]? with
  | none => simp [hit] at h
  | some it =>
    simp only [hit] at h
    obtain ⟨hf, -⟩ := List.getElem?_eq_some.1 hit
    injection h with h
    subst h
    refine ⟨hf, by simp, rfl, ?_, ?_⟩
    · intro g
      rw [pinFlag_set]
      by_cases hg : g = f <;> simp [hg, hf]
      rfl
    · intro hc
      unfold CounterOk at hc ⊢
      simp only
      rw [countP_set_unpinned _ _ it _ hit rfl, hc]
      cases it.pin_flag <;> simp

theorem Pin_isSome (r : ClockReplacer) {f : Nat} (hf : f < r.clock_vector.length) :
    ∃ r', r.Pin f = some r' := by
  unfold Pin
  rw [List.getElem?_eq_getElem hf]
  exact ⟨_, rfl⟩

theorem Unpin_isSome (r : ClockReplacer) {f : Nat} (hf : f < r.clock_vector.length) :
    ∃ r', r.Unpin f = some r' := by
  unfold Unpin
  rw [List.getElem?_eq_getElem hf]
  exact ⟨_, rfl⟩

theorem victimLoop_props (fuel : Nat) :
    ∀ {r r' : ClockReplacer} {f : Nat}, victimLoop fuel r = some (f, r') →
      f < r.clock_vector.length ∧
      r'.clock_vector.length = r.clock_vector.length ∧
      r'.clock_hand = f ∧
      r.pinFlag f = some false ∧
      (∀ g, r'.pinFlag g = if g = f then some true else r.pinFlag g) ∧
      (r.CounterOk → r'.CounterOk) := by
  induction fuel with
  | zero => intro r r' f h; simp [victimLoop] at h
  | succ fuel ih =>
    intro r r' f h
    unfold victimLoop at h
    cases hit : r.clock_vector[r.clock_hand]? with
    | none => simp [hit] at h
    | some it =>
      simp only [hit] at h
      obtain ⟨hh, hget⟩ := List.getElem?_eq_some.1 hit
      by_cases c1 : ((!it.pin_flag) && (!it.ref_flag)) = true
      · rw [if_pos c1] at h
        injection h with h
        injection h with h1 h2
        subst h1
        subst h2
        have hp : it.pin_flag = false := by
          cases hq : it.pin_flag <;> simp [hq] at c1 ⊢
        refine ⟨hh, by simp, rfl, ?_, ?_, ?_⟩
        · simp [pinFlag, hit, hp]
        · intro g
          rw [pinFlag_set]
          by_cases hg : g = r.clock_hand <;> simp [hg, hh]
          rfl
        · intro hc
          unfold CounterOk at hc ⊢
          simp only
          rw [countP_set_pinned _ _ it _ hit rfl, hc]
          simp [hp]
      · rw [if_neg c1] at h
        by_cases c2 : ((!it.pin_flag) && it.ref_flag) = true
        · rw [if_pos c2] at h
          obtain ⟨h1, h2, h3, h4, h5, h6⟩ := ih h
          simp only [move_clock_hand_vector, List.length_set] at h1 h2
          have hflag : ∀ g, pinFlag (move_clock_hand
              { r with clock_vector :=
                  r.clock_vector.set r.clock_hand { it with ref_flag := false } }) g
              = r.pinFlag g := by
            intro g
            unfold pinFlag
            simp only [move_clock_hand_vector, List.getElem?_set]
            by_cases hg : r.clock_hand = g
            · subst hg; simp [hh, hit]
            · simp [hg]
          refine ⟨h1, h2, h3, ?_, ?_, ?_⟩
          · rw [← hflag]; exact h4
          · intro g; rw [h5 g, hflag]
          · intro hc
            apply h6
            unfold CounterOk at hc ⊢
            simp only [move_clock_hand_vector, move_clock_hand_counter]
            rw [countP_set_same_flag _ _ it ⟨false, it.pin_flag⟩ hit rfl, hc]
        · rw [if_neg c2] at h
          obtain ⟨h1, h2, h3, h4, h5, h6⟩ := ih h
          simp only [move_clock_hand_vector] at h1 h2
          have hflag : ∀ g, pinFlag (move_clock_hand r) g = r.pinFlag g := by
            intro g; unfold pinFlag; simp
          refine ⟨h1, h2, h3, ?_, ?_, ?_⟩
          · rw [← hflag]; exact h4
          · intro g; rw [h5 g, hflag]
          · intro hc
            apply h6
            unfold CounterOk at hc ⊢
            simpa using hc

theorem victimLoop_succ (fuel : Nat) (r : ClockReplacer) (it : ClockItem)
    (hit : r.clock_vector[r.clock_hand]? = some it) :
    victimLoop (fuel + 1) r =
      if ((!it.pin_flag) && (!it.ref_flag)) = true then
        some (r.clock_hand,
          { r with
            ClockReplacer_frame_counter :=
              if !it.pin_flag then r.ClockReplacer_frame_counter - 1
              else r.ClockReplacer_frame_counter
            clock_vector := r.clock_vector.set r.clock_hand ⟨true, true⟩ })
      else if ((!it.pin_flag) && it.ref_flag) = true then
        victimLoop fuel
          (move_clock_hand
            { r with clock_vector := r.clock_vector.set r.clock_hand { it with ref_flag := false } })
      else
        victimLoop fuel (move_clock_hand r) := by
  rw [victimLoop]
  simp only [hit]

theorem victimLoop_mono_succ (fuel : Nat) :
    ∀ (r : ClockReplacer) (x : Nat × ClockReplacer),
      victimLoop fuel r = some x → victimLoop (fuel + 1) r = some x := by
  induction fuel with
  | zero => intro r x h; simp [victimLoop] at h
  | succ fuel ih =>
    intro r x h
    cases hit : r.clock_vector[r.clock_hand]? with
    | none => rw [victimLoop] at h; simp [hit] at h
    | some it =>
      rw [victimLoop_succ _ _ it hit] at h ⊢
      by_cases c1 : ((!it.pin_flag) && (!it.ref_flag)) = true
      · rw [if_pos c1] at h ⊢; exact h
      · rw [if_neg c1] at h ⊢
        by_cases c2 : ((!it.pin_flag) && it.ref_flag) = true
        · rw [if_pos c2] at h ⊢; exact ih _ _ h
        · rw [if_neg c2] at h ⊢; exact ih _ _ h

theorem victimLoop_mono {k k' : Nat} (hk : k ≤ k') (r : ClockReplacer)
    (x : Nat × ClockReplacer) (h : victimLoop k r = some x) : victimLoop k' r = some x := by
  induction hk with
  | refl => exact h
  | step _ ih => exact victimLoop_mono_succ _ _ _ ih

theorem move_clock_hand_lt {r : ClockReplacer} (h : r.clock_hand < r.clock_vector.length) :
    (move_clock_hand r).clock_hand < r.clock_vector.length := by
  rw [move_clock_hand_hand]
  split <;> omega

theorem cyclicDist_move {n h j : Nat} (hh : h < n) (_hj : j < n) (hne : j ≠ h) :
    cyclicDist n (if h + 1 = n then 0 else h + 1) j + 1 = cyclicDist n h j := by
  unfold cyclicDist
  split_ifs <;> omega

theorem cyclicDist_lt {n h j : Nat} (hh : h < n) (hj : j < n) : cyclicDist n h j < n := by
  unfold cyclicDist
  split_ifs <;> omega

theorem cyclicDist_eq_zero {n h j : Nat} (hh : h < n) (_hj : j < n)
    (h0 : cyclicDist n h j = 0) : j = h := by
  unfold cyclicDist at h0
  split_ifs at h0 <;> omega

/-- One iteration that does not pick the frame under the hand: the loop goes
on from a state with the hand advanced, the other items untouched and the
item left behind unreferenced if it was unpinned. -/
theorem victimLoop_advance (fuel : Nat) (r : ClockReplacer) (it : ClockItem)
    (hcur : r.clock_vector[r.clock_hand]? = some it)
    (c1 : ¬ ((!it.pin_flag) && (!it.ref_flag)) = true) :
    ∃ r1 : ClockReplacer, victimLoop (fuel + 1) r = victimLoop fuel r1 ∧
      r1.clock_vector.length = r.clock_vector.length ∧
      r1.clock_hand
        = (if r.clock_hand + 1 = r.clock_vector.length then 0 else r.clock_hand + 1) ∧
      (∀ j, j ≠ r.clock_hand → r1.clock_vector[j]? = r.clock_vector[j]?) ∧
      (it.pin_flag = false → r1.clock_vector[r.clock_hand]? = some ⟨false, false⟩) := by
  obtain ⟨hh, -⟩ := List.getElem?_eq_some.1 hcur
  rw [victimLoop_succ _ _ it hcur, if_neg c1]
  by_cases c2 : ((!it.pin_flag) && it.ref_flag) = true
  · rw [if_pos c2]
    refine ⟨_, rfl, by simp, ?_, ?_, ?_⟩
    · simp [move_clock_hand_hand]
    · intro j hj
      simp only [move_clock_hand_vector]
      rw [List.getElem?_set_ne (fun e => hj e.symm)]
    · intro hp
      simp [hh, hp]
  · rw [if_neg c2]
    refine ⟨_, rfl, by simp, ?_, ?_, ?_⟩
    · simp [move_clock_hand_hand]
    · intro j _
      simp
    · intro hp
      exfalso
      cases hr : it.ref_flag <;> simp [hp, hr] at c1 c2

/-- A frame that is unpinned and unreferenced at `d` advances from the hand is
reached: the loop ends within `d + 1` iterations. -/
theorem victimLoop_reaches_clear (d : Nat) :
    ∀ (r : ClockReplacer) (j : Nat), r.clock_hand < r.clock_vector.length →
      j < r.clock_vector.length →
      cyclicDist r.clock_vector.length r.clock_hand j = d →
      r.clock_vector[j]? = some ⟨false, false⟩ →
      ∃ x, victimLoop (d + 1) r = some x := by
  induction d with
  | zero =>
    intro r j hh hj hd hit
    have := cyclicDist_eq_zero hh hj hd
    subst this
    rw [victimLoop_succ _ _ _ hit]
    exact ⟨_, rfl⟩
  | succ d ih =>
    intro r j hh hj hd hit
    have hne : j ≠ r.clock_hand := by
      intro e; subst e; simp [cyclicDist] at hd
    have hstep := cyclicDist_move hh hj hne
    obtain ⟨it, hcur⟩ : ∃ it, r.clock_vector[r.clock_hand]? = some it :=
      ⟨_, List.getElem?_eq_getElem hh⟩
    by_cases c1 : ((!it.pin_flag) && (!it.ref_flag)) = true
    · rw [victimLoop_succ _ _ it hcur, if_pos c1]; exact ⟨_, rfl⟩
    · obtain ⟨r1, e1, hlen, hhand, hother, -⟩ := victimLoop_advance (d + 1) r it hcur c1
      rw [e1]
      apply ih r1 j
      · rw [hhand, hlen]; split <;> omega
      · rw [hlen]; exact hj
      · rw [hhand, hlen]; omega
      · rw [hother j hne]; exact hit

/-- An unpinned frame at `d` advances from the hand makes the loop end within
`d + 1 + n` iterations. -/
theorem victimLoop_reaches_unpinned (d : Nat) :
    ∀ (r : ClockReplacer) (j : Nat) (tgt : ClockItem),
      r.clock_hand < r.clock_vector.length →
      j < r.clock_vector.length →
      cyclicDist r.clock_vector.length r.clock_hand j = d →
      r.clock_vector[j]? = some tgt → tgt.pin_flag = false →
      ∃ x, victimLoop (d + 1 + r.clock_vector.length) r = some x := by
  induction d with
  | zero =>
    intro r j tgt hh hj hd hit hp
    have := cyclicDist_eq_zero hh hj hd
    subst this
    have e : 0 + 1 + r.clock_vector.length = r.clock_vector.length + 1 := by omega
    rw [e]
    by_cases c1 : ((!tgt.pin_flag) && (!tgt.ref_flag)) = true
    · rw [victimLoop_succ _ _ tgt hit, if_pos c1]; exact ⟨_, rfl⟩
    · obtain ⟨r1, e1, hlen, hhand, -, hleft⟩ :=
        victimLoop_advance r.clock_vector.length r tgt hit c1
      rw [e1]
      have hlt : r1.clock_hand < r1.clock_vector.length := by
        rw [hhand, hlen]; split <;> omega
      have hj' : r.clock_hand < r1.clock_vector.length := by rw [hlen]; exact hh
      obtain ⟨x, hx⟩ := victimLoop_reaches_clear _ r1 r.clock_hand hlt hj' rfl (hleft hp)
      have hd' := cyclicDist_lt hlt hj'
      refine ⟨x, victimLoop_mono ?_ _ _ hx⟩
      omega
  | succ d ih =>
    intro r j tgt hh hj hd hit hp
    have hne : j ≠ r.clock_hand := by
      intro e; subst e; simp [cyclicDist] at hd
    have hstep := cyclicDist_move hh hj hne
    obtain ⟨it, hcur⟩ : ∃ it, r.clock_vector[r.clock_hand]? = some it :=
      ⟨_, List.getElem?_eq_getElem hh⟩
    have e : d + 1 + 1 + r.clock_vector.length = (d + 1 + r.clock_vector.length) + 1 := by omega
    rw [e]
    by_cases c1 : ((!it.pin_flag) && (!it.ref_flag)) = true
    · rw [victimLoop_succ _ _ it hcur, if_pos c1]; exact ⟨_, rfl⟩
    · obtain ⟨r1, e1, hlen, hhand, hother, -⟩ :=
        victimLoop_advance (d + 1 + r.clock_vector.length) r it hcur c1
      rw [e1, ← hlen]
      apply ih r1 j tgt
      · rw [hhand, hlen]; split <;> omega
      · rw [hlen]; exact hj
      · rw [hhand, hlen]; omega
      · rw [hother j hne]; exact hit
      · exact hp

/-- With the hand inside the vector and some frame unpinned, the loop of
`Victim` ends within `2 * n + 1` iterations. -/
theorem victimLoop_total (r : ClockReplacer) (hh : r.clock_hand < r.clock_vector.length)
    (j : Nat) (tgt : ClockItem) (hit : r.clock_vector[j]? = some tgt)
    (hp : tgt.pin_flag = false) :
    ∃ x, victimLoop (2 * r.clock_vector.length + 1) r = some x := by
  obtain ⟨hj, -⟩ := List.getElem?_eq_some.1 hit
  obtain ⟨x, hx⟩ := victimLoop_reaches_unpinned _ r j tgt hh hj rfl hit hp
  have := cyclicDist_lt hh hj
  exact ⟨x, victimLoop_mono (by omega) _ _ hx⟩

theorem exists_unpinned_of_counter {r : ClockReplacer} (hc : r.CounterOk)
    (h0 : r.ClockReplacer_frame_counter ≠ 0) :
    ∃ (j : Nat) (it : ClockItem), r.clock_vector[j]? = some it ∧ it.pin_flag = false := by
  unfold CounterOk at hc
  have hpos : 0 < r.clock_vector.countP (fun it => !it.pin_flag) := by omega
  obtain ⟨it, hmem, hp⟩ := List.countP_pos_iff.1 hpos
  obtain ⟨j, hj, rfl⟩ := List.getElem_of_mem hmem
  refine ⟨j, _, List.getElem?_eq_getElem hj, ?_⟩
  simpa using hp

theorem counter_pos_of_unpinned {r : ClockReplacer} (hc : r.CounterOk) {j : Nat}
    (h : r.pinFlag j = some false) : r.ClockReplacer_frame_counter ≠ 0 := by
  unfold CounterOk at hc
  unfold pinFlag at h
  cases hit : r.clock_vector[j]? with
  | none => simp [hit] at h
  | some it =>
    simp [hit] at h
    have hmem : it ∈ r.clock_vector := by
      obtain ⟨hj, rfl⟩ := List.getElem?_eq_some.1 hit
      exact List.getElem_mem _
    have : 0 < r.clock_vector.countP (fun it => !it.pin_flag) :=
      List.countP_pos_iff.2 ⟨it, hmem, by simp [h]⟩
    omega

/-- `Victim` returns `false` exactly when the counter is zero, and then
changes nothing. -/
theorem Victim_none_iff (r r' : ClockReplacer) :
    r.Victim = some (none, r') ↔ r.ClockReplacer_frame_counter = 0 ∧ r' = r := by
  unfold Victim
  by_cases h0 : r.ClockReplacer_frame_counter = 0
  · simp [h0, eq_comm]
  · simp only [h0, if_false, false_and, iff_false]
    cases victimLoop (2 * r.clock_vector.length + 1) r with
    | none => simp
    | some x => simp

theorem Victim_some {r r' : ClockReplacer} {f : Nat} (h : r.Victim = some (some f, r')) :
    r.ClockReplacer_frame_counter ≠ 0 ∧
      victimLoop (2 * r.clock_vector.length + 1) r = some (f, r') := by
  unfold Victim at h
  by_cases h0 : r.ClockReplacer_frame_counter = 0
  · simp [h0] at h
  · simp only [h0, if_false] at h
    refine ⟨h0, ?_⟩
    cases hv : victimLoop (2 * r.clock_vector.length + 1) r with
    | none => simp [hv] at h
    | some x =>
      obtain ⟨a, b⟩ := x
      simp only [hv] at h
      injection h with h
      injection h with h1 h2
      injection h1 with h1
      subst h1; subst h2; rfl

/-- `Victim` returns: with a consistent counter and the hand inside the
vector it yields `false` or a frame. -/
theorem Victim_total (r : ClockReplacer) (hc : r.CounterOk)
    (hh : r.clock_hand < r.clock_vector.length ∨ r.clock_vector.length = 0) :
    (r.ClockReplacer_frame_counter = 0 ∧ r.Victim = some (none, r)) ∨
    (r.ClockReplacer_frame_counter ≠ 0 ∧ ∃ f r', r.Victim = some (some f, r')) := by
  by_cases h0 : r.ClockReplacer_frame_counter = 0
  · left; exact ⟨h0, (Victim_none_iff r r).2 ⟨h0, rfl⟩⟩
  · right
    refine ⟨h0, ?_⟩
    obtain ⟨j, it, hit, hp⟩ := exists_unpinned_of_counter hc h0
    obtain ⟨hj, -⟩ := List.getElem?_eq_some.1 hit
    have hh' : r.clock_hand < r.clock_vector.length := by
      rcases hh with hh | hh
      · exact hh
      · omega
    obtain ⟨⟨f, r'⟩, hx⟩ := victimLoop_total r hh' j it hit hp
    refine ⟨f, r', ?_⟩
    unfold Victim
    simp [h0, hx]

end ClockReplacer

/-! ## Buffer pool: the invariant is kept by every operation -/

namespace BufferPoolManager

variable {D B : Type}

theorem getElem?_set_some {α : Type} {l : List α} {f g : Nat} {x y : α}
    (h : (l.set f x)[g]? = some y) :
    (g = f ∧ y = x ∧ f < l.length) ∨ (g ≠ f ∧ l[g]? = some y) := by
  rw [List.getElem?_set] at h
  by_cases e : f = g
  · subst e
    by_cases hl : f < l.length
    · simp [hl] at h
      exact Or.inl ⟨rfl, h.symm, hl⟩
    · simp [hl] at h
  · simp [e] at h
    exact Or.inr ⟨fun e' => e e'.symm, h⟩

/-- What `FlushPageImpl` leaves alone. -/
theorem FlushPageImpl_frame {dm : DiskManager D B} {s s' : BufferPoolManager D B}
    {p : Int} {b : Bool} (h : FlushPageImpl dm s p = some (b, s')) :
    s'.pool_size = s.pool_size ∧ s'.pages = s.pages ∧ s'.page_table = s.page_table ∧
      s'.replacer = s.replacer ∧ s'.free_list = s.free_list := by
  unfold FlushPageImpl at h
  split_ifs at h
  split at h
  · injection h with h; injection h with h1 h2; subst h2; simp
  · split at h
    · simp at h
    · split_ifs at h
      · injection h with h; injection h with h1 h2; subst h2; simp
      · injection h with h; injection h with h1 h2; subst h2; simp

/-- The invariant only reads the pool structure, not the disk or the events. -/
theorem Inv.congr {s s' : BufferPoolManager D B} (h : Inv s)
    (h1 : s'.pool_size = s.pool_size) (h2 : s'.pages = s.pages)
    (h3 : s'.page_table = s.page_table) (h4 : s'.replacer = s.replacer)
    (h5 : s'.free_list = s.free_list) : Inv s' := by
  obtain ⟨a1, a2, a3, a4, a5, a6, a7, a8, a9, a10, a11, a12⟩ := h
  constructor <;> simp only [h1, h2, h3, h4, h5] <;> assumption

theorem Inv_flush {dm : DiskManager D B} {s s' : BufferPoolManager D B}
    {p : Int} {b : Bool} (hi : Inv s) (h : FlushPageImpl dm s p = some (b, s')) : Inv s' := by
  obtain ⟨h1, h2, h3, h4, h5⟩ := FlushPageImpl_frame h
  exact hi.congr h1 h2 h3 h4 h5

theorem flushEach_frame {dm : DiskManager D B} (ps : List Int) :
    ∀ {s s' : BufferPoolManager D B}, flushEach dm ps s = some s' →
    s'.pool_size = s.pool_size ∧ s'.pages = s.pages ∧ s'.page_table = s.page_table ∧
      s'.replacer = s.replacer ∧ s'.free_list = s.free_list := by
  induction ps with
  | nil => intro s s' h; simp [flushEach] at h; subst h; simp
  | cons p ps ih =>
    intro s s' h
    unfold flushEach at h
    cases hf : FlushPageImpl dm s p with
    | none => simp [hf] at h
    | some x =>
      obtain ⟨b, s1⟩ := x
      simp only [hf] at h
      obtain ⟨h1, h2, h3, h4, h5⟩ := FlushPageImpl_frame hf
      obtain ⟨g1, g2, g3, g4, g5⟩ := ih h
      exact ⟨g1.trans h1, g2.trans h2, g3.trans h3, g4.trans h4, g5.trans h5⟩

theorem Inv_flushAll {dm : DiskManager D B} {s s' : BufferPoolManager D B}
    (hi : Inv s) (h : FlushAllPagesImpl dm s = some s') : Inv s' := by
  obtain ⟨h1, h2, h3, h4, h5⟩ := flushEach_frame _ h
  exact hi.congr h1 h2 h3 h4 h5

/-- Updating the page of a resident frame in place (same page id, a new pin
count that agrees with the new pin flag) keeps the invariant. -/
theorem Inv_update_frame {s : BufferPoolManager D B} (hi : Inv s) {f : Nat}
    {pg pg' : Page B} {r' : ClockReplacer}
    (hpg : s.pages[f]? = some pg) (hid : pg'.page_id = pg.page_id)
    (hnn : 0 ≤ pg'.pin_count) (hres : f ∉ s.free_list)
    (hlen : r'.clock_vector.length = s.replacer.clock_vector.length)
    (hhand : r'.clock_hand = s.replacer.clock_hand) (hc : r'.CounterOk)
    (hother : ∀ g, g ≠ f → r'.pinFlag g = s.replacer.pinFlag g)
    (hflag : r'.pinFlag f = some false ↔ pg'.pin_count = 0)
    (d : D) (ev : List (Event B)) :
    Inv { s with pages := s.pages.set f pg', replacer := r', disk := d, events := ev } := by
  obtain ⟨hf, -⟩ := List.getElem?_eq_some.1 hpg
  refine
    { pages_len := by simpa using hi.pages_len
      clock_len := by simpa [hlen] using hi.clock_len
      hand := by simpa [hhand] using hi.hand
      counter := hc
      table := ?_
      table_valid := hi.table_valid
      table_free := hi.table_free
      free_nodup := hi.free_nodup
      free_pin := ?_
      cover := ?_
      pin_nonneg := ?_
      flag := ?_ }
  · intro p g hfind
    obtain ⟨pgg, h1, h2⟩ := hi.table p g hfind
    by_cases e : g = f
    · subst e
      rw [hpg] at h1
      injection h1 with h1
      subst h1
      exact ⟨pg', by simp [hf], hid.trans h2⟩
    · exact ⟨pgg, by simpa [List.getElem?_set_ne (fun e' => e e'.symm)] using h1, h2⟩
  · intro g hg
    obtain ⟨pgg, h1, h2⟩ := hi.free_pin g hg
    have e : g ≠ f := fun e => hres (e ▸ hg)
    exact ⟨pgg, by simpa [List.getElem?_set_ne (fun e' => e e'.symm)] using h1, h2⟩
  · intro g y hy
    rcases getElem?_set_some hy with ⟨rfl, rfl, -⟩ | ⟨-, hy'⟩
    · rcases hi.cover g pg hpg with h | h
      · exact absurd h hres
      · right; simpa [hid] using h
    · exact hi.cover g y hy'
  · intro g y hy
    rcases getElem?_set_some hy with ⟨rfl, rfl, -⟩ | ⟨-, hy'⟩
    · exact hnn
    · exact hi.pin_nonneg g y hy'
  · intro g y hy hfree
    rcases getElem?_set_some hy with ⟨rfl, rfl, -⟩ | ⟨hne, hy'⟩
    · exact hflag
    · simp only [hother g hne]
      exact hi.flag g y hy' hfree

theorem Inv_unpin {s s' : BufferPoolManager D B} {p : Int} {d b : Bool}
    (hi : Inv s) (h : UnpinPageImpl s p d = some (b, s')) : Inv s' := by
  unfold UnpinPageImpl at h
  cases hfind : s.page_table.find p with
  | none => simp [hfind] at h
  | some f =>
    simp only [hfind] at h
    cases hpg : s.pages[f]? with
    | none => simp [hpg] at h
    | some pg =>
      simp only [hpg] at h
      have hres := hi.table_free p f hfind
      have hnn := hi.pin_nonneg f pg hpg
      have hfl := hi.flag f pg hpg hres
      by_cases c1 : pg.pin_count ≤ 0
      · rw [if_pos c1] at h
        injection h with h; injection h with _ h; subst h
        refine Inv_update_frame hi hpg ?_ ?_ hres ?_ ?_ ?_ ?_ ?_ _ _
        · rfl
        · exact hnn
        · rfl
        · rfl
        · exact hi.counter
        · intro _ _; rfl
        · exact hfl
      · rw [if_neg c1] at h
        by_cases c2 : pg.pin_count - 1 = 0
        · rw [if_pos c2] at h
          cases hu : s.replacer.Unpin f with
          | none => simp [hu] at h
          | some r =>
            simp only [hu] at h
            injection h with h; injection h with _ h; subst h
            obtain ⟨-, u2, u3, u4, u5⟩ := ClockReplacer.Unpin_props hu
            refine Inv_update_frame hi hpg ?_ ?_ hres u2 u3 (u5 hi.counter) ?_ ?_ _ _
            · rfl
            · show 0 ≤ pg.pin_count - 1
              omega
            · intro g hg; rw [u4 g, if_neg hg]
            · rw [u4 f]
              simp only [if_true, true_iff]
              exact c2
        · rw [if_neg c2] at h
          injection h with h; injection h with _ h; subst h
          refine Inv_update_frame hi hpg ?_ ?_ hres ?_ ?_ ?_ ?_ ?_ _ _
          · rfl
          · show 0 ≤ pg.pin_count - 1
            omega
          · rfl
          · rfl
          · exact hi.counter
          · intro _ _; rfl
          · constructor
            · intro hh; exact absurd (hfl.1 hh) (by omega)
            · intro hh; exact absurd hh c2

theorem Inv_writeData {s : BufferPoolManager D B} (hi : Inv s) (f : Nat) (data : B)
    (hpin : ∀ pg : Page B, s.pages[f]? = some pg → 0 < pg.pin_count) :
    Inv (writeData s f data) := by
  unfold writeData
  cases hpg : s.pages[f]? with
  | none => simpa using hi
  | some pg =>
    simp only
    have hp := hpin pg hpg
    have hres : f ∉ s.free_list := by
      intro hmem
      obtain ⟨pg2, h1, h2⟩ := hi.free_pin f hmem
      rw [hpg] at h1; injection h1 with h1; subst h1; omega
    refine Inv_update_frame hi hpg ?_ ?_ hres ?_ ?_ ?_ ?_ ?_ _ _
    · rfl
    · exact hi.pin_nonneg f pg hpg
    · rfl
    · rfl
    · exact hi.counter
    · intro _ _; rfl
    · exact hi.flag f pg hpg hres

/-- The state `DeletePageImpl` produces when it really deletes: resident,
unpinned, valid page id. -/
theorem DeletePageImpl_success (dm : DiskManager D B) {s : BufferPoolManager D B}
    {p : Int} {f : Nat} {pg : Page B}
    (hfind : s.page_table.find p = some f) (hpg : s.pages[f]? = some pg)
    (hpin : pg.pin_count = 0) (hval : p ≠ INVALID_PAGE_ID) :
    DeletePageImpl dm s p = some (true,
      { s with
        disk := if pg.is_dirty then dm.WritePage (dm.DeallocatePage s.disk p) p pg.data
          else dm.DeallocatePage s.disk p
        events := s.events ++ [Event.DeallocatePage p]
          ++ (if pg.is_dirty then [Event.WritePage p pg.data] else [])
        page_table := s.page_table.erase p
        pages := s.pages.set f
          { pg with page_id := INVALID_PAGE_ID, pin_count := 0, is_dirty := false }
        free_list := s.free_list ++ [f] }) := by
  unfold DeletePageImpl FlushPageImpl
  simp only [hfind, hpg, hpin, hval, ne_eq, not_true_eq_false, if_false]
  cases hd : pg.is_dirty <;> simp

/-- Deleting a resident unpinned page keeps the invariant, whatever the
replacer holds for the freed frame. -/
theorem Inv_delete_core {s : BufferPoolManager D B} (hi : Inv s) {p : Int} {f : Nat}
    {pg : Page B} (hfind : s.page_table.find p = some f) (hpg : s.pages[f]? = some pg)
    (r' : ClockReplacer)
    (hlen : r'.clock_vector.length = s.replacer.clock_vector.length)
    (hhand : r'.clock_hand < s.pool_size ∨ s.pool_size = 0) (hc : r'.CounterOk)
    (hother : ∀ g, g ≠ f → r'.pinFlag g = s.replacer.pinFlag g)
    (d : D) (ev : List (Event B)) :
    Inv { s with
      replacer := r'
      disk := d
      events := ev
      page_table := s.page_table.erase p
      pages := s.pages.set f
        { pg with page_id := INVALID_PAGE_ID, pin_count := 0, is_dirty := false }
      free_list := s.free_list ++ [f] } := by
  obtain ⟨hf, -⟩ := List.getElem?_eq_some.1 hpg
  have hfree : f ∉ s.free_list := hi.table_free p f hfind
  have hpid : pg.page_id = p := by
    obtain ⟨pg2, h1, h2⟩ := hi.table p f hfind
    rw [hpg] at h1; injection h1 with h1; subst h1; exact h2
  have hfind' : ∀ q g, (s.page_table.erase p).find q = some g →
      q ≠ p ∧ s.page_table.find q = some g := by
    intro q g hq
    rw [PageTable.find_erase] at hq
    by_cases e : q = p
    · simp [e] at hq
    · simp only [e, if_false] at hq; exact ⟨e, hq⟩
  have hgf : ∀ q g, q ≠ p → s.page_table.find q = some g → g ≠ f := by
    intro q g hq hg e
    subst e
    obtain ⟨pg2, h1, h2⟩ := hi.table q g hg
    rw [hpg] at h1; injection h1 with h1; subst h1
    exact hq (h2.symm.trans hpid)
  refine
    { pages_len := by simpa using hi.pages_len
      clock_len := by simpa [hlen] using hi.clock_len
      hand := hhand
      counter := hc
      table := ?_
      table_valid := ?_
      table_free := ?_
      free_nodup := ?_
      free_pin := ?_
      cover := ?_
      pin_nonneg := ?_
      flag := ?_ }
  · intro q g hq
    obtain ⟨hqp, hq'⟩ := hfind' q g hq
    obtain ⟨pgg, h1, h2⟩ := hi.table q g hq'
    have e := hgf q g hqp hq'
    exact ⟨pgg, by simpa [List.getElem?_set_ne (fun e' => e e'.symm)] using h1, h2⟩
  · intro q g hq
    exact hi.table_valid q g (hfind' q g hq).2
  · intro q g hq
    obtain ⟨hqp, hq'⟩ := hfind' q g hq
    have e := hgf q g hqp hq'
    simp only [List.mem_append, List.mem_singleton, not_or]
    exact ⟨hi.table_free q g hq', e⟩
  · simp only
    rw [List.nodup_append]
    refine ⟨hi.free_nodup, List.nodup_singleton f, ?_⟩
    intro a ha hb
    simp only [List.mem_singleton] at hb
    subst hb
    exact hfree ha
  · intro g hg
    simp only [List.mem_append, List.mem_singleton] at hg
    by_cases e : g = f
    · subst e
      exact ⟨{ pg with page_id := INVALID_PAGE_ID, pin_count := 0, is_dirty := false },
        by simp [hf], rfl⟩
    · rcases hg with hg | hg
      · obtain ⟨pgg, h1, h2⟩ := hi.free_pin g hg
        exact ⟨pgg, by simpa [List.getElem?_set_ne (fun e' => e e'.symm)] using h1, h2⟩
      · exact absurd hg e
  · intro g y hy
    rcases getElem?_set_some hy with ⟨rfl, rfl, -⟩ | ⟨hne, hy'⟩
    · left; simp
    · rcases hi.cover g y hy' with h | h
      · left; simp [h]
      · right
        have hyp : y.page_id ≠ p := by
          intro e
          rw [e, hfind] at h
          injection h with h
          exact hne h.symm
        simp only
        rw [PageTable.find_erase_ne _ hyp]
        exact h
  · intro g y hy
    rcases getElem?_set_some hy with ⟨rfl, rfl, -⟩ | ⟨-, hy'⟩
    · exact le_refl _
    · exact hi.pin_nonneg g y hy'
  · intro g y hy hfr
    simp only [List.mem_append, List.mem_singleton, not_or] at hfr
    rcases getElem?_set_some hy with ⟨rfl, rfl, -⟩ | ⟨hne, hy'⟩
    · exact absurd rfl hfr.2
    · simp only [hother g hne]
      exact hi.flag g y hy' hfr.1

theorem Inv_delete {dm : DiskManager D B} {s s' : BufferPoolManager D B} {p : Int} {b : Bool}
    (hi : Inv s) (h : DeletePageImpl dm s p = some (b, s')) : Inv s' := by
  cases hfind : s.page_table.find p with
  | none =>
    unfold DeletePageImpl at h
    simp only [hfind] at h
    injection h with h; injection h with _ h; subst h; exact hi
  | some f =>
    cases hpg : s.pages[f]? with
    | none =>
      unfold DeletePageImpl at h
      simp [hfind, hpg] at h
    | some pg =>
      by_cases hpin : pg.pin_count = 0
      · rw [DeletePageImpl_success dm hfind hpg hpin (hi.table_valid p f hfind)] at h
        injection h with h; injection h with _ h; subst h
        exact Inv_delete_core hi hfind hpg _ rfl hi.hand hi.counter (fun _ _ => rfl) _ _
      · unfold DeletePageImpl at h
        simp only [hfind, hpg, ne_eq, hpin, not_false_eq_true, if_true] at h
        injection h with h; injection h with _ h; subst h; exact hi

/-- Changing what the replacer holds for a frame on the free list keeps the
invariant. -/
theorem Inv_replacer_free {s : BufferPoolManager D B} (hi : Inv s) {f : Nat}
    (hf : f ∈ s.free_list) {r' : ClockReplacer}
    (hlen : r'.clock_vector.length = s.replacer.clock_vector.length)
    (hhand : r'.clock_hand = s.replacer.clock_hand) (hc : r'.CounterOk)
    (hother : ∀ g, g ≠ f → r'.pinFlag g = s.replacer.pinFlag g)
    (d : D) (ev : List (Event B)) :
    Inv { s with replacer := r', disk := d, events := ev } := by
  refine
    { pages_len := hi.pages_len
      clock_len := by simpa [hlen] using hi.clock_len
      hand := by simpa [hhand] using hi.hand
      counter := hc
      table := hi.table
      table_valid := hi.table_valid
      table_free := hi.table_free
      free_nodup := hi.free_nodup
      free_pin := hi.free_pin
      cover := hi.cover
      pin_nonneg := hi.pin_nonneg
      flag := ?_ }
  intro g y hy hfr
  have hne : g ≠ f := fun e => hfr (e ▸ hf)
  simp only [hother g hne]
  exact hi.flag g y hy hfr

theorem take_free_frame_eq {s s1 : BufferPoolManager D B} {r : Option Nat}
    (h : take_free_frame s = some (r, s1)) :
    ∃ f ys rp, r = some f ∧ s.free_list = ys ++ [f] ∧ s.replacer.Pin f = some rp ∧
      s1 = { s with free_list := ys, replacer := rp,
                    events := s.events ++ [Event.ReplacerPin f] } := by
  unfold take_free_frame at h
  cases hl : s.free_list.getLast? with
  | none => simp [hl] at h
  | some f =>
    simp only [hl] at h
    cases hp : s.replacer.Pin f with
    | none => simp [hp] at h
    | some rp =>
      simp only [hp] at h
      obtain ⟨ys, hys⟩ := List.getLast?_eq_some_iff.1 hl
      injection h with h; injection h with h1 h2
      refine ⟨f, ys, rp, h1.symm, hys, hp, ?_⟩
      rw [← h2, hys]
      simp

theorem take_free_frame_inv {s s1 : BufferPoolManager D B} {r : Option Nat}
    (hi : Inv s) (h : take_free_frame s = some (r, s1)) :
    ∃ f, r = some f ∧ InvHolding s1 f ∧ f ∈ s.free_list := by
  obtain ⟨f, ys, rp, hr, hys, hp, hs1⟩ := take_free_frame_eq h
  obtain ⟨-, p2, p3, p4, p5⟩ := ClockReplacer.Pin_props hp
  have hmem : f ∈ s.free_list := by rw [hys]; simp
  have hnd := hi.free_nodup
  rw [hys] at hnd
  have hnot : f ∉ ys := by
    intro hm
    have := (List.nodup_append.1 hnd).2.2
    exact this hm (List.mem_singleton.2 rfl) 
  refine ⟨f, hr, ⟨?_, ?_, ?_⟩, hmem⟩
  · rw [hs1]; exact hnot
  · rw [hs1]; simp [p4 f]
  · have := Inv_replacer_free hi hmem p2 p3 (p5 hi.counter)
      (fun g hg => by rw [p4 g, if_neg hg]) s.disk (s.events ++ [Event.ReplacerPin f])
    subst hs1
    exact this.congr rfl rfl rfl rfl (by simp [hys])

theorem get_free_page_nonempty (dm : DiskManager D B) {s : BufferPoolManager D B}
    (h : s.free_list ≠ []) : get_free_page dm s = take_free_frame s := by
  unfold get_free_page
  have : s.free_list.isEmpty = false := by
    cases hl : s.free_list with
    | nil => exact absurd hl h
    | cons a l => rfl
  simp [this]

/-- `get_free_page` returns `-1` exactly when the free list is empty and the
replacer's counter is zero; nothing but the event list changes. -/
theorem get_free_page_none (dm : DiskManager D B) {s s1 : BufferPoolManager D B}
    (h : get_free_page dm s = some (none, s1)) :
    s.free_list = [] ∧ s.replacer.ClockReplacer_frame_counter = 0 ∧
      s1 = { s with events := s.events ++ [Event.ReplacerVictim none] } := by
  by_cases hempty : s.free_list = []
  · unfold get_free_page at h
    simp only [hempty, List.isEmpty_nil, if_true] at h
    cases hv : s.replacer.Victim with
    | none => simp [hv] at h
    | some x =>
      obtain ⟨o, r⟩ := x
      cases o with
      | none =>
        simp only [hv] at h
        obtain ⟨h0, hr⟩ := (ClockReplacer.Victim_none_iff _ _).1 hv
        injection h with h; injection h with _ h
        subst hr
        refine ⟨hempty, h0, ?_⟩
        rw [← h]
        simp [hempty]
      | some f =>
        simp only [hv] at h
        exfalso
        split at h
        · simp at h
        · split at h
          · simp at h
          · obtain ⟨f', _, _, hr, _⟩ := take_free_frame_eq h
            simp at hr
  · rw [get_free_page_nonempty dm hempty] at h
    obtain ⟨f', _, _, hr, _⟩ := take_free_frame_eq h
    simp at hr

/-- The eviction path of `get_free_page`, spelled out: with an empty free list
and a non-zero counter the replacer yields a victim `f`, which hosts a
resident unpinned page; the page is deleted (deallocated, written back if
dirty) and `f` is handed out. -/
theorem get_free_page_evict (dm : DiskManager D B) {s : BufferPoolManager D B} (hi : Inv s)
    (hempty : s.free_list = []) (hc : s.replacer.ClockReplacer_frame_counter ≠ 0) :
    ∃ (f : Nat) (r' rp : ClockReplacer) (pg : Page B),
      s.replacer.Victim = some (some f, r') ∧ s.pages[f]? = some pg ∧ pg.pin_count = 0 ∧
      s.page_table.find pg.page_id = some f ∧ pg.page_id ≠ INVALID_PAGE_ID ∧
      r'.Pin f = some rp ∧
      get_free_page dm s = some (some f,
        { s with
          replacer := rp
          disk := if pg.is_dirty then
              dm.WritePage (dm.DeallocatePage s.disk pg.page_id) pg.page_id pg.data
            else dm.DeallocatePage s.disk pg.page_id
          events := s.events ++ [Event.ReplacerVictim (some f)]
            ++ [Event.DeallocatePage pg.page_id]
            ++ (if pg.is_dirty then [Event.WritePage pg.page_id pg.data] else [])
            ++ [Event.ReplacerPin f]
          page_table := s.page_table.erase pg.page_id
          pages := s.pages.set f
            { pg with page_id := INVALID_PAGE_ID, pin_count := 0, is_dirty := false }
          free_list := [] }) := by
  have hh : s.replacer.clock_hand < s.replacer.clock_vector.length
      ∨ s.replacer.clock_vector.length = 0 := by
    rw [hi.clock_len]; exact hi.hand
  rcases ClockReplacer.Victim_total s.replacer hi.counter hh with ⟨h0, -⟩ | ⟨-, f, r', hv⟩
  · exact absurd h0 hc
  obtain ⟨-, hloop⟩ := ClockReplacer.Victim_some hv
  obtain ⟨v1, v2, v3, v4, v5, v6⟩ := ClockReplacer.victimLoop_props _ hloop
  have hfp : f < s.pages.length := by rw [hi.pages_len, ← hi.clock_len]; exact v1
  have hpg : s.pages[f]? = some s.pages[f] := List.getElem?_eq_getElem hfp
  have hnotfree : f ∉ s.free_list := by rw [hempty]; simp
  have hpin : (s.pages[f]).pin_count = 0 := (hi.flag f _ hpg hnotfree).1 v4
  have hfind : s.page_table.find (s.pages[f]).page_id = some f := by
    rcases hi.cover f _ hpg with h | h
    · exact absurd h hnotfree
    · exact h
  have hval := hi.table_valid _ _ hfind
  obtain ⟨rp, hrp⟩ := ClockReplacer.Pin_isSome r' (f := f) (by rw [v2]; exact v1)
  refine ⟨f, r', rp, s.pages[f], hv, hpg, hpin, hfind, hval, hrp, ?_⟩
  unfold get_free_page
  have hE : s.free_list.isEmpty = true := by simp [hempty]
  simp only [hE, if_true, hv, hpg]
  have hdel := DeletePageImpl_success dm
    (s := { s with replacer := r', events := s.events ++ [Event.ReplacerVictim (some f)] })
    hfind hpg hpin hval
  rw [hdel]
  simp only [take_free_frame, hempty, List.nil_append, List.getLast?_singleton, hrp,
    List.dropLast_single, List.append_assoc]

theorem get_free_page_some_inv (dm : DiskManager D B) {s s1 : BufferPoolManager D B}
    {f : Nat} (hi : Inv s) (h : get_free_page dm s = some (some f, s1)) :
    InvHolding s1 f ∧ s1.pool_size = s.pool_size ∧
      (∀ q, s.page_table.find q = none → s1.page_table.find q = none) := by
  by_cases hempty : s.free_list = []
  · by_cases hc : s.replacer.ClockReplacer_frame_counter = 0
    · exfalso
      have hv := (ClockReplacer.Victim_none_iff s.replacer s.replacer).2 ⟨hc, rfl⟩
      unfold get_free_page at h
      have hE : s.free_list.isEmpty = true := by simp [hempty]
      simp [hE, hv] at h
    · obtain ⟨f', r', rp, pg, hv, hpg, hpin, hfind, hval, hrp, heq⟩ :=
        get_free_page_evict dm hi hempty hc
      rw [heq] at h
      injection h with h; injection h with h1 h2
      injection h1 with h1
      subst h1
      obtain ⟨-, hloop⟩ := ClockReplacer.Victim_some hv
      obtain ⟨v1, v2, v3, v4, v5, v6⟩ := ClockReplacer.victimLoop_props _ hloop
      obtain ⟨-, p2, p3, p4, p5⟩ := ClockReplacer.Pin_props hrp
      have hcore := Inv_delete_core hi hfind hpg rp (p2.trans v2)
        (by
          left
          rw [p3, v3, ← hi.clock_len]
          exact v1)
        (p5 (v6 hi.counter))
        (fun g hg => by rw [p4 g, if_neg hg, v5 g, if_neg hg])
        (if pg.is_dirty then
            dm.WritePage (dm.DeallocatePage s.disk pg.page_id) pg.page_id pg.data
          else dm.DeallocatePage s.disk pg.page_id)
        (s.events ++ [Event.ReplacerVictim (some f')]
            ++ [Event.DeallocatePage pg.page_id]
            ++ (if pg.is_dirty then [Event.WritePage pg.page_id pg.data] else [])
            ++ [Event.ReplacerPin f'])
      subst h2
      refine ⟨⟨by simp, ?_, ?_⟩, rfl, ?_⟩
      · simp [p4 f']
      · exact hcore.congr rfl rfl rfl rfl (by simp [hempty])
      · intro q hq
        simp only
        rw [PageTable.find_erase]
        split
        · rfl
        · exact hq
  · rw [get_free_page_nonempty dm hempty] at h
    obtain ⟨f', hr, hold, -⟩ := take_free_frame_inv hi h
    injection hr with hr
    subst hr
    obtain ⟨_, _, _, _, _, _, hs1⟩ := take_free_frame_eq h
    exact ⟨hold, by rw [hs1], by rw [hs1]; exact fun q hq => hq⟩

/-- Giving a page to the frame handed out by `get_free_page` restores the
invariant. -/
theorem Inv_assign {s1 : BufferPoolManager D B} {f : Nat} (hh : InvHolding s1 f)
    {p : Int} (hnone : s1.page_table.find p = none) (hval : p ≠ INVALID_PAGE_ID)
    (data : B) (d : D) (ev : List (Event B)) :
    Inv { s1 with
          pages := s1.pages.set f
            { data := data, page_id := p, pin_count := 1, is_dirty := false }
          page_table := s1.page_table.insert p f
          disk := d
          events := ev } := by
  obtain ⟨hnot, hpf, hi⟩ := hh
  have hfmem : f ∈ s1.free_list ++ [f] := by simp
  obtain ⟨pg0, hpg0, -⟩ := hi.free_pin f hfmem
  obtain ⟨hf, -⟩ := List.getElem?_eq_some.1 hpg0
  have hfind' : ∀ q g, (s1.page_table.insert p f).find q = some g →
      (q = p ∧ g = f) ∨ (q ≠ p ∧ s1.page_table.find q = some g) := by
    intro q g hq
    rw [PageTable.find_insert] at hq
    by_cases e : q = p
    · simp only [e, if_true] at hq
      injection hq with hq
      exact Or.inl ⟨e, hq.symm⟩
    · simp only [e, if_false] at hq
      exact Or.inr ⟨e, hq⟩
  have hgf : ∀ q g, s1.page_table.find q = some g → g ≠ f ∧ g ∉ s1.free_list := by
    intro q g hq
    have := hi.table_free q g hq
    simp only [List.mem_append, List.mem_singleton, not_or] at this
    exact ⟨this.2, this.1⟩
  refine
    { pages_len := by simpa using hi.pages_len
      clock_len := hi.clock_len
      hand := hi.hand
      counter := hi.counter
      table := ?_
      table_valid := ?_
      table_free := ?_
      free_nodup := ?_
      free_pin := ?_
      cover := ?_
      pin_nonneg := ?_
      flag := ?_ }
  · intro q g hq
    rcases hfind' q g hq with ⟨rfl, rfl⟩ | ⟨-, hq'⟩
    · exact ⟨{ data := data, page_id := q, pin_count := 1, is_dirty := false },
        by simp [hf], rfl⟩
    · obtain ⟨pgg, h1, h2⟩ := hi.table q g hq'
      have e := (hgf q g hq').1
      simp only at h1
      exact ⟨pgg, by simpa [List.getElem?_set_ne (fun e' => e e'.symm)] using h1, h2⟩
  · intro q g hq
    rcases hfind' q g hq with ⟨rfl, rfl⟩ | ⟨-, hq'⟩
    · exact hval
    · exact hi.table_valid q g hq'
  · intro q g hq
    rcases hfind' q g hq with ⟨rfl, rfl⟩ | ⟨-, hq'⟩
    · exact hnot
    · exact (hgf q g hq').2
  · have := hi.free_nodup
    simp only at this
    exact (List.nodup_append.1 this).1
  · intro g hg
    have e : g ≠ f := fun e => hnot (e ▸ hg)
    obtain ⟨pgg, h1, h2⟩ := hi.free_pin g (by simp [hg])
    simp only at h1
    exact ⟨pgg, by simpa [List.getElem?_set_ne (fun e' => e e'.symm)] using h1, h2⟩
  · intro g y hy
    rcases getElem?_set_some hy with ⟨rfl, rfl, -⟩ | ⟨hne, hy'⟩
    · right
      exact PageTable.find_insert_self _ _ _
    · rcases hi.cover g y hy' with h | h
      · simp only [List.mem_append, List.mem_singleton] at h
        rcases h with h | h
        · exact Or.inl h
        · exact absurd h hne
      · right
        simp only at h
        have hyp : y.page_id ≠ p := by
          intro e
          rw [e, hnone] at h
          simp at h
        simp only
        rw [PageTable.find_insert_ne _ _ hyp]
        exact h
  · intro g y hy
    rcases getElem?_set_some hy with ⟨rfl, rfl, -⟩ | ⟨-, hy'⟩
    · simp
    · exact hi.pin_nonneg g y hy'
  · intro g y hy hfr
    rcases getElem?_set_some hy with ⟨rfl, rfl, -⟩ | ⟨hne, hy'⟩
    · simp only at hpf ⊢
      rw [hpf]
      simp
    · exact hi.flag g y hy' (by simp [hfr, hne])

theorem Inv_fetch {dm : DiskManager D B} {zero : B} {s s' : BufferPoolManager D B}
    {p : Int} {r : Option Nat} (hi : Inv s) (hval : p ≠ INVALID_PAGE_ID)
    (h : FetchPageImpl dm zero s p = some (r, s')) : Inv s' := by
  unfold FetchPageImpl at h
  cases hfind : s.page_table.find p with
  | some f =>
    simp only [hfind] at h
    cases hpg : s.pages[f]? with
    | none => simp [hpg] at h
    | some pg =>
      simp only [hpg] at h
      have hres := hi.table_free p f hfind
      have hnn := hi.pin_nonneg f pg hpg
      have hfl := hi.flag f pg hpg hres
      by_cases c : pg.pin_count = 0
      · rw [if_pos c] at h
        cases hu : s.replacer.Pin f with
        | none => simp [hu] at h
        | some rp =>
          simp only [hu] at h
          injection h with h; injection h with _ h; subst h
          obtain ⟨-, u2, u3, u4, u5⟩ := ClockReplacer.Pin_props hu
          refine Inv_update_frame hi hpg ?_ ?_ hres u2 u3 (u5 hi.counter) ?_ ?_ _ _
          · rfl
          · show 0 ≤ pg.pin_count + 1
            omega
          · intro g hg; rw [u4 g, if_neg hg]
          · rw [u4 f]
            show (if f = f then some true else s.replacer.pinFlag f) = some false
              ↔ pg.pin_count + 1 = 0
            simp only [if_true]
            constructor
            · intro hh; simp at hh
            · intro hh; omega
      · rw [if_neg c] at h
        injection h with h; injection h with _ h; subst h
        refine Inv_update_frame hi hpg ?_ ?_ hres ?_ ?_ ?_ ?_ ?_ _ _
        · rfl
        · show 0 ≤ pg.pin_count + 1
          omega
        · rfl
        · rfl
        · exact hi.counter
        · intro _ _; rfl
        · show s.replacer.pinFlag f = some false ↔ pg.pin_count + 1 = 0
          constructor
          · intro hh; exact absurd (hfl.1 hh) c
          · intro hh; omega
  | none =>
    simp only [hfind] at h
    cases hg : get_free_page dm s with
    | none => simp [hg] at h
    | some x =>
      obtain ⟨o, s1⟩ := x
      cases o with
      | none =>
        simp only [hg] at h
        injection h with h; injection h with _ h; subst h
        obtain ⟨-, -, hs1⟩ := get_free_page_none dm hg
        rw [hs1]
        exact hi.congr rfl rfl rfl rfl rfl
      | some f =>
        simp only [hg] at h
        obtain ⟨hold, -, hkeep⟩ := get_free_page_some_inv dm hi hg
        cases hpg : s1.pages[f]? with
        | none => simp [hpg] at h
        | some pg =>
          simp only [hpg] at h
          injection h with h; injection h with _ h; subst h
          exact Inv_assign hold (hkeep p hfind) hval _ _ _

theorem Inv_new {dm : DiskManager D B} {zero : B} {s s' : BufferPoolManager D B}
    {r : Option (Int × Nat)} (hi : Inv s)
    (hfresh : ∀ f s1, get_free_page dm s = some (some f, s1) →
        (dm.AllocatePage s1.disk).1 ≠ INVALID_PAGE_ID ∧
        s1.page_table.find (dm.AllocatePage s1.disk).1 = none)
    (h : NewPageImpl dm zero s = some (r, s')) : Inv s' := by
  unfold NewPageImpl at h
  cases hg : get_free_page dm s with
  | none => simp [hg] at h
  | some x =>
    obtain ⟨o, s1⟩ := x
    cases o with
    | none =>
      simp only [hg] at h
      injection h with h; injection h with _ h; subst h
      obtain ⟨-, -, hs1⟩ := get_free_page_none dm hg
      rw [hs1]
      exact hi.congr rfl rfl rfl rfl rfl
    | some f =>
      simp only [hg] at h
      obtain ⟨hold, -, -⟩ := get_free_page_some_inv dm hi hg
      obtain ⟨hv, hn⟩ := hfresh f s1 hg
      cases hpg : s1.pages[f]? with
      | none => simp [hpg] at h
      | some pg =>
        simp only [hpg] at h
        injection h with h; injection h with _ h; subst h
        exact Inv_assign hold hn hv _ _ _

theorem Inv_init (pool_size : Nat) (disk : D) (zero : B) (ref0 : Bool) :
    Inv (BufferPoolManager.new pool_size disk zero ref0) := by
  refine
    { pages_len := by simp [BufferPoolManager.new]
      clock_len := by simp [BufferPoolManager.new, ClockReplacer.new]
      hand := by
        simp only [BufferPoolManager.new, ClockReplacer.new]
        omega
      counter := by
        simp [BufferPoolManager.new, ClockReplacer.new, ClockReplacer.CounterOk,
          List.countP_replicate]
      table := by intro p f h; simp [BufferPoolManager.new, PageTable.find] at h
      table_valid := by intro p f h; simp [BufferPoolManager.new, PageTable.find] at h
      table_free := by intro p f h; simp [BufferPoolManager.new, PageTable.find] at h
      free_nodup := by simpa [BufferPoolManager.new] using List.nodup_range pool_size
      free_pin := ?_
      cover := ?_
      pin_nonneg := ?_
      flag := ?_ }
  · intro f hf
    simp only [BufferPoolManager.new, List.mem_range] at hf
    exact ⟨⟨zero, INVALID_PAGE_ID, 0, false⟩, by simp [BufferPoolManager.new, hf], rfl⟩
  · intro f pg h
    left
    simp only [BufferPoolManager.new, List.getElem?_replicate] at h ⊢
    split at h
    · simpa using ‹f < pool_size›
    · simp at h
  · intro f pg h
    simp only [BufferPoolManager.new, List.getElem?_replicate] at h
    split at h
    · injection h with h; subst h; exact le_refl _
    · simp at h
  · intro f pg h hfr
    exfalso
    simp only [BufferPoolManager.new, List.getElem?_replicate, List.mem_range] at h hfr
    split at h
    · exact hfr ‹f < pool_size›
    · simp at h

/-- Every reachable pool state satisfies the structural invariant. -/
theorem Reachable.inv {dm : DiskManager D B} {zero : B} {s : BufferPoolManager D B}
    (h : Reachable dm zero s) : Inv s := by
  induction h with
  | init n d r => exact Inv_init n d zero r
  | fetch p _ hv hf ih => exact Inv_fetch ih hv hf
  | newPage _ hfresh hn ih => exact Inv_new ih hfresh hn
  | unpin p d _ hu ih => exact Inv_unpin ih hu
  | flush p _ hf ih => exact Inv_flush ih hf
  | flushAll _ hf ih => exact Inv_flushAll ih hf
  | delete p _ hd ih => exact Inv_delete ih hd
  | write f data _ hp ih => exact Inv_writeData ih f data hp

/-- `get_free_page` hands out a frame whenever the free list is not empty or
some resident page is unpinned. -/
theorem get_free_page_total (dm : DiskManager D B) {s : BufferPoolManager D B} (hi : Inv s)
    (hacq : s.free_list ≠ [] ∨
      ∃ (q : Int) (g : Nat) (pg : Page B),
        s.page_table.find q = some g ∧ s.pages[g]? = some pg ∧ pg.pin_count = 0) :
    ∃ f s1, get_free_page dm s = some (some f, s1) := by
  by_cases hempty : s.free_list = []
  · rcases hacq with h | ⟨q, g, pg, hq, hpg, hpin⟩
    · exact absurd hempty h
    · have hfl := (hi.flag g pg hpg (by rw [hempty]; simp)).2 hpin
      have hc := ClockReplacer.counter_pos_of_unpinned hi.counter hfl
      obtain ⟨f, r', rp, pg', -, -, -, -, -, -, heq⟩ := get_free_page_evict dm hi hempty hc
      exact ⟨f, _, heq⟩
  · rw [get_free_page_nonempty dm hempty]
    unfold take_free_frame
    obtain ⟨f, hf⟩ : ∃ f, s.free_list.getLast? = some f := by
      cases hl : s.free_list.getLast? with
      | none => exact absurd (List.getLast?_eq_none_iff.1 hl) hempty
      | some f => exact ⟨f, rfl⟩
    have hmem := List.mem_of_getLast?_eq_some hf
    obtain ⟨pg, hpg, -⟩ := hi.free_pin f hmem
    obtain ⟨hlt, -⟩ := List.getElem?_eq_some.1 hpg
    obtain ⟨rp, hrp⟩ := ClockReplacer.Pin_isSome s.replacer (f := f)
      (by rw [hi.clock_len, ← hi.pages_len]; exact hlt)
    simp only [hf, hrp]
    exact ⟨_, _, rfl⟩

/-- A run of admissible calls from a reachable state ends in a reachable
state. -/
theorem Reachable.run {dm : DiskManager D B} {zero : B} (ops : List Op) :
    ∀ {s s' : BufferPoolManager D B}, Reachable dm zero s →
      BufferPoolManager.run dm zero s ops = some s' → Reachable dm zero s' := by
  induction ops with
  | nil =>
    intro s s' hr h
    simp only [BufferPoolManager.run] at h
    injection h with h; subst h; exact hr
  | cons op ops ih =>
    intro s s' hr h
    simp only [BufferPoolManager.run] at h
    by_cases hadm : op.admissible dm s = true
    · rw [if_pos hadm] at h
      cases hap : op.apply dm zero s with
      | none => simp [hap] at h
      | some s1 =>
        simp only [hap] at h
        refine ih ?_ h
        cases op with
        | fetch p =>
          simp only [Op.apply, Option.map_eq_some'] at hap
          obtain ⟨⟨r, s2⟩, h1, h2⟩ := hap
          simp only at h2; subst h2
          exact Reachable.fetch p hr (by simpa [Op.admissible] using hadm) h1
        | newPage =>
          simp only [Op.apply, Option.map_eq_some'] at hap
          obtain ⟨⟨r, s2⟩, h1, h2⟩ := hap
          simp only at h2; subst h2
          refine Reachable.newPage hr ?_ h1
          intro f s3 hg
          simpa [Op.admissible, hg] using hadm
        | unpin p d =>
          simp only [Op.apply, Option.map_eq_some'] at hap
          obtain ⟨⟨r, s2⟩, h1, h2⟩ := hap
          simp only at h2; subst h2
          exact Reachable.unpin p d hr h1
        | flush p =>
          simp only [Op.apply, Option.map_eq_some'] at hap
          obtain ⟨⟨r, s2⟩, h1, h2⟩ := hap
          simp only at h2; subst h2
          exact Reachable.flush p hr h1
        | flushAll =>
          simp only [Op.apply] at hap
          exact Reachable.flushAll hr hap
        | delete p =>
          simp only [Op.apply, Option.map_eq_some'] at hap
          obtain ⟨⟨r, s2⟩, h1, h2⟩ := hap
          simp only at h2; subst h2
          exact Reachable.delete p hr h1
    · rw [if_neg hadm] at h
      simp at h

/-! ## Claims about the buffer pool -/

/-- C1 (Fetch postcondition).  In every reachable pool state and for every
page id `p`: if `p` is resident in frame `f`, `FetchPageImpl` returns `f`,
raises that frame's pin count by exactly one and leaves its bytes, page id and
dirty flag, every other frame, the page table, the free list and the disk
alone, calling `replacer.Pin(f)` exactly when the pin count was zero; if `p`
is not resident and a frame can be acquired (the free list is not empty or
some resident page is unpinned), `FetchPageImpl` returns a frame whose page id
is `p`, pin count 1, dirty flag false and bytes what `ReadPage(p)` delivers
into the zeroed buffer, the read being the last call made, and the page
table maps `p` to that frame. -/
theorem C1_fetch_postcondition (dm : DiskManager D B) (zero : B)
    {s : BufferPoolManager D B} (hr : Reachable dm zero s) (p : Int) :
    (∀ f, s.page_table.find p = some f →
      ∃ (pg : Page B) (s' : BufferPoolManager D B),
        s.pages[f]? = some pg ∧
        FetchPageImpl dm zero s p = some (some f, s') ∧
        s'.pages = s.pages.set f { pg with pin_count := pg.pin_count + 1 } ∧
        s'.page_table = s.page_table ∧ s'.free_list = s.free_list ∧ s'.disk = s.disk ∧
        (pg.pin_count = 0 →
          s.replacer.Pin f = some s'.replacer ∧
            s'.events = s.events ++ [Event.ReplacerPin f]) ∧
        (pg.pin_count ≠ 0 → s'.replacer = s.replacer ∧ s'.events = s.events)) ∧
    (s.page_table.find p = none →
      (s.free_list ≠ [] ∨
        ∃ (q : Int) (g : Nat) (pg : Page B),
          s.page_table.find q = some g ∧ s.pages[g]? = some pg ∧ pg.pin_count = 0) →
      ∃ (f : Nat) (s' : BufferPoolManager D B),
        FetchPageImpl dm zero s p = some (some f, s') ∧
        s'.pages[f]? = some
          { data := dm.ReadPage s'.disk p zero, page_id := p, pin_count := 1,
            is_dirty := false } ∧
        s'.events.getLast? = some (Event.ReadPage p) ∧
        s'.page_table.find p = some f) := by
  have hi := hr.inv
  constructor
  · intro f hfind
    obtain ⟨pg, hpg, -⟩ := hi.table p f hfind
    obtain ⟨hlt, -⟩ := List.getElem?_eq_some.1 hpg
    by_cases c : pg.pin_count = 0
    · obtain ⟨rp, hrp⟩ := ClockReplacer.Pin_isSome s.replacer (f := f)
        (by rw [hi.clock_len, ← hi.pages_len]; exact hlt)
      refine ⟨pg,
        { s with
          replacer := rp
          events := s.events ++ [Event.ReplacerPin f]
          pages := s.pages.set f { pg with pin_count := pg.pin_count + 1 } },
        hpg, ?_, rfl, rfl, rfl, rfl, ?_, ?_⟩
      · unfold FetchPageImpl
        simp only [hfind, hpg, c, if_true, hrp]
      · intro _; exact ⟨hrp, rfl⟩
      · intro h; exact absurd c h
    · refine ⟨pg,
        { s with pages := s.pages.set f { pg with pin_count := pg.pin_count + 1 } },
        hpg, ?_, rfl, rfl, rfl, rfl, ?_, ?_⟩
      · unfold FetchPageImpl
        simp only [hfind, hpg, c, if_false]
      · intro h; exact absurd h c
      · intro _; exact ⟨rfl, rfl⟩
  · intro hfind hacq
    obtain ⟨f, s1, hg⟩ := get_free_page_total dm hi hacq
    obtain ⟨⟨-, -, hinv⟩, -, -⟩ := get_free_page_some_inv dm hi hg
    obtain ⟨pg, hpg, -⟩ := hinv.free_pin f (by simp)
    simp only at hpg
    obtain ⟨hlt, -⟩ := List.getElem?_eq_some.1 hpg
    refine ⟨f,
      { s1 with
        pages := s1.pages.set f
          { data := dm.ReadPage s1.disk p zero, page_id := p, pin_count := 1,
            is_dirty := false }
        events := s1.events ++ [Event.ReadPage p]
        page_table := s1.page_table.insert p f }, ?_, ?_, ?_, ?_⟩
    · unfold FetchPageImpl
      simp only [hfind, hg, hpg]
    · simp [hlt]
    · simp
    · exact PageTable.find_insert_self _ _ _

/-- C1, at a concrete input: a fresh pool of two frames fetches page 7 into
frame 1. -/
theorem C1_fetch_postcondition_witness :
    Reachable simpleDisk 0 (BufferPoolManager.new 2 (⟨0, []⟩ : SimpleDisk) 0 false) ∧
    ∃ (f : Nat) (s' : BufferPoolManager SimpleDisk Nat),
      FetchPageImpl simpleDisk 0 (BufferPoolManager.new 2 ⟨0, []⟩ 0 false) 7
        = some (some f, s') ∧
      s'.pages[f]? = some
        { data := simpleDisk.ReadPage s'.disk 7 0, page_id := 7, pin_count := 1,
          is_dirty := false } ∧
      s'.events.getLast? = some (Event.ReadPage 7) ∧
      s'.page_table.find 7 = some f :=
  ⟨Reachable.init 2 ⟨0, []⟩ false,
    (C1_fetch_postcondition simpleDisk 0 (Reachable.init 2 ⟨0, []⟩ false) 7).2
      rfl (Or.inl (by decide))⟩

theorem evictionScenario_reachable : Reachable simpleDisk 0 evictionScenario :=
  Reachable.run [Op.newPage, Op.newPage, Op.newPage, Op.unpin 0 true]
    (Reachable.init 3 (⟨0, []⟩ : SimpleDisk) false) (by decide)

/-- C2 (dirty write-back on eviction).  In a reachable state with an empty
free list, let `f` be the victim the replacer picks and let `f` host a dirty
page `pg`.  Then `get_free_page` hands out `f` after exactly the calls
`Victim`, `DeallocatePage(q)`, `WritePage(q, bytes)`, `Pin(f)`, where `q` and
`bytes` are the page id and bytes the frame held; at that point the frame
still holds those bytes and has not been given to the new page.
`NewPageImpl` and a missing `FetchPageImpl` continue from that state: they
re-assign page id, pin count and contents of `f` only afterwards. -/
theorem C2_dirty_write_back_on_eviction (dm : DiskManager D B) (zero : B)
    {s : BufferPoolManager D B} (hr : Reachable dm zero s) (hempty : s.free_list = [])
    (f : Nat) (r' : ClockReplacer) (pg : Page B)
    (hv : s.replacer.Victim = some (some f, r')) (hpg : s.pages[f]? = some pg)
    (hd : pg.is_dirty = true) :
    ∃ s1 : BufferPoolManager D B,
      get_free_page dm s = some (some f, s1) ∧
      s1.events = s.events ++ [Event.ReplacerVictim (some f),
        Event.DeallocatePage pg.page_id, Event.WritePage pg.page_id pg.data,
        Event.ReplacerPin f] ∧
      s1.disk = dm.WritePage (dm.DeallocatePage s.disk pg.page_id) pg.page_id pg.data ∧
      s1.pages[f]? = some
        { pg with page_id := INVALID_PAGE_ID, pin_count := 0, is_dirty := false } ∧
      NewPageImpl dm zero s = some (some ((dm.AllocatePage s1.disk).1, f),
        { s1 with
          disk := (dm.AllocatePage s1.disk).2
          events := s1.events ++ [Event.AllocatePage (dm.AllocatePage s1.disk).1]
          pages := s1.pages.set f
            { data := zero, page_id := (dm.AllocatePage s1.disk).1, pin_count := 1,
              is_dirty := false }
          page_table := s1.page_table.insert (dm.AllocatePage s1.disk).1 f }) ∧
      ∀ p, s.page_table.find p = none →
        FetchPageImpl dm zero s p = some (some f,
          { s1 with
            pages := s1.pages.set f
              { data := dm.ReadPage s1.disk p zero, page_id := p, pin_count := 1,
                is_dirty := false }
            events := s1.events ++ [Event.ReadPage p]
            page_table := s1.page_table.insert p f }) := by
  have hi := hr.inv
  obtain ⟨hc, -⟩ := ClockReplacer.Victim_some hv
  obtain ⟨f', r'', rp, pg', hv', hpg', -, -, -, -, heq⟩ := get_free_page_evict dm hi hempty hc
  rw [hv] at hv'
  injection hv' with hv'
  injection hv' with h1 h2
  injection h1 with h1
  subst h1
  rw [hpg] at hpg'
  injection hpg' with hpg'
  subst hpg'
  obtain ⟨hlt, -⟩ := List.getElem?_eq_some.1 hpg
  refine ⟨_, heq, ?_, ?_, ?_, ?_, ?_⟩
  · simp [hd]
  · simp [hd]
  · simp [hlt]
  · unfold NewPageImpl
    simp only [heq, List.getElem?_set_self hlt]
  · intro p hp
    unfold FetchPageImpl
    simp only [hp, heq, List.getElem?_set_self hlt]

/-- C2, at the scenario of the spec: pool of three frames, `New` gives pages
0, 1, 2, `Unpin(0, true)`; the next `New` succeeds with page 3 in the frame
of page 0 and `WritePage(0, _)` has been observed. -/
theorem C2_dirty_write_back_on_eviction_witness :
    Reachable simpleDisk 0 evictionScenario ∧ evictionScenario.free_list = [] ∧
    (∃ s1 : BufferPoolManager SimpleDisk Nat,
      get_free_page simpleDisk evictionScenario = some (some 2, s1) ∧
      s1.events = evictionScenario.events ++ [Event.ReplacerVictim (some 2),
        Event.DeallocatePage 0, Event.WritePage 0 0, Event.ReplacerPin 2]) ∧
    (NewPageImpl simpleDisk 0 evictionScenario).map (fun x => x.1) = some (some (3, 2)) := by
  refine ⟨evictionScenario_reachable, by decide, ?_, by decide⟩
  obtain ⟨s1, h1, h2, -⟩ :=
    C2_dirty_write_back_on_eviction simpleDisk 0 evictionScenario_reachable (by decide)
      2 ⟨[⟨true, true⟩, ⟨true, true⟩, ⟨true, true⟩], 0, 2⟩
      ⟨0, 0, 0, true⟩ (by decide) (by decide) rfl
  exact ⟨s1, h1, h2⟩

/-- With an empty free list and a zero counter `get_free_page` returns `-1`
and changes nothing but the event list. -/
theorem get_free_page_exhausted (dm : DiskManager D B) {s : BufferPoolManager D B}
    (hempty : s.free_list = []) (hc : s.replacer.ClockReplacer_frame_counter = 0) :
    get_free_page dm s
      = some (none, { s with events := s.events ++ [Event.ReplacerVictim none] }) := by
  have hv := (ClockReplacer.Victim_none_iff s.replacer s.replacer).2 ⟨hc, rfl⟩
  have hE : s.free_list.isEmpty = true := by simp [hempty]
  unfold get_free_page
  simp only [hE, if_true, hv]

theorem counter_zero_of_exhausted {s : BufferPoolManager D B} (hi : Inv s)
    (hex : Exhausted s) : s.replacer.ClockReplacer_frame_counter = 0 := by
  by_contra hc
  obtain ⟨j, it, hit, hp⟩ := ClockReplacer.exists_unpinned_of_counter hi.counter hc
  obtain ⟨hj, -⟩ := List.getElem?_eq_some.1 hit
  have hjp : j < s.pages.length := by rw [hi.pages_len, ← hi.clock_len]; exact hj
  have hpg : s.pages[j]? = some s.pages[j] := List.getElem?_eq_getElem hjp
  have hnf : j ∉ s.free_list := by rw [hex.1]; simp
  have hflag : s.replacer.pinFlag j = some false := by simp [ClockReplacer.pinFlag, hit, hp]
  have hpin := (hi.flag j _ hpg hnf).1 hflag
  rcases hi.cover j _ hpg with h | h
  · exact hnf h
  · have := hex.2 _ _ _ h hpg
    omega

theorem acquirable_of_not_exhausted {s : BufferPoolManager D B} (hi : Inv s)
    (hex : ¬ Exhausted s) :
    s.free_list ≠ [] ∨
      ∃ (q : Int) (g : Nat) (pg : Page B),
        s.page_table.find q = some g ∧ s.pages[g]? = some pg ∧ pg.pin_count = 0 := by
  by_cases hempty : s.free_list = []
  · right
    by_contra hno
    apply hex
    refine ⟨hempty, ?_⟩
    intro q g pg hq hpg
    have hnn := hi.pin_nonneg g pg hpg
    by_contra hle
    exact hno ⟨q, g, pg, hq, hpg, by omega⟩
  · exact Or.inl hempty

/-- On a pool whose every frame is pinned in the replacer and whose frames off
the free list all have pin count 1, as many `New` calls succeed as there are
free frames, and they leave the free list empty. -/
theorem newPages_fill (dm : DiskManager D B) (zero : B) (k : Nat) :
    ∀ s : BufferPoolManager D B, s.free_list.length = k →
      (∀ f ∈ s.free_list, f < s.pages.length ∧ f < s.replacer.clock_vector.length) →
      s.replacer.CounterOk → s.replacer.ClockReplacer_frame_counter = 0 →
      (∀ (g : Nat) (pg : Page B), s.pages[g]? = some pg → g ∉ s.free_list →
        pg.pin_count = 1) →
      ∃ rs s', newPages dm zero k s = some (rs, s') ∧ rs.length = k ∧
        (∀ r ∈ rs, r ≠ none) ∧ s'.free_list = [] ∧
        s'.replacer.ClockReplacer_frame_counter = 0 ∧ s'.pages.length = s.pages.length ∧
        (∀ pg ∈ s'.pages, pg.pin_count = 1) := by
  induction k with
  | zero =>
    intro s hlen _ _ hc hpins
    have hempty : s.free_list = [] := List.length_eq_zero.1 hlen
    refine ⟨[], s, rfl, rfl, by simp, hempty, hc, rfl, ?_⟩
    intro pg hpg
    obtain ⟨g, hg, rfl⟩ := List.getElem_of_mem hpg
    exact hpins g _ (List.getElem?_eq_getElem hg) (by rw [hempty]; simp)
  | succ k ih =>
    intro s hlen hbound hok hc hpins
    have hne : s.free_list ≠ [] := by
      intro h; rw [h] at hlen; simp at hlen
    obtain ⟨f, hf⟩ : ∃ f, s.free_list.getLast? = some f := by
      cases hl : s.free_list.getLast? with
      | none => exact absurd (List.getLast?_eq_none_iff.1 hl) hne
      | some f => exact ⟨f, rfl⟩
    obtain ⟨ys, hys⟩ := List.getLast?_eq_some_iff.1 hf
    have hmem : f ∈ s.free_list := by rw [hys]; simp
    obtain ⟨hfp, hfc⟩ := hbound f hmem
    obtain ⟨rp, hrp⟩ := ClockReplacer.Pin_isSome s.replacer hfc
    obtain ⟨-, p2, p3, p4, p5⟩ := ClockReplacer.Pin_props hrp
    have hrc : rp.ClockReplacer_frame_counter = 0 := by
      unfold ClockReplacer.Pin at hrp
      rw [List.getElem?_eq_getElem hfc] at hrp
      injection hrp with hrp
      rw [← hrp]
      simp only [hc]
      split <;> rfl
    have hget : get_free_page dm s = some (some f,
        { s with free_list := ys, replacer := rp,
                 events := s.events ++ [Event.ReplacerPin f] }) := by
      rw [get_free_page_nonempty dm hne]
      unfold take_free_frame
      simp only [hf, hrp]
      rw [hys]
      simp
    have hnew : ∃ s2 : BufferPoolManager D B,
        NewPageImpl dm zero s = some (some ((dm.AllocatePage s.disk).1, f), s2) ∧
        s2.free_list = ys ∧ s2.replacer = rp ∧
        s2.pages = s.pages.set f
          { data := zero, page_id := (dm.AllocatePage s.disk).1, pin_count := 1,
            is_dirty := false } := by
      refine ⟨{ s with
          free_list := ys
          replacer := rp
          disk := (dm.AllocatePage s.disk).2
          events := s.events ++ [Event.ReplacerPin f]
            ++ [Event.AllocatePage (dm.AllocatePage s.disk).1]
          pages := s.pages.set f
            { data := zero, page_id := (dm.AllocatePage s.disk).1, pin_count := 1,
              is_dirty := false }
          page_table := s.page_table.insert (dm.AllocatePage s.disk).1 f }, ?_, rfl, rfl, rfl⟩
      unfold NewPageImpl
      simp only [hget, List.getElem?_eq_getElem hfp]
    obtain ⟨s2, hnew, e1, e2, e3⟩ := hnew
    have hyslen : ys.length = k := by
      have := hlen
      rw [hys] at this
      simpa using this
    obtain ⟨rs, s', h1, h2, h3, h4, h5, h6, h7⟩ := ih s2 (by rw [e1]; exact hyslen)
      (by
        intro g hg
        rw [e1] at hg
        have := hbound g (by rw [hys]; simp [hg])
        rw [e2, e3]
        simpa [p2] using this)
      (by rw [e2]; exact p5 hok) (by rw [e2]; exact hrc)
      (by
        intro g pg hpg hg
        rw [e3] at hpg
        rw [e1] at hg
        rcases getElem?_set_some hpg with ⟨-, rfl, -⟩ | ⟨hne', hpg'⟩
        · rfl
        · exact hpins g pg hpg' (by rw [hys]; simp [hg, hne']))
    refine ⟨some ((dm.AllocatePage s.disk).1, f) :: rs, s', ?_, by simp [h2], ?_, h4, h5,
      ?_, h7⟩
    · simp only [newPages, hnew, h1]
    · intro r hr
      simp only [List.mem_cons] at hr
      rcases hr with rfl | hr
      · simp
      · exact h3 r hr
    · rw [h6, e3]; simp

theorem exhaustedScenario_reachable : Reachable simpleDisk 0 exhaustedScenario :=
  Reachable.run [Op.newPage, Op.newPage, Op.newPage]
    (Reachable.init 3 (⟨0, []⟩ : SimpleDisk) false) (by decide)

theorem exhaustedScenario_exhausted : Exhausted exhaustedScenario := by
  refine ⟨by decide, ?_⟩
  intro q g pg _ hpg
  have hall : ∀ pg ∈ exhaustedScenario.pages, 0 < pg.pin_count := by decide
  obtain ⟨hg, rfl⟩ := List.getElem?_eq_some.1 hpg
  exact hall _ (List.getElem_mem _)

/-- C3 (frame exhaustion).  In every reachable pool state, `NewPageImpl` and
`FetchPageImpl` of a page that is not resident return null exactly when the
free list is empty and every resident page has a pin count above zero
(`Exhausted`); then the pool is left as it was (page table, free list, frames,
replacer and disk; only the ghost event list records the call of `Victim`),
so no page id is allocated; otherwise they return a frame.  On a fresh pool of
`n` frames, `n` consecutive `New` calls succeed and the next one returns null
with all `n` frames still pinned. -/
theorem C3_frame_exhaustion (dm : DiskManager D B) (zero : B)
    {s : BufferPoolManager D B} (hr : Reachable dm zero s) :
    (Exhausted s ↔ ∃ s', NewPageImpl dm zero s = some (none, s')) ∧
    (∀ s', NewPageImpl dm zero s = some (none, s') →
      s' = { s with events := s.events ++ [Event.ReplacerVictim none] }) ∧
    (¬ Exhausted s → ∃ pid f s', NewPageImpl dm zero s = some (some (pid, f), s')) ∧
    (∀ p, s.page_table.find p = none →
      (Exhausted s ↔ ∃ s', FetchPageImpl dm zero s p = some (none, s')) ∧
      (∀ s', FetchPageImpl dm zero s p = some (none, s') →
        s' = { s with events := s.events ++ [Event.ReplacerVictim none] }) ∧
      (¬ Exhausted s → ∃ f s', FetchPageImpl dm zero s p = some (some f, s'))) ∧
    (∀ (n : Nat) (disk : D) (ref0 : Bool),
      ∃ rs s1, newPages dm zero n (BufferPoolManager.new n disk zero ref0) = some (rs, s1) ∧
        rs.length = n ∧ (∀ r ∈ rs, r ≠ none) ∧
        NewPageImpl dm zero s1
          = some (none, { s1 with events := s1.events ++ [Event.ReplacerVictim none] }) ∧
        s1.pages.length = n ∧ ∀ pg ∈ s1.pages, pg.pin_count = 1) := by
  have hi := hr.inv
  have hnewEx : Exhausted s → NewPageImpl dm zero s
      = some (none, { s with events := s.events ++ [Event.ReplacerVictim none] }) := by
    intro hex
    unfold NewPageImpl
    rw [get_free_page_exhausted dm hex.1 (counter_zero_of_exhausted hi hex)]
  have hnewOk : ¬ Exhausted s →
      ∃ pid f s', NewPageImpl dm zero s = some (some (pid, f), s') := by
    intro hex
    obtain ⟨f, s1, hg⟩ := get_free_page_total dm hi (acquirable_of_not_exhausted hi hex)
    obtain ⟨⟨-, -, hinv⟩, -, -⟩ := get_free_page_some_inv dm hi hg
    obtain ⟨pg, hpg, -⟩ := hinv.free_pin f (by simp)
    simp only at hpg
    refine ⟨(dm.AllocatePage s1.disk).1, f, ?_⟩
    unfold NewPageImpl
    simp only [hg, hpg]
    exact ⟨_, rfl⟩
  have hfetchEx : ∀ p, s.page_table.find p = none → Exhausted s →
      FetchPageImpl dm zero s p
        = some (none, { s with events := s.events ++ [Event.ReplacerVictim none] }) := by
    intro p hp hex
    unfold FetchPageImpl
    simp only [hp]
    rw [get_free_page_exhausted dm hex.1 (counter_zero_of_exhausted hi hex)]
  have hfetchOk : ∀ p, s.page_table.find p = none → ¬ Exhausted s →
      ∃ f s', FetchPageImpl dm zero s p = some (some f, s') := by
    intro p hp hex
    obtain ⟨f, s1, hg⟩ := get_free_page_total dm hi (acquirable_of_not_exhausted hi hex)
    obtain ⟨⟨-, -, hinv⟩, -, -⟩ := get_free_page_some_inv dm hi hg
    obtain ⟨pg, hpg, -⟩ := hinv.free_pin f (by simp)
    simp only at hpg
    refine ⟨f, ?_⟩
    unfold FetchPageImpl
    simp only [hp, hg, hpg]
    exact ⟨_, rfl⟩
  refine ⟨⟨fun hex => ⟨_, hnewEx hex⟩, ?_⟩, ?_, hnewOk, ?_, ?_⟩
  · rintro ⟨s', hs'⟩
    by_contra hex
    obtain ⟨pid, f, s'', h⟩ := hnewOk hex
    rw [h] at hs'
    simp at hs'
  · intro s' hs'
    by_cases hex : Exhausted s
    · rw [hnewEx hex] at hs'
      injection hs' with hs'
      injection hs' with _ hs'
      exact hs'.symm
    · obtain ⟨pid, f, s'', h⟩ := hnewOk hex
      rw [h] at hs'
      simp at hs'
  · intro p hp
    refine ⟨⟨fun hex => ⟨_, hfetchEx p hp hex⟩, ?_⟩, ?_, hfetchOk p hp⟩
    · rintro ⟨s', hs'⟩
      by_contra hex
      obtain ⟨f, s'', h⟩ := hfetchOk p hp hex
      rw [h] at hs'
      simp at hs'
    · intro s' hs'
      by_cases hex : Exhausted s
      · rw [hfetchEx p hp hex] at hs'
        injection hs' with hs'
        injection hs' with _ hs'
        exact hs'.symm
      · obtain ⟨f, s'', h⟩ := hfetchOk p hp hex
        rw [h] at hs'
        simp at hs'
  · intro n disk ref0
    obtain ⟨rs, s1, h1, h2, h3, h4, h5, h6, h7⟩ :=
      newPages_fill dm zero n (BufferPoolManager.new n disk zero ref0)
        (by simp [BufferPoolManager.new])
        (by
          intro f hf
          simp only [BufferPoolManager.new, List.mem_range] at hf
          simp [BufferPoolManager.new, ClockReplacer.new, hf])
        (Inv_init n disk zero ref0).counter rfl
        (by
          intro g pg hpg hg
          exfalso
          obtain ⟨hlt, -⟩ := List.getElem?_eq_some.1 hpg
          simp only [BufferPoolManager.new, List.length_replicate, List.mem_range] at hlt hg
          exact hg hlt)
    refine ⟨rs, s1, h1, h2, h3, ?_, ?_, h7⟩
    · unfold NewPageImpl
      rw [get_free_page_exhausted dm h4 h5]
    · rw [h6]; simp [BufferPoolManager.new]

/-- C3, at scenario 1 of the spec: after three `New` calls on a pool of three
frames the fourth returns null and changes nothing. -/
theorem C3_frame_exhaustion_witness :
    Reachable simpleDisk 0 exhaustedScenario ∧ Exhausted exhaustedScenario ∧
    NewPageImpl simpleDisk 0 exhaustedScenario
      = some (none,
          { exhaustedScenario with
            events := exhaustedScenario.events ++ [Event.ReplacerVictim none] }) := by
  refine ⟨exhaustedScenario_reachable, exhaustedScenario_exhausted, ?_⟩
  obtain ⟨s', hs'⟩ :=
    (C3_frame_exhaustion simpleDisk 0 exhaustedScenario_reachable).1.1
      exhaustedScenario_exhausted
  rw [hs', (C3_frame_exhaustion simpleDisk 0 exhaustedScenario_reachable).2.1 s' hs']

/-! ### Fetch hits and unpins of a resident page -/

theorem fetch_hit (dm : DiskManager D B) (zero : B) {s : BufferPoolManager D B}
    (hi : Inv s) {p : Int} {f : Nat} {pg : Page B}
    (hfind : s.page_table.find p = some f) (hpg : s.pages[f]? = some pg) :
    ∃ s', FetchPageImpl dm zero s p = some (some f, s') ∧ Inv s' ∧
      s'.page_table = s.page_table ∧
      s'.pages = s.pages.set f { pg with pin_count := pg.pin_count + 1 } := by
  obtain ⟨hlt, -⟩ := List.getElem?_eq_some.1 hpg
  have hval := hi.table_valid p f hfind
  by_cases c : pg.pin_count = 0
  · obtain ⟨rp, hrp⟩ := ClockReplacer.Pin_isSome s.replacer (f := f)
      (by rw [hi.clock_len, ← hi.pages_len]; exact hlt)
    have heq : FetchPageImpl dm zero s p = some (some f,
        { s with
          replacer := rp
          events := s.events ++ [Event.ReplacerPin f]
          pages := s.pages.set f { pg with pin_count := pg.pin_count + 1 } }) := by
      unfold FetchPageImpl
      simp only [hfind, hpg, c, if_true, hrp]
    exact ⟨_, heq, Inv_fetch hi hval heq, rfl, rfl⟩
  · have heq : FetchPageImpl dm zero s p = some (some f,
        { s with pages := s.pages.set f { pg with pin_count := pg.pin_count + 1 } }) := by
      unfold FetchPageImpl
      simp only [hfind, hpg, c, if_false]
    exact ⟨_, heq, Inv_fetch hi hval heq, rfl, rfl⟩

theorem unpin_pinned {s : BufferPoolManager D B} (hi : Inv s) {p : Int} {f : Nat}
    {pg : Page B} (d : Bool)
    (hfind : s.page_table.find p = some f) (hpg : s.pages[f]? = some pg)
    (hpos : 0 < pg.pin_count) :
    ∃ s', UnpinPageImpl s p d = some (true, s') ∧ Inv s' ∧
      s'.page_table = s.page_table ∧ s'.free_list = s.free_list ∧ s'.disk = s.disk ∧
      s'.pages = s.pages.set f
        { pg with is_dirty := d || pg.is_dirty, pin_count := pg.pin_count - 1 } ∧
      (pg.pin_count = 1 →
        s.replacer.Unpin f = some s'.replacer ∧
          s'.events = s.events ++ [Event.ReplacerUnpin f]) ∧
      (pg.pin_count ≠ 1 → s'.replacer = s.replacer ∧ s'.events = s.events) := by
  obtain ⟨hlt, -⟩ := List.getElem?_eq_some.1 hpg
  have c1 : ¬ pg.pin_count ≤ 0 := by omega
  by_cases c : pg.pin_count - 1 = 0
  · obtain ⟨rp, hrp⟩ := ClockReplacer.Unpin_isSome s.replacer (f := f)
      (by rw [hi.clock_len, ← hi.pages_len]; exact hlt)
    have heq : UnpinPageImpl s p d = some (true,
        { s with
          pages := s.pages.set f
            { pg with is_dirty := d || pg.is_dirty, pin_count := pg.pin_count - 1 }
          replacer := rp
          events := s.events ++ [Event.ReplacerUnpin f] }) := by
      unfold UnpinPageImpl
      simp only [hfind, hpg, c1, c, if_true, if_false, hrp]
    refine ⟨_, heq, Inv_unpin hi heq, rfl, rfl, rfl, rfl, ?_, ?_⟩
    · intro _; exact ⟨hrp, rfl⟩
    · intro h; exact absurd (by omega) h
  · have heq : UnpinPageImpl s p d = some (true,
        { s with
          pages := s.pages.set f
            { pg with is_dirty := d || pg.is_dirty, pin_count := pg.pin_count - 1 } }) := by
      unfold UnpinPageImpl
      simp only [hfind, hpg, c1, c, if_false]
    refine ⟨_, heq, Inv_unpin hi heq, rfl, rfl, rfl, rfl, ?_, ?_⟩
    · intro h; exact absurd (by omega) c
    · intro _; exact ⟨rfl, rfl⟩

theorem unpin_unpinned {s : BufferPoolManager D B} {p : Int} {f : Nat}
    {pg : Page B} (d : Bool)
    (hfind : s.page_table.find p = some f) (hpg : s.pages[f]? = some pg)
    (hle : pg.pin_count ≤ 0) :
    UnpinPageImpl s p d = some (false,
      { s with pages := s.pages.set f { pg with is_dirty := d || pg.is_dirty } }) := by
  unfold UnpinPageImpl
  simp only [hfind, hpg, hle, if_true]

theorem fetchTimes_hit (dm : DiskManager D B) (zero : B) {p : Int} {f : Nat} (k : Nat) :
    ∀ {s : BufferPoolManager D B} {pg : Page B}, Inv s →
      s.page_table.find p = some f → s.pages[f]? = some pg →
      ∃ s' pg', fetchTimes dm zero p k s = some s' ∧ Inv s' ∧
        s'.page_table.find p = some f ∧ s'.pages[f]? = some pg' ∧
        pg'.pin_count = pg.pin_count + k := by
  induction k with
  | zero =>
    intro s pg hi hfind hpg
    exact ⟨s, pg, rfl, hi, hfind, hpg, by simp⟩
  | succ k ih =>
    intro s pg hi hfind hpg
    obtain ⟨hlt, -⟩ := List.getElem?_eq_some.1 hpg
    obtain ⟨s1, h1, hi1, ht1, hp1⟩ := fetch_hit dm zero hi hfind hpg
    have hpg1 : s1.pages[f]? = some { pg with pin_count := pg.pin_count + 1 } := by
      rw [hp1]; simp [hlt]
    obtain ⟨s', pg', h2, hi2, ht2, hp2, hc2⟩ := ih hi1 (by rw [ht1]; exact hfind) hpg1
    refine ⟨s', pg', ?_, hi2, ht2, hp2, ?_⟩
    · simp only [fetchTimes, h1, h2]
    · rw [hc2]; simp only; push_cast; omega

theorem unpinAll_pinned {p : Int} {f : Nat} (ds : List Bool) :
    ∀ {s : BufferPoolManager D B} {pg : Page B}, Inv s →
      s.page_table.find p = some f → s.pages[f]? = some pg →
      pg.pin_count = ds.length →
      ∃ s' pg', unpinAll p ds s = some (List.replicate ds.length true, s') ∧ Inv s' ∧
        s'.page_table.find p = some f ∧ s'.pages[f]? = some pg' ∧
        pg'.pin_count = 0 := by
  induction ds with
  | nil =>
    intro s pg hi hfind hpg hc
    exact ⟨s, pg, rfl, hi, hfind, hpg, by simpa using hc⟩
  | cons d ds ih =>
    intro s pg hi hfind hpg hc
    obtain ⟨hlt, -⟩ := List.getElem?_eq_some.1 hpg
    have hpos : 0 < pg.pin_count := by rw [hc]; simp
    obtain ⟨s1, h1, hi1, ht1, -, -, hp1, -, -⟩ := unpin_pinned hi d hfind hpg hpos
    have hpg1 : s1.pages[f]? = some
        { pg with is_dirty := d || pg.is_dirty, pin_count := pg.pin_count - 1 } := by
      rw [hp1]; simp [hlt]
    obtain ⟨s', pg', h2, hi2, ht2, hp2, hc2⟩ := ih hi1 (by rw [ht1]; exact hfind) hpg1
      (by simp only [hc, List.length_cons]; push_cast; omega)
    refine ⟨s', pg', ?_, hi2, ht2, hp2, hc2⟩
    simp only [unpinAll, h1, h2, List.length_cons, List.replicate_succ]

/-- C4 as stated fails: with pages 0, 1, 2 resident and pinned, `Unpin(5, _)`
of the non-resident page 5 does not return `false`; the `assert` on the page
table lookup fails and the call does not return at all. -/
theorem C4_unpin_return_value_counterexample :
    exhaustedScenario.page_table.find 5 = none ∧
    ¬ ∃ s', UnpinPageImpl exhaustedScenario 5 false = some (false, s') := by
  refine ⟨by decide, ?_⟩
  have h : UnpinPageImpl exhaustedScenario 5 false = none := by decide
  rw [h]
  simp

/-- C4, amended (Unpin return value).  In every reachable pool state, for a
resident page `p` and every flag `d`: `UnpinPageImpl` returns `false` if the
pin count is already `<= 0` (only the dirty flag is updated), and otherwise
returns `true` after lowering the pin count by exactly one, calling
`replacer.Unpin` on the frame exactly when the count reaches zero and leaving
page table, free list and disk alone.  For a page that is not resident the
assertion fails and the call does not return.  Consequently, after `k`
fetches of a resident unpinned page, `k` unpins return `true` and the next
one returns `false`. -/
theorem C4_unpin_return_value (dm : DiskManager D B) (zero : B)
    {s : BufferPoolManager D B} (hr : Reachable dm zero s) (p : Int) (d : Bool) :
    (s.page_table.find p = none → UnpinPageImpl s p d = none) ∧
    (∀ (f : Nat) (pg : Page B), s.page_table.find p = some f → s.pages[f]? = some pg →
      (pg.pin_count ≤ 0 →
        UnpinPageImpl s p d = some (false,
          { s with pages := s.pages.set f { pg with is_dirty := d || pg.is_dirty } })) ∧
      (0 < pg.pin_count →
        ∃ s', UnpinPageImpl s p d = some (true, s') ∧
          s'.pages = s.pages.set f
            { pg with is_dirty := d || pg.is_dirty, pin_count := pg.pin_count - 1 } ∧
          s'.page_table = s.page_table ∧ s'.free_list = s.free_list ∧ s'.disk = s.disk ∧
          (pg.pin_count = 1 →
            s.replacer.Unpin f = some s'.replacer ∧
              s'.events = s.events ++ [Event.ReplacerUnpin f]) ∧
          (pg.pin_count ≠ 1 → s'.replacer = s.replacer ∧ s'.events = s.events))) ∧
    (∀ (f : Nat) (pg : Page B) (ds : List Bool),
      s.page_table.find p = some f → s.pages[f]? = some pg → pg.pin_count = 0 →
      ∃ s1 s2, fetchTimes dm zero p ds.length s = some s1 ∧
        unpinAll p ds s1 = some (List.replicate ds.length true, s2) ∧
        ∃ s3, UnpinPageImpl s2 p d = some (false, s3)) := by
  have hi := hr.inv
  refine ⟨?_, ?_, ?_⟩
  · intro hfind
    unfold UnpinPageImpl
    simp only [hfind]
  · intro f pg hfind hpg
    refine ⟨fun hle => unpin_unpinned d hfind hpg hle, ?_⟩
    intro hpos
    obtain ⟨s', h1, -, h3, h4, h5, h6, h7, h8⟩ := unpin_pinned hi d hfind hpg hpos
    exact ⟨s', h1, h6, h3, h4, h5, h7, h8⟩
  · intro f pg ds hfind hpg hzero
    obtain ⟨s1, pg1, h1, hi1, ht1, hp1, hc1⟩ :=
      fetchTimes_hit dm zero ds.length hi hfind hpg
    obtain ⟨s2, pg2, h2, -, ht2, hp2, hc2⟩ :=
      unpinAll_pinned ds hi1 ht1 hp1 (by rw [hc1, hzero]; simp)
    exact ⟨s1, s2, h1, h2, _, unpin_unpinned d ht2 hp2 (by omega)⟩

/-- C4 amended, at a concrete input: with pages 0, 1, 2 resident and pinned
once, `Unpin(0, true)` returns `true` and calls `replacer.Unpin` on frame 2. -/
theorem C4_unpin_return_value_witness :
    Reachable simpleDisk 0 exhaustedScenario ∧
    ∃ s', UnpinPageImpl exhaustedScenario 0 true = some (true, s') ∧
      s'.pages = exhaustedScenario.pages.set 2 ⟨0, 0, 0, true⟩ ∧
      s'.events = exhaustedScenario.events ++ [Event.ReplacerUnpin 2] := by
  refine ⟨exhaustedScenario_reachable, ?_⟩
  obtain ⟨s', h1, h2, -, -, -, h6, -⟩ :=
    ((C4_unpin_return_value simpleDisk 0 exhaustedScenario_reachable 0 true).2.1
      2 ⟨0, 0, 1, false⟩ (by decide) (by decide)).2 (by decide)
  exact ⟨s', h1, h2, (h6 rfl).2⟩

/-! ### The dirty flag under fetch hits and unpins -/

theorem DirtyKept.refl (s : BufferPoolManager D B) : DirtyKept s s :=
  fun _ pg h => ⟨pg, h, rfl, rfl, fun h' => h'⟩

theorem DirtyKept.trans {s1 s2 s3 : BufferPoolManager D B} (h12 : DirtyKept s1 s2)
    (h23 : DirtyKept s2 s3) : DirtyKept s1 s3 := by
  intro g pg hpg
  obtain ⟨pg2, a1, a2, a3, a4⟩ := h12 g pg hpg
  obtain ⟨pg3, b1, b2, b3, b4⟩ := h23 g pg2 a1
  exact ⟨pg3, b1, b2.trans a2, b3.trans a3, fun h => b4 (a4 h)⟩

theorem DirtyKept.of_set {s s' : BufferPoolManager D B} {f : Nat} {pg0 pg1 : Page B}
    (hpg : s.pages[f]? = some pg0) (hs : s'.pages = s.pages.set f pg1)
    (h1 : pg1.page_id = pg0.page_id) (h2 : pg1.data = pg0.data)
    (h3 : pg0.is_dirty = true → pg1.is_dirty = true) : DirtyKept s s' := by
  obtain ⟨hlt, -⟩ := List.getElem?_eq_some.1 hpg
  intro g pg hg
  by_cases e : g = f
  · subst e
    rw [hpg] at hg
    injection hg with hg
    subst hg
    exact ⟨pg1, by rw [hs]; simp [hlt], h1, h2, h3⟩
  · exact ⟨pg, by rw [hs, List.getElem?_set_ne (fun e' => e e'.symm)]; exact hg, rfl, rfl,
      fun h => h⟩

/-- One `Unpin` of a resident page returns, keeps the page table and sets the
dirty flag of the frame to `dirty ∨ is_dirty`. -/
theorem unpin_resident {s : BufferPoolManager D B} (hi : Inv s) {p : Int} {f : Nat}
    {pg : Page B} (d : Bool)
    (hfind : s.page_table.find p = some f) (hpg : s.pages[f]? = some pg) :
    ∃ r s' pg', UnpinPageImpl s p d = some (r, s') ∧ Inv s' ∧
      s'.page_table = s.page_table ∧ s'.pages = s.pages.set f pg' ∧
      pg'.page_id = pg.page_id ∧ pg'.data = pg.data ∧
      pg'.is_dirty = (pg.is_dirty || d) := by
  by_cases hpos : 0 < pg.pin_count
  · obtain ⟨s', h1, h2, h3, -, -, h6, -, -⟩ := unpin_pinned hi d hfind hpg hpos
    exact ⟨true, s', _, h1, h2, h3, h6, rfl, rfl, Bool.or_comm _ _⟩
  · have heq := unpin_unpinned d hfind hpg (by omega)
    exact ⟨false, _, _, heq, Inv_unpin hi heq, rfl, rfl, rfl, rfl, Bool.or_comm _ _⟩

theorem pinRun_resident (dm : DiskManager D B) (zero : B) (ops : List PinOp) :
    ∀ {s : BufferPoolManager D B}, Inv s →
      (∀ op ∈ ops, (s.page_table.find op.page_id).isSome = true) →
      ∃ s', pinRun dm zero ops s = some s' ∧ Inv s' ∧
        s'.page_table = s.page_table ∧ DirtyKept s s' := by
  induction ops with
  | nil =>
    intro s hi _
    exact ⟨s, rfl, hi, rfl, DirtyKept.refl s⟩
  | cons op ops ih =>
    intro s hi hres
    have hop := hres op (by simp)
    obtain ⟨f, hfind⟩ := Option.isSome_iff_exists.1 hop
    obtain ⟨pg, hpg, -⟩ := hi.table _ f hfind
    cases op with
    | fetch p =>
      simp only [PinOp.page_id] at hfind
      obtain ⟨s1, h1, hi1, ht1, hp1⟩ := fetch_hit dm zero hi hfind hpg
      obtain ⟨s', h2, hi2, ht2, hk2⟩ := ih hi1
        (by intro o ho; rw [ht1]; exact hres o (by simp [ho]))
      refine ⟨s', ?_, hi2, ht2.trans ht1, ?_⟩
      · simp only [pinRun, h1, h2]
      · exact (DirtyKept.of_set hpg hp1 rfl rfl (fun h => h)).trans hk2
    | unpin p d =>
      simp only [PinOp.page_id] at hfind
      obtain ⟨r, s1, pg1, h1, hi1, ht1, hp1, a1, a2, a3⟩ := unpin_resident hi d hfind hpg
      obtain ⟨s', h2, hi2, ht2, hk2⟩ := ih hi1
        (by intro o ho; rw [ht1]; exact hres o (by simp [ho]))
      refine ⟨s', ?_, hi2, ht2.trans ht1, ?_⟩
      · simp only [pinRun, h1, h2]
      · exact (DirtyKept.of_set hpg hp1 a1 a2 (fun h => by rw [a3, h]; rfl)).trans hk2

/-- C5 (sticky dirty flag).  In every reachable pool state, for a resident
page `p` in frame `f` with dirty flag `b`: every `Unpin(p, d)` returns and
leaves the dirty flag of the frame equal to `b ∨ d` (so `Unpin(p, false)`
never clears it); and every sequence of `Fetch` and `Unpin` calls on resident
pages returns, keeps `p` resident in `f` and, if the dirty flag was set,
leaves it set. -/
theorem C5_sticky_dirty_flag (dm : DiskManager D B) (zero : B)
    {s : BufferPoolManager D B} (hr : Reachable dm zero s) (p : Int) (f : Nat)
    (pg : Page B) (hfind : s.page_table.find p = some f) (hpg : s.pages[f]? = some pg) :
    (∀ d : Bool, ∃ (r : Bool) (s' : BufferPoolManager D B) (pg' : Page B),
      UnpinPageImpl s p d = some (r, s') ∧ s'.pages[f]? = some pg' ∧
        pg'.is_dirty = (pg.is_dirty || d)) ∧
    (∀ ops : List PinOp, (∀ op ∈ ops, (s.page_table.find op.page_id).isSome = true) →
      ∃ (s' : BufferPoolManager D B) (pg' : Page B),
        pinRun dm zero ops s = some s' ∧ s'.page_table.find p = some f ∧
        s'.pages[f]? = some pg' ∧ (pg.is_dirty = true → pg'.is_dirty = true)) := by
  have hi := hr.inv
  obtain ⟨hlt, -⟩ := List.getElem?_eq_some.1 hpg
  constructor
  · intro d
    obtain ⟨r, s', pg', h1, -, -, h4, -, -, h7⟩ := unpin_resident hi d hfind hpg
    exact ⟨r, s', pg', h1, by rw [h4]; simp [hlt], h7⟩
  · intro ops hres
    obtain ⟨s', h1, -, h3, h4⟩ := pinRun_resident dm zero ops hi hres
    obtain ⟨pg', b1, -, -, b4⟩ := h4 f pg hpg
    exact ⟨s', pg', h1, by rw [h3]; exact hfind, b1, b4⟩

/-- C5, at a concrete input: page 0 is resident in frame 2, dirty and
unpinned; `Unpin(0, false)` leaves the dirty flag set. -/
theorem C5_sticky_dirty_flag_witness :
    Reachable simpleDisk 0 evictionScenario ∧
    evictionScenario.page_table.find 0 = some 2 ∧
    evictionScenario.pages[2]? = some ⟨0, 0, 0, true⟩ ∧
    ∃ (r : Bool) (s' : BufferPoolManager SimpleDisk Nat) (pg' : Page Nat),
      UnpinPageImpl evictionScenario 0 false = some (r, s') ∧ s'.pages[2]? = some pg' ∧
        pg'.is_dirty = true :=
  ⟨evictionScenario_reachable, by decide, by decide,
    (C5_sticky_dirty_flag simpleDisk 0 evictionScenario_reachable 0 2 ⟨0, 0, 0, true⟩
      (by decide) (by decide)).1 false⟩

/-- C6 (Delete contract).  In every reachable pool state and for every page
id `p`: if `p` is not resident, `DeletePageImpl` returns `true` and changes
nothing; if `p` is resident in a frame with pin count above zero, it returns
`false` and changes nothing; if `p` is resident with pin count zero, it
returns `true`, calls `DeallocatePage(p)`, then `WritePage(p, bytes)` exactly
when the frame was dirty, and afterwards `p` is absent from the page table and
its former frame has page id `INVALID_PAGE_ID`, pin count 0, dirty flag false
and is on the free list. -/
theorem C6_delete_contract (dm : DiskManager D B) (zero : B)
    {s : BufferPoolManager D B} (hr : Reachable dm zero s) (p : Int) :
    (s.page_table.find p = none → DeletePageImpl dm s p = some (true, s)) ∧
    (∀ f : Nat, s.page_table.find p = some f →
      ∃ pg : Page B, s.pages[f]? = some pg ∧ 0 ≤ pg.pin_count ∧
        (0 < pg.pin_count → DeletePageImpl dm s p = some (false, s)) ∧
        (pg.pin_count = 0 →
          ∃ s', DeletePageImpl dm s p = some (true, s') ∧
            s'.events = s.events ++ [Event.DeallocatePage p]
              ++ (if pg.is_dirty then [Event.WritePage p pg.data] else []) ∧
            s'.disk = (if pg.is_dirty then
                dm.WritePage (dm.DeallocatePage s.disk p) p pg.data
              else dm.DeallocatePage s.disk p) ∧
            s'.page_table.find p = none ∧
            s'.pages[f]? = some
              { data := pg.data, page_id := INVALID_PAGE_ID, pin_count := 0,
                is_dirty := false } ∧
            f ∈ s'.free_list)) := by
  have hi := hr.inv
  constructor
  · intro hfind
    unfold DeletePageImpl
    simp only [hfind]
  · intro f hfind
    obtain ⟨pg, hpg, -⟩ := hi.table p f hfind
    obtain ⟨hlt, -⟩ := List.getElem?_eq_some.1 hpg
    refine ⟨pg, hpg, hi.pin_nonneg f pg hpg, ?_, ?_⟩
    · intro hpos
      have hne : pg.pin_count ≠ 0 := by omega
      unfold DeletePageImpl
      simp only [hfind, hpg, ne_eq, hne, not_false_eq_true, if_true]
    · intro hzero
      refine ⟨_, DeletePageImpl_success dm hfind hpg hzero (hi.table_valid p f hfind),
        rfl, rfl, ?_, ?_, ?_⟩
      · exact PageTable.find_erase_self _ _
      · simp [hlt]
      · simp

/-- C6, at a concrete input: page 0 is resident in frame 2, dirty and
unpinned; `Delete(0)` returns `true`, deallocates and writes the page, and
frame 2 ends on the free list. -/
theorem C6_delete_contract_witness :
    Reachable simpleDisk 0 evictionScenario ∧
    ∃ s', DeletePageImpl simpleDisk evictionScenario 0 = some (true, s') ∧
      s'.events = evictionScenario.events
        ++ [Event.DeallocatePage 0, Event.WritePage 0 0] ∧
      s'.page_table.find 0 = none ∧ 2 ∈ s'.free_list := by
  refine ⟨evictionScenario_reachable, ?_⟩
  obtain ⟨pg, hpg, -, -, h⟩ :=
    (C6_delete_contract simpleDisk 0 evictionScenario_reachable 0).2 2 (by decide)
  have e : pg = ⟨0, 0, 0, true⟩ := by
    have h2 : evictionScenario.pages[2]? = some ⟨0, 0, 0, true⟩ := by decide
    rw [h2] at hpg
    injection hpg with hpg
    exact hpg.symm
  subst e
  obtain ⟨s', h1, h2, -, h4, -, h6⟩ := h rfl
  exact ⟨s', h1, by simpa using h2, h4, h6⟩

/-- C7 as stated fails: `Flush(INVALID_PAGE_ID)` does not return `false`; the
assertion `page_id != INVALID_PAGE_ID` fails and the call does not return. -/
theorem C7_flush_contract_counterexample :
    ¬ ∃ s', FlushPageImpl simpleDisk exhaustedScenario INVALID_PAGE_ID = some (false, s') := by
  have h : FlushPageImpl simpleDisk exhaustedScenario INVALID_PAGE_ID = none := by decide
  rw [h]
  simp

/-- C7, amended (Flush contract).  In every reachable pool state and for every
page id `p` other than `INVALID_PAGE_ID`: if `p` is not resident,
`FlushPageImpl` returns `false` and changes nothing (no disk write);
otherwise it returns `true`, calls `WritePage(p, bytes of the frame)` exactly
when the frame is dirty, and leaves page table, free list, replacer and every
frame (page id, pin count, bytes and dirty flag: it is not cleared) as they
were.  For `INVALID_PAGE_ID` the assertion fails and the call does not
return. -/
theorem C7_flush_contract (dm : DiskManager D B) (zero : B)
    {s : BufferPoolManager D B} (hr : Reachable dm zero s) (p : Int) :
    (p = INVALID_PAGE_ID → FlushPageImpl dm s p = none) ∧
    (p ≠ INVALID_PAGE_ID →
      (s.page_table.find p = none → FlushPageImpl dm s p = some (false, s)) ∧
      (∀ f : Nat, s.page_table.find p = some f →
        ∃ pg : Page B, s.pages[f]? = some pg ∧
          (pg.is_dirty = true →
            FlushPageImpl dm s p = some (true,
              { s with
                disk := dm.WritePage s.disk p pg.data
                events := s.events ++ [Event.WritePage p pg.data] })) ∧
          (pg.is_dirty = false → FlushPageImpl dm s p = some (true, s)))) := by
  have hi := hr.inv
  constructor
  · intro hp
    unfold FlushPageImpl
    simp only [hp, if_true]
  · intro hp
    constructor
    · intro hfind
      unfold FlushPageImpl
      simp only [hp, if_false, hfind]
    · intro f hfind
      obtain ⟨pg, hpg, -⟩ := hi.table p f hfind
      refine ⟨pg, hpg, ?_, ?_⟩
      · intro hd
        unfold FlushPageImpl
        simp only [hp, if_false, hfind, hpg, hd, if_true]
      · intro hd
        unfold FlushPageImpl
        simp [hp, hfind, hpg, hd]

/-- C7 amended, at a concrete input: page 0 is resident in frame 2 and dirty;
`Flush(0)` returns `true` after writing it, and the dirty flag stays set. -/
theorem C7_flush_contract_witness :
    Reachable simpleDisk 0 evictionScenario ∧
    ∃ s', FlushPageImpl simpleDisk evictionScenario 0 = some (true, s') ∧
      s'.events = evictionScenario.events ++ [Event.WritePage 0 0] ∧
      s'.pages = evictionScenario.pages ∧
      s'.pages[2]? = some ⟨0, 0, 0, true⟩ := by
  refine ⟨evictionScenario_reachable, ?_⟩
  obtain ⟨pg, hpg, h, -⟩ :=
    ((C7_flush_contract simpleDisk 0 evictionScenario_reachable 0).2 (by decide)).2 2
      (by decide)
  have h2 : evictionScenario.pages[2]? = some ⟨0, 0, 0, true⟩ := by decide
  have e : pg = ⟨0, 0, 0, true⟩ := by
    rw [h2] at hpg
    injection hpg with hpg
    exact hpg.symm
  subst e
  exact ⟨_, h rfl, rfl, rfl, h2⟩

/-- C8 (page-table invariant).  In every pool state reachable from
construction by `Fetch`, `New`, `Unpin`, `Flush`, `FlushAll` and `Delete`
calls (the disk manager allocating page ids that are not resident), every
page-table entry `p -> f` has `frames[f].page_id = p`, no two page ids map to
the same frame, and no frame on the free list is a page-table value. -/
theorem C8_page_table_invariant (dm : DiskManager D B) (zero : B)
    {s : BufferPoolManager D B} (hr : Reachable dm zero s) :
    (∀ (p : Int) (f : Nat), s.page_table.find p = some f →
      ∃ pg : Page B, s.pages[f]? = some pg ∧ pg.page_id = p) ∧
    (∀ (p q : Int) (f : Nat), s.page_table.find p = some f →
      s.page_table.find q = some f → p = q) ∧
    (∀ (p : Int) (f : Nat), s.page_table.find p = some f → f ∉ s.free_list) := by
  have hi := hr.inv
  refine ⟨hi.table, ?_, hi.table_free⟩
  intro p q f hp hq
  obtain ⟨pg1, h1, e1⟩ := hi.table p f hp
  obtain ⟨pg2, h2, e2⟩ := hi.table q f hq
  rw [h1] at h2
  injection h2 with h2
  subst h2
  exact e1.symm.trans e2

/-- C8, at a concrete input: the pool of three frames after three `New` calls
and an `Unpin`. -/
theorem C8_page_table_invariant_witness :
    Reachable simpleDisk 0 evictionScenario ∧
    (∃ pg : Page Nat, evictionScenario.pages[2]? = some pg ∧ pg.page_id = 0) ∧
    (2 ∉ evictionScenario.free_list) :=
  ⟨evictionScenario_reachable,
    (C8_page_table_invariant simpleDisk 0 evictionScenario_reachable).1 0 2 (by decide),
    (C8_page_table_invariant simpleDisk 0 evictionScenario_reachable).2.2 0 2 (by decide)⟩

/-! ### Frame accounting -/

theorem countP_eq_countP_range {α : Type} (p : α → Bool) (l : List α) :
    l.countP p = (List.range l.length).countP (fun i => (l[i]?).any p) := by
  induction l with
  | nil => simp
  | cons x l ih =>
    rw [List.length_cons, List.range_succ_eq_map, List.countP_cons, List.countP_cons,
      List.countP_map, ih]
    simp only [List.getElem?_cons_zero, Option.any, Function.comp_def, Nat.succ_eq_add_one,
      List.getElem?_cons_succ]

theorem countP_add_countP_of_not {α : Type} (a b : α → Bool) (l : List α)
    (h : ∀ x ∈ l, a x = !b x) : l.countP a + l.countP b = l.length := by
  induction l with
  | nil => simp
  | cons x l ih =>
    have hx := h x (by simp)
    have := ih (fun y hy => h y (by simp [hy]))
    rw [List.countP_cons, List.countP_cons, List.length_cons, hx]
    cases hb : b x
    · simp only [Bool.not_false, if_true, Bool.false_eq_true, if_false]
      omega
    · simp only [Bool.not_true, Bool.false_eq_true, if_false, if_true]
      omega

theorem range_perm_free (n : Nat) (fl : List Nat) (hnd : fl.Nodup)
    (hlt : ∀ f ∈ fl, f < n) :
    List.Perm (fl ++ (List.range n).filter (fun i => decide (i ∉ fl))) (List.range n) := by
  rw [List.perm_ext_iff_of_nodup]
  · intro a
    simp only [List.mem_append, List.mem_filter, List.mem_range, decide_eq_true_eq]
    constructor
    · rintro (h | ⟨h, -⟩)
      · exact hlt a h
      · exact h
    · intro h
      by_cases ha : a ∈ fl
      · exact Or.inl ha
      · exact Or.inr ⟨h, ha⟩
  · rw [List.nodup_append]
    refine ⟨hnd, (List.nodup_range n).filter _, ?_⟩
    intro a ha hb
    simp only [List.mem_filter, decide_eq_true_eq] at hb
    exact hb.2 ha
  · exact List.nodup_range n

/-- The accounting identity that follows from the structural invariant. -/
theorem Inv.accounting {s : BufferPoolManager D B} (hi : Inv s) :
    pinnedCount s + s.replacer.Size + s.free_list.length = s.pool_size + staleCount s := by
  have hfl : ∀ f ∈ s.free_list, f < s.pool_size := by
    intro f hf
    obtain ⟨pg, hpg, -⟩ := hi.free_pin f hf
    obtain ⟨hlt, -⟩ := List.getElem?_eq_some.1 hpg
    rw [← hi.pages_len]; exact hlt
  have hperm := range_perm_free s.pool_size s.free_list hi.free_nodup hfl
  obtain ⟨rest, hrest⟩ : ∃ rest, rest
      = (List.range s.pool_size).filter (fun i => decide (i ∉ s.free_list)) := ⟨_, rfl⟩
  rw [← hrest] at hperm
  have hrest_mem : ∀ i ∈ rest, i < s.pool_size ∧ i ∉ s.free_list := by
    intro i hi'
    rw [hrest] at hi'
    simpa using hi'
  -- pinned frames
  have hpinned : pinnedCount s
      = rest.countP (fun i => (s.pages[i]?).any (fun pg => decide (0 < pg.pin_count))) := by
    unfold pinnedCount
    rw [countP_eq_countP_range, hi.pages_len, ← hperm.countP_eq, List.countP_append]
    have : s.free_list.countP
        (fun i => (s.pages[i]?).any (fun pg => decide (0 < pg.pin_count))) = 0 := by
      rw [List.countP_eq_zero]
      intro f hf
      obtain ⟨pg, hpg, hz⟩ := hi.free_pin f hf
      simp [hpg, Option.any, hz]
    rw [this]; simp
  -- replacer size
  have hsize : s.replacer.Size
      = staleCount s + rest.countP (fun i => s.replacer.pinFlag i == some false) := by
    unfold ClockReplacer.Size staleCount
    rw [hi.counter, countP_eq_countP_range, hi.clock_len, ← hperm.countP_eq,
      List.countP_append]
    have hfun : (fun i => (s.replacer.clock_vector[i]?).any (fun it => !it.pin_flag))
        = (fun i => s.replacer.pinFlag i == some false) := by
      funext i
      unfold ClockReplacer.pinFlag
      cases s.replacer.clock_vector[i]? with
      | none => rfl
      | some it => cases hp : it.pin_flag <;> simp [Option.any, hp]
    rw [hfun]
  -- resident frames are pinned or held by the replacer, never both
  have hxor := countP_add_countP_of_not
    (fun i => (s.pages[i]?).any (fun pg => decide (0 < pg.pin_count)))
    (fun i => s.replacer.pinFlag i == some false) rest
    (by
      intro i hi'
      obtain ⟨hlt, hnf⟩ := hrest_mem i hi'
      obtain ⟨pg, hpg⟩ : ∃ pg, s.pages[i]? = some pg :=
        ⟨_, List.getElem?_eq_getElem (by rw [hi.pages_len]; exact hlt)⟩
      have hfl := hi.flag i pg hpg hnf
      have hnn := hi.pin_nonneg i pg hpg
      simp only [hpg, Option.any]
      by_cases hz : pg.pin_count = 0
      · have := hfl.2 hz
        simp [hz, this]
      · have hne : ¬ s.replacer.pinFlag i = some false := fun h => hz (hfl.1 h)
        have hpos : 0 < pg.pin_count := by omega
        simp [hpos, hne])
  have hlen := hperm.length_eq
  simp only [List.length_append, List.length_range] at hlen
  rw [hpinned, hsize]
  omega

/-- C9 as stated fails: on a pool of one frame, after `New`, `Unpin(0, false)`
and `Delete(0)` no frame is pinned, the replacer still counts the frame and
the frame is on the free list, so the sum is 2, not 1. -/
theorem C9_frame_accounting_counterexample :
    Reachable simpleDisk 0 deleteScenario ∧
    pinnedCount deleteScenario + deleteScenario.replacer.Size
      + deleteScenario.free_list.length ≠ deleteScenario.pool_size :=
  ⟨Reachable.run [Op.newPage, Op.unpin 0 false, Op.delete 0]
      (Reachable.init 1 (⟨0, []⟩ : SimpleDisk) false) (by decide),
    by decide⟩

/-- C9, amended (frame accounting).  In every reachable pool state,
(frames with pin count above zero) + `replacer.Size()` + `free_list.size()`
equals `pool_size` plus the number of free-list frames that the replacer
still holds as unpinned (`DeletePageImpl` does not pin the freed frame in the
replacer; `get_free_page` does so when it hands the frame out).  In
particular the sum is `pool_size` whenever the free list is empty. -/
theorem C9_frame_accounting (dm : DiskManager D B) (zero : B)
    {s : BufferPoolManager D B} (hr : Reachable dm zero s) :
    pinnedCount s + s.replacer.Size + s.free_list.length = s.pool_size + staleCount s ∧
    (s.free_list = [] →
      pinnedCount s + s.replacer.Size + s.free_list.length = s.pool_size) := by
  have h := hr.inv.accounting
  refine ⟨h, ?_⟩
  intro hempty
  have : staleCount s = 0 := by simp [staleCount, hempty]
  omega

/-- C9 amended, at the state of the counterexample: 0 + 1 + 1 = 1 + 1. -/
theorem C9_frame_accounting_witness :
    Reachable simpleDisk 0 deleteScenario ∧ staleCount deleteScenario = 1 ∧
    pinnedCount deleteScenario + deleteScenario.replacer.Size
      + deleteScenario.free_list.length
      = deleteScenario.pool_size + staleCount deleteScenario :=
  ⟨Reachable.run [Op.newPage, Op.unpin 0 false, Op.delete 0]
      (Reachable.init 1 (⟨0, []⟩ : SimpleDisk) false) (by decide),
    by decide,
    (C9_frame_accounting simpleDisk 0
      (Reachable.run [Op.newPage, Op.unpin 0 false, Op.delete 0]
        (Reachable.init 1 (⟨0, []⟩ : SimpleDisk) false) (by decide))).1⟩

end BufferPoolManager

/-! ## Block page: slots and bits -/

namespace HashTableBlockPage

variable {K V : Type}

theorem slot_eq_iff (i j : Nat) : j = i ↔ j / 8 = i / 8 ∧ j % 8 = i % 8 := by
  constructor
  · rintro rfl; exact ⟨rfl, rfl⟩
  · rintro ⟨h1, h2⟩
    have a := Nat.div_add_mod j 8
    have b := Nat.div_add_mod i 8
    omega

theorem byte_lt {n i : Nat} (h : i < n) : i / 8 < (n - 1) / 8 + 1 := by
  have : i / 8 ≤ (n - 1) / 8 := Nat.div_le_div_right (by omega)
  omega

/-- Setting bit `i % 8` of byte `i / 8` sets the bit of slot `i` and of no
other slot. -/
theorem testBit_set_or (l : List Nat) (i j : Nat) (b : Nat) (hb : l[i / 8]? = some b) :
    ((l.set (i / 8) (b ||| (1 <<< (i % 8)))).getD (j / 8) 0).testBit (j % 8)
      = ((l.getD (j / 8) 0).testBit (j % 8) || decide (j = i)) := by
  obtain ⟨hlt, hget⟩ := List.getElem?_eq_some.1 hb
  by_cases hbyte : j / 8 = i / 8
  · rw [hbyte]
    simp only [List.getD_eq_getElem?_getD, List.getElem?_set_self hlt, Option.getD_some, hb,
      Nat.testBit_or, Nat.one_shiftLeft, Nat.testBit_two_pow]
    congr 1
    by_cases hbit : i % 8 = j % 8
    · have : j = i := (slot_eq_iff i j).2 ⟨hbyte, hbit.symm⟩
      simp [hbit, this]
    · have : j ≠ i := fun e => hbit (by rw [e])
      simp [hbit, this]
  · have hne : j ≠ i := fun e => hbyte (by rw [e])
    simp only [List.getD_eq_getElem?_getD,
      List.getElem?_set_ne (fun e => hbyte e.symm), hne, decide_False, Bool.or_false]

theorem length_set_or (l : List Nat) (i x : Nat) : (l.set i x).length = l.length := by simp

theorem IsOccupied_eq {n : Nat} {bp : HashTableBlockPage K V} (hwf : bp.WF n) {i : Nat}
    (hi : i < n) : bp.IsOccupied i = some (bp.occBit i) := by
  have hlt : i / 8 < bp.occupied.length := by rw [hwf.occupied_len]; exact byte_lt hi
  simp [IsOccupied, occBit, check_byte_bit, List.getElem?_eq_getElem hlt,
    List.getD_eq_getElem?_getD]

theorem IsReadable_eq {n : Nat} {bp : HashTableBlockPage K V} (hwf : bp.WF n) {i : Nat}
    (hi : i < n) : bp.IsReadable i = some (bp.rdBit i) := by
  have hlt : i / 8 < bp.readable.length := by rw [hwf.readable_len]; exact byte_lt hi
  unfold IsReadable
  rw [IsOccupied_eq hwf hi]
  cases ho : bp.occBit i
  · cases hr : bp.rdBit i
    · rfl
    · rw [hwf.readable_occupied i hi hr] at ho
      exact absurd ho (by simp)
  · simp [rdBit, check_byte_bit, List.getElem?_eq_getElem hlt, List.getD_eq_getElem?_getD]

/-- `Insert` on a readable slot returns `false` and leaves the page as it
is. -/
theorem Insert_readable {n : Nat} {bp : HashTableBlockPage K V} (hwf : bp.WF n) {i : Nat}
    (hi : i < n) (k : K) (v : V) (hr : bp.rdBit i = true) :
    bp.Insert i k v = some (false, bp) := by
  have hlo : i / 8 < bp.occupied.length := by rw [hwf.occupied_len]; exact byte_lt hi
  have hlr : i / 8 < bp.readable.length := by rw [hwf.readable_len]; exact byte_lt hi
  have ho := hwf.readable_occupied i hi hr
  have e1 : bp.occupied.set (i / 8) (bp.occupied[i / 8] ||| (1 <<< (i % 8))) = bp.occupied := by
    apply List.ext_getElem?
    intro m
    by_cases hm : i / 8 = m
    · subst hm
      rw [List.getElem?_set_self hlo, List.getElem?_eq_getElem hlo]
      congr 1
      apply Nat.eq_of_testBit_eq
      intro t
      rw [Nat.testBit_or, Nat.one_shiftLeft, Nat.testBit_two_pow]
      by_cases ht : i % 8 = t
      · subst ht
        simp only [occBit, List.getD_eq_getElem?_getD, List.getElem?_eq_getElem hlo,
          Option.getD_some] at ho
        simp [ho]
      · simp [ht]
    · rw [List.getElem?_set_ne hm]
  have e2 : bp.readable.set (i / 8) (bp.readable[i / 8] ||| (1 <<< (i % 8))) = bp.readable := by
    apply List.ext_getElem?
    intro m
    by_cases hm : i / 8 = m
    · subst hm
      rw [List.getElem?_set_self hlr, List.getElem?_eq_getElem hlr]
      congr 1
      apply Nat.eq_of_testBit_eq
      intro t
      rw [Nat.testBit_or, Nat.one_shiftLeft, Nat.testBit_two_pow]
      by_cases ht : i % 8 = t
      · subst ht
        simp only [rdBit, List.getD_eq_getElem?_getD, List.getElem?_eq_getElem hlr,
          Option.getD_some] at hr
        simp [hr]
      · simp [ht]
    · rw [List.getElem?_set_ne hm]
  have hchk : check_byte_bit bp.readable[i / 8] (i % 8) = true := by
    simpa [rdBit, check_byte_bit, List.getD_eq_getElem?_getD, List.getElem?_eq_getElem hlr]
      using hr
  unfold Insert
  simp only [List.getElem?_eq_getElem hlo, List.getElem?_eq_getElem hlr, hchk, if_true, e1, e2]

/-- `Insert` on a slot that is not readable returns `true`; afterwards the
slot is occupied, readable and holds the pair, and no other slot changed. -/
theorem Insert_free {n : Nat} {bp : HashTableBlockPage K V} (hwf : bp.WF n) {i : Nat}
    (hi : i < n) (k : K) (v : V) (hr : bp.rdBit i = false) :
    ∃ bp', bp.Insert i k v = some (true, bp') ∧ bp'.WF n ∧
      (∀ j, bp'.occBit j = (bp.occBit j || decide (j = i))) ∧
      (∀ j, bp'.rdBit j = (bp.rdBit j || decide (j = i))) ∧
      bp'.array = bp.array.set i (k, v) := by
  have hlo : i / 8 < bp.occupied.length := by rw [hwf.occupied_len]; exact byte_lt hi
  have hlr : i / 8 < bp.readable.length := by rw [hwf.readable_len]; exact byte_lt hi
  have hla : i < bp.array.length := by rw [hwf.array_len]; exact hi
  have hchk : check_byte_bit bp.readable[i / 8] (i % 8) = false := by
    simpa [rdBit, check_byte_bit, List.getD_eq_getElem?_getD, List.getElem?_eq_getElem hlr]
      using hr
  have hocc : ∀ j, occBit
      ({ bp with
         occupied := bp.occupied.set (i / 8) (bp.occupied[i / 8] ||| (1 <<< (i % 8)))
         readable := bp.readable.set (i / 8) (bp.readable[i / 8] ||| (1 <<< (i % 8)))
         array := bp.array.set i (k, v) } : HashTableBlockPage K V) j
        = (bp.occBit j || decide (j = i)) := by
    intro j
    exact testBit_set_or bp.occupied i j _ (List.getElem?_eq_getElem hlo)
  have hrd : ∀ j, rdBit
      ({ bp with
         occupied := bp.occupied.set (i / 8) (bp.occupied[i / 8] ||| (1 <<< (i % 8)))
         readable := bp.readable.set (i / 8) (bp.readable[i / 8] ||| (1 <<< (i % 8)))
         array := bp.array.set i (k, v) } : HashTableBlockPage K V) j
        = (bp.rdBit j || decide (j = i)) := by
    intro j
    exact testBit_set_or bp.readable i j _ (List.getElem?_eq_getElem hlr)
  refine ⟨_, ?_, ?_, hocc, hrd, rfl⟩
  · unfold Insert
    simp only [List.getElem?_eq_getElem hlo, List.getElem?_eq_getElem hlr, hchk, hla, if_true,
      Bool.false_eq_true, if_false]
  · refine ⟨by simpa using hwf.occupied_len, by simpa using hwf.readable_len,
      by simpa using hwf.array_len, ?_⟩
    intro j hj hjr
    rw [hocc j]
    rw [hrd j] at hjr
    by_cases e : j = i
    · simp [e]
    · simp only [e, decide_False, Bool.or_false] at hjr ⊢
      exact hwf.readable_occupied j hj hjr

end HashTableBlockPage

/-! ## Hash table: the probing logic on the block pages -/

namespace LinearProbeHashTable

variable {D K V : Type}

theorem slot_bounds {n b p : Nat} (h : p < n * b) : p / b < n ∧ p % b < b := by
  have hb : 0 < b := by
    rcases Nat.eq_zero_or_pos b with h0 | h0
    · subst h0; simp at h
    · exact h0
  exact ⟨Nat.div_lt_of_lt_mul (by rw [Nat.mul_comm]; exact h), Nat.mod_lt _ hb⟩

theorem gslot_eq_iff (b p q : Nat) : q = p ↔ q / b = p / b ∧ q % b = p % b := by
  constructor
  · rintro rfl; exact ⟨rfl, rfl⟩
  · rintro ⟨h1, h2⟩
    have a := Nat.div_add_mod q b
    have c := Nat.div_add_mod p b
    rw [h1, h2] at a
    omega

theorem keyMatches_eq (cfg : HashTableConfig K V) {bp : HashTableBlockPage K V}
    (hwf : bp.WF cfg.BLOCK_ARRAY_SIZE) {i : Nat} (hi : i < cfg.BLOCK_ARRAY_SIZE) (key : K)
    {k : K} {v : V} (hkv : bp.array[i]? = some (k, v)) :
    keyMatches cfg bp i key = some (bp.rdBit i && (cfg.comparator key k == 0)) := by
  unfold keyMatches
  rw [HashTableBlockPage.IsReadable_eq hwf hi]
  cases bp.rdBit i
  · rfl
  · simp [HashTableBlockPage.KeyAt, hkv]

theorem pairMatches_eq [DecidableEq V] (cfg : HashTableConfig K V)
    {bp : HashTableBlockPage K V} (hwf : bp.WF cfg.BLOCK_ARRAY_SIZE) {i : Nat}
    (hi : i < cfg.BLOCK_ARRAY_SIZE) (key : K) (value : V) {k : K} {v : V}
    (hkv : bp.array[i]? = some (k, v)) :
    pairMatches cfg bp i key value
      = some (bp.rdBit i && (cfg.comparator key k == 0) && decide (v = value)) := by
  unfold pairMatches
  rw [keyMatches_eq cfg hwf hi key hkv]
  cases h : (bp.rdBit i && (cfg.comparator key k == 0))
  · simp
  · simp [HashTableBlockPage.ValueAt, hkv]

/-- The block pages of a table of `blocks.length * BLOCK_ARRAY_SIZE` slots. -/
theorem slot_block (cfg : HashTableConfig K V) {blocks : List (HashTableBlockPage K V)}
    (hwf : ∀ bp ∈ blocks, bp.WF cfg.BLOCK_ARRAY_SIZE) {p : Nat}
    (hp : p < blocks.length * cfg.BLOCK_ARRAY_SIZE) :
    ∃ (bp : HashTableBlockPage K V) (k : K) (v : V),
      blocks[p / cfg.BLOCK_ARRAY_SIZE]? = some bp ∧ bp.WF cfg.BLOCK_ARRAY_SIZE ∧
      p % cfg.BLOCK_ARRAY_SIZE < cfg.BLOCK_ARRAY_SIZE ∧
      bp.array[p % cfg.BLOCK_ARRAY_SIZE]? = some (k, v) := by
  obtain ⟨h1, h2⟩ := slot_bounds hp
  have hmem : blocks[p / cfg.BLOCK_ARRAY_SIZE] ∈ blocks := List.getElem_mem _
  have hw := hwf _ hmem
  have hla : p % cfg.BLOCK_ARRAY_SIZE < (blocks[p / cfg.BLOCK_ARRAY_SIZE]).array.length := by
    rw [hw.array_len]; exact h2
  exact ⟨_, _, _, List.getElem?_eq_getElem h1, hw, h2, List.getElem?_eq_getElem hla⟩

theorem pureGetBucket_eq (cfg : HashTableConfig K V)
    {blocks : List (HashTableBlockPage K V)}
    (hwf : ∀ bp ∈ blocks, bp.WF cfg.BLOCK_ARRAY_SIZE) {p : Nat}
    (hp : p < blocks.length * cfg.BLOCK_ARRAY_SIZE) (key : K) (result : List V) :
    ∃ (k : K) (v : V), gKV cfg blocks p = some (k, v) ∧
      pureGetBucket cfg blocks p key result =
        if gOcc cfg blocks p then
          some (true,
            if gRd cfg blocks p && (cfg.comparator key k == 0) then result ++ [v]
            else result)
        else some (false, result) := by
  obtain ⟨bp, k, v, hb, hw, hi, hkv⟩ := slot_block cfg hwf hp
  refine ⟨k, v, by simp [gKV, hb, hkv], ?_⟩
  unfold pureGetBucket
  simp only [hb, gOcc, gRd, HashTableBlockPage.IsOccupied_eq hw hi]
  cases ho : bp.occBit (p % cfg.BLOCK_ARRAY_SIZE)
  · simp
  · simp only [keyMatches_eq cfg hw hi key hkv, if_true]
    cases hm : (bp.rdBit (p % cfg.BLOCK_ARRAY_SIZE) && (cfg.comparator key k == 0))
    · simp
    · simp [HashTableBlockPage.ValueAt, hkv]

theorem holdsPair_iff [DecidableEq V] (cfg : HashTableConfig K V)
    {blocks : List (HashTableBlockPage K V)} {p : Nat} {bp : HashTableBlockPage K V}
    {k : K} {v : V} (hb : blocks[p / cfg.BLOCK_ARRAY_SIZE]? = some bp)
    (hkv : bp.array[p % cfg.BLOCK_ARRAY_SIZE]? = some (k, v)) (key : K) (value : V) :
    holdsPair cfg blocks p key value ↔
      (bp.rdBit (p % cfg.BLOCK_ARRAY_SIZE) && (cfg.comparator key k == 0)
        && decide (v = value)) = true := by
  unfold holdsPair
  simp only [gRd, gKV, hb, hkv, Option.some.injEq, Prod.mk.injEq, Bool.and_eq_true,
    beq_iff_eq, decide_eq_true_eq]
  constructor
  · rintro ⟨h1, k', v', ⟨rfl, rfl⟩, h2, h3⟩
    exact ⟨⟨h1, h2⟩, h3⟩
  · rintro ⟨⟨h1, h2⟩, h3⟩
    exact ⟨h1, k, v, ⟨rfl, rfl⟩, h2, h3⟩

/-- `insert_bucket_id_kv` on the block pages: the three outcomes. -/
theorem pureInsertBucket_eq [DecidableEq V] (cfg : HashTableConfig K V)
    {blocks : List (HashTableBlockPage K V)}
    (hwf : ∀ bp ∈ blocks, bp.WF cfg.BLOCK_ARRAY_SIZE) {p : Nat}
    (hp : p < blocks.length * cfg.BLOCK_ARRAY_SIZE) (key : K) (value : V) :
    (holdsPair cfg blocks p key value →
      pureInsertBucket cfg blocks p key value = some (0, blocks)) ∧
    (gRd cfg blocks p = true → ¬ holdsPair cfg blocks p key value →
      pureInsertBucket cfg blocks p key value = some (-1, blocks)) ∧
    (gRd cfg blocks p = false →
      ∃ blocks', pureInsertBucket cfg blocks p key value = some (1, blocks') ∧
        blocks'.length = blocks.length ∧ (∀ bp ∈ blocks', bp.WF cfg.BLOCK_ARRAY_SIZE) ∧
        (∀ q, gOcc cfg blocks' q = (gOcc cfg blocks q || decide (q = p))) ∧
        (∀ q, gRd cfg blocks' q = (gRd cfg blocks q || decide (q = p))) ∧
        (∀ q, gKV cfg blocks' q = if q = p then some (key, value) else gKV cfg blocks q)) := by
  obtain ⟨bp, k, v, hb, hw, hi, hkv⟩ := slot_block cfg hwf hp
  obtain ⟨hbl, -⟩ := List.getElem?_eq_some.1 hb
  have hpm := pairMatches_eq cfg hw hi key value hkv
  have hiff := holdsPair_iff cfg hb hkv key value
  refine ⟨?_, ?_, ?_⟩
  · intro hh
    unfold pureInsertBucket
    simp only [hb, hpm, hiff.1 hh]
  · intro hr hnh
    have hfalse : (bp.rdBit (p % cfg.BLOCK_ARRAY_SIZE) && (cfg.comparator key k == 0)
        && decide (v = value)) = false := by
      cases h : (bp.rdBit (p % cfg.BLOCK_ARRAY_SIZE) && (cfg.comparator key k == 0)
        && decide (v = value))
      · rfl
      · exact absurd (hiff.2 h) hnh
    have hrb : bp.rdBit (p % cfg.BLOCK_ARRAY_SIZE) = true := by
      simpa [gRd, hb] using hr
    have hset : blocks.set (p / cfg.BLOCK_ARRAY_SIZE) bp = blocks := by
      apply List.ext_getElem?
      intro m
      by_cases hm : p / cfg.BLOCK_ARRAY_SIZE = m
      · subst hm; rw [List.getElem?_set_self hbl, hb]
      · rw [List.getElem?_set_ne hm]
    unfold pureInsertBucket
    simp only [hb, hpm, hfalse, HashTableBlockPage.Insert_readable hw hi key value hrb, hset]
  · intro hr
    have hrb : bp.rdBit (p % cfg.BLOCK_ARRAY_SIZE) = false := by
      simpa [gRd, hb] using hr
    obtain ⟨bp', hins, hw', ho', hr', ha'⟩ := HashTableBlockPage.Insert_free hw hi key value hrb
    refine ⟨blocks.set (p / cfg.BLOCK_ARRAY_SIZE) bp', ?_, by simp, ?_, ?_, ?_, ?_⟩
    · unfold pureInsertBucket
      simp only [hb, hpm, hrb, Bool.false_and, hins]
    · intro b hbm
      rcases List.mem_or_eq_of_mem_set hbm with h | h
      · exact hwf b h
      · rw [h]; exact hw'
    · intro q
      unfold gOcc
      by_cases hq : p / cfg.BLOCK_ARRAY_SIZE = q / cfg.BLOCK_ARRAY_SIZE
      · rw [← hq, List.getElem?_set_self hbl, hb]
        simp only [ho']
        congr 1
        by_cases e : q % cfg.BLOCK_ARRAY_SIZE = p % cfg.BLOCK_ARRAY_SIZE
        · have : q = p := (gslot_eq_iff _ p q).2 ⟨hq.symm, e⟩
          simp [e, this]
        · have : q ≠ p := fun h => e (by rw [h])
          simp [e, this]
      · have : q ≠ p := fun h => hq (by rw [h])
        rw [List.getElem?_set_ne hq]
        simp [this]
    · intro q
      unfold gRd
      by_cases hq : p / cfg.BLOCK_ARRAY_SIZE = q / cfg.BLOCK_ARRAY_SIZE
      · rw [← hq, List.getElem?_set_self hbl, hb]
        simp only [hr']
        congr 1
        by_cases e : q % cfg.BLOCK_ARRAY_SIZE = p % cfg.BLOCK_ARRAY_SIZE
        · have : q = p := (gslot_eq_iff _ p q).2 ⟨hq.symm, e⟩
          simp [e, this]
        · have : q ≠ p := fun h => e (by rw [h])
          simp [e, this]
      · have : q ≠ p := fun h => hq (by rw [h])
        rw [List.getElem?_set_ne hq]
        simp [this]
    · intro q
      unfold gKV
      by_cases hq : p / cfg.BLOCK_ARRAY_SIZE = q / cfg.BLOCK_ARRAY_SIZE
      · rw [← hq, List.getElem?_set_self hbl, hb]
        simp only [ha']
        by_cases e : q % cfg.BLOCK_ARRAY_SIZE = p % cfg.BLOCK_ARRAY_SIZE
        · have : q = p := (gslot_eq_iff _ p q).2 ⟨hq.symm, e⟩
          have hla : p % cfg.BLOCK_ARRAY_SIZE < bp.array.length := by
            rw [hw.array_len]; exact hi
          simp [e, this, hla]
        · have : q ≠ p := fun h => e (by rw [h])
          rw [List.getElem?_set_ne (fun h => e h.symm)]
          simp [this]
      · have : q ≠ p := fun h => hq (by rw [h])
        rw [List.getElem?_set_ne hq]
        simp [this]

theorem probe_next (S b i : Nat) : ((b + i) % S + 1) % S = (b + (i + 1)) % S := by
  rw [Nat.mod_add_mod]; rfl

theorem probe_no_wrap {S b i : Nat} (hb : b < S) (hi : i + 1 < S) : (b + (i + 1)) % S ≠ b := by
  by_cases h : b + (i + 1) < S
  · rw [Nat.mod_eq_of_lt h]; omega
  · rw [Nat.mod_eq_sub_mod (by omega), Nat.mod_eq_of_lt (by omega)]; omega

theorem probe_wrap {S b i : Nat} (hb : b < S) (hi : i + 1 = S) : (b + (i + 1)) % S = b := by
  rw [hi, Nat.add_mod_right, Nat.mod_eq_of_lt hb]

theorem probe_lt {S b i : Nat} (hb : b < S) : (b + i) % S < S :=
  Nat.mod_lt _ (by omega)

theorem gOcc_of_gRd (cfg : HashTableConfig K V) {blocks : List (HashTableBlockPage K V)}
    (hwf : ∀ bp ∈ blocks, bp.WF cfg.BLOCK_ARRAY_SIZE) {p : Nat}
    (hp : p < blocks.length * cfg.BLOCK_ARRAY_SIZE) (h : gRd cfg blocks p = true) :
    gOcc cfg blocks p = true := by
  obtain ⟨bp, k, v, hb, hw, hi, -⟩ := slot_block cfg hwf hp
  simp only [gRd, gOcc, hb] at h ⊢
  exact hw.readable_occupied _ hi h

/-- The loop of `Insert` on the block pages: if a slot that is not readable or
holds the pair lies `d` steps ahead, the loop ends with status 0 or 1 and the
pair stored at the end of a run of occupied slots that starts at the home
slot. -/
theorem pureInsertLoop_stops [DecidableEq V] (cfg : HashTableConfig K V) (b : Nat) (key : K)
    (value : V) (hcmp : cfg.comparator key key = 0) (d : Nat) :
    ∀ (blocks : List (HashTableBlockPage K V)) (i fuel : Nat),
      (∀ bp ∈ blocks, bp.WF cfg.BLOCK_ARRAY_SIZE) →
      b < blocks.length * cfg.BLOCK_ARRAY_SIZE →
      i + d < blocks.length * cfg.BLOCK_ARRAY_SIZE → d < fuel →
      (∀ j, j < i → gOcc cfg blocks ((b + j) % (blocks.length * cfg.BLOCK_ARRAY_SIZE)) = true) →
      (gRd cfg blocks ((b + (i + d)) % (blocks.length * cfg.BLOCK_ARRAY_SIZE)) = false ∨
        holdsPair cfg blocks ((b + (i + d)) % (blocks.length * cfg.BLOCK_ARRAY_SIZE))
          key value) →
      ∃ (st : Int) (blocks' : List (HashTableBlockPage K V)) (m : Nat),
        pureInsertLoop cfg b key value fuel blocks
          ((b + i) % (blocks.length * cfg.BLOCK_ARRAY_SIZE)) = some (st, blocks') ∧
        st ≠ -1 ∧ blocks'.length = blocks.length ∧
        (∀ bp ∈ blocks', bp.WF cfg.BLOCK_ARRAY_SIZE) ∧
        m < blocks.length * cfg.BLOCK_ARRAY_SIZE ∧
        (∀ j, j < m →
          gOcc cfg blocks' ((b + j) % (blocks.length * cfg.BLOCK_ARRAY_SIZE)) = true) ∧
        holdsPair cfg blocks' ((b + m) % (blocks.length * cfg.BLOCK_ARRAY_SIZE)) key value := by
  induction d with
  | zero =>
    intro blocks i fuel hwf hb hi hfuel hpre hstop
    obtain ⟨fuel', rfl⟩ : ∃ f, fuel = f + 1 := ⟨fuel - 1, by omega⟩
    have hp : (b + i) % (blocks.length * cfg.BLOCK_ARRAY_SIZE)
        < blocks.length * cfg.BLOCK_ARRAY_SIZE := probe_lt hb
    obtain ⟨h0, -, h1⟩ := pureInsertBucket_eq cfg hwf hp key value
    simp only [Nat.add_zero] at hstop hi
    by_cases hh : holdsPair cfg blocks ((b + i) % (blocks.length * cfg.BLOCK_ARRAY_SIZE))
        key value
    · refine ⟨0, blocks, i, ?_, by decide, rfl, hwf, hi, hpre, hh⟩
      simp [pureInsertLoop, h0 hh]
    · have hr : gRd cfg blocks ((b + i) % (blocks.length * cfg.BLOCK_ARRAY_SIZE)) = false := by
        rcases hstop with h | h
        · exact h
        · exact absurd h hh
      obtain ⟨blocks', e1, e2, e3, e4, e5, e6⟩ := h1 hr
      refine ⟨1, blocks', i, ?_, by decide, e2, e3, hi, ?_, ?_⟩
      · simp [pureInsertLoop, e1]
      · intro j hj
        rw [e4, hpre j hj]; rfl
      · refine ⟨by rw [e5]; simp, key, value, by rw [e6]; simp, hcmp, rfl⟩
  | succ d ih =>
    intro blocks i fuel hwf hb hi hfuel hpre hstop
    obtain ⟨fuel', rfl⟩ : ∃ f, fuel = f + 1 := ⟨fuel - 1, by omega⟩
    have hp : (b + i) % (blocks.length * cfg.BLOCK_ARRAY_SIZE)
        < blocks.length * cfg.BLOCK_ARRAY_SIZE := probe_lt hb
    obtain ⟨h0, hm1, h1⟩ := pureInsertBucket_eq cfg hwf hp key value
    by_cases hh : holdsPair cfg blocks ((b + i) % (blocks.length * cfg.BLOCK_ARRAY_SIZE))
        key value
    · refine ⟨0, blocks, i, ?_, by decide, rfl, hwf, by omega, hpre, hh⟩
      simp [pureInsertLoop, h0 hh]
    · cases hr : gRd cfg blocks ((b + i) % (blocks.length * cfg.BLOCK_ARRAY_SIZE))
      · obtain ⟨blocks', e1, e2, e3, e4, e5, e6⟩ := h1 hr
        refine ⟨1, blocks', i, ?_, by decide, e2, e3, by omega, ?_, ?_⟩
        · simp [pureInsertLoop, e1]
        · intro j hj
          rw [e4, hpre j hj]; rfl
        · refine ⟨by rw [e5]; simp, key, value, by rw [e6]; simp, hcmp, rfl⟩
      · have hstep := hm1 hr hh
        have hnw : (b + (i + 1)) % (blocks.length * cfg.BLOCK_ARRAY_SIZE) ≠ b :=
          probe_no_wrap hb (by omega)
        obtain ⟨st, blocks', m, g1, g2, g3, g4, g5, g6, g7⟩ :=
          ih blocks (i + 1) fuel' hwf hb (by omega) (by omega)
            (by
              intro j hj
              by_cases e : j = i
              · subst e; exact gOcc_of_gRd cfg hwf hp hr
              · exact hpre j (by omega))
            (by
              have : i + 1 + d = i + (d + 1) := by omega
              rw [this]; exact hstop)
        refine ⟨st, blocks', m, ?_, g2, g3, g4, g5, g6, g7⟩
        rw [pureInsertLoop]
        simp only [hstep, ne_eq, not_true_eq_false, if_false, probe_next, hnw,
          not_false_eq_true, if_true]
        exact g1

/-- The loop of `GetValue` on the block pages returns, and only appends. -/
theorem pureGetLoop_total (cfg : HashTableConfig K V)
    {blocks : List (HashTableBlockPage K V)}
    (hwf : ∀ bp ∈ blocks, bp.WF cfg.BLOCK_ARRAY_SIZE) {b : Nat}
    (hb : b < blocks.length * cfg.BLOCK_ARRAY_SIZE) (key : K) (fuel : Nat) :
    ∀ (i : Nat) (res : List V), i < blocks.length * cfg.BLOCK_ARRAY_SIZE →
      blocks.length * cfg.BLOCK_ARRAY_SIZE - i ≤ fuel →
      ∃ res', pureGetLoop cfg blocks b key fuel
          ((b + i) % (blocks.length * cfg.BLOCK_ARRAY_SIZE)) res = some res' ∧
        ∀ x ∈ res, x ∈ res' := by
  induction fuel with
  | zero => intro i res hi hf; omega
  | succ fuel ih =>
    intro i res hi hf
    have hp : (b + i) % (blocks.length * cfg.BLOCK_ARRAY_SIZE)
        < blocks.length * cfg.BLOCK_ARRAY_SIZE := probe_lt hb
    obtain ⟨k, v, -, hg⟩ := pureGetBucket_eq cfg hwf hp key res
    rw [pureGetLoop, hg]
    cases ho : gOcc cfg blocks ((b + i) % (blocks.length * cfg.BLOCK_ARRAY_SIZE))
    · exact ⟨res, by simp, fun x hx => hx⟩
    · simp only [if_true, probe_next]
      by_cases hw : i + 1 < blocks.length * cfg.BLOCK_ARRAY_SIZE
      · have hnw := probe_no_wrap hb hw
        simp only [ne_eq, hnw, not_false_eq_true, if_true]
        obtain ⟨res', e1, e2⟩ := ih (i + 1)
          (if (gRd cfg blocks ((b + i) % (blocks.length * cfg.BLOCK_ARRAY_SIZE))
              && (cfg.comparator key k == 0)) = true then res ++ [v] else res) hw (by omega)
        refine ⟨res', e1, ?_⟩
        intro x hx
        apply e2
        split
        · simp [hx]
        · exact hx
      · have hwrap := probe_wrap hb (show i + 1 = _ by omega)
        simp only [ne_eq, hwrap, not_true_eq_false, if_false]
        refine ⟨_, rfl, ?_⟩
        intro x hx
        split
        · simp [hx]
        · exact hx

/-- The loop of `GetValue` on the block pages finds a pair stored at the end
of a run of occupied slots. -/
theorem pureGetLoop_finds (cfg : HashTableConfig K V)
    {blocks : List (HashTableBlockPage K V)}
    (hwf : ∀ bp ∈ blocks, bp.WF cfg.BLOCK_ARRAY_SIZE) {b : Nat}
    (hb : b < blocks.length * cfg.BLOCK_ARRAY_SIZE) (key : K) (value : V) {m : Nat}
    (hm : m < blocks.length * cfg.BLOCK_ARRAY_SIZE)
    (hpre : ∀ j, j < m →
      gOcc cfg blocks ((b + j) % (blocks.length * cfg.BLOCK_ARRAY_SIZE)) = true)
    (hpair : holdsPair cfg blocks ((b + m) % (blocks.length * cfg.BLOCK_ARRAY_SIZE))
      key value) (n : Nat) :
    ∀ (i fuel : Nat) (res : List V), i + n = m →
      blocks.length * cfg.BLOCK_ARRAY_SIZE - i ≤ fuel →
      ∃ res', pureGetLoop cfg blocks b key fuel
          ((b + i) % (blocks.length * cfg.BLOCK_ARRAY_SIZE)) res = some res' ∧
        value ∈ res' := by
  induction n with
  | zero =>
    intro i fuel res him hf
    simp only [Nat.add_zero] at him
    subst him
    obtain ⟨fuel', rfl⟩ : ∃ f, fuel = f + 1 := ⟨fuel - 1, by omega⟩
    have hp : (b + i) % (blocks.length * cfg.BLOCK_ARRAY_SIZE)
        < blocks.length * cfg.BLOCK_ARRAY_SIZE := probe_lt hb
    obtain ⟨k, v, hkv, hg⟩ := pureGetBucket_eq cfg hwf hp key res
    obtain ⟨hr, k', v', hkv', hc, hv⟩ := hpair
    rw [hkv] at hkv'
    injection hkv' with hkv'
    injection hkv' with e1 e2
    subst e1; subst e2
    have ho := gOcc_of_gRd cfg hwf hp hr
    rw [pureGetLoop, hg]
    simp only [ho, if_true, hr, hc, beq_self_eq_true, Bool.and_self, probe_next]
    by_cases hw : i + 1 < blocks.length * cfg.BLOCK_ARRAY_SIZE
    · have hnw := probe_no_wrap hb hw
      simp only [ne_eq, hnw, not_false_eq_true, if_true]
      obtain ⟨res', e1, e2⟩ := pureGetLoop_total cfg hwf hb key fuel' (i + 1) (res ++ [v]) hw
        (by omega)
      exact ⟨res', e1, e2 _ (by simp [hv])⟩
    · have hwrap := probe_wrap hb (show i + 1 = _ by omega)
      simp only [ne_eq, hwrap, not_true_eq_false, if_false]
      exact ⟨_, rfl, by simp [hv]⟩
  | succ n ih =>
    intro i fuel res him hf
    obtain ⟨fuel', rfl⟩ : ∃ f, fuel = f + 1 := ⟨fuel - 1, by omega⟩
    have hp : (b + i) % (blocks.length * cfg.BLOCK_ARRAY_SIZE)
        < blocks.length * cfg.BLOCK_ARRAY_SIZE := probe_lt hb
    obtain ⟨k, v, hkv, hg⟩ := pureGetBucket_eq cfg hwf hp key res
    have ho := hpre i (by omega)
    have hnw := probe_no_wrap hb (show i + 1 < _ by omega)
    rw [pureGetLoop, hg]
    simp only [ho, if_true, probe_next, ne_eq, hnw, not_false_eq_true]
    exact ih (i + 1) fuel' _ (by omega) (by omega)

end LinearProbeHashTable

/-! ## Buffer pool: the contents of pages survive fetches and unpins -/

namespace BufferPoolManager

variable {D B : Type}

theorem table_injective {s : BufferPoolManager D B} (hi : Inv s) {p q : Int} {f : Nat}
    (hp : s.page_table.find p = some f) (hq : s.page_table.find q = some f) : p = q := by
  obtain ⟨pg1, h1, e1⟩ := hi.table p f hp
  obtain ⟨pg2, h2, e2⟩ := hi.table q f hq
  rw [h1] at h2
  injection h2 with h2
  subst h2
  exact e1.symm.trans e2

theorem acquirable_of_pinned_lt {s : BufferPoolManager D B} (hi : Inv s)
    (hav : pinnedCount s < s.pool_size) :
    s.free_list ≠ [] ∨
      ∃ (q : Int) (g : Nat) (pg : Page B),
        s.page_table.find q = some g ∧ s.pages[g]? = some pg ∧ pg.pin_count = 0 := by
  have hne : s.pages.countP (fun pg => decide (0 < pg.pin_count)) ≠ s.pages.length := by
    unfold pinnedCount at hav
    rw [hi.pages_len]; omega
  have hex : ∃ pg ∈ s.pages, ¬ 0 < pg.pin_count := by
    by_contra hall
    apply hne
    rw [List.countP_eq_length]
    intro a ha
    by_contra hn
    exact hall ⟨a, ha, by simpa using hn⟩
  obtain ⟨pg, hmem, hpin⟩ := hex
  obtain ⟨g, hg, rfl⟩ := List.getElem_of_mem hmem
  have hpg : s.pages[g]? = some s.pages[g] := List.getElem?_eq_getElem hg
  have hnn := hi.pin_nonneg g _ hpg
  rcases hi.cover g _ hpg with h | h
  · left
    intro hnil
    rw [hnil] at h
    simp at h
  · right
    exact ⟨_, g, _, h, hpg, by omega⟩

/-- What `get_free_page` does to the contents of pages: the frame handed out
had pin count zero, every other frame and every other page-table entry is as
before, and every page keeps its bytes (an evicted page on the disk). -/
theorem get_free_page_content {dm : DiskManager D B} {zero : B} (laws : DiskLaws dm)
    {s s1 : BufferPoolManager D B} {f : Nat} (hi : Inv s) {ex : List Nat}
    (hc : Coh dm zero ex s) (hex : Pinned ex s)
    (h : get_free_page dm s = some (some f, s1)) :
    (∃ pg0 : Page B, s.pages[f]? = some pg0 ∧ pg0.pin_count = 0) ∧
    (∀ x : Page B, s1.pages.set f x = s.pages.set f x) ∧
    (∀ g, g ≠ f → s1.pages[g]? = s.pages[g]?) ∧
    (∀ q g, s1.page_table.find q = some g → s.page_table.find q = some g ∧ g ≠ f) ∧
    (∀ q g, s.page_table.find q = some g → g ≠ f → s1.page_table.find q = some g) ∧
    (∀ q, s1.page_table.find q = none → dm.ReadPage s1.disk q zero = content dm zero s q) ∧
    (∀ (q : Int) (g : Nat) (pg : Page B), s1.page_table.find q = some g →
      s1.pages[g]? = some pg → pg.is_dirty = false → g ∉ ex →
      pg.data = dm.ReadPage s1.disk q zero) ∧
    f ∉ ex := by
  have hnotex : ∀ (g : Nat) (pg : Page B), s.pages[g]? = some pg → pg.pin_count = 0 →
      g ∉ ex := by
    intro g pg hpg hz hm
    obtain ⟨x, hx, hx0⟩ := hex g hm
    rw [hpg] at hx
    injection hx with hx
    subst hx
    omega
  by_cases hempty : s.free_list = []
  · have hcnt : s.replacer.ClockReplacer_frame_counter ≠ 0 := by
      intro h0
      rw [get_free_page_exhausted dm hempty h0] at h
      simp at h
    obtain ⟨f', r', rp, pg, hv, hpg, hpin, hfind, hval, hrp, heq⟩ :=
      get_free_page_evict dm hi hempty hcnt
    rw [heq] at h
    injection h with h; injection h with h1 h2
    injection h1 with h1
    have h1 := h1.symm
    subst h1
    subst h2
    obtain ⟨hlt, -⟩ := List.getElem?_eq_some.1 hpg
    have hdisk : ∀ q, q ≠ pg.page_id →
        dm.ReadPage (if pg.is_dirty then
            dm.WritePage (dm.DeallocatePage s.disk pg.page_id) pg.page_id pg.data
          else dm.DeallocatePage s.disk pg.page_id) q zero = dm.ReadPage s.disk q zero := by
      intro q hq
      split
      · rw [laws.read_write_ne _ _ _ _ _ hq, laws.read_dealloc]
      · rw [laws.read_dealloc]
    have hfind1 : ∀ q g, (s.page_table.erase pg.page_id).find q = some g →
        q ≠ pg.page_id ∧ s.page_table.find q = some g := by
      intro q g hq
      rw [PageTable.find_erase] at hq
      by_cases e : q = pg.page_id
      · simp [e] at hq
      · simp only [e, if_false] at hq; exact ⟨e, hq⟩
    refine ⟨⟨pg, hpg, hpin⟩, ?_, ?_, ?_, ?_, ?_, ?_, hnotex f pg hpg hpin⟩
    · intro x; simp
    · intro g hg
      simp only
      rw [List.getElem?_set_ne (fun e => hg e.symm)]
    · intro q g hq
      obtain ⟨hne, hq'⟩ := hfind1 q g hq
      refine ⟨hq', ?_⟩
      intro e
      subst e
      exact hne (table_injective hi hq' hfind)
    · intro q g hq hg
      simp only
      have hne : q ≠ pg.page_id := by
        intro e
        rw [e, hfind] at hq
        injection hq with hq
        exact hg hq.symm
      rw [PageTable.find_erase_ne _ hne]
      exact hq
    · intro q hq
      simp only at hq ⊢
      by_cases e : q = pg.page_id
      · subst e
        have hcont : content dm zero s pg.page_id = pg.data := by
          simp [content, hfind, hpg]
        rw [hcont]
        cases hd : pg.is_dirty
        · simp only [Bool.false_eq_true, if_false]
          rw [laws.read_dealloc]
          exact (hc _ f pg hfind hpg hd (hnotex f pg hpg hpin)).symm
        · simp only [if_true]
          exact laws.read_write _ _ _ _
      · rw [PageTable.find_erase_ne _ e] at hq
        rw [hdisk q e]
        simp [content, hq]
    · intro q g pg' hq hpg' hd hnex
      simp only at hq hpg' ⊢
      obtain ⟨hne, hq'⟩ := hfind1 q g hq
      have hgf : g ≠ f := by
        intro e
        subst e
        exact hne (table_injective hi hq' hfind)
      rw [List.getElem?_set_ne (fun e => hgf e.symm)] at hpg'
      rw [hdisk q hne]
      exact hc q g pg' hq' hpg' hd hnex
  · rw [get_free_page_nonempty dm hempty] at h
    obtain ⟨f', ys, rp, hr, hys, hp, hs1⟩ := take_free_frame_eq h
    injection hr with hr
    subst hr
    subst hs1
    have hmem : f ∈ s.free_list := by rw [hys]; simp
    obtain ⟨pg0, hpg0, hz⟩ := hi.free_pin f hmem
    refine ⟨⟨pg0, hpg0, hz⟩, fun _ => rfl, fun _ _ => rfl, ?_, fun _ _ hq _ => hq, ?_, ?_,
      hnotex f pg0 hpg0 hz⟩
    · intro q g hq
      refine ⟨hq, ?_⟩
      intro e
      subst e
      exact hi.table_free q g hq hmem
    · intro q hq
      simp only at hq ⊢
      simp [content, hq]
    · intro q g pg hq hpg hd hne
      exact hc q g pg hq hpg hd hne

theorem pinList_get {s : BufferPoolManager D B} {f : Nat} {pg : Page B}
    (h : s.pages[f]? = some pg) : (pinList s)[f]? = some pg.pin_count := by
  simp [pinList, h]

theorem content_resident {dm : DiskManager D B} {zero : B} {s : BufferPoolManager D B}
    {p : Int} {f : Nat} {pg : Page B} (hfind : s.page_table.find p = some f)
    (hpg : s.pages[f]? = some pg) : content dm zero s p = pg.data := by
  simp [content, hfind, hpg]

/-- A `Fetch` with a frame to spare returns the frame holding the page with
the bytes the page had; it keeps the bytes of every page, the invariant and
the coherence with the disk, raises the pin count of that frame by one and
leaves pinned pages in their frames. -/
theorem fetch_content {dm : DiskManager D B} {zero : B} (laws : DiskLaws dm)
    {s : BufferPoolManager D B} (hi : Inv s) {ex : List Nat} (hc : Coh dm zero ex s)
    (hex : Pinned ex s) (p : Int)
    (hp : p ≠ INVALID_PAGE_ID)
    (hav : s.page_table.find p = none → pinnedCount s < s.pool_size) :
    ∃ (f : Nat) (s' : BufferPoolManager D B) (c : Int),
      FetchPageImpl dm zero s p = some (some f, s') ∧ Inv s' ∧ Coh dm zero ex s' ∧
      (∀ q, content dm zero s' q = content dm zero s q) ∧
      s'.page_table.find p = some f ∧
      (∃ pg : Page B, s'.pages[f]? = some pg ∧ pg.data = content dm zero s p) ∧
      (pinList s)[f]? = some c ∧ 0 ≤ c ∧ pinList s' = (pinList s).set f (c + 1) ∧
      (∀ (q : Int) (g : Nat) (pg : Page B), s.page_table.find q = some g →
        s.pages[g]? = some pg → 0 < pg.pin_count → s'.page_table.find q = some g) ∧
      s'.pool_size = s.pool_size := by
  cases hfind : s.page_table.find p with
  | some f =>
    obtain ⟨pg, hpg, -⟩ := hi.table p f hfind
    obtain ⟨hlt, -⟩ := List.getElem?_eq_some.1 hpg
    obtain ⟨s', h1, h2, h3, h4⟩ := fetch_hit dm zero hi hfind hpg
    have hdisk : s'.disk = s.disk := by
      unfold FetchPageImpl at h1
      simp only [hfind, hpg] at h1
      split at h1
      · split at h1
        · simp at h1
        · injection h1 with h1; injection h1 with _ h1; rw [← h1]
      · injection h1 with h1; injection h1 with _ h1; rw [← h1]
    have hpg' : s'.pages[f]? = some { pg with pin_count := pg.pin_count + 1 } := by
      rw [h4]; simp [hlt]
    have hpages : ∀ (g : Nat) (x : Page B), s'.pages[g]? = some x →
        ∃ y : Page B, s.pages[g]? = some y ∧ y.data = x.data ∧ y.is_dirty = x.is_dirty := by
      intro g x hx
      rw [h4] at hx
      rcases getElem?_set_some hx with ⟨rfl, rfl, -⟩ | ⟨-, hx'⟩
      · exact ⟨pg, hpg, rfl, rfl⟩
      · exact ⟨x, hx', rfl, rfl⟩
    have hcontent : ∀ q, content dm zero s' q = content dm zero s q := by
      intro q
      unfold content
      rw [h3, hdisk]
      cases hq : s.page_table.find q with
      | none => rfl
      | some g =>
        simp only
        rw [h4]
        by_cases e : g = f
        · subst e; simp [hlt, hpg]
        · rw [List.getElem?_set_ne (fun e' => e e'.symm)]
    refine ⟨f, s', pg.pin_count, h1, h2, ?_, hcontent, by rw [h3]; exact hfind,
      ⟨_, hpg', (content_resident hfind hpg).symm⟩, pinList_get hpg,
      hi.pin_nonneg f pg hpg, ?_, ?_, ?_⟩
    · intro q g x hq hx hd hne
      rw [h3] at hq
      obtain ⟨y, hy, e1, e2⟩ := hpages g x hx
      rw [hdisk, ← e1]
      exact hc q g y hq hy (by rw [e2]; exact hd) hne
    · simp [pinList, h4]
    · intro q g _ hq _ _
      rw [h3]; exact hq
    · unfold FetchPageImpl at h1
      simp only [hfind, hpg] at h1
      split at h1
      · split at h1
        · simp at h1
        · injection h1 with h1; injection h1 with _ h1; rw [← h1]
      · injection h1 with h1; injection h1 with _ h1; rw [← h1]
  | none =>
    obtain ⟨f, s1, hg⟩ := get_free_page_total dm hi (acquirable_of_pinned_lt hi (hav hfind))
    obtain ⟨hold, hps, hkeep⟩ := get_free_page_some_inv dm hi hg
    obtain ⟨⟨pg0, hpg0, hz⟩, c2, c3, c4, c5, c6, c7, -⟩ :=
      get_free_page_content laws hi hc hex hg
    obtain ⟨pgf, hpgf, -⟩ := hold.2.2.free_pin f (by simp)
    simp only at hpgf
    obtain ⟨hlt1, -⟩ := List.getElem?_eq_some.1 hpgf
    obtain ⟨hlt0, -⟩ := List.getElem?_eq_some.1 hpg0
    have heq : FetchPageImpl dm zero s p = some (some f,
        { s1 with
          pages := s1.pages.set f
            { data := dm.ReadPage s1.disk p zero, page_id := p, pin_count := 1,
              is_dirty := false }
          events := s1.events ++ [Event.ReadPage p]
          page_table := s1.page_table.insert p f }) := by
      unfold FetchPageImpl
      simp only [hfind, hg, hpgf]
    have hinv := Inv_fetch hi hp heq
    have hp1 : s1.page_table.find p = none := hkeep p hfind
    have hcontent : ∀ q, content dm zero
        ({ s1 with
          pages := s1.pages.set f
            { data := dm.ReadPage s1.disk p zero, page_id := p, pin_count := 1,
              is_dirty := false }
          events := s1.events ++ [Event.ReadPage p]
          page_table := s1.page_table.insert p f } : BufferPoolManager D B) q
        = content dm zero s q := by
      intro q
      by_cases e : q = p
      · subst e
        simp only [content, PageTable.find_insert_self, List.getElem?_set_self hlt1]
        exact c6 q hp1
      · simp only [content, PageTable.find_insert_ne _ _ e]
        cases hq : s1.page_table.find q with
        | none => simpa [content] using c6 q hq
        | some g =>
          obtain ⟨hq0, hgf⟩ := c4 q g hq
          simp only
          rw [List.getElem?_set_ne (fun e' => hgf e'.symm), c3 g hgf, hq0]
    refine ⟨f, _, 0, heq, hinv, ?_, hcontent, PageTable.find_insert_self _ _ _,
      ⟨_, List.getElem?_set_self hlt1, ?_⟩, ?_, le_refl _, ?_, ?_, hps⟩
    · intro q g x hq hx hd hne
      simp only at hq hx ⊢
      by_cases e : q = p
      · subst e
        rw [PageTable.find_insert_self] at hq
        injection hq with hq
        subst hq
        rw [List.getElem?_set_self hlt1] at hx
        injection hx with hx
        rw [← hx]
      · rw [PageTable.find_insert_ne _ _ e] at hq
        obtain ⟨-, hgf⟩ := c4 q g hq
        rw [List.getElem?_set_ne (fun e' => hgf e'.symm)] at hx
        exact c7 q g x hq hx hd hne
    · simp only
      rw [c6 p hp1]
    · rw [pinList_get hpg0, hz]
    · simp only [pinList, c2, List.map_set]
      rfl
    · intro q g pg hq hpg hpos
      simp only
      have hgf : g ≠ f := by
        intro e
        subst e
        rw [hpg0] at hpg
        injection hpg with hpg
        subst hpg
        omega
      have hqp : q ≠ p := by
        intro e
        subst e
        rw [hfind] at hq
        simp at hq
      rw [PageTable.find_insert_ne _ _ hqp]
      exact c5 q g hq hgf

theorem pinList_get_inv {s : BufferPoolManager D B} {f : Nat} {c : Int}
    (h : (pinList s)[f]? = some c) : ∃ pg : Page B, s.pages[f]? = some pg ∧ pg.pin_count = c := by
  simp only [pinList, List.getElem?_map, Option.map_eq_some'] at h
  exact h

theorem pinnedCount_eq_of_pinList {s s' : BufferPoolManager D B}
    (h : pinList s' = pinList s) : pinnedCount s' = pinnedCount s := by
  have e : ∀ t : BufferPoolManager D B,
      pinnedCount t = (pinList t).countP (fun c => decide (0 < c)) := by
    intro t
    simp [pinnedCount, pinList, List.countP_map, Function.comp_def]
  rw [e, e, h]

theorem pinnedCount_set_le {s s' : BufferPoolManager D B} {f : Nat} {c : Int}
    (h : pinList s' = (pinList s).set f c) : pinnedCount s' ≤ pinnedCount s + 1 := by
  have e : ∀ t : BufferPoolManager D B,
      pinnedCount t = (pinList t).countP (fun c => decide (0 < c)) := by
    intro t
    simp [pinnedCount, pinList, List.countP_map, Function.comp_def]
  rw [e, e, h]
  by_cases hf : f < (pinList s).length
  · rw [List.countP_set _ _ _ _ hf]
    split <;> split <;> omega
  · rw [List.set_eq_of_length_le (by omega)]
    omega

/-- An `Unpin` of a pinned resident page returns `true`, keeps the bytes of
every page, lowers the pin count of its frame by one and keeps the coherence
with the disk; with `is_dirty = true` it also covers a write made to that
frame. -/
theorem unpin_content {dm : DiskManager D B} {zero : B} {s : BufferPoolManager D B}
    (hi : Inv s) {ex : List Nat} (hc : Coh dm zero ex s) {p : Int} {f : Nat}
    {pg : Page B} (d : Bool) (hfind : s.page_table.find p = some f)
    (hpg : s.pages[f]? = some pg) (hpos : 0 < pg.pin_count) :
    ∃ s' : BufferPoolManager D B,
      UnpinPageImpl s p d = some (true, s') ∧ Inv s' ∧
      (∀ q, content dm zero s' q = content dm zero s q) ∧
      s'.page_table = s.page_table ∧
      pinList s' = (pinList s).set f (pg.pin_count - 1) ∧
      s'.pool_size = s.pool_size ∧
      Coh dm zero ex s' ∧
      (d = true → ∀ ex' : List Nat, (∀ g, g ≠ f → g ∉ ex' → g ∉ ex) →
        Coh dm zero ex' s') := by
  obtain ⟨hlt, -⟩ := List.getElem?_eq_some.1 hpg
  obtain ⟨s', h1, h2, h3, h4, h5, h6, -, -⟩ := unpin_pinned hi d hfind hpg hpos
  have hps : s'.pool_size = s.pool_size := by
    unfold UnpinPageImpl at h1
    simp only [hfind, hpg] at h1
    split at h1
    · simp at h1
    · split at h1
      · split at h1
        · simp at h1
        · injection h1 with h1; injection h1 with _ h1; rw [← h1]
      · injection h1 with h1; injection h1 with _ h1; rw [← h1]
  have hcontent : ∀ q, content dm zero s' q = content dm zero s q := by
    intro q
    unfold content
    rw [h3, h5]
    cases hq : s.page_table.find q with
    | none => rfl
    | some g =>
      simp only
      rw [h6]
      by_cases e : g = f
      · subst e; simp [hlt, hpg]
      · rw [List.getElem?_set_ne (fun e' => e e'.symm)]
  have hcohgen : ∀ ex' : List Nat,
      (∀ g, g ≠ f → g ∉ ex' → g ∉ ex) →
      ((d || pg.is_dirty) = false → f ∉ ex' → f ∉ ex) →
      Coh dm zero ex' s' := by
    intro ex' hother hself q g x hq hx hd hne
    rw [h3] at hq
    rw [h6] at hx
    rw [h5]
    rcases getElem?_set_some hx with ⟨rfl, rfl, -⟩ | ⟨hgf, hx'⟩
    · simp only at hd ⊢
      have hdd : pg.is_dirty = false := by
        cases hpd : pg.is_dirty
        · rfl
        · rw [hpd] at hd; simp at hd
      exact hc q g pg hq hpg hdd (hself hd hne)
    · exact hc q g x hq hx' hd (hother g hgf hne)
  refine ⟨s', h1, h2, hcontent, h3, ?_, hps, ?_, ?_⟩
  · simp [pinList, h6]
  · exact hcohgen ex (fun _ _ h => h) (fun _ h => h)
  · intro hd ex' hother
    apply hcohgen ex' hother
    intro hfalse
    rw [hd] at hfalse
    simp at hfalse

/-- A client writing into a frame it holds pinned changes the bytes of the
page in that frame and of no other page. -/
theorem write_content {dm : DiskManager D B} {zero : B} {s : BufferPoolManager D B}
    (hi : Inv s) {ex : List Nat} (hc : Coh dm zero ex s) {p : Int} {f : Nat} {pg : Page B}
    (hfind : s.page_table.find p = some f) (hpg : s.pages[f]? = some pg)
    (hpos : 0 < pg.pin_count) (x : B) :
    Inv (writeData s f x) ∧ Coh dm zero (f :: ex) (writeData s f x) ∧
    (∀ q, content dm zero (writeData s f x) q = if q = p then x else content dm zero s q) ∧
    (writeData s f x).page_table = s.page_table ∧
    pinList (writeData s f x) = pinList s ∧
    (writeData s f x).pool_size = s.pool_size := by
  obtain ⟨hlt, -⟩ := List.getElem?_eq_some.1 hpg
  have hinv := Inv_writeData hi f x (by
    intro pg' hpg'
    rw [hpg] at hpg'
    injection hpg' with hpg'
    subst hpg'
    exact hpos)
  have heq : writeData s f x = { s with pages := s.pages.set f { pg with data := x } } := by
    unfold writeData
    simp only [hpg]
  refine ⟨hinv, ?_, ?_, by rw [heq], ?_, by rw [heq]⟩
  · rw [heq]
    intro q g y hq hy hd hne
    simp only at hq hy ⊢
    rcases getElem?_set_some hy with ⟨rfl, rfl, -⟩ | ⟨hgf, hy'⟩
    · exact absurd (List.mem_cons_self _ _) hne
    · exact hc q g y hq hy' hd (fun hm => hne (List.mem_cons_of_mem _ hm))
  · intro q
    rw [heq]
    unfold content
    simp only
    by_cases e : q = p
    · subst e
      simp [hfind, hlt]
    · simp only [e, if_false]
      cases hq : s.page_table.find q with
      | none => rfl
      | some g =>
        have hgf : g ≠ f := by
          intro e'
          subst e'
          exact e (table_injective hi hq hfind)
        simp only
        rw [List.getElem?_set_ne (fun e' => hgf e'.symm)]
  · rw [heq]
    simp only [pinList, List.map_set]
    apply List.ext_getElem?
    intro m
    by_cases hm : f = m
    · subst hm
      rw [List.getElem?_set_self (by simpa using hlt)]
      simp [hpg]
    · rw [List.getElem?_set_ne hm]

end BufferPoolManager

/-! ## Page ids are fresh -/

namespace BufferPoolManager

variable {D B : Type}

theorem FlushPageImpl_next {dm : DiskManager D B} {next : D → Int} (al : AllocLaws dm next)
    {s s' : BufferPoolManager D B} {p : Int} {b : Bool}
    (h : FlushPageImpl dm s p = some (b, s')) : next s'.disk = next s.disk := by
  unfold FlushPageImpl at h
  split at h
  · simp at h
  · split at h
    · injection h with h; injection h with _ h; rw [← h]
    · split at h
      · simp at h
      · split at h
        · injection h with h; injection h with _ h; rw [← h]
          exact al.write_next _ _ _
        · injection h with h; injection h with _ h; rw [← h]

theorem delete_next {dm : DiskManager D B} {next : D → Int} (al : AllocLaws dm next)
    {s s' : BufferPoolManager D B} {p : Int} {b : Bool}
    (h : DeletePageImpl dm s p = some (b, s')) :
    next s'.disk = next s.disk ∧
      (∀ q g, s'.page_table.find q = some g → s.page_table.find q = some g) := by
  unfold DeletePageImpl at h
  split at h
  · injection h with h; injection h with _ h; rw [← h]; exact ⟨rfl, fun _ _ h => h⟩
  · split at h
    · simp at h
    · split at h
      · injection h with h; injection h with _ h; rw [← h]; exact ⟨rfl, fun _ _ h => h⟩
      · dsimp only at h
        split at h
        · simp at h
        · rename_i hfl
          injection h with h; injection h with _ h; rw [← h]
          obtain ⟨-, -, ht, -, -⟩ := FlushPageImpl_frame hfl
          refine ⟨?_, ?_⟩
          · simp only
            rw [FlushPageImpl_next al hfl]
            exact al.dealloc_next _ _
          · intro q g hq
            simp only at hq
            rw [PageTable.find_erase, ht] at hq
            split at hq
            · simp at hq
            · exact hq

theorem take_free_frame_next {s s1 : BufferPoolManager D B} {r : Option Nat}
    (h : take_free_frame s = some (r, s1)) :
    s1.disk = s.disk ∧ s1.page_table = s.page_table := by
  obtain ⟨f, ys, rp, -, -, -, hs1⟩ := take_free_frame_eq h
  rw [hs1]
  exact ⟨rfl, rfl⟩

theorem get_free_page_next {dm : DiskManager D B} {next : D → Int} (al : AllocLaws dm next)
    {s s1 : BufferPoolManager D B} {r : Option Nat}
    (h : get_free_page dm s = some (r, s1)) :
    next s1.disk = next s.disk ∧
      (∀ q g, s1.page_table.find q = some g → s.page_table.find q = some g) := by
  unfold get_free_page at h
  split at h
  · split at h
    · simp at h
    · injection h with h; injection h with _ h; rw [← h]; exact ⟨rfl, fun _ _ h => h⟩
    · dsimp only at h
      split at h
      · simp at h
      · split at h
        · simp at h
        · rename_i hdel
          obtain ⟨h1, h2⟩ := delete_next al hdel
          obtain ⟨h3, h4⟩ := take_free_frame_next h
          simp only at h1 h2
          refine ⟨by rw [h3, h1], ?_⟩
          intro q g hq
          rw [h4] at hq
          exact h2 q g hq
  · obtain ⟨h3, h4⟩ := take_free_frame_next h
    exact ⟨by rw [h3], fun q g hq => by rw [h4] at hq; exact hq⟩

theorem fetch_next {dm : DiskManager D B} {zero : B} {next : D → Int} (al : AllocLaws dm next)
    {s s' : BufferPoolManager D B} {p : Int} {r : Option Nat}
    (h : FetchPageImpl dm zero s p = some (r, s')) :
    next s'.disk = next s.disk ∧
      (∀ q g, s'.page_table.find q = some g → q = p ∨ s.page_table.find q = some g) := by
  unfold FetchPageImpl at h
  split at h
  · split at h
    · simp at h
    · split at h
      · split at h
        · simp at h
        · injection h with h; injection h with _ h; rw [← h]
          exact ⟨rfl, fun _ _ h => Or.inr h⟩
      · injection h with h; injection h with _ h; rw [← h]
        exact ⟨rfl, fun _ _ h => Or.inr h⟩
  · split at h
    · simp at h
    · rename_i hg
      obtain ⟨h1, h2⟩ := get_free_page_next al hg
      injection h with h; injection h with _ h; rw [← h]
      exact ⟨h1, fun q g hq => Or.inr (h2 q g hq)⟩
    · rename_i hg
      obtain ⟨h1, h2⟩ := get_free_page_next al hg
      split at h
      · simp at h
      · injection h with h; injection h with _ h; rw [← h]
        refine ⟨h1, ?_⟩
        intro q g hq
        simp only at hq
        rw [PageTable.find_insert] at hq
        split at hq
        · left; assumption
        · right; exact h2 q g hq

theorem new_next {dm : DiskManager D B} {zero : B} {next : D → Int} (al : AllocLaws dm next)
    {s s' : BufferPoolManager D B} {r : Option (Int × Nat)}
    (h : NewPageImpl dm zero s = some (r, s')) :
    (∀ id f, r = some (id, f) → id = next s.disk ∧ next s'.disk = next s.disk + 1) ∧
      (r = none → next s'.disk = next s.disk) ∧
      (∀ q g, s'.page_table.find q = some g →
        q = next s.disk ∨ s.page_table.find q = some g) := by
  unfold NewPageImpl at h
  split at h
  · simp at h
  · rename_i hg
    obtain ⟨h1, h2⟩ := get_free_page_next al hg
    injection h with h; injection h with hr h; rw [← h, ← hr]
    exact ⟨fun _ _ e => by simp at e, fun _ => h1, fun q g hq => Or.inr (h2 q g hq)⟩
  · rename_i hg
    obtain ⟨h1, h2⟩ := get_free_page_next al hg
    split at h
    · simp at h
    · injection h with h; injection h with hr h; rw [← h, ← hr]
      refine ⟨?_, fun e => by simp at e, ?_⟩
      · intro id f e
        injection e with e
        injection e with e1 e2
        simp only
        rw [← e1, al.alloc_id, al.alloc_next, h1]
        exact ⟨rfl, rfl⟩
      · intro q g hq
        simp only at hq
        rw [PageTable.find_insert] at hq
        split at hq
        · left
          rename_i e
          rw [e, al.alloc_id, h1]
        · right; exact h2 q g hq

theorem unpin_next {s s' : BufferPoolManager D B} {p : Int} {d b : Bool}
    (h : UnpinPageImpl s p d = some (b, s')) :
    s'.disk = s.disk ∧ s'.page_table = s.page_table ∧ s'.pool_size = s.pool_size := by
  unfold UnpinPageImpl at h
  split at h
  · simp at h
  · split at h
    · simp at h
    · dsimp only at h
      split at h
      · injection h with h; injection h with _ h; rw [← h]; exact ⟨rfl, rfl, rfl⟩
      · split at h
        · split at h
          · simp at h
          · injection h with h; injection h with _ h; rw [← h]; exact ⟨rfl, rfl, rfl⟩
        · injection h with h; injection h with _ h; rw [← h]; exact ⟨rfl, rfl, rfl⟩

end BufferPoolManager

/-! ## What a call that returned has done to the pages -/

namespace BufferPoolManager

variable {D B : Type}

theorem pinnedCount_lt_of_unpinned {s : BufferPoolManager D B} (hi : Inv s) {f : Nat}
    {pg : Page B} (hpg : s.pages[f]? = some pg) (hz : pg.pin_count = 0) :
    pinnedCount s < s.pool_size := by
  unfold pinnedCount
  rw [← hi.pages_len]
  apply lt_of_le_of_ne (List.countP_le_length _)
  intro e
  rw [List.countP_eq_length] at e
  obtain ⟨hlt, hget⟩ := List.getElem?_eq_some.1 hpg
  have := e pg (by rw [← hget]; exact List.getElem_mem hlt)
  simp [hz] at this

theorem Coh.mono {dm : DiskManager D B} {zero : B} {ex ex' : List Nat}
    {s : BufferPoolManager D B} (hc : Coh dm zero ex s) (h : ∀ g, g ∉ ex' → g ∉ ex) :
    Coh dm zero ex' s :=
  fun p f pg hfind hpg hd hne => hc p f pg hfind hpg hd (h f hne)

theorem Pinned.of_pinList {ex : List Nat} {s s' : BufferPoolManager D B} (hex : Pinned ex s)
    (h : ∀ g ∈ ex, ∀ c, (pinList s)[g]? = some c → 0 < c →
      ∃ c', (pinList s')[g]? = some c' ∧ 0 < c') : Pinned ex s' := by
  intro g hg
  obtain ⟨pg, hpg, hpos⟩ := hex g hg
  obtain ⟨c', hc', hpos'⟩ := h g hg _ (pinList_get hpg) hpos
  obtain ⟨pg', hpg', e⟩ := pinList_get_inv hc'
  exact ⟨pg', hpg', by omega⟩

/-- A `Fetch` that returned a page: as `fetch_content`, for the call made. -/
theorem fetch_post {dm : DiskManager D B} {zero : B} (laws : DiskLaws dm)
    {s s' : BufferPoolManager D B} (hi : Inv s) {ex : List Nat} (hc : Coh dm zero ex s)
    (hex : Pinned ex s) {p : Int} (hp : p ≠ INVALID_PAGE_ID) {f : Nat}
    (h : FetchPageImpl dm zero s p = some (some f, s')) :
    ∃ c : Int, Inv s' ∧ Coh dm zero ex s' ∧
      (∀ q, content dm zero s' q = content dm zero s q) ∧
      s'.page_table.find p = some f ∧
      (∃ pg : Page B, s'.pages[f]? = some pg ∧ pg.data = content dm zero s p) ∧
      (pinList s)[f]? = some c ∧ 0 ≤ c ∧ pinList s' = (pinList s).set f (c + 1) ∧
      Stay s s' ∧ s'.pool_size = s.pool_size := by
  have hav : s.page_table.find p = none → pinnedCount s < s.pool_size := by
    intro hnone
    have h' := h
    unfold FetchPageImpl at h'
    simp only [hnone] at h'
    split at h'
    · simp at h'
    · simp at h'
    · rename_i hg
      obtain ⟨⟨pg0, hpg0, hz⟩, -⟩ := get_free_page_content laws hi hc hex hg
      exact pinnedCount_lt_of_unpinned hi hpg0 hz
  obtain ⟨f0, s0, c, h1, h2, h3, h4, h5, h6, h7, h8, h9, h10, h11⟩ :=
    fetch_content laws hi hc hex p hp hav
  rw [h] at h1
  injection h1 with h1
  injection h1 with e1 e2
  injection e1 with e1
  subst e1
  subst e2
  exact ⟨c, h2, h3, h4, h5, h6, h7, h8, h9, h10, h11⟩

/-- An `Unpin` that returned: the page was resident, its pin count goes down by
one unless it was zero, the bytes of every page are kept, and the coherence
with the disk is kept; with `is_dirty = true` it also covers a write made to
that frame. -/
theorem unpin_post {dm : DiskManager D B} {zero : B} {s s' : BufferPoolManager D B}
    (hi : Inv s) {ex : List Nat} (hc : Coh dm zero ex s) {p : Int} {d b : Bool}
    (h : UnpinPageImpl s p d = some (b, s')) :
    ∃ (f : Nat) (c : Int), s.page_table.find p = some f ∧ (pinList s)[f]? = some c ∧ 0 ≤ c ∧
      Inv s' ∧ (∀ q, content dm zero s' q = content dm zero s q) ∧
      s'.page_table = s.page_table ∧ s'.disk = s.disk ∧ s'.pool_size = s.pool_size ∧
      pinList s' = (pinList s).set f (if 0 < c then c - 1 else c) ∧
      b = decide (0 < c) ∧
      Coh dm zero ex s' ∧
      (d = true → ∀ ex' : List Nat, (∀ g, g ≠ f → g ∉ ex' → g ∉ ex) →
        Coh dm zero ex' s') := by
  obtain ⟨hdisk, htable, hps⟩ := unpin_next h
  have hinv := Inv_unpin hi h
  cases hfind : s.page_table.find p with
  | none => simp [UnpinPageImpl, hfind] at h
  | some f =>
    obtain ⟨pg, hpg, -⟩ := hi.table p f hfind
    obtain ⟨hlt, -⟩ := List.getElem?_eq_some.1 hpg
    have hnn := hi.pin_nonneg f pg hpg
    refine ⟨f, pg.pin_count, rfl, pinList_get hpg, hnn, hinv, ?_⟩
    by_cases hpos : 0 < pg.pin_count
    · obtain ⟨s0, u1, -, u3, -, u5, -, u7, u8⟩ :=
        unpin_content hi hc d hfind hpg hpos
      rw [h] at u1
      injection u1 with u1
      injection u1 with e1 e2
      subst e2
      refine ⟨u3, htable, hdisk, hps, ?_, ?_, u7, u8⟩
      · rw [u5, if_pos hpos]
      · rw [e1]; simp [hpos]
    · have hz : pg.pin_count = 0 := by omega
      have heq := unpin_unpinned d hfind hpg (by omega)
      rw [h] at heq
      injection heq with heq
      injection heq with e1 e2
      have hpages : ∀ (g : Nat) (x : Page B), s'.pages[g]? = some x →
          ∃ y : Page B, s.pages[g]? = some y ∧ y.data = x.data ∧
            (x.is_dirty = false → y.is_dirty = false) ∧ y.pin_count = x.pin_count ∧
            (g = f → d = true → x.is_dirty = true) := by
        intro g x hx
        rw [e2] at hx
        simp only at hx
        rcases getElem?_set_some hx with ⟨rfl, rfl, -⟩ | ⟨hgf, hx'⟩
        · refine ⟨pg, hpg, rfl, ?_, rfl, ?_⟩
          · intro hd
            simp only [Bool.or_eq_false_iff] at hd
            exact hd.2
          · intro _ hd
            simp [hd]
        · exact ⟨x, hx', rfl, fun h => h, rfl, fun e => absurd e hgf⟩
      have hcohgen : ∀ ex' : List Nat, (∀ g, g ∉ ex' → g ∉ ex ∨ (g = f ∧ d = true)) →
          Coh dm zero ex' s' := by
        intro ex' hsub q g x hq hx hd hne
        rw [htable] at hq
        rw [hdisk]
        obtain ⟨y, hy, ey, edirty, -, hnew⟩ := hpages g x hx
        rw [← ey]
        rcases hsub g hne with hn | ⟨hgf, hdt⟩
        · exact hc q g y hq hy (edirty hd) hn
        · rw [hnew hgf hdt] at hd
          simp at hd
      refine ⟨?_, htable, hdisk, hps, ?_, ?_, hcohgen ex (fun g hg => Or.inl hg), ?_⟩
      · intro q
        unfold content
        rw [htable, hdisk]
        cases hq : s.page_table.find q with
        | none => rfl
        | some g =>
          simp only
          rw [e2]
          simp only
          by_cases e : g = f
          · subst e; simp [hlt, hpg]
          · rw [List.getElem?_set_ne (fun e' => e e'.symm)]
      · rw [if_neg hpos, e2]
        simp only [pinList, List.map_set]
      · rw [e1]; simp [hpos]
      · intro hd ex' hother
        apply hcohgen ex'
        intro g hg
        by_cases e : g = f
        · exact Or.inr ⟨e, hd⟩
        · exact Or.inl (hother g e hg)

end BufferPoolManager

namespace BufferPoolManager

variable {D B : Type}

/-- A `Delete` that returned keeps the bytes of every page (a deleted page is
written back if it was dirty), every pin count, the coherence with the disk
and the frames of pinned pages. -/
theorem delete_post {dm : DiskManager D B} {zero : B} (laws : DiskLaws dm)
    {s s' : BufferPoolManager D B} (hi : Inv s) {ex : List Nat} (hc : Coh dm zero ex s)
    (hex : Pinned ex s) {p : Int} {b : Bool}
    (h : DeletePageImpl dm s p = some (b, s')) :
    Inv s' ∧ Coh dm zero ex s' ∧ (∀ q, content dm zero s' q = content dm zero s q) ∧
      pinList s' = pinList s ∧ Stay s s' ∧ s'.pool_size = s.pool_size := by
  have hinv := Inv_delete hi h
  cases hfind : s.page_table.find p with
  | none =>
    have e : s' = s := by
      unfold DeletePageImpl at h
      simp only [hfind] at h
      injection h with h; injection h with _ h; exact h.symm
    subst e
    exact ⟨hinv, hc, fun _ => rfl, rfl, fun q g pg hq _ _ => hq, rfl⟩
  | some f =>
    obtain ⟨pg, hpg, hid⟩ := hi.table p f hfind
    obtain ⟨hlt, -⟩ := List.getElem?_eq_some.1 hpg
    by_cases hpin : pg.pin_count = 0
    · have heq := DeletePageImpl_success dm hfind hpg hpin (hi.table_valid p f hfind)
      rw [h] at heq
      injection heq with heq
      injection heq with _ e2
      subst e2
      have hnotex : f ∉ ex := by
        intro hm
        obtain ⟨x, hx, hx0⟩ := hex f hm
        rw [hpg] at hx
        injection hx with hx
        subst hx
        omega
      have hdisk : ∀ q, q ≠ p →
          dm.ReadPage (if pg.is_dirty then
              dm.WritePage (dm.DeallocatePage s.disk p) p pg.data
            else dm.DeallocatePage s.disk p) q zero = dm.ReadPage s.disk q zero := by
        intro q hq
        split
        · rw [laws.read_write_ne _ _ _ _ _ hq, laws.read_dealloc]
        · rw [laws.read_dealloc]
      have hfind1 : ∀ q g, (s.page_table.erase p).find q = some g →
          q ≠ p ∧ s.page_table.find q = some g ∧ g ≠ f := by
        intro q g hq
        rw [PageTable.find_erase] at hq
        by_cases e : q = p
        · simp [e] at hq
        · simp only [e, if_false] at hq
          refine ⟨e, hq, ?_⟩
          intro e'
          subst e'
          exact e (table_injective hi hq hfind)
      refine ⟨hinv, ?_, ?_, ?_, ?_, rfl⟩
      · intro q g x hq hx hd hne
        simp only at hq hx ⊢
        obtain ⟨hqp, hq', hgf⟩ := hfind1 q g hq
        rw [List.getElem?_set_ne (fun e => hgf e.symm)] at hx
        rw [hdisk q hqp]
        exact hc q g x hq' hx hd hne
      · intro q
        by_cases e : q = p
        · subst e
          simp only [content, PageTable.find_erase_self, hfind, hpg]
          cases hd : pg.is_dirty
          · simp only [Bool.false_eq_true, if_false]
            rw [laws.read_dealloc]
            exact (hc _ f pg hfind hpg hd hnotex).symm
          · simp only [if_true]
            exact laws.read_write _ _ _ _
        · simp only [content, PageTable.find_erase_ne _ e]
          cases hq : s.page_table.find q with
          | none => simp only; exact hdisk q e
          | some g =>
            have hgf : g ≠ f := by
              intro e'
              subst e'
              exact e (table_injective hi hq hfind)
            simp only
            rw [List.getElem?_set_ne (fun e' => hgf e'.symm)]
      · simp only [pinList, List.map_set]
        apply List.ext_getElem?
        intro m
        by_cases hm : f = m
        · subst hm
          rw [List.getElem?_set_self (by simpa using hlt)]
          simp [hpg, hpin]
        · rw [List.getElem?_set_ne hm]
      · intro q g x hq hx hpos
        simp only
        have hqp : q ≠ p := by
          intro e
          subst e
          rw [hfind] at hq
          injection hq with hq
          subst hq
          rw [hpg] at hx
          injection hx with hx
          subst hx
          omega
        rw [PageTable.find_erase_ne _ hqp]
        exact hq
    · have e : s' = s := by
        unfold DeletePageImpl at h
        simp only [hfind, hpg] at h
        rw [if_pos hpin] at h
        injection h with h; injection h with _ h; exact h.symm
      subst e
      exact ⟨hinv, hc, fun _ => rfl, rfl, fun q g pg hq _ _ => hq, rfl⟩

/-- A `New` that returned a page: the page has the id the disk manager handed
out, sits zeroed and pinned once in a frame that had pin count zero, and
every other page keeps its bytes. -/
theorem new_post {dm : DiskManager D B} {zero : B} {next : D → Int} (laws : DiskLaws dm)
    (al : AllocLaws dm next) {s s' : BufferPoolManager D B} (hi : Inv s) {ex : List Nat}
    (hc : Coh dm zero ex s) (hex : Pinned ex s) (hf : Fresh next s) {id : Int} {f : Nat}
    (h : NewPageImpl dm zero s = some (some (id, f), s')) :
    id = next s.disk ∧ next s'.disk = next s.disk + 1 ∧ Inv s' ∧ Fresh next s' ∧
      Coh dm zero (f :: ex) s' ∧
      (∀ q, q ≠ id → content dm zero s' q = content dm zero s q) ∧
      s'.page_table.find id = some f ∧
      (∃ pg : Page B, s'.pages[f]? = some pg ∧ pg.data = zero) ∧
      (pinList s)[f]? = some 0 ∧ pinList s' = (pinList s).set f 1 ∧
      Stay s s' ∧ s'.pool_size = s.pool_size ∧ f ∉ ex ∧ s.page_table.find id = none := by
  obtain ⟨n1, -, n3⟩ := new_next al h
  obtain ⟨hid, hnext⟩ := n1 id f rfl
  have hfresh : ∀ f s1, get_free_page dm s = some (some f, s1) →
      (dm.AllocatePage s1.disk).1 ≠ INVALID_PAGE_ID ∧
      s1.page_table.find (dm.AllocatePage s1.disk).1 = none := by
    intro f1 s1 hg
    obtain ⟨g1, g2⟩ := get_free_page_next al hg
    rw [al.alloc_id, g1]
    refine ⟨?_, ?_⟩
    · have := hf.1
      unfold INVALID_PAGE_ID
      omega
    · cases hq : s1.page_table.find (next s.disk) with
      | none => rfl
      | some g =>
        have := hf.2 _ g (g2 _ g hq)
        omega
  have hinv := Inv_new hi hfresh h
  have hnone : s.page_table.find id = none := by
    cases hq : s.page_table.find id with
    | none => rfl
    | some g =>
      have := hf.2 _ g hq
      omega
  have hfr : Fresh next s' := by
    refine ⟨by rw [hnext]; have := hf.1; omega, ?_⟩
    intro q g hq
    rw [hnext]
    rcases n3 q g hq with e | hq'
    · omega
    · have := hf.2 q g hq'
      omega
  unfold NewPageImpl at h
  split at h
  · simp at h
  · simp at h
  · rename_i f1 s1 hg
    split at h
    · simp at h
    · rename_i pgf hpgf
      injection h with h
      injection h with e1 e2
      injection e1 with e1
      injection e1 with e1 e3
      subst e3
      subst e2
      obtain ⟨hold, hps, hkeep⟩ := get_free_page_some_inv dm hi hg
      obtain ⟨⟨pg0, hpg0, hz⟩, c2, c3, c4, c5, c6, c7, c8⟩ :=
        get_free_page_content laws hi hc hex hg
      obtain ⟨hlt1, -⟩ := List.getElem?_eq_some.1 hpgf
      have hid1 : (dm.AllocatePage s1.disk).1 = id := e1
      refine ⟨hid, hnext, hinv, hfr, ?_, ?_, ?_, ?_, ?_, ?_, ?_, hps, c8, hnone⟩
      · intro q g x hq hx hd hne
        simp only at hq hx ⊢
        have hgf : g ≠ f1 := fun e => hne (by rw [e]; exact List.mem_cons_self _ _)
        have hex' : g ∉ ex := fun hm => hne (List.mem_cons_of_mem _ hm)
        rw [PageTable.find_insert] at hq
        split at hq
        · injection hq with hq
          exact absurd hq.symm hgf
        · rw [List.getElem?_set_ne (fun e' => hgf e'.symm)] at hx
          rw [al.read_alloc]
          exact c7 q g x hq hx hd hex'
      · intro q hq
        rw [← hid1] at hq
        simp only [content, PageTable.find_insert_ne _ _ hq]
        cases hq1 : s1.page_table.find q with
        | none =>
          simp only
          rw [al.read_alloc]
          simpa [content] using c6 q hq1
        | some g =>
          obtain ⟨hq0, hgf⟩ := c4 q g hq1
          simp only
          rw [List.getElem?_set_ne (fun e' => hgf e'.symm), c3 g hgf, hq0]
      · simp only
        rw [← hid1]
        exact PageTable.find_insert_self _ _ _
      · exact ⟨_, List.getElem?_set_self hlt1, rfl⟩
      · rw [pinList_get hpg0, hz]
      · simp only [pinList, c2, List.map_set]
      · intro q g pg hq hpg hpos
        simp only
        have hgf : g ≠ f1 := by
          intro e
          subst e
          rw [hpg0] at hpg
          injection hpg with hpg
          subst hpg
          omega
        have hqp : q ≠ (dm.AllocatePage s1.disk).1 := by
          intro e
          rw [hid1] at e
          subst e
          rw [hnone] at hq
          simp at hq
        rw [PageTable.find_insert_ne _ _ hqp]
        exact c5 q g hq hgf

end BufferPoolManager

namespace BufferPoolManager

variable {D B : Type}

theorem pinned_frame_page {s : BufferPoolManager D B} (hi : Inv s) {f : Nat} {pg : Page B}
    (hpg : s.pages[f]? = some pg) (hpos : 0 < pg.pin_count) :
    s.page_table.find pg.page_id = some f := by
  rcases hi.cover f pg hpg with h | h
  · obtain ⟨pg', hpg', hz⟩ := hi.free_pin f h
    rw [hpg] at hpg'
    injection hpg' with hpg'
    subst hpg'
    omega
  · exact h

theorem pinnedCount_le {s : BufferPoolManager D B} (hi : Inv s) :
    pinnedCount s ≤ s.pool_size := by
  unfold pinnedCount
  rw [← hi.pages_len]
  exact List.countP_le_length _

theorem pinnedCount_set_pin {s s' : BufferPoolManager D B} {f : Nat} {c : Int}
    (h0 : (pinList s)[f]? = some 0) (h : pinList s' = (pinList s).set f c) (hc : 0 < c) :
    pinnedCount s' = pinnedCount s + 1 := by
  have e : ∀ t : BufferPoolManager D B,
      pinnedCount t = (pinList t).countP (fun c => decide (0 < c)) := by
    intro t
    simp [pinnedCount, pinList, List.countP_map, Function.comp_def]
  obtain ⟨hlt, hget⟩ := List.getElem?_eq_some.1 h0
  rw [e, e, h, List.countP_set _ _ _ _ hlt, hget]
  simp [hc]

/-- A frame that was pinned before a call and holds page `p` afterwards held
`p` before, if pinned pages stay in their frames. -/
theorem count_zero_of_unpinned {s s' : BufferPoolManager D B} (hi : Inv s) (hi' : Inv s')
    (hstay : Stay s s') {p : Int} {f : Nat} {c : Int} (hfind : s'.page_table.find p = some f)
    (hc : (pinList s)[f]? = some c) (hnn : 0 ≤ c)
    (hnp : ∀ (g : Nat) (pg : Page B), s.page_table.find p = some g → s.pages[g]? = some pg →
      pg.pin_count = 0) : c = 0 := by
  by_contra hne
  obtain ⟨pg, hpg, e⟩ := pinList_get_inv hc
  have hpos : 0 < pg.pin_count := by omega
  have h1 := pinned_frame_page hi hpg hpos
  have h2 := hstay _ f pg h1 hpg hpos
  have h3 := table_injective hi' h2 hfind
  rw [h3] at h1
  have := hnp f pg h1 hpg
  omega

end BufferPoolManager

/-! ## Hash table on the pool: the helpers compute what the block pages say -/

namespace LinearProbeHashTable

open BufferPoolManager

variable {D K V : Type}

theorem fetchData_total {dm : DiskManager D (PageData K V)} (laws : DiskLaws dm)
    {s : BufferPoolManager D (PageData K V)} (hi : Inv s) {ex : List Nat}
    (hc : Coh dm PageData.zero ex s) (hex : Pinned ex s) {p : Int} (hp : p ≠ INVALID_PAGE_ID)
    (hav : s.page_table.find p = none → pinnedCount s < s.pool_size) :
    ∃ (f : Nat) (s' : BufferPoolManager D (PageData K V)),
      fetchData dm s p = some (f, content dm PageData.zero s p, s') := by
  obtain ⟨f, s', c, h1, -, -, -, -, ⟨pg, h6, h7⟩, -⟩ :=
    fetch_content laws hi hc hex p hp hav
  refine ⟨f, s', ?_⟩
  unfold fetchData
  simp only [h1, h6, h7]

theorem fetchData_post {dm : DiskManager D (PageData K V)} (laws : DiskLaws dm)
    {s s' : BufferPoolManager D (PageData K V)} (hi : Inv s) {ex : List Nat}
    (hc : Coh dm PageData.zero ex s) (hex : Pinned ex s) {p : Int} (hp : p ≠ INVALID_PAGE_ID)
    {f : Nat} {d : PageData K V} (h : fetchData dm s p = some (f, d, s')) :
    d = content dm PageData.zero s p ∧
    FetchPageImpl dm PageData.zero s p = some (some f, s') ∧
    ∃ c : Int, Inv s' ∧ Coh dm PageData.zero ex s' ∧
      (∀ q, content dm PageData.zero s' q = content dm PageData.zero s q) ∧
      s'.page_table.find p = some f ∧
      (pinList s)[f]? = some c ∧ 0 ≤ c ∧ pinList s' = (pinList s).set f (c + 1) ∧
      Stay s s' ∧ s'.pool_size = s.pool_size := by
  unfold fetchData at h
  split at h
  · rename_i f1 s1 hf
    split at h
    · rename_i pg hpg
      injection h with h
      injection h with e1 h
      injection h with e2 e3
      subst e1
      subst e3
      obtain ⟨c, h2, h3, h4, h5, ⟨pg', h6, h7⟩, h8, h9, h10, h11, h12⟩ :=
        fetch_post laws hi hc hex hp hf
      rw [hpg] at h6
      injection h6 with h6
      subst h6
      exact ⟨by rw [← e2, h7], hf, c, h2, h3, h4, h5, h8, h9, h10, h11, h12⟩
    · simp at h
  · simp at h

end LinearProbeHashTable

namespace BufferPoolManager

variable {D B : Type}

theorem pinnedCount_eq_countP (t : BufferPoolManager D B) :
    pinnedCount t = (pinList t).countP (fun c => decide (0 < c)) := by
  simp [pinnedCount, pinList, List.countP_map, Function.comp_def]

theorem Stay.trans_of_pins {s s1 s2 : BufferPoolManager D B} (h1 : Stay s s1)
    (h2 : Stay s1 s2)
    (hp : ∀ (g : Nat) (c : Int), (pinList s)[g]? = some c → 0 < c →
      ∃ c', (pinList s1)[g]? = some c' ∧ 0 < c') : Stay s s2 := by
  intro q g pg hq hpg hpos
  obtain ⟨c', hc', hpos'⟩ := hp g _ (pinList_get hpg) hpos
  obtain ⟨pg1, hpg1, e⟩ := pinList_get_inv hc'
  exact h2 q g pg1 (h1 q g pg hq hpg hpos) hpg1 (by omega)

theorem Fresh.of_keys {next : D → Int} {s s' : BufferPoolManager D B} (hf : Fresh next s)
    (hnext : next s'.disk = next s.disk) {p : Int} (hp : p < next s.disk)
    (hkeys : ∀ q g, s'.page_table.find q = some g → q = p ∨ s.page_table.find q = some g) :
    Fresh next s' := by
  refine ⟨by rw [hnext]; exact hf.1, ?_⟩
  intro q g hq
  rw [hnext]
  rcases hkeys q g hq with e | h
  · rw [e]; exact hp
  · exact hf.2 q g h

end BufferPoolManager

namespace LinearProbeHashTable

open BufferPoolManager

variable {D K V : Type}

theorem TableInv.not_pinned_header {cfg : HashTableConfig K V}
    {dm : DiskManager D (PageData K V)} {next : D → Int} {ht : LinearProbeHashTable D K V}
    {hp : HashTableHeaderPage} {blocks : List (HashTableBlockPage K V)}
    (hv : TableInv cfg dm next ht hp blocks) (g : Nat) (pg : Page (PageData K V))
    (hfind : ht.buffer_pool_manager.page_table.find ht.header_page_id = some g)
    (hpg : ht.buffer_pool_manager.pages[g]? = some pg) : pg.pin_count = 0 := by
  have hnn := hv.inv.pin_nonneg g pg hpg
  by_contra hne
  exact (hv.unpinned _ g pg hfind hpg (by omega)).1 rfl

theorem TableInv.not_pinned_block {cfg : HashTableConfig K V}
    {dm : DiskManager D (PageData K V)} {next : D → Int} {ht : LinearProbeHashTable D K V}
    {hp : HashTableHeaderPage} {blocks : List (HashTableBlockPage K V)}
    (hv : TableInv cfg dm next ht hp blocks) {bid : Int} (hbid : bid ∈ hp.block_page_ids)
    (g : Nat) (pg : Page (PageData K V))
    (hfind : ht.buffer_pool_manager.page_table.find bid = some g)
    (hpg : ht.buffer_pool_manager.pages[g]? = some pg) : pg.pin_count = 0 := by
  have hnn := hv.inv.pin_nonneg g pg hpg
  by_contra hne
  exact (hv.unpinned _ g pg hfind hpg (by omega)).2 hbid

/-- What `openBucket` has done when it returned: the block page of the slot is
delivered, and the header page and the block page are pinned once. -/
theorem openBucket_post {cfg : HashTableConfig K V} {dm : DiskManager D (PageData K V)}
    {next : D → Int} (laws : DiskLaws dm) (al : AllocLaws dm next)
    {ht : LinearProbeHashTable D K V} {hp : HashTableHeaderPage}
    {blocks : List (HashTableBlockPage K V)} (hv : TableInv cfg dm next ht hp blocks)
    {prob : Nat} {bid : Int} {fb : Nat} {bp : HashTableBlockPage K V}
    {s2 : BufferPoolManager D (PageData K V)}
    (h : openBucket cfg dm ht prob = some (bid, fb, bp, s2)) :
    ∃ fh : Nat,
      hp.block_page_ids[prob / cfg.BLOCK_ARRAY_SIZE]? = some bid ∧
      blocks[prob / cfg.BLOCK_ARRAY_SIZE]? = some bp ∧
      Opened next ht.buffer_pool_manager s2 ht.header_page_id bid fh fb ∧
      Coh dm PageData.zero [] s2 ∧
      (∀ q, content dm PageData.zero s2 q
        = content dm PageData.zero ht.buffer_pool_manager q) := by
  have hnil : Pinned [] ht.buffer_pool_manager := fun _ h => absurd h (List.not_mem_nil _)
  unfold openBucket at h
  split at h
  · simp at h
  · rename_i fh hd s1 hf1
    obtain ⟨ehd, hF1, c1, a2, a3, a4, a5, a6, a7, a8, a9, a10⟩ :=
      fetchData_post laws hv.inv hv.coh hnil hv.header_valid hf1
    rw [ehd, hv.header] at h
    simp only [asHeader, HashTableHeaderPage.GetBlockPageId] at h
    split at h
    · simp at h
    · rename_i bid1 hbid
      have hmem : bid1 ∈ hp.block_page_ids := by
        obtain ⟨hlt, hget⟩ := List.getElem?_eq_some.1 hbid
        rw [← hget]; exact List.getElem_mem hlt
      obtain ⟨hbv, hbh, hblt⟩ := hv.ids_valid bid1 hmem
      have hnil1 : Pinned [] s1 := fun _ h => absurd h (List.not_mem_nil _)
      split at h
      · simp at h
      · rename_i fb1 bd s2' hf2
        obtain ⟨ebd, hF2, c2, b2, b3, b4, b5, b6, b7, b8, b9, b10⟩ :=
          fetchData_post laws a2 a3 hnil1 hbv hf2
        obtain ⟨n1, k1⟩ := fetch_next al hF1
        obtain ⟨n2, k2⟩ := fetch_next al hF2
        have hfr1 : Fresh next s1 := hv.fresh.of_keys n1 hv.header_lt k1
        have hfr2 : Fresh next s2' := hfr1.of_keys n2 (by rw [n1]; exact hblt) k2
        have hc1 : c1 = 0 :=
          count_zero_of_unpinned hv.inv a2 a9 a5 a6 a7 (hv.not_pinned_header)
        subst hc1
        have hfh_lt : fh < (pinList ht.buffer_pool_manager).length :=
          (List.getElem?_eq_some.1 a6).1
        have hpin1 : (pinList s1)[fh]? = some 1 := by
          rw [a8]; simp [hfh_lt]
        obtain ⟨pgh, hpgh, hpgh_c⟩ := pinList_get_inv hpin1
        have hfind_h2 : s2'.page_table.find ht.header_page_id = some fh :=
          b9 _ fh pgh a5 hpgh (by omega)
        have hne : fh ≠ fb1 := by
          intro e
          subst e
          exact hbh (table_injective b2 b5 hfind_h2)
        have hnp1 : ∀ (g : Nat) (pg : Page (PageData K V)),
            s1.page_table.find bid1 = some g → s1.pages[g]? = some pg →
            pg.pin_count = 0 := by
          intro g pg hg hpg
          have hnn := a2.pin_nonneg g pg hpg
          by_contra hnz
          have hgfh : fh ≠ g := by
            intro e
            subst e
            exact hbh (table_injective a2 hg a5)
          have hl := pinList_get hpg
          rw [a8, List.getElem?_set_ne hgfh] at hl
          obtain ⟨pg0, hpg0, e0⟩ := pinList_get_inv hl
          have hpos0 : 0 < pg0.pin_count := by omega
          have h1 := pinned_frame_page hv.inv hpg0 hpos0
          have h2 := a9 _ g pg0 h1 hpg0 hpos0
          have h3 := table_injective a2 h2 hg
          rw [h3] at h1
          have := hv.not_pinned_block hmem g pg0 h1 hpg0
          omega
        have hc2 : c2 = 0 := count_zero_of_unpinned a2 b2 b9 b5 b6 b7 hnp1
        subst hc2
        have hpb : (pinList ht.buffer_pool_manager)[fb1]? = some 0 := by
          rw [a8, List.getElem?_set_ne hne] at b6
          exact b6
        have hstay : Stay ht.buffer_pool_manager s2' := by
          apply Stay.trans_of_pins a9 b9
          intro g c hg hpos
          rw [a8]
          by_cases e : fh = g
          · subst e
            exact ⟨1, by simp [hfh_lt], by omega⟩
          · exact ⟨c, by rw [List.getElem?_set_ne e]; exact hg, hpos⟩
        have hltb : prob / cfg.BLOCK_ARRAY_SIZE < blocks.length := by
          rw [← hv.nblocks]; exact (List.getElem?_eq_some.1 hbid).1
        have hbp : blocks[prob / cfg.BLOCK_ARRAY_SIZE]?
            = some blocks[prob / cfg.BLOCK_ARRAY_SIZE] := by
          apply List.getElem?_eq_getElem
        have hcontent : content dm PageData.zero s1 bid1
            = PageData.block blocks[prob / cfg.BLOCK_ARRAY_SIZE] := by
          rw [a4]
          exact hv.block _ _ _ hbid hbp
        rw [ebd, hcontent] at h
        simp only [asBlock] at h
        injection h with h
        injection h with e1 h
        injection h with e2 h
        injection h with e3 e4
        subst e1
        subst e2
        subst e3
        subst e4
        refine ⟨fh, hbid, hbp,
          ⟨b2, hfr2, by rw [n2, n1], hfind_h2, b5, hne, by rw [b10, a10], hstay,
            by rw [b8, a8]; simp, a6, hpb⟩, b3, ?_⟩
        intro q
        rw [b4, a4]

theorem Opened.spare {next : D → Int} {s0 sX : BufferPoolManager D (PageData K V)}
    {hid bid : Int} {fh fb : Nat} (ho : Opened next s0 sX hid bid fh fb) : Spare s0 := by
  have h := pinnedCount_le ho.inv
  rw [ho.pool_size, pinnedCount_eq_countP, ho.pins] at h
  obtain ⟨hlt1, hget1⟩ := List.getElem?_eq_some.1 ho.pin_h
  obtain ⟨hlt2, hget2⟩ := List.getElem?_eq_some.1 ho.pin_b
  rw [List.countP_set _ _ _ _ (by simpa using hlt2),
    List.getElem_set_ne ho.frames_ne, hget2,
    List.countP_set _ _ _ _ hlt1, hget1] at h
  simp at h
  unfold Spare
  rw [pinnedCount_eq_countP]
  omega

end LinearProbeHashTable

namespace LinearProbeHashTable

open BufferPoolManager

variable {D K V : Type}

/-- With two frames to spare `openBucket` returns. -/
theorem openBucket_total {cfg : HashTableConfig K V} {dm : DiskManager D (PageData K V)}
    {next : D → Int} (laws : DiskLaws dm)
    {ht : LinearProbeHashTable D K V} {hp : HashTableHeaderPage}
    {blocks : List (HashTableBlockPage K V)} (hv : TableInv cfg dm next ht hp blocks)
    (hspare : Spare ht.buffer_pool_manager)
    {prob : Nat} (hprob : prob < blocks.length * cfg.BLOCK_ARRAY_SIZE) :
    ∃ (bid : Int) (fb : Nat) (bp : HashTableBlockPage K V)
      (s2 : BufferPoolManager D (PageData K V)),
      openBucket cfg dm ht prob = some (bid, fb, bp, s2) := by
  have hnil : Pinned [] ht.buffer_pool_manager := fun _ h => absurd h (List.not_mem_nil _)
  obtain ⟨hlt, -⟩ := slot_bounds hprob
  have hlt' : prob / cfg.BLOCK_ARRAY_SIZE < hp.block_page_ids.length := by
    rw [hv.nblocks]; exact hlt
  have hbid : hp.block_page_ids[prob / cfg.BLOCK_ARRAY_SIZE]?
      = some hp.block_page_ids[prob / cfg.BLOCK_ARRAY_SIZE] := List.getElem?_eq_getElem hlt'
  have hbp : blocks[prob / cfg.BLOCK_ARRAY_SIZE]? = some blocks[prob / cfg.BLOCK_ARRAY_SIZE] :=
    List.getElem?_eq_getElem hlt
  obtain ⟨hbv, hbh, -⟩ := hv.ids_valid _ (List.getElem_mem hlt')
  unfold Spare at hspare
  obtain ⟨fh, s1, hf1⟩ := fetchData_total laws hv.inv hv.coh hnil hv.header_valid
    (fun _ => by omega)
  obtain ⟨-, -, c1, a2, a3, a4, a5, a6, a7, a8, a9, a10⟩ :=
    fetchData_post laws hv.inv hv.coh hnil hv.header_valid hf1
  have hnil1 : Pinned [] s1 := fun _ h => absurd h (List.not_mem_nil _)
  have hav1 : pinnedCount s1 < s1.pool_size := by
    have := pinnedCount_set_le a8
    rw [a10]; omega
  obtain ⟨fb, s2, hf2⟩ := fetchData_total laws a2 a3 hnil1 hbv (fun _ => hav1)
  refine ⟨hp.block_page_ids[prob / cfg.BLOCK_ARRAY_SIZE], fb,
    blocks[prob / cfg.BLOCK_ARRAY_SIZE], s2, ?_⟩
  unfold openBucket
  simp only [hf1, hv.header, asHeader, HashTableHeaderPage.GetBlockPageId, hbid, hf2]
  rw [a4, hv.block _ _ _ hbid hbp]
  simp only [asBlock]

/-- The table seen in another pool state with the same pin counts. -/
theorem TableInv.transfer {cfg : HashTableConfig K V} {dm : DiskManager D (PageData K V)}
    {next : D → Int} {ht : LinearProbeHashTable D K V} {hp : HashTableHeaderPage}
    {blocks : List (HashTableBlockPage K V)} (hv : TableInv cfg dm next ht hp blocks)
    {s' : BufferPoolManager D (PageData K V)} (hinv : Inv s')
    (hcoh : Coh dm PageData.zero [] s') (hfresh : Fresh next s')
    (hnext : next s'.disk = next ht.buffer_pool_manager.disk)
    (hpins : pinList s' = pinList ht.buffer_pool_manager)
    (hstay : Stay ht.buffer_pool_manager s')
    {blocks' : List (HashTableBlockPage K V)} (hlen : blocks'.length = blocks.length)
    (hheader : content dm PageData.zero s' ht.header_page_id = PageData.header hp)
    (hblock : ∀ (i : Nat) (bid : Int) (bp : HashTableBlockPage K V),
      hp.block_page_ids[i]? = some bid → blocks'[i]? = some bp →
      content dm PageData.zero s' bid = PageData.block bp)
    (hwf : ∀ bp ∈ blocks', bp.WF cfg.BLOCK_ARRAY_SIZE) :
    TableInv cfg dm next { ht with buffer_pool_manager := s' } hp blocks' where
  inv := hinv
  coh := hcoh
  fresh := hfresh
  header := hheader
  header_valid := hv.header_valid
  header_lt := by rw [hnext]; exact hv.header_lt
  nblocks := by rw [hlen]; exact hv.nblocks
  block := hblock
  ids_valid := by
    intro bid hbid
    obtain ⟨h1, h2, h3⟩ := hv.ids_valid bid hbid
    exact ⟨h1, h2, by rw [hnext]; exact h3⟩
  ids_nodup := hv.ids_nodup
  wf := hwf
  nonempty := by rw [hlen]; exact hv.nonempty
  unpinned := by
    intro q f pg hq hpg hpos
    have hl := pinList_get hpg
    simp only at hl hq
    rw [hpins] at hl
    obtain ⟨pg0, hpg0, e0⟩ := pinList_get_inv hl
    have hpos0 : 0 < pg0.pin_count := by omega
    have h1 := pinned_frame_page hv.inv hpg0 hpos0
    have h2 := hstay _ f pg0 h1 hpg0 hpos0
    have h3 := table_injective hinv h2 hq
    rw [h3] at h1
    exact hv.unpinned q f pg0 h1 hpg0 hpos0

/-- `closeBucket` after `openBucket`: both pages are unpinned again and the
table is in view with the block pages `blocks'`, if the pages have these
contents and a write made to the block page is announced by `is_dirty`. -/
theorem closeBucket_inv {cfg : HashTableConfig K V} {dm : DiskManager D (PageData K V)}
    {next : D → Int} {ht : LinearProbeHashTable D K V} {hp : HashTableHeaderPage}
    {blocks : List (HashTableBlockPage K V)} (hv : TableInv cfg dm next ht hp blocks)
    {sX : BufferPoolManager D (PageData K V)} {bid : Int} {fh fb : Nat}
    (ho : Opened next ht.buffer_pool_manager sX ht.header_page_id bid fh fb)
    {ex : List Nat} (hc : Coh dm PageData.zero ex sX) (dirty : Bool)
    (hex : ∀ g ∈ ex, dirty = true ∧ g = fb)
    {blocks' : List (HashTableBlockPage K V)} (hlen : blocks'.length = blocks.length)
    (hheader : content dm PageData.zero sX ht.header_page_id = PageData.header hp)
    (hblock : ∀ (i : Nat) (bid : Int) (bp : HashTableBlockPage K V),
      hp.block_page_ids[i]? = some bid → blocks'[i]? = some bp →
      content dm PageData.zero sX bid = PageData.block bp)
    (hwf : ∀ bp ∈ blocks', bp.WF cfg.BLOCK_ARRAY_SIZE) :
    ∃ ht' : LinearProbeHashTable D K V,
      closeBucket ht sX bid dirty = some ht' ∧
      TableInv cfg dm next ht' hp blocks' ∧
      ht'.header_page_id = ht.header_page_id ∧
      pinList ht'.buffer_pool_manager = pinList ht.buffer_pool_manager ∧
      ht'.buffer_pool_manager.pool_size = ht.buffer_pool_manager.pool_size := by
  obtain ⟨hfh_lt, -⟩ := List.getElem?_eq_some.1 ho.pin_h
  obtain ⟨hfb_lt, -⟩ := List.getElem?_eq_some.1 ho.pin_b
  have hpinh : (pinList sX)[fh]? = some 1 := by
    rw [ho.pins, List.getElem?_set_ne (fun e => ho.frames_ne e.symm)]
    simp [hfh_lt]
  obtain ⟨pgh, hpgh, hpgh_c⟩ := pinList_get_inv hpinh
  obtain ⟨s3, u1, u2, u3, u4, u5, u6, u7, -⟩ :=
    unpin_content ho.inv hc false ho.find_h hpgh (by omega)
  have hpinb : (pinList s3)[fb]? = some 1 := by
    rw [u5, List.getElem?_set_ne ho.frames_ne, ho.pins]
    simp [hfb_lt]
  obtain ⟨pgb, hpgb, hpgb_c⟩ := pinList_get_inv hpinb
  obtain ⟨s4, w1, w2, w3, w4, w5, w6, w7, w8⟩ :=
    unpin_content u2 u7 dirty (by rw [u4]; exact ho.find_b) hpgb (by omega)
  obtain ⟨d3, -, -⟩ := unpin_next u1
  obtain ⟨d4, -, -⟩ := unpin_next w1
  have hcoh : Coh dm PageData.zero [] s4 := by
    by_cases hd : dirty = true
    · refine w8 hd [] ?_
      intro g hg _ hm
      exact hg (hex g hm).2
    · apply w7.mono
      intro g _ hm
      exact hd (hex g hm).1
  have hpins : pinList s4 = pinList ht.buffer_pool_manager := by
    rw [w5, u5, ho.pins, hpgh_c, hpgb_c]
    apply List.ext_getElem?
    intro m
    by_cases hmb : fb = m
    · subst hmb
      rw [List.getElem?_set_self (by simpa using hfb_lt), ho.pin_b]
      rfl
    · rw [List.getElem?_set_ne hmb]
      by_cases hmh : fh = m
      · subst hmh
        rw [List.getElem?_set_self (by simpa using hfh_lt), ho.pin_h]
        rfl
      · rw [List.getElem?_set_ne hmh, List.getElem?_set_ne hmb, List.getElem?_set_ne hmh]
  have hfresh : Fresh next s4 := by
    refine ⟨by rw [d4, d3]; exact ho.fresh.1, ?_⟩
    intro q g hq
    rw [w4, u4] at hq
    rw [d4, d3]
    exact ho.fresh.2 q g hq
  have hstay : Stay ht.buffer_pool_manager s4 := by
    intro q g pg hq hpg hpos
    rw [w4, u4]
    exact ho.stay q g pg hq hpg hpos
  refine ⟨{ ht with buffer_pool_manager := s4 }, ?_, ?_, rfl, hpins, ?_⟩
  · unfold closeBucket
    simp only [u1, w1]
  · refine hv.transfer w2 hcoh hfresh (by rw [d4, d3]; exact ho.next_eq) hpins hstay hlen ?_ ?_
      hwf
    · rw [w3, u3]; exact hheader
    · intro i bid' bp h1 h2
      rw [w3, u3]
      exact hblock i bid' bp h1 h2
  · simp only
    rw [w6, u6, ho.pool_size]

end LinearProbeHashTable

namespace LinearProbeHashTable

open BufferPoolManager

variable {D K V : Type}

theorem TableInv.headerOf_eq {cfg : HashTableConfig K V} {dm : DiskManager D (PageData K V)}
    {next : D → Int} {ht : LinearProbeHashTable D K V} {hp : HashTableHeaderPage}
    {blocks : List (HashTableBlockPage K V)} (hv : TableInv cfg dm next ht hp blocks) :
    headerOf dm ht = some hp := by
  unfold headerOf
  rw [hv.header]
  rfl

theorem TableInv.blocksOf_eq {cfg : HashTableConfig K V} {dm : DiskManager D (PageData K V)}
    {next : D → Int} {ht : LinearProbeHashTable D K V} {hp : HashTableHeaderPage}
    {blocks : List (HashTableBlockPage K V)} (hv : TableInv cfg dm next ht hp blocks) :
    blocksOf cfg dm ht = blocks := by
  unfold blocksOf
  rw [hv.headerOf_eq]
  simp only
  apply List.ext_getElem?
  intro i
  rw [List.getElem?_map]
  by_cases hi : i < blocks.length
  · have hi' : i < hp.block_page_ids.length := by rw [hv.nblocks]; exact hi
    have h1 : hp.block_page_ids[i]? = some hp.block_page_ids[i] := List.getElem?_eq_getElem hi'
    have h2 : blocks[i]? = some blocks[i] := List.getElem?_eq_getElem hi
    rw [h1, h2]
    simp only [Option.map_some']
    rw [hv.block i _ _ h1 h2]
    rfl
  · have h1 : hp.block_page_ids[i]? = none := by
      apply List.getElem?_eq_none
      rw [hv.nblocks]; omega
    have h2 : blocks[i]? = none := List.getElem?_eq_none (by omega)
    rw [h1, h2]
    rfl

theorem TableInv.slots_eq {cfg : HashTableConfig K V} {dm : DiskManager D (PageData K V)}
    {next : D → Int} {ht : LinearProbeHashTable D K V} {hp : HashTableHeaderPage}
    {blocks : List (HashTableBlockPage K V)} (hv : TableInv cfg dm next ht hp blocks) :
    slots cfg dm ht = blocks.length * cfg.BLOCK_ARRAY_SIZE := by
  unfold slots
  rw [hv.blocksOf_eq]

/-- `GetSize` with a frame to spare: it returns the number of slots and leaves
the table as it is. -/
theorem GetSize_total {cfg : HashTableConfig K V} {dm : DiskManager D (PageData K V)}
    {next : D → Int} (laws : DiskLaws dm) (al : AllocLaws dm next)
    {ht : LinearProbeHashTable D K V} {hp : HashTableHeaderPage}
    {blocks : List (HashTableBlockPage K V)} (hv : TableInv cfg dm next ht hp blocks)
    (hav : pinnedCount ht.buffer_pool_manager < ht.buffer_pool_manager.pool_size) :
    ∃ ht' : LinearProbeHashTable D K V,
      GetSize cfg dm ht = some (blocks.length * cfg.BLOCK_ARRAY_SIZE, ht') ∧
      TableInv cfg dm next ht' hp blocks ∧
      ht'.header_page_id = ht.header_page_id ∧
      pinList ht'.buffer_pool_manager = pinList ht.buffer_pool_manager ∧
      ht'.buffer_pool_manager.pool_size = ht.buffer_pool_manager.pool_size := by
  have hnil : Pinned [] ht.buffer_pool_manager := fun _ h => absurd h (List.not_mem_nil _)
  obtain ⟨fh, s1, hf1⟩ := fetchData_total laws hv.inv hv.coh hnil hv.header_valid
    (fun _ => hav)
  obtain ⟨-, hF1, c1, a2, a3, a4, a5, a6, a7, a8, a9, a10⟩ :=
    fetchData_post laws hv.inv hv.coh hnil hv.header_valid hf1
  obtain ⟨n1, k1⟩ := fetch_next al hF1
  have hc1 : c1 = 0 := count_zero_of_unpinned hv.inv a2 a9 a5 a6 a7 (hv.not_pinned_header)
  subst hc1
  have hfh_lt : fh < (pinList ht.buffer_pool_manager).length := (List.getElem?_eq_some.1 a6).1
  have hpin1 : (pinList s1)[fh]? = some 1 := by
    rw [a8]; simp [hfh_lt]
  obtain ⟨pgh, hpgh, hpgh_c⟩ := pinList_get_inv hpin1
  obtain ⟨s2, u1, u2, u3, u4, u5, u6, u7, -⟩ :=
    unpin_content a2 a3 false a5 hpgh (by omega)
  obtain ⟨d2, -, -⟩ := unpin_next u1
  have hpins : pinList s2 = pinList ht.buffer_pool_manager := by
    rw [u5, a8, hpgh_c]
    apply List.ext_getElem?
    intro m
    by_cases hm : fh = m
    · subst hm
      rw [List.getElem?_set_self (by simpa using hfh_lt), a6]
      rfl
    · rw [List.getElem?_set_ne hm, List.getElem?_set_ne hm]
  have hfr1 : Fresh next s1 := hv.fresh.of_keys n1 hv.header_lt k1
  have hfresh : Fresh next s2 := by
    refine ⟨by rw [d2]; exact hfr1.1, ?_⟩
    intro q g hq
    rw [u4] at hq
    rw [d2]
    exact hfr1.2 q g hq
  have hstay : Stay ht.buffer_pool_manager s2 := by
    intro q g pg hq hpg hpos
    rw [u4]
    exact a9 q g pg hq hpg hpos
  refine ⟨{ ht with buffer_pool_manager := s2 }, ?_, ?_, rfl, hpins, ?_⟩
  · unfold GetSize
    simp only [hf1, hv.header, asHeader, u1, HashTableHeaderPage.NumBlocks, hv.nblocks]
  · refine hv.transfer u2 u7 hfresh (by rw [d2, n1]) hpins hstay rfl ?_ ?_ hv.wf
    · rw [u3, a4]; exact hv.header
    · intro i bid bp h1 h2
      rw [u3, a4]
      exact hv.block i bid bp h1 h2
  · simp only
    rw [u6, a10]

/-- A `GetSize` that returned had a frame to pin. -/
theorem GetSize_spare {cfg : HashTableConfig K V} {dm : DiskManager D (PageData K V)}
    {next : D → Int} (laws : DiskLaws dm)
    {ht : LinearProbeHashTable D K V} {hp : HashTableHeaderPage}
    {blocks : List (HashTableBlockPage K V)} (hv : TableInv cfg dm next ht hp blocks)
    {r : Nat × LinearProbeHashTable D K V} (h : GetSize cfg dm ht = some r) :
    pinnedCount ht.buffer_pool_manager < ht.buffer_pool_manager.pool_size := by
  have hnil : Pinned [] ht.buffer_pool_manager := fun _ h => absurd h (List.not_mem_nil _)
  unfold GetSize at h
  split at h
  · simp at h
  · rename_i fh hd s1 hf1
    obtain ⟨-, hF1, c1, a2, a3, a4, a5, a6, a7, a8, a9, a10⟩ :=
      fetchData_post laws hv.inv hv.coh hnil hv.header_valid hf1
    have hc1 : c1 = 0 := count_zero_of_unpinned hv.inv a2 a9 a5 a6 a7 (hv.not_pinned_header)
    subst hc1
    obtain ⟨pg0, hpg0, e0⟩ := pinList_get_inv a6
    exact pinnedCount_lt_of_unpinned hv.inv hpg0 e0

theorem GetSize_post {cfg : HashTableConfig K V} {dm : DiskManager D (PageData K V)}
    {next : D → Int} (laws : DiskLaws dm) (al : AllocLaws dm next)
    {ht : LinearProbeHashTable D K V} {hp : HashTableHeaderPage}
    {blocks : List (HashTableBlockPage K V)} (hv : TableInv cfg dm next ht hp blocks)
    {n : Nat} {ht' : LinearProbeHashTable D K V} (h : GetSize cfg dm ht = some (n, ht')) :
    n = blocks.length * cfg.BLOCK_ARRAY_SIZE ∧
      TableInv cfg dm next ht' hp blocks ∧
      ht'.header_page_id = ht.header_page_id ∧
      pinList ht'.buffer_pool_manager = pinList ht.buffer_pool_manager ∧
      ht'.buffer_pool_manager.pool_size = ht.buffer_pool_manager.pool_size := by
  obtain ⟨ht0, h1, h2, h3, h4, h5⟩ := GetSize_total laws al hv (GetSize_spare laws hv h)
  rw [h] at h1
  injection h1 with h1
  injection h1 with e1 e2
  subst e2
  exact ⟨e1, h2, h3, h4, h5⟩

/-- `x % GetSize()` with a frame to spare. -/
theorem modSize_total {cfg : HashTableConfig K V} {dm : DiskManager D (PageData K V)}
    {next : D → Int} (laws : DiskLaws dm) (al : AllocLaws dm next)
    {ht : LinearProbeHashTable D K V} {hp : HashTableHeaderPage}
    {blocks : List (HashTableBlockPage K V)} (hv : TableInv cfg dm next ht hp blocks)
    (hav : pinnedCount ht.buffer_pool_manager < ht.buffer_pool_manager.pool_size) (x : Nat) :
    ∃ ht' : LinearProbeHashTable D K V,
      modSize cfg dm ht x = some (x % (blocks.length * cfg.BLOCK_ARRAY_SIZE), ht') ∧
      TableInv cfg dm next ht' hp blocks ∧
      ht'.header_page_id = ht.header_page_id ∧
      pinList ht'.buffer_pool_manager = pinList ht.buffer_pool_manager ∧
      ht'.buffer_pool_manager.pool_size = ht.buffer_pool_manager.pool_size := by
  obtain ⟨ht', h1, h2, h3, h4, h5⟩ := GetSize_total laws al hv hav
  refine ⟨ht', ?_, h2, h3, h4, h5⟩
  unfold modSize
  simp only [h1]
  rw [if_neg (by have := hv.nonempty; omega)]

theorem Spare.keep {s s' : BufferPoolManager D (PageData K V)} (h : Spare s)
    (hp : pinList s' = pinList s) (hs : s'.pool_size = s.pool_size) : Spare s' := by
  unfold Spare at h ⊢
  rw [pinnedCount_eq_of_pinList hp, hs]
  exact h

theorem Spare.hav {s : BufferPoolManager D (PageData K V)} (h : Spare s) :
    pinnedCount s < s.pool_size := by
  unfold Spare at h
  omega

end LinearProbeHashTable

namespace BufferPoolManager

variable {D B : Type}

theorem writeData_frame (s : BufferPoolManager D B) (f : Nat) (x : B) :
    (writeData s f x).disk = s.disk ∧ (writeData s f x).page_table = s.page_table ∧
      (writeData s f x).pool_size = s.pool_size := by
  unfold writeData
  split <;> exact ⟨rfl, rfl, rfl⟩

theorem writeData_same {s : BufferPoolManager D B} {f : Nat} {pg : Page B}
    (hpg : s.pages[f]? = some pg) : writeData s f pg.data = s := by
  unfold writeData
  simp only [hpg]
  have : s.pages.set f { pg with data := pg.data } = s.pages := by
    apply List.ext_getElem?
    intro m
    by_cases hm : f = m
    · subst hm
      rw [List.getElem?_set_self (List.getElem?_eq_some.1 hpg).1, hpg]
    · rw [List.getElem?_set_ne hm]
  rw [this]

end BufferPoolManager

namespace LinearProbeHashTable

open BufferPoolManager

variable {D K V : Type}

/-- `closeBucket` after `openBucket` when the block page was only read. -/
theorem closeBucket_keep {cfg : HashTableConfig K V} {dm : DiskManager D (PageData K V)}
    {next : D → Int} {ht : LinearProbeHashTable D K V} {hp : HashTableHeaderPage}
    {blocks : List (HashTableBlockPage K V)} (hv : TableInv cfg dm next ht hp blocks)
    {s2 : BufferPoolManager D (PageData K V)} {bid : Int} {fh fb : Nat}
    (ho : Opened next ht.buffer_pool_manager s2 ht.header_page_id bid fh fb)
    (hc : Coh dm PageData.zero [] s2)
    (hcont : ∀ q, content dm PageData.zero s2 q
      = content dm PageData.zero ht.buffer_pool_manager q) (dirty : Bool) :
    ∃ ht' : LinearProbeHashTable D K V,
      closeBucket ht s2 bid dirty = some ht' ∧
      TableInv cfg dm next ht' hp blocks ∧
      ht'.header_page_id = ht.header_page_id ∧
      pinList ht'.buffer_pool_manager = pinList ht.buffer_pool_manager ∧
      ht'.buffer_pool_manager.pool_size = ht.buffer_pool_manager.pool_size := by
  refine closeBucket_inv hv ho hc dirty (fun _ h => absurd h (List.not_mem_nil _)) rfl ?_ ?_
    hv.wf
  · rw [hcont]; exact hv.header
  · intro i bid' bp h1 h2
    rw [hcont]
    exact hv.block i bid' bp h1 h2

/-- `closeBucket` after `openBucket` and a write of `bp'` into the block page,
announced by `is_dirty = true`. -/
theorem closeBucket_write {cfg : HashTableConfig K V} {dm : DiskManager D (PageData K V)}
    {next : D → Int} {ht : LinearProbeHashTable D K V} {hp : HashTableHeaderPage}
    {blocks : List (HashTableBlockPage K V)} (hv : TableInv cfg dm next ht hp blocks)
    {s2 : BufferPoolManager D (PageData K V)} {bid : Int} {fh fb : Nat}
    (ho : Opened next ht.buffer_pool_manager s2 ht.header_page_id bid fh fb)
    (hc : Coh dm PageData.zero [] s2)
    (hcont : ∀ q, content dm PageData.zero s2 q
      = content dm PageData.zero ht.buffer_pool_manager q)
    {i : Nat} (hbid : hp.block_page_ids[i]? = some bid)
    {bp' : HashTableBlockPage K V} (hwf : bp'.WF cfg.BLOCK_ARRAY_SIZE) :
    ∃ ht' : LinearProbeHashTable D K V,
      closeBucket ht (writeData s2 fb (PageData.block bp')) bid true = some ht' ∧
      TableInv cfg dm next ht' hp (blocks.set i bp') ∧
      ht'.header_page_id = ht.header_page_id ∧
      pinList ht'.buffer_pool_manager = pinList ht.buffer_pool_manager ∧
      ht'.buffer_pool_manager.pool_size = ht.buffer_pool_manager.pool_size := by
  obtain ⟨hfb_lt, -⟩ := List.getElem?_eq_some.1 ho.pin_b
  have hpinb : (pinList s2)[fb]? = some 1 := by
    rw [ho.pins]
    simp [hfb_lt]
  obtain ⟨pgb, hpgb, hpgb_c⟩ := pinList_get_inv hpinb
  obtain ⟨w1, w2, w3, w4, w5, w6⟩ :=
    write_content ho.inv hc ho.find_b hpgb (by omega) (PageData.block bp')
  obtain ⟨d1, -, -⟩ := writeData_frame s2 fb (PageData.block bp')
  have hmem : bid ∈ hp.block_page_ids := by
    obtain ⟨hlt, hget⟩ := List.getElem?_eq_some.1 hbid
    rw [← hget]; exact List.getElem_mem hlt
  obtain ⟨-, hbh, -⟩ := hv.ids_valid bid hmem
  have ho' : Opened next ht.buffer_pool_manager (writeData s2 fb (PageData.block bp'))
      ht.header_page_id bid fh fb :=
    { inv := w1
      fresh := by
        refine ⟨by rw [d1]; exact ho.fresh.1, ?_⟩
        intro q g hq
        rw [w4] at hq
        rw [d1]
        exact ho.fresh.2 q g hq
      next_eq := by rw [d1]; exact ho.next_eq
      find_h := by rw [w4]; exact ho.find_h
      find_b := by rw [w4]; exact ho.find_b
      frames_ne := ho.frames_ne
      pool_size := by rw [w6]; exact ho.pool_size
      stay := by
        intro q g pg hq hpg hpos
        rw [w4]
        exact ho.stay q g pg hq hpg hpos
      pins := by rw [w5]; exact ho.pins
      pin_h := ho.pin_h
      pin_b := ho.pin_b }
  refine closeBucket_inv hv ho' w2 true ?_ (by simp) ?_ ?_ ?_
  · intro g hg
    simp only [List.mem_cons, List.not_mem_nil, or_false] at hg
    exact ⟨rfl, hg⟩
  · rw [w3, if_neg (fun e => hbh e.symm), hcont]
    exact hv.header
  · intro j bid' bp h1 h2
    rw [w3]
    by_cases e : j = i
    · subst e
      rw [hbid] at h1
      injection h1 with h1
      subst h1
      rw [if_pos rfl]
      have hlt : j < blocks.length := by
        rw [← hv.nblocks]; exact (List.getElem?_eq_some.1 hbid).1
      rw [List.getElem?_set_self hlt] at h2
      injection h2 with h2
      rw [h2]
    · rw [List.getElem?_set_ne (fun e' => e e'.symm)] at h2
      have hne : bid' ≠ bid := by
        intro e'
        subst e'
        obtain ⟨hl1, hg1⟩ := List.getElem?_eq_some.1 h1
        obtain ⟨hl2, hg2⟩ := List.getElem?_eq_some.1 hbid
        exact e ((List.Nodup.getElem_inj_iff hv.ids_nodup).1 (hg1.trans hg2.symm))
      rw [if_neg hne, hcont]
      exact hv.block j bid' bp h1 h2
  · intro bp hbp
    rcases List.mem_or_eq_of_mem_set hbp with h | h
    · exact hv.wf bp h
    · rw [h]; exact hwf

end LinearProbeHashTable

namespace LinearProbeHashTable

open BufferPoolManager

variable {D K V : Type}

theorem set_same {α : Type} {l : List α} {i : Nat} {a : α} (h : l[i]? = some a) :
    l.set i a = l := by
  apply List.ext_getElem?
  intro m
  by_cases hm : i = m
  · subst hm
    rw [List.getElem?_set_self (List.getElem?_eq_some.1 h).1, h]
  · rw [List.getElem?_set_ne hm]

/-- `get_bucket_id_value` with two frames to spare computes what the block
pages say and leaves the table as it is. -/
theorem get_bucket_total {cfg : HashTableConfig K V} {dm : DiskManager D (PageData K V)}
    {next : D → Int} (laws : DiskLaws dm) (al : AllocLaws dm next)
    {ht : LinearProbeHashTable D K V} {hp : HashTableHeaderPage}
    {blocks : List (HashTableBlockPage K V)} (hv : TableInv cfg dm next ht hp blocks)
    (hspare : Spare ht.buffer_pool_manager)
    {prob : Nat} (hprob : prob < blocks.length * cfg.BLOCK_ARRAY_SIZE) (key : K)
    (result : List V) :
    ∃ (b : Bool) (res' : List V) (ht' : LinearProbeHashTable D K V),
      pureGetBucket cfg blocks prob key result = some (b, res') ∧
      get_bucket_id_value cfg dm ht prob key result = some (b, res', ht') ∧
      TableInv cfg dm next ht' hp blocks ∧
      ht'.header_page_id = ht.header_page_id ∧
      pinList ht'.buffer_pool_manager = pinList ht.buffer_pool_manager ∧
      ht'.buffer_pool_manager.pool_size = ht.buffer_pool_manager.pool_size := by
  obtain ⟨bid, fb, bp, s2, hopen⟩ := openBucket_total laws hv hspare hprob
  obtain ⟨fh, hbid, hbp, ho, hc2, hcont2⟩ := openBucket_post laws al hv hopen
  obtain ⟨ht', hclose, hv', e1, e2, e3⟩ := closeBucket_keep hv ho hc2 hcont2 false
  obtain ⟨bp0, k, v, hb0, hwf, hslot, hkv⟩ := slot_block cfg hv.wf hprob
  rw [hbp] at hb0
  injection hb0 with hb0
  subst hb0
  have hocc := HashTableBlockPage.IsOccupied_eq hwf hslot
  have hkm := keyMatches_eq cfg hwf hslot key hkv
  have hval : bp.ValueAt (prob % cfg.BLOCK_ARRAY_SIZE) = some v := by
    simp [HashTableBlockPage.ValueAt, hkv]
  cases ho1 : bp.occBit (prob % cfg.BLOCK_ARRAY_SIZE) with
  | false =>
    rw [ho1] at hocc
    refine ⟨false, result, ht', ?_, ?_, hv', e1, e2, e3⟩
    · unfold pureGetBucket
      simp only [hbp, hocc]
    · unfold get_bucket_id_value
      simp only [hopen, hocc, hclose]
  | true =>
    rw [ho1] at hocc
    cases hm : (bp.rdBit (prob % cfg.BLOCK_ARRAY_SIZE) && (cfg.comparator key k == 0)) with
    | false =>
      rw [hm] at hkm
      refine ⟨true, result, ht', ?_, ?_, hv', e1, e2, e3⟩
      · unfold pureGetBucket
        simp only [hbp, hocc, hkm, Bool.false_eq_true, if_false]
      · unfold get_bucket_id_value
        simp only [hopen, hocc, hkm, Bool.false_eq_true, if_false, hclose]
    | true =>
      rw [hm] at hkm
      refine ⟨true, result ++ [v], ht', ?_, ?_, hv', e1, e2, e3⟩
      · unfold pureGetBucket
        simp only [hbp, hocc, hkm, if_true, hval, Option.map_some']
      · unfold get_bucket_id_value
        simp only [hopen, hocc, hkm, if_true, hval, Option.map_some', hclose]

/-- `insert_bucket_id_kv` with two frames to spare computes what the block
pages say and leaves the table with the block pages so computed. -/
theorem insert_bucket_total [DecidableEq V] {cfg : HashTableConfig K V}
    {dm : DiskManager D (PageData K V)}
    {next : D → Int} (laws : DiskLaws dm) (al : AllocLaws dm next)
    {ht : LinearProbeHashTable D K V} {hp : HashTableHeaderPage}
    {blocks : List (HashTableBlockPage K V)} (hv : TableInv cfg dm next ht hp blocks)
    (hspare : Spare ht.buffer_pool_manager)
    {prob : Nat} (hprob : prob < blocks.length * cfg.BLOCK_ARRAY_SIZE) (key : K)
    (value : V) :
    ∃ (st : Int) (blocks' : List (HashTableBlockPage K V))
      (ht' : LinearProbeHashTable D K V),
      pureInsertBucket cfg blocks prob key value = some (st, blocks') ∧
      insert_bucket_id_kv cfg dm ht prob key value = some (st, ht') ∧
      TableInv cfg dm next ht' hp blocks' ∧
      blocks'.length = blocks.length ∧
      ht'.header_page_id = ht.header_page_id ∧
      pinList ht'.buffer_pool_manager = pinList ht.buffer_pool_manager ∧
      ht'.buffer_pool_manager.pool_size = ht.buffer_pool_manager.pool_size := by
  obtain ⟨bid, fb, bp, s2, hopen⟩ := openBucket_total laws hv hspare hprob
  obtain ⟨fh, hbid, hbp, ho, hc2, hcont2⟩ := openBucket_post laws al hv hopen
  obtain ⟨bp0, k, v, hb0, hwf, hslot, hkv⟩ := slot_block cfg hv.wf hprob
  rw [hbp] at hb0
  injection hb0 with hb0
  subst hb0
  have hpm := pairMatches_eq cfg hwf hslot key value hkv
  cases hm : (bp.rdBit (prob % cfg.BLOCK_ARRAY_SIZE) && (cfg.comparator key k == 0)
      && decide (v = value)) with
  | true =>
    rw [hm] at hpm
    obtain ⟨ht', hclose, hv', e1, e2, e3⟩ := closeBucket_keep hv ho hc2 hcont2 false
    refine ⟨0, blocks, ht', ?_, ?_, hv', rfl, e1, e2, e3⟩
    · unfold pureInsertBucket
      simp only [hbp, hpm]
    · unfold insert_bucket_id_kv
      simp only [hopen, hpm, hclose]
  | false =>
    rw [hm] at hpm
    cases hr : bp.rdBit (prob % cfg.BLOCK_ARRAY_SIZE) with
    | true =>
      have hins := HashTableBlockPage.Insert_readable hwf hslot key value hr
      obtain ⟨ht', hclose, hv', e1, e2, e3⟩ := closeBucket_keep hv ho hc2 hcont2 false
      obtain ⟨hfb_lt, -⟩ := List.getElem?_eq_some.1 ho.pin_b
      have hpinb : (pinList s2)[fb]? = some 1 := by
        rw [ho.pins]
        simp [hfb_lt]
      obtain ⟨pgb, hpgb, -⟩ := pinList_get_inv hpinb
      have hcr : content dm PageData.zero s2 bid = pgb.data :=
        content_resident ho.find_b hpgb
      have hdata : pgb.data = PageData.block bp := by
        rw [← hcr, hcont2]
        exact hv.block _ _ _ hbid hbp
      have hsame : writeData s2 fb (PageData.block bp) = s2 := by
        rw [← hdata]
        exact writeData_same hpgb
      refine ⟨-1, blocks, ht', ?_, ?_, hv', rfl, e1, e2, e3⟩
      · unfold pureInsertBucket
        simp only [hbp, hpm, hins, set_same hbp]
      · unfold insert_bucket_id_kv
        simp only [hopen, hpm, hins, hsame, hclose]
    | false =>
      obtain ⟨bp', hins, hwf', -⟩ := HashTableBlockPage.Insert_free hwf hslot key value hr
      obtain ⟨ht', hclose, hv', e1, e2, e3⟩ :=
        closeBucket_write hv ho hc2 hcont2 hbid hwf'
      refine ⟨1, blocks.set (prob / cfg.BLOCK_ARRAY_SIZE) bp', ht', ?_, ?_, hv', by simp,
        e1, e2, e3⟩
      · unfold pureInsertBucket
        simp only [hbp, hpm, hins]
      · unfold insert_bucket_id_kv
        simp only [hopen, hpm, hins, hclose]

end LinearProbeHashTable

namespace LinearProbeHashTable

open BufferPoolManager

variable {D K V : Type}

/-- The loop of `Insert` with two frames to spare computes what the block
pages say. -/
theorem insertLoop_sim [DecidableEq V] {cfg : HashTableConfig K V}
    {dm : DiskManager D (PageData K V)}
    {next : D → Int} (laws : DiskLaws dm) (al : AllocLaws dm next)
    (hp : HashTableHeaderPage) (bucket_id : Nat) (key : K) (value : V) (fuel : Nat) :
    ∀ (ht : LinearProbeHashTable D K V) (blocks : List (HashTableBlockPage K V)) (prob : Nat),
      TableInv cfg dm next ht hp blocks → Spare ht.buffer_pool_manager →
      prob < blocks.length * cfg.BLOCK_ARRAY_SIZE →
      match pureInsertLoop cfg bucket_id key value fuel blocks prob with
      | none => insertLoop cfg dm bucket_id key value fuel ht prob = none
      | some (st, blocks') =>
        ∃ ht' : LinearProbeHashTable D K V,
          insertLoop cfg dm bucket_id key value fuel ht prob = some (st, ht') ∧
          TableInv cfg dm next ht' hp blocks' ∧
          blocks'.length = blocks.length ∧
          ht'.header_page_id = ht.header_page_id ∧
          pinList ht'.buffer_pool_manager = pinList ht.buffer_pool_manager ∧
          ht'.buffer_pool_manager.pool_size = ht.buffer_pool_manager.pool_size := by
  induction fuel with
  | zero =>
    intro ht blocks prob _ _ _
    simp only [pureInsertLoop, insertLoop]
  | succ fuel ih =>
    intro ht blocks prob hv hspare hprob
    obtain ⟨st1, blocks1, ht1, hpure, himpl, hv1, hlen1, e1, e2, e3⟩ :=
      insert_bucket_total laws al hv hspare hprob key value
    have hspare1 : Spare ht1.buffer_pool_manager := hspare.keep e2 e3
    by_cases hst : st1 ≠ -1
    · simp only [pureInsertLoop, insertLoop, hpure, himpl, if_pos hst]
      exact ⟨ht1, rfl, hv1, hlen1, e1, e2, e3⟩
    · obtain ⟨ht2, hmod, hv2, f1, f2, f3⟩ := modSize_total laws al hv1 hspare1.hav (prob + 1)
      have hspare2 : Spare ht2.buffer_pool_manager := hspare1.keep f2 f3
      by_cases hpb : (prob + 1) % (blocks1.length * cfg.BLOCK_ARRAY_SIZE) ≠ bucket_id
      · have hih := ih ht2 blocks1 ((prob + 1) % (blocks1.length * cfg.BLOCK_ARRAY_SIZE))
          hv2 hspare2 (Nat.mod_lt _ hv1.nonempty)
        simp only [pureInsertLoop, insertLoop, hpure, himpl, if_neg hst, hmod, if_pos hpb]
        cases hres : pureInsertLoop cfg bucket_id key value fuel blocks1
            ((prob + 1) % (blocks1.length * cfg.BLOCK_ARRAY_SIZE)) with
        | none =>
          rw [hres] at hih
          exact hih
        | some r =>
          obtain ⟨st, blocks'⟩ := r
          rw [hres] at hih
          obtain ⟨ht', g1, g2, g3, g4, g5, g6⟩ := hih
          exact ⟨ht', g1, g2, by rw [g3, hlen1], by rw [g4, f1, e1], by rw [g5, f2, e2],
            by rw [g6, f3, e3]⟩
      · simp only [pureInsertLoop, insertLoop, hpure, himpl, if_neg hst, hmod, if_neg hpb]
        exact ⟨ht2, rfl, hv2, hlen1, by rw [f1, e1], by rw [f2, e2], by rw [f3, e3]⟩

/-- The loop of `GetValue` with two frames to spare computes what the block
pages say and leaves the table as it is. -/
theorem getValueLoop_sim {cfg : HashTableConfig K V}
    {dm : DiskManager D (PageData K V)}
    {next : D → Int} (laws : DiskLaws dm) (al : AllocLaws dm next)
    {hp : HashTableHeaderPage} {blocks : List (HashTableBlockPage K V)}
    (bucket_id : Nat) (key : K) (fuel : Nat) :
    ∀ (ht : LinearProbeHashTable D K V) (prob : Nat) (result : List V),
      TableInv cfg dm next ht hp blocks → Spare ht.buffer_pool_manager →
      prob < blocks.length * cfg.BLOCK_ARRAY_SIZE →
      match pureGetLoop cfg blocks bucket_id key fuel prob result with
      | none => getValueLoop cfg dm bucket_id key fuel ht prob result = none
      | some res' =>
        ∃ ht' : LinearProbeHashTable D K V,
          getValueLoop cfg dm bucket_id key fuel ht prob result = some (res', ht') ∧
          TableInv cfg dm next ht' hp blocks ∧
          ht'.header_page_id = ht.header_page_id ∧
          pinList ht'.buffer_pool_manager = pinList ht.buffer_pool_manager ∧
          ht'.buffer_pool_manager.pool_size = ht.buffer_pool_manager.pool_size := by
  induction fuel with
  | zero =>
    intro ht prob result _ _ _
    simp only [pureGetLoop, getValueLoop]
  | succ fuel ih =>
    intro ht prob result hv hspare hprob
    obtain ⟨b1, res1, ht1, hpure, himpl, hv1, e1, e2, e3⟩ :=
      get_bucket_total laws al hv hspare hprob key result
    have hspare1 : Spare ht1.buffer_pool_manager := hspare.keep e2 e3
    cases b1 with
    | false =>
      simp only [pureGetLoop, getValueLoop, hpure, himpl]
      exact ⟨ht1, rfl, hv1, e1, e2, e3⟩
    | true =>
      obtain ⟨ht2, hmod, hv2, f1, f2, f3⟩ := modSize_total laws al hv1 hspare1.hav (prob + 1)
      have hspare2 : Spare ht2.buffer_pool_manager := hspare1.keep f2 f3
      by_cases hpb : (prob + 1) % (blocks.length * cfg.BLOCK_ARRAY_SIZE) ≠ bucket_id
      · have hih := ih ht2 ((prob + 1) % (blocks.length * cfg.BLOCK_ARRAY_SIZE)) res1
          hv2 hspare2 (Nat.mod_lt _ hv.nonempty)
        simp only [pureGetLoop, getValueLoop, hpure, himpl, hmod, if_pos hpb]
        cases hres : pureGetLoop cfg blocks bucket_id key fuel
            ((prob + 1) % (blocks.length * cfg.BLOCK_ARRAY_SIZE)) res1 with
        | none =>
          rw [hres] at hih
          exact hih
        | some res' =>
          rw [hres] at hih
          obtain ⟨ht', g1, g2, g4, g5, g6⟩ := hih
          exact ⟨ht', g1, g2, by rw [g4, f1, e1], by rw [g5, f2, e2], by rw [g6, f3, e3]⟩
      · simp only [pureGetLoop, getValueLoop, hpure, himpl, hmod, if_neg hpb]
        exact ⟨ht2, rfl, hv2, by rw [f1, e1], by rw [f2, e2], by rw [f3, e3]⟩

end LinearProbeHashTable

namespace LinearProbeHashTable

open BufferPoolManager

variable {D K V : Type}

/-- The table seen in another pool state in which no page of the table is
pinned. -/
theorem TableInv.transfer_unp {cfg : HashTableConfig K V} {dm : DiskManager D (PageData K V)}
    {next : D → Int} {ht : LinearProbeHashTable D K V} {hp : HashTableHeaderPage}
    {blocks : List (HashTableBlockPage K V)} (hv : TableInv cfg dm next ht hp blocks)
    {s' : BufferPoolManager D (PageData K V)} (hinv : Inv s')
    (hcoh : Coh dm PageData.zero [] s') (hfresh : Fresh next s')
    (hnext : next s'.disk = next ht.buffer_pool_manager.disk)
    (hcont : ∀ q, content dm PageData.zero s' q
      = content dm PageData.zero ht.buffer_pool_manager q)
    (hunp : ∀ (q : Int) (f : Nat) (pg : Page (PageData K V)),
      s'.page_table.find q = some f → s'.pages[f]? = some pg → 0 < pg.pin_count →
      q ≠ ht.header_page_id ∧ q ∉ hp.block_page_ids) :
    TableInv cfg dm next { ht with buffer_pool_manager := s' } hp blocks where
  inv := hinv
  coh := hcoh
  fresh := hfresh
  header := by rw [hcont]; exact hv.header
  header_valid := hv.header_valid
  header_lt := by rw [hnext]; exact hv.header_lt
  nblocks := hv.nblocks
  block := by
    intro i bid bp h1 h2
    rw [hcont]
    exact hv.block i bid bp h1 h2
  ids_valid := by
    intro bid hbid
    obtain ⟨h1, h2, h3⟩ := hv.ids_valid bid hbid
    exact ⟨h1, h2, by rw [hnext]; exact h3⟩
  ids_nodup := hv.ids_nodup
  wf := hv.wf
  nonempty := hv.nonempty
  unpinned := hunp

/-- Fetching a page that is not a page of the table, and keeping it pinned,
leaves the table in view. -/
theorem TableInv.foreign_fetch {cfg : HashTableConfig K V} {dm : DiskManager D (PageData K V)}
    {next : D → Int} (laws : DiskLaws dm) (al : AllocLaws dm next)
    {ht : LinearProbeHashTable D K V} {hp : HashTableHeaderPage}
    {blocks : List (HashTableBlockPage K V)} (hv : TableInv cfg dm next ht hp blocks)
    {q : Int} (hq : q ≠ INVALID_PAGE_ID) (hlt : q < next ht.buffer_pool_manager.disk)
    (hqh : q ≠ ht.header_page_id) (hqb : q ∉ hp.block_page_ids)
    {f : Nat} {d : PageData K V} {s' : BufferPoolManager D (PageData K V)}
    (h : fetchData dm ht.buffer_pool_manager q = some (f, d, s')) :
    TableInv cfg dm next { ht with buffer_pool_manager := s' } hp blocks := by
  have hnil : Pinned [] ht.buffer_pool_manager := fun _ h => absurd h (List.not_mem_nil _)
  obtain ⟨-, hF, c, a2, a3, a4, a5, a6, a7, a8, a9, a10⟩ :=
    fetchData_post laws hv.inv hv.coh hnil hq h
  obtain ⟨n1, k1⟩ := fetch_next al hF
  refine hv.transfer_unp a2 a3 (hv.fresh.of_keys n1 hlt k1) n1 a4 ?_
  intro q' g pg hq' hpg hpos
  by_cases e : g = f
  · subst e
    have := table_injective a2 hq' a5
    subst this
    exact ⟨hqh, hqb⟩
  · have hl := pinList_get hpg
    rw [a8, List.getElem?_set_ne (fun e' => e e'.symm)] at hl
    obtain ⟨pg0, hpg0, e0⟩ := pinList_get_inv hl
    have hpos0 : 0 < pg0.pin_count := by omega
    have h1 := pinned_frame_page hv.inv hpg0 hpos0
    have h2 := a9 _ g pg0 h1 hpg0 hpos0
    have h3 := table_injective a2 h2 hq'
    rw [h3] at h1
    exact hv.unpinned q' g pg0 h1 hpg0 hpos0

/-- An `Unpin` that returned leaves the table in view. -/
theorem TableInv.after_unpin {cfg : HashTableConfig K V} {dm : DiskManager D (PageData K V)}
    {next : D → Int} {ht : LinearProbeHashTable D K V} {hp : HashTableHeaderPage}
    {blocks : List (HashTableBlockPage K V)} (hv : TableInv cfg dm next ht hp blocks)
    {q : Int} {d b : Bool} {s' : BufferPoolManager D (PageData K V)}
    (h : UnpinPageImpl ht.buffer_pool_manager q d = some (b, s')) :
    TableInv cfg dm next { ht with buffer_pool_manager := s' } hp blocks := by
  obtain ⟨f, c, u1, u2, u3, u4, u5, u6, u7, u8, u9, -, u11, -⟩ :=
    unpin_post hv.inv hv.coh h
  have hfresh : Fresh next s' := by
    refine ⟨by rw [u7]; exact hv.fresh.1, ?_⟩
    intro q' g hq'
    rw [u6] at hq'
    rw [u7]
    exact hv.fresh.2 q' g hq'
  refine hv.transfer_unp u4 u11 hfresh (by rw [u7]) u5 ?_
  intro q' g pg hq' hpg hpos
  rw [u6] at hq'
  have hl := pinList_get hpg
  rw [u9] at hl
  by_cases e : g = f
  · subst e
    have hlt : g < (pinList ht.buffer_pool_manager).length := (List.getElem?_eq_some.1 u2).1
    rw [List.getElem?_set_self hlt] at hl
    injection hl with hl
    obtain ⟨pg0, hpg0, e0⟩ := pinList_get_inv u2
    have hpos0 : 0 < pg0.pin_count := by
      split at hl <;> omega
    exact hv.unpinned q' g pg0 hq' hpg0 hpos0
  · rw [List.getElem?_set_ne (fun e' => e e'.symm)] at hl
    obtain ⟨pg0, hpg0, e0⟩ := pinList_get_inv hl
    exact hv.unpinned q' g pg0 hq' hpg0 (by omega)

/-- A `Delete` that returned leaves the table in view. -/
theorem TableInv.after_delete {cfg : HashTableConfig K V} {dm : DiskManager D (PageData K V)}
    {next : D → Int} (laws : DiskLaws dm) (al : AllocLaws dm next)
    {ht : LinearProbeHashTable D K V} {hp : HashTableHeaderPage}
    {blocks : List (HashTableBlockPage K V)} (hv : TableInv cfg dm next ht hp blocks)
    {q : Int} {b : Bool} {s' : BufferPoolManager D (PageData K V)}
    (h : DeletePageImpl dm ht.buffer_pool_manager q = some (b, s')) :
    TableInv cfg dm next { ht with buffer_pool_manager := s' } hp blocks := by
  have hnil : Pinned [] ht.buffer_pool_manager := fun _ h => absurd h (List.not_mem_nil _)
  obtain ⟨d1, d2, d3, d4, d5, d6⟩ := delete_post laws hv.inv hv.coh hnil h
  obtain ⟨n1, k1⟩ := delete_next al h
  have hfresh : Fresh next s' := by
    refine ⟨by rw [n1]; exact hv.fresh.1, ?_⟩
    intro q' g hq'
    rw [n1]
    exact hv.fresh.2 q' g (k1 q' g hq')
  refine hv.transfer_unp d1 d2 hfresh n1 d3 ?_
  intro q' g pg hq' hpg hpos
  have hl := pinList_get hpg
  rw [d4] at hl
  obtain ⟨pg0, hpg0, e0⟩ := pinList_get_inv hl
  have hpos0 : 0 < pg0.pin_count := by omega
  have h1 := pinned_frame_page hv.inv hpg0 hpos0
  have h2 := d5 _ g pg0 h1 hpg0 hpos0
  have h3 := table_injective d1 h2 hq'
  rw [h3] at h1
  exact hv.unpinned q' g pg0 h1 hpg0 hpos0

end LinearProbeHashTable

namespace LinearProbeHashTable

open BufferPoolManager

variable {D K V : Type}

/-- An `openBucket` that returned had two frames to pin and a slot of the
table. -/
theorem openBucket_spare {cfg : HashTableConfig K V} {dm : DiskManager D (PageData K V)}
    {next : D → Int} (laws : DiskLaws dm) (al : AllocLaws dm next)
    {ht : LinearProbeHashTable D K V} {hp : HashTableHeaderPage}
    {blocks : List (HashTableBlockPage K V)} (hv : TableInv cfg dm next ht hp blocks)
    {prob : Nat}
    {r : Int × Nat × HashTableBlockPage K V × BufferPoolManager D (PageData K V)}
    (h : openBucket cfg dm ht prob = some r) :
    Spare ht.buffer_pool_manager ∧ prob < blocks.length * cfg.BLOCK_ARRAY_SIZE := by
  obtain ⟨bid, fb, bp, s2⟩ := r
  obtain ⟨fh, -, hbp, ho, -, -⟩ := openBucket_post laws al hv h
  refine ⟨ho.spare, ?_⟩
  have hlt : prob / cfg.BLOCK_ARRAY_SIZE < blocks.length := (List.getElem?_eq_some.1 hbp).1
  have hpos : 0 < cfg.BLOCK_ARRAY_SIZE := by
    have := hv.nonempty
    exact Nat.pos_of_mul_pos_left this
  exact (Nat.div_lt_iff_lt_mul hpos).1 hlt

theorem insert_bucket_post [DecidableEq V] {cfg : HashTableConfig K V}
    {dm : DiskManager D (PageData K V)}
    {next : D → Int} (laws : DiskLaws dm) (al : AllocLaws dm next)
    {ht : LinearProbeHashTable D K V} {hp : HashTableHeaderPage}
    {blocks : List (HashTableBlockPage K V)} (hv : TableInv cfg dm next ht hp blocks)
    {prob : Nat} {key : K} {value : V} {st : Int} {ht' : LinearProbeHashTable D K V}
    (h : insert_bucket_id_kv cfg dm ht prob key value = some (st, ht')) :
    Spare ht.buffer_pool_manager ∧ prob < blocks.length * cfg.BLOCK_ARRAY_SIZE ∧
    ∃ blocks' : List (HashTableBlockPage K V),
      pureInsertBucket cfg blocks prob key value = some (st, blocks') ∧
      TableInv cfg dm next ht' hp blocks' ∧
      blocks'.length = blocks.length ∧
      ht'.header_page_id = ht.header_page_id ∧
      pinList ht'.buffer_pool_manager = pinList ht.buffer_pool_manager ∧
      ht'.buffer_pool_manager.pool_size = ht.buffer_pool_manager.pool_size := by
  have hsp : Spare ht.buffer_pool_manager ∧ prob < blocks.length * cfg.BLOCK_ARRAY_SIZE := by
    have h' := h
    unfold insert_bucket_id_kv at h'
    split at h'
    · simp at h'
    · rename_i hopen
      exact openBucket_spare laws al hv hopen
  obtain ⟨st1, blocks1, ht1, hpure, himpl, hv1, hlen1, e1, e2, e3⟩ :=
    insert_bucket_total laws al hv hsp.1 hsp.2 key value
  rw [h] at himpl
  injection himpl with himpl
  injection himpl with a1 a2
  subst a1
  subst a2
  exact ⟨hsp.1, hsp.2, blocks1, hpure, hv1, hlen1, e1, e2, e3⟩

theorem modSize_post {cfg : HashTableConfig K V} {dm : DiskManager D (PageData K V)}
    {next : D → Int} (laws : DiskLaws dm) (al : AllocLaws dm next)
    {ht : LinearProbeHashTable D K V} {hp : HashTableHeaderPage}
    {blocks : List (HashTableBlockPage K V)} (hv : TableInv cfg dm next ht hp blocks)
    {x y : Nat} {ht' : LinearProbeHashTable D K V}
    (h : modSize cfg dm ht x = some (y, ht')) :
    y = x % (blocks.length * cfg.BLOCK_ARRAY_SIZE) ∧
      TableInv cfg dm next ht' hp blocks ∧
      ht'.header_page_id = ht.header_page_id ∧
      pinList ht'.buffer_pool_manager = pinList ht.buffer_pool_manager ∧
      ht'.buffer_pool_manager.pool_size = ht.buffer_pool_manager.pool_size := by
  unfold modSize at h
  split at h
  · simp at h
  · rename_i size ht0 hgs
    obtain ⟨e1, h2, h3, h4, h5⟩ := GetSize_post laws al hv hgs
    split at h
    · simp at h
    · injection h with h
      injection h with a1 a2
      subst a2
      exact ⟨by rw [← a1, e1], h2, h3, h4, h5⟩

/-- The rehash loop of `Resize` for one pair keeps the table in view. -/
theorem rehashLoop_inv [DecidableEq V] {cfg : HashTableConfig K V}
    {dm : DiskManager D (PageData K V)}
    {next : D → Int} (laws : DiskLaws dm) (al : AllocLaws dm next)
    (hp : HashTableHeaderPage) (key : K) (value : V) (fuel : Nat) :
    ∀ (ht ht' : LinearProbeHashTable D K V) (blocks : List (HashTableBlockPage K V))
      (prob : Nat),
      TableInv cfg dm next ht hp blocks →
      rehashLoop cfg dm key value fuel ht prob = some ht' →
      ∃ blocks' : List (HashTableBlockPage K V),
        TableInv cfg dm next ht' hp blocks' ∧
        ht'.header_page_id = ht.header_page_id := by
  induction fuel with
  | zero =>
    intro ht ht' blocks prob _ h
    simp [rehashLoop] at h
  | succ fuel ih =>
    intro ht ht' blocks prob hv h
    unfold rehashLoop at h
    split at h
    · simp at h
    · rename_i status ht1 hib
      obtain ⟨-, -, blocks1, -, hv1, -, e1, -, -⟩ := insert_bucket_post laws al hv hib
      split at h
      · simp at h
      · rename_i prob' ht2 hmod
        obtain ⟨-, hv2, f1, -, -⟩ := modSize_post laws al hv1 hmod
        split at h
        · obtain ⟨blocks', g1, g2⟩ := ih ht2 ht' blocks1 prob' hv2 h
          exact ⟨blocks', g1, by rw [g2, f1, e1]⟩
        · injection h with h
          subst h
          exact ⟨blocks1, hv2, by rw [f1, e1]⟩

/-- The loop of `Resize` over the slots of one old block page keeps the table
in view. -/
theorem rehashSlots_inv [DecidableEq V] {cfg : HashTableConfig K V}
    {dm : DiskManager D (PageData K V)}
    {next : D → Int} (laws : DiskLaws dm) (al : AllocLaws dm next)
    (hp : HashTableHeaderPage) (fuel : Nat) (old_bp : HashTableBlockPage K V)
    (js : List Nat) :
    ∀ (ht ht' : LinearProbeHashTable D K V) (blocks : List (HashTableBlockPage K V)),
      TableInv cfg dm next ht hp blocks →
      rehashSlots cfg dm fuel old_bp js ht = some ht' →
      ∃ blocks' : List (HashTableBlockPage K V),
        TableInv cfg dm next ht' hp blocks' ∧
        ht'.header_page_id = ht.header_page_id := by
  induction js with
  | nil =>
    intro ht ht' blocks hv h
    simp only [rehashSlots] at h
    injection h with h
    subst h
    exact ⟨blocks, hv, rfl⟩
  | cons j js ih =>
    intro ht ht' blocks hv h
    unfold rehashSlots at h
    split at h
    · simp at h
    · exact ih ht ht' blocks hv h
    · split at h
      · simp at h
      · rename_i key value hkv
        split at h
        · simp at h
        · rename_i bucket_id ht1 hmod
          obtain ⟨-, hv1, f1, -, -⟩ := modSize_post laws al hv hmod
          split at h
          · simp at h
          · rename_i ht2 hrl
            obtain ⟨blocks2, hv2, g2⟩ :=
              rehashLoop_inv laws al hp key value fuel ht1 ht2 blocks bucket_id hv1 hrl
            obtain ⟨blocks', hv', g'⟩ := ih ht2 ht' blocks2 hv2 h
            exact ⟨blocks', hv', by rw [g', g2, f1]⟩

/-- The loop of `Resize` over the old block pages keeps the new table in
view. -/
theorem rehashBlocks_inv [DecidableEq V] {cfg : HashTableConfig K V}
    {dm : DiskManager D (PageData K V)}
    {next : D → Int} (laws : DiskLaws dm) (al : AllocLaws dm next)
    (hp : HashTableHeaderPage) (fuel : Nat) (old_hp_id : Int)
    (hold : old_hp_id ≠ INVALID_PAGE_ID) (holdb : old_hp_id ∉ hp.block_page_ids)
    (ids : List Int) :
    ∀ (ht ht' : LinearProbeHashTable D K V) (blocks : List (HashTableBlockPage K V)),
      TableInv cfg dm next ht hp blocks →
      old_hp_id < ht.header_page_id →
      rehashBlocks cfg dm fuel old_hp_id ids ht = some ht' →
      ∃ blocks' : List (HashTableBlockPage K V),
        TableInv cfg dm next ht' hp blocks' ∧
        ht'.header_page_id = ht.header_page_id := by
  induction ids with
  | nil =>
    intro ht ht' blocks hv _ h
    simp only [rehashBlocks] at h
    injection h with h
    subst h
    exact ⟨blocks, hv, rfl⟩
  | cons old_bp_id rest ih =>
    intro ht ht' blocks hv hlt h
    unfold rehashBlocks at h
    split at h
    · simp at h
    · rename_i f od s1 hfd
      have hv1 := hv.foreign_fetch laws al hold (lt_trans hlt hv.header_lt)
        (ne_of_lt hlt) holdb hfd
      split at h
      · simp at h
      · rename_i old_bp hob
        split at h
        · simp at h
        · rename_i ht1 hrs
          obtain ⟨blocks1, hv2, g1⟩ :=
            rehashSlots_inv laws al hp fuel old_bp _ _ ht1 blocks hv1 hrs
          split at h
          · simp at h
          · rename_i b2 s2 hun
            have hv3 := hv2.after_unpin hun
            split at h
            · simp at h
            · rename_i b3 s3 hdel
              have hv4 := TableInv.after_delete laws al hv3 hdel
              obtain ⟨blocks', hv', g'⟩ := ih _ ht' blocks1 hv4
                (by simp only; rw [g1]; exact hlt) h
              exact ⟨blocks', hv', by rw [g']; simp only; rw [g1]⟩

end LinearProbeHashTable

namespace LinearProbeHashTable

open BufferPoolManager

variable {D K V : Type}

theorem zeroBlock_Clear_WF (cfg : HashTableConfig K V) :
    (zeroBlock cfg).Clear.WF cfg.BLOCK_ARRAY_SIZE where
  occupied_len := by simp [zeroBlock, HashTableBlockPage.Clear]
  readable_len := by simp [zeroBlock, HashTableBlockPage.Clear]
  array_len := by simp [zeroBlock, HashTableBlockPage.Clear]
  readable_occupied := by
    intro i _ h
    have hz : ∀ (l : List Nat) (j : Nat), (l.map (fun _ => 0)).getD j 0 = 0 := by
      intro l j
      rw [List.getD_eq_getElem?_getD, List.getElem?_map]
      cases l[j]? <;> rfl
    simp only [HashTableBlockPage.rdBit, HashTableBlockPage.Clear, hz] at h
    simp at h

/-- One pass through the loop body of `Resize` that adds a block page. -/
theorem Building.step {cfg : HashTableConfig K V} {dm : DiskManager D (PageData K V)}
    {next : D → Int} (laws : DiskLaws dm) (al : AllocLaws dm next) {n0 : Int}
    {s : BufferPoolManager D (PageData K V)} {hid : Int} {fh : Nat}
    {hp : HashTableHeaderPage} {blocks : List (HashTableBlockPage K V)}
    (hb : Building cfg dm next n0 s hid fh hp blocks)
    {id : Int} {fb : Nat} {s1 s4 : BufferPoolManager D (PageData K V)} {b : Bool}
    (hnew : NewPageImpl dm PageData.zero s = some (some (id, fb), s1))
    (hun : UnpinPageImpl
      (writeData (writeData s1 fb (PageData.block (zeroBlock cfg).Clear)) fh
        (PageData.header (hp.AddBlockPageId id))) id true = some (b, s4)) :
    Building cfg dm next n0 s4 hid fh (hp.AddBlockPageId id)
      (blocks ++ [(zeroBlock cfg).Clear]) := by
  have hpinned : Pinned [fh] s := by
    intro g hg
    simp only [List.mem_cons, List.not_mem_nil, or_false] at hg
    subst hg
    obtain ⟨pg, hpg, e⟩ := pinList_get_inv hb.pin_h
    exact ⟨pg, hpg, by omega⟩
  obtain ⟨hid1, hnext1, hinv1, hfresh1, hcoh1, hcont1, hfind1, ⟨pgb, hpgb, -⟩, hpin0,
    hpins1, hstay1, hpool1, hfb, hnone⟩ := new_post laws al hb.inv hb.coh hpinned hb.fresh hnew
  have hne : fh ≠ fb := by
    intro e
    apply hfb
    rw [← e]
    exact List.mem_cons_self _ _
  have hidlt : hid < id := by
    rw [hid1]
    exact hb.fresh.2 hid fh hb.find_h
  obtain ⟨hfh_lt, -⟩ := List.getElem?_eq_some.1 hb.pin_h
  obtain ⟨hfb_lt, -⟩ := List.getElem?_eq_some.1 hpin0
  -- the new block page is written
  have hpb1 : (pinList s1)[fb]? = some 1 := by
    rw [hpins1]; simp [hfb_lt]
  obtain ⟨pgb', hpgb', hpgb_c⟩ := pinList_get_inv hpb1
  obtain ⟨w1, w2, w3, w4, w5, w6⟩ :=
    write_content hinv1 hcoh1 hfind1 hpgb' (by omega) (PageData.block (zeroBlock cfg).Clear)
  obtain ⟨dw1, -, -⟩ := writeData_frame s1 fb (PageData.block (zeroBlock cfg).Clear)
  -- the header page is written
  obtain ⟨pgh, hpgh, hpgh_c⟩ := pinList_get_inv hb.pin_h
  have hfindh1 : s1.page_table.find hid = some fh := hstay1 hid fh pgh hb.find_h hpgh (by omega)
  have hph2 : (pinList (writeData s1 fb (PageData.block (zeroBlock cfg).Clear)))[fh]?
      = some 1 := by
    rw [w5, hpins1, List.getElem?_set_ne (fun e => hne e.symm)]
    exact hb.pin_h
  obtain ⟨pgh2, hpgh2, hpgh2_c⟩ := pinList_get_inv hph2
  obtain ⟨x1, x2, x3, x4, x5, x6⟩ :=
    write_content w1 w2 (by rw [w4]; exact hfindh1) hpgh2 (by omega)
      (PageData.header (hp.AddBlockPageId id))
  obtain ⟨dx1, -, -⟩ := writeData_frame (writeData s1 fb (PageData.block (zeroBlock cfg).Clear))
    fh (PageData.header (hp.AddBlockPageId id))
  -- the new block page is unpinned
  obtain ⟨f, c, u1, u2, u3, u4, u5, u6, u7, u8, u9, -, -, u12⟩ := unpin_post x1 x2 hun
  rw [x4, w4, hfind1] at u1
  injection u1 with u1
  subst u1
  rw [x5, w5, hpb1] at u2
  injection u2 with u2
  subst u2
  have htable : s4.page_table = s1.page_table := by rw [u6, x4, w4]
  have hdisk : s4.disk = s1.disk := by rw [u7, dx1, dw1]
  have hpins4 : pinList s4 = pinList s := by
    rw [u9, x5, w5, hpins1]
    apply List.ext_getElem?
    intro m
    by_cases hm : fb = m
    · subst hm
      rw [List.getElem?_set_self (by simpa using hfb_lt), hpin0]
      rfl
    · rw [List.getElem?_set_ne hm, List.getElem?_set_ne hm]
  have hcontent : ∀ q, content dm PageData.zero s4 q =
      if q = hid then PageData.header (hp.AddBlockPageId id)
      else if q = id then PageData.block (zeroBlock cfg).Clear
      else content dm PageData.zero s q := by
    intro q
    rw [u5, x3]
    by_cases e1 : q = hid
    · rw [if_pos e1, if_pos e1]
    · rw [if_neg e1, if_neg e1, w3]
      by_cases e2 : q = id
      · rw [if_pos e2, if_pos e2]
      · rw [if_neg e2, if_neg e2, hcont1 q e2]
  have hlen : blocks.length = hp.block_page_ids.length := hb.nblocks.symm
  refine
    { inv := u4
      coh := ?_
      fresh := ⟨by rw [hdisk]; exact hfresh1.1, fun q g hq => by
        rw [htable] at hq; rw [hdisk]; exact hfresh1.2 q g hq⟩
      n0_nonneg := hb.n0_nonneg
      find_h := by rw [htable]; exact hfindh1
      pin_h := by rw [hpins4]; exact hb.pin_h
      header := by rw [hcontent, if_pos rfl]
      hid_ge := hb.hid_ge
      nblocks := by simp [HashTableHeaderPage.AddBlockPageId, hb.nblocks]
      block := ?_
      ids := ?_
      ids_nodup := ?_
      wf := ?_
      pinned_old := ?_ }
  · apply u12 rfl
    intro g hg hm hmem
    simp only [List.mem_cons, List.not_mem_nil, or_false] at hm hmem
    rcases hmem with h | h | h | h
    · exact hm h
    · exact hg h
    · exact hg h
    · exact hm h
  · intro i bid bp h1 h2
    simp only [HashTableHeaderPage.AddBlockPageId] at h1
    rw [hcontent]
    by_cases hi : i < hp.block_page_ids.length
    · rw [List.getElem?_append_left hi] at h1
      rw [List.getElem?_append_left (by rw [hlen]; exact hi)] at h2
      have hmem : bid ∈ hp.block_page_ids := by
        obtain ⟨hl, hg⟩ := List.getElem?_eq_some.1 h1
        rw [← hg]; exact List.getElem_mem hl
      obtain ⟨-, i2, i3⟩ := hb.ids bid hmem
      rw [if_neg i2, if_neg (by rw [hid1]; omega)]
      exact hb.block i bid bp h1 h2
    · rw [List.getElem?_append_right (by omega)] at h1
      rw [List.getElem?_append_right (by rw [hlen]; omega)] at h2
      rw [hlen] at h2
      cases hk : i - hp.block_page_ids.length with
      | zero =>
        rw [hk] at h1 h2
        simp only [List.getElem?_cons_zero] at h1 h2
        injection h1 with h1
        injection h2 with h2
        subst h1
        subst h2
        rw [if_neg (by omega), if_pos rfl]
      | succ k =>
        rw [hk] at h1
        simp at h1
  · intro bid hbid
    simp only [HashTableHeaderPage.AddBlockPageId, List.mem_append, List.mem_singleton] at hbid
    rw [hdisk, hnext1]
    rcases hbid with h | h
    · obtain ⟨i1, i2, i3⟩ := hb.ids bid h
      exact ⟨i1, i2, by omega⟩
    · subst h
      have := hb.hid_ge
      exact ⟨by omega, by omega, by omega⟩
  · simp only [HashTableHeaderPage.AddBlockPageId]
    rw [List.nodup_append]
    refine ⟨hb.ids_nodup, List.nodup_singleton _, ?_⟩
    intro a ha hb'
    simp only [List.mem_singleton] at hb'
    subst hb'
    obtain ⟨-, -, i3⟩ := hb.ids a ha
    omega
  · intro bp hbp
    simp only [List.mem_append, List.mem_singleton] at hbp
    rcases hbp with h | h
    · exact hb.wf bp h
    · rw [h]; exact zeroBlock_Clear_WF cfg
  · intro q g pg hq hpg hpos
    rw [htable] at hq
    have hl := pinList_get hpg
    rw [hpins4] at hl
    obtain ⟨pg0, hpg0, e0⟩ := pinList_get_inv hl
    have hpos0 : 0 < pg0.pin_count := by omega
    have h1 := pinned_frame_page hb.inv hpg0 hpos0
    have h2 := hstay1 _ g pg0 h1 hpg0 hpos0
    have h3 := table_injective hinv1 h2 hq
    rw [h3] at h1
    exact hb.pinned_old q g pg0 h1 hpg0 hpos0

end LinearProbeHashTable

namespace LinearProbeHashTable

open BufferPoolManager

variable {D K V : Type}

/-- The loop of `Resize` that adds block pages keeps the table being built in
view, and ends with enough block pages for the size written in the header. -/
theorem addBlocks_inv {cfg : HashTableConfig K V} {dm : DiskManager D (PageData K V)}
    {next : D → Int} (laws : DiskLaws dm) (al : AllocLaws dm next) {n0 : Int}
    {hid : Int} {fh : Nat} (fuel : Nat) :
    ∀ (s s' : BufferPoolManager D (PageData K V)) (hp : HashTableHeaderPage)
      (blocks : List (HashTableBlockPage K V)),
      Building cfg dm next n0 s hid fh hp blocks →
      addBlocks cfg dm fh fuel s = some s' →
      ∃ (hp' : HashTableHeaderPage) (blocks' : List (HashTableBlockPage K V)),
        Building cfg dm next n0 s' hid fh hp' blocks' ∧ hp'.size = hp.size ∧
        ¬ (hp'.NumBlocks * cfg.BLOCK_ARRAY_SIZE < hp'.GetSize) ∧
        ((hp.NumBlocks = 0 ∨ (hp.NumBlocks - 1) * cfg.BLOCK_ARRAY_SIZE < hp.GetSize) →
          (hp'.NumBlocks = 0 ∨
            (hp'.NumBlocks - 1) * cfg.BLOCK_ARRAY_SIZE < hp'.GetSize)) := by
  induction fuel with
  | zero =>
    intro s s' hp blocks _ h
    simp [addBlocks] at h
  | succ fuel ih =>
    intro s s' hp blocks hb h
    obtain ⟨pgh, hpgh, -⟩ := pinList_get_inv hb.pin_h
    have hcr : content dm PageData.zero s hid = pgh.data := content_resident hb.find_h hpgh
    have hdata : pgh.data = PageData.header hp := by rw [← hcr]; exact hb.header
    unfold addBlocks at h
    simp only [hpgh, hdata, asHeader] at h
    split at h
    · rename_i hcond
      split at h
      · rename_i id fb s1 hnew
        have hpinned : Pinned [fh] s := by
          intro g hg
          simp only [List.mem_cons, List.not_mem_nil, or_false] at hg
          subst hg
          exact ⟨pgh, hpgh, by
            obtain ⟨pg, hpg, e⟩ := pinList_get_inv hb.pin_h
            rw [hpgh] at hpg
            injection hpg with hpg
            subst hpg
            omega⟩
        obtain ⟨-, -, -, -, -, -, -, ⟨pgb, hpgb, hzero⟩, -⟩ :=
          new_post laws al hb.inv hb.coh hpinned hb.fresh hnew
        simp only [hpgb, hzero, asBlock] at h
        split at h
        · simp at h
        · rename_i b s4 hun
          have hb4 := hb.step laws al hnew hun
          obtain ⟨hp', blocks', g1, g2, g3, g4⟩ := ih s4 s' _ _ hb4 h
          refine ⟨hp', blocks', g1, by rw [g2]; rfl, g3, fun _ => g4 (Or.inr ?_)⟩
          simp only [HashTableHeaderPage.NumBlocks, HashTableHeaderPage.AddBlockPageId,
            HashTableHeaderPage.GetSize, List.length_append, List.length_singleton,
            Nat.add_sub_cancel] at hcond ⊢
          exact hcond
      · simp at h
    · rename_i hneg
      injection h with h
      subst h
      exact ⟨hp, blocks, hb, rfl, hneg, fun hmin => hmin⟩

/-- Unpinning the new header page ends the building of the new table. -/
theorem Building.finish {cfg : HashTableConfig K V} {dm : DiskManager D (PageData K V)}
    {next : D → Int} {n0 : Int}
    {s s' : BufferPoolManager D (PageData K V)} {hid : Int} {fh : Nat}
    {hp : HashTableHeaderPage} {blocks : List (HashTableBlockPage K V)}
    (hb : Building cfg dm next n0 s hid fh hp blocks)
    (hne : 0 < blocks.length * cfg.BLOCK_ARRAY_SIZE) {b : Bool}
    (hun : UnpinPageImpl s hid true = some (b, s')) :
    TableInv cfg dm next { buffer_pool_manager := s', header_page_id := hid } hp blocks := by
  obtain ⟨f, c, u1, u2, u3, u4, u5, u6, u7, u8, u9, -, -, u12⟩ := unpin_post hb.inv hb.coh hun
  rw [hb.find_h] at u1
  injection u1 with u1
  subst u1
  rw [hb.pin_h] at u2
  injection u2 with u2
  subst u2
  obtain ⟨hfh_lt, -⟩ := List.getElem?_eq_some.1 hb.pin_h
  have hn0 := hb.n0_nonneg
  have hge := hb.hid_ge
  refine
    { inv := u4
      coh := ?_
      fresh := ⟨by rw [u7]; exact hb.fresh.1, fun q g hq => by
        rw [u6] at hq; rw [u7]; exact hb.fresh.2 q g hq⟩
      header := by rw [u5]; exact hb.header
      header_valid := by
        simp only [INVALID_PAGE_ID]
        omega
      header_lt := by
        simp only
        rw [u7]
        exact hb.fresh.2 hid fh hb.find_h
      nblocks := hb.nblocks
      block := by
        intro i bid bp h1 h2
        rw [u5]
        exact hb.block i bid bp h1 h2
      ids_valid := by
        intro bid hbid
        obtain ⟨i1, i2, i3⟩ := hb.ids bid hbid
        refine ⟨?_, i2, by simp only; rw [u7]; exact i3⟩
        simp only [INVALID_PAGE_ID]
        omega
      ids_nodup := hb.ids_nodup
      wf := hb.wf
      nonempty := hne
      unpinned := ?_ }
  · apply u12 rfl
    intro g hg _ hmem
    simp only [List.mem_cons, List.not_mem_nil, or_false] at hmem
    exact hg hmem
  · intro q g pg hq hpg hpos
    simp only at hq hpg
    rw [u6] at hq
    have hl := pinList_get hpg
    rw [u9] at hl
    have hgf : g ≠ fh := by
      intro e
      subst e
      rw [List.getElem?_set_self hfh_lt] at hl
      injection hl with hl
      simp at hl
      omega
    rw [List.getElem?_set_ne (fun e => hgf e.symm)] at hl
    obtain ⟨pg0, hpg0, e0⟩ := pinList_get_inv hl
    rcases hb.pinned_old q g pg0 hq hpg0 (by omega) with h | h
    · refine ⟨by simp only; omega, ?_⟩
      intro hmem
      obtain ⟨i1, -, -⟩ := hb.ids q hmem
      omega
    · subst h
      rw [hb.find_h] at hq
      injection hq with hq
      exact absurd hq.symm hgf

end LinearProbeHashTable

namespace LinearProbeHashTable

open BufferPoolManager

variable {D K V : Type}

/-- A `Resize` that returned has built a table that is in view, whatever the
old header page held. -/
theorem Resize_inv [DecidableEq V] {cfg : HashTableConfig K V}
    {dm : DiskManager D (PageData K V)}
    {next : D → Int} (laws : DiskLaws dm) (al : AllocLaws dm next)
    {ht ht' : LinearProbeHashTable D K V} (hi : Inv ht.buffer_pool_manager)
    (hc : Coh dm PageData.zero [] ht.buffer_pool_manager)
    (hf : Fresh next ht.buffer_pool_manager)
    (hvalid : ht.header_page_id ≠ INVALID_PAGE_ID)
    (hlt : ht.header_page_id < next ht.buffer_pool_manager.disk)
    {initial_size : Nat} (hinit : 0 < initial_size) {fuel : Nat}
    (h : Resize cfg dm fuel ht initial_size = some ht') :
    ∃ (hp' : HashTableHeaderPage) (blocks' : List (HashTableBlockPage K V)),
      TableInv cfg dm next ht' hp' blocks' ∧
      ¬ (blocks'.length * cfg.BLOCK_ARRAY_SIZE < 2 * initial_size) ∧
      (blocks'.length - 1) * cfg.BLOCK_ARRAY_SIZE < 2 * initial_size := by
  have hnil : Pinned [] ht.buffer_pool_manager := fun _ h => absurd h (List.not_mem_nil _)
  unfold Resize at h
  split at h
  · rename_i id fh s1 hnew
    obtain ⟨hid1, hnext1, hinv1, hfresh1, hcoh1, hcont1, hfind1, ⟨pgh, hpgh, hzero⟩, hpin0,
      hpins1, hstay1, hpool1, -, hnone⟩ := new_post laws al hi hc hnil hf hnew
    simp only [hpgh, hzero, asHeader] at h
    obtain ⟨hfh_lt, -⟩ := List.getElem?_eq_some.1 hpin0
    have hp1 : (pinList s1)[fh]? = some 1 := by
      rw [hpins1]; simp [hfh_lt]
    obtain ⟨pgh', hpgh', hpgh_c⟩ := pinList_get_inv hp1
    obtain ⟨w1, w2, w3, w4, w5, w6⟩ :=
      write_content hinv1 hcoh1 hfind1 hpgh' (by omega)
        (PageData.header
          ((({ page_id := 0, size := 0, block_page_ids := [] } :
            HashTableHeaderPage).SetPageId id).SetSize (2 * initial_size)))
    obtain ⟨dw1, -, -⟩ := writeData_frame s1 fh
      (PageData.header
        ((({ page_id := 0, size := 0, block_page_ids := [] } :
          HashTableHeaderPage).SetPageId id).SetSize (2 * initial_size)))
    have hb : Building cfg dm next (next ht.buffer_pool_manager.disk)
        (writeData s1 fh (PageData.header
          ((({ page_id := 0, size := 0, block_page_ids := [] } :
            HashTableHeaderPage).SetPageId id).SetSize (2 * initial_size))))
        id fh
        ((({ page_id := 0, size := 0, block_page_ids := [] } :
            HashTableHeaderPage).SetPageId id).SetSize (2 * initial_size)) [] :=
      { inv := w1
        coh := w2.mono (by
          intro g hg hmem
          simp only [List.mem_cons, List.not_mem_nil, or_false] at hg hmem
          rcases hmem with e | e <;> exact hg e)
        fresh := ⟨by rw [dw1]; exact hfresh1.1, fun q g hq => by
          rw [w4] at hq; rw [dw1]; exact hfresh1.2 q g hq⟩
        n0_nonneg := hf.1
        find_h := by rw [w4]; exact hfind1
        pin_h := by rw [w5]; exact hp1
        header := by rw [w3, if_pos rfl]
        hid_ge := by rw [hid1]
        nblocks := rfl
        block := by
          intro i bid bp h1 _
          simp [HashTableHeaderPage.SetPageId, HashTableHeaderPage.SetSize] at h1
        ids := by
          intro bid hbid
          simp [HashTableHeaderPage.SetPageId, HashTableHeaderPage.SetSize] at hbid
        ids_nodup := by
          simp [HashTableHeaderPage.SetPageId, HashTableHeaderPage.SetSize]
        wf := by
          intro bp hbp
          simp at hbp
        pinned_old := by
          intro q g pg hq hpg hpos
          rw [w4] at hq
          have hl := pinList_get hpg
          rw [w5, hpins1] at hl
          by_cases e : g = fh
          · subst e
            right
            exact table_injective hinv1 hq hfind1
          · left
            rw [List.getElem?_set_ne (fun e' => e e'.symm)] at hl
            obtain ⟨pg0, hpg0, e0⟩ := pinList_get_inv hl
            have hpos0 : 0 < pg0.pin_count := by omega
            have h1 := pinned_frame_page hi hpg0 hpos0
            have h2 := hstay1 _ g pg0 h1 hpg0 hpos0
            have h3 := table_injective hinv1 h2 hq
            rw [h3] at h1
            exact hf.2 q g h1 }
    split at h
    · simp at h
    · rename_i s3 hadd
      obtain ⟨hp', blocks', hb3, hsize, hexit, hmin⟩ :=
        addBlocks_inv laws al _ _ s3 _ _ hb hadd
      have hmin1 := hmin (Or.inl rfl)
      simp only [HashTableHeaderPage.NumBlocks, HashTableHeaderPage.GetSize, hsize,
        HashTableHeaderPage.SetPageId, HashTableHeaderPage.SetSize, hb3.nblocks]
        at hexit hmin1
      have hne : 0 < blocks'.length * cfg.BLOCK_ARRAY_SIZE := by
        omega
      have hmin2 : (blocks'.length - 1) * cfg.BLOCK_ARRAY_SIZE < 2 * initial_size := by
        rcases hmin1 with e | e
        · rw [e]
          simp only [Nat.zero_sub, Nat.zero_mul]
          omega
        · exact e
      split at h
      · simp at h
      · rename_i b4 s4 hun
        have hv4 := hb3.finish hne hun
        have hold_lt : ht.header_page_id < id := by rw [hid1]; exact hlt
        have holdb : ht.header_page_id ∉ hp'.block_page_ids := by
          intro hmem
          obtain ⟨i1, -, -⟩ := hb3.ids _ hmem
          omega
        split at h
        · simp at h
        · rename_i f5 ohd s5 hfd
          have hv5 := hv4.foreign_fetch laws al hvalid
            (lt_trans hold_lt hv4.header_lt) (ne_of_lt hold_lt) holdb hfd
          split at h
          · simp at h
          · rename_i old_hp hoh
            split at h
            · simp at h
            · rename_i ht1 hrb
              obtain ⟨blocks1, hv6, g6⟩ :=
                rehashBlocks_inv laws al hp' fuel ht.header_page_id hvalid holdb
                  old_hp.block_page_ids _ ht1 blocks' hv5 hold_lt hrb
              split at h
              · simp at h
              · rename_i b7 s6 hun6
                have hv7 := hv6.after_unpin hun6
                split at h
                · simp at h
                · rename_i b8 s7 hdel
                  have hv8 := TableInv.after_delete laws al hv7 hdel
                  injection h with h
                  subst h
                  have hl1 : blocks1.length = blocks'.length := by
                    rw [← hv8.nblocks, hb3.nblocks]
                  exact ⟨hp', blocks1, hv8, by rw [hl1]; exact hexit,
                    by rw [hl1]; exact hmin2⟩
  · simp at h

end LinearProbeHashTable

namespace HashTableBlockPage

variable {K V : Type}

/-- `Remove` keeps a block page well formed. -/
theorem Remove_WF {n : Nat} {bp bp' : HashTableBlockPage K V} (hwf : bp.WF n) {i : Nat}
    (h : bp.Remove i = some bp') : bp'.WF n := by
  unfold Remove at h
  split at h
  · simp at h
  · injection h with h
    subst h
    exact hwf
  · dsimp only at h
    split at h
    · simp at h
    · rename_i rd hrd
      injection h with h
      subst h
      refine ⟨hwf.occupied_len, by simp [hwf.readable_len], hwf.array_len, ?_⟩
      intro j hj hr
      apply hwf.readable_occupied j hj
      simp only [rdBit] at hr ⊢
      by_cases e : j / 8 = i / 8
      · obtain ⟨hlt, hget⟩ := List.getElem?_eq_some.1 hrd
        rw [e] at hr ⊢
        simp only [List.getD_eq_getElem?_getD, List.getElem?_set_self hlt, Option.getD_some,
          Nat.testBit_and, Bool.and_eq_true] at hr
        simp only [List.getD_eq_getElem?_getD, hrd, Option.getD_some]
        exact hr.1
      · simp only [List.getD_eq_getElem?_getD,
          List.getElem?_set_ne (fun e' => e e'.symm)] at hr
        simp only [List.getD_eq_getElem?_getD]
        exact hr

end HashTableBlockPage

namespace LinearProbeHashTable

open BufferPoolManager

variable {D K V : Type}

/-- A `remove_bucket_id_kv` that returned leaves the table in view. -/
theorem remove_bucket_post [DecidableEq V] {cfg : HashTableConfig K V}
    {dm : DiskManager D (PageData K V)}
    {next : D → Int} (laws : DiskLaws dm) (al : AllocLaws dm next)
    {ht : LinearProbeHashTable D K V} {hp : HashTableHeaderPage}
    {blocks : List (HashTableBlockPage K V)} (hv : TableInv cfg dm next ht hp blocks)
    {prob : Nat} {key : K} {value : V} {st : Int} {ht' : LinearProbeHashTable D K V}
    (h : remove_bucket_id_kv cfg dm ht prob key value = some (st, ht')) :
    ∃ blocks' : List (HashTableBlockPage K V),
      TableInv cfg dm next ht' hp blocks' ∧
      blocks'.length = blocks.length ∧
      ht'.header_page_id = ht.header_page_id ∧
      pinList ht'.buffer_pool_manager = pinList ht.buffer_pool_manager ∧
      ht'.buffer_pool_manager.pool_size = ht.buffer_pool_manager.pool_size := by
  unfold remove_bucket_id_kv at h
  split at h
  · simp at h
  · rename_i bid fb bp s2 hopen
    obtain ⟨fh, hbid, hbp, ho, hc2, hcont2⟩ := openBucket_post laws al hv hopen
    have hwf : bp.WF cfg.BLOCK_ARRAY_SIZE := by
      apply hv.wf
      obtain ⟨hl, hg⟩ := List.getElem?_eq_some.1 hbp
      rw [← hg]; exact List.getElem_mem hl
    obtain ⟨ht0, hclose, hv0, e1, e2, e3⟩ := closeBucket_keep hv ho hc2 hcont2 false
    dsimp only at h
    split at h
    · simp at h
    · rw [hclose] at h
      injection h with h
      injection h with _ h
      subst h
      exact ⟨blocks, hv0, rfl, e1, e2, e3⟩
    · split at h
      · simp at h
      · split at h
        · simp at h
        · rename_i bp' hrem
          have hwf' := HashTableBlockPage.Remove_WF hwf hrem
          obtain ⟨ht1, hclose1, hv1, f1, f2, f3⟩ :=
            closeBucket_write hv ho hc2 hcont2 hbid hwf'
          rw [hclose1] at h
          injection h with h
          injection h with _ h
          subst h
          exact ⟨_, hv1, by simp, f1, f2, f3⟩
      · rw [hclose] at h
        injection h with h
        injection h with _ h
        subst h
        exact ⟨blocks, hv0, rfl, e1, e2, e3⟩

/-- The loop of `Remove`, when it returned, leaves the table in view. -/
theorem removeLoop_inv [DecidableEq V] {cfg : HashTableConfig K V}
    {dm : DiskManager D (PageData K V)}
    {next : D → Int} (laws : DiskLaws dm) (al : AllocLaws dm next)
    (hp : HashTableHeaderPage) (bucket_id : Nat) (key : K) (value : V) (fuel : Nat) :
    ∀ (ht ht' : LinearProbeHashTable D K V) (blocks : List (HashTableBlockPage K V))
      (prob : Nat) (st : Int),
      TableInv cfg dm next ht hp blocks →
      removeLoop cfg dm bucket_id key value fuel ht prob = some (st, ht') →
      ∃ blocks' : List (HashTableBlockPage K V),
        TableInv cfg dm next ht' hp blocks' ∧
        blocks'.length = blocks.length ∧
        ht'.header_page_id = ht.header_page_id ∧
        pinList ht'.buffer_pool_manager = pinList ht.buffer_pool_manager ∧
        ht'.buffer_pool_manager.pool_size = ht.buffer_pool_manager.pool_size := by
  induction fuel with
  | zero =>
    intro ht ht' blocks prob st _ h
    simp [removeLoop] at h
  | succ fuel ih =>
    intro ht ht' blocks prob st hv h
    unfold removeLoop at h
    split at h
    · simp at h
    · rename_i status ht1 hrb
      obtain ⟨blocks1, hv1, l1, e1, e2, e3⟩ := remove_bucket_post laws al hv hrb
      split at h
      · injection h with h
        injection h with _ h
        subst h
        exact ⟨blocks1, hv1, l1, e1, e2, e3⟩
      · split at h
        · simp at h
        · rename_i prob' ht2 hmod
          obtain ⟨-, hv2, f1, f2, f3⟩ := modSize_post laws al hv1 hmod
          split at h
          · obtain ⟨blocks', g1, g2, g3, g4, g5⟩ := ih ht2 ht' blocks1 prob' st hv2 h
            exact ⟨blocks', g1, by rw [g2, l1], by rw [g3, f1, e1], by rw [g4, f2, e2],
              by rw [g5, f3, e3]⟩
          · injection h with h
            injection h with _ h
            subst h
            exact ⟨blocks1, hv2, l1, by rw [f1, e1], by rw [f2, e2], by rw [f3, e3]⟩

/-- A `Remove` that returned leaves the table in view, with the same header
and as many slots. -/
theorem Remove_inv [DecidableEq V] {cfg : HashTableConfig K V}
    {dm : DiskManager D (PageData K V)}
    {next : D → Int} (laws : DiskLaws dm) (al : AllocLaws dm next)
    {ht ht' : LinearProbeHashTable D K V} {hp : HashTableHeaderPage}
    {blocks : List (HashTableBlockPage K V)} (hv : TableInv cfg dm next ht hp blocks)
    {key : K} {value : V} {b : Bool}
    (h : Remove cfg dm ht key value = some (b, ht')) :
    ∃ blocks' : List (HashTableBlockPage K V),
      TableInv cfg dm next ht' hp blocks' ∧ blocks'.length = blocks.length := by
  unfold Remove at h
  split at h
  · simp at h
  · rename_i size ht0 hgs
    obtain ⟨-, hv0, e1, e2, e3⟩ := GetSize_post laws al hv hgs
    split at h
    · simp at h
    · dsimp only at h
      split at h
      · simp at h
      · rename_i status ht1 hrl
        obtain ⟨blocks', g1, g2, -⟩ := removeLoop_inv laws al hp _ key value _ ht0 ht1
          blocks _ status hv0 hrl
        injection h with h
        injection h with _ h
        subst h
        exact ⟨blocks', g1, g2⟩

end LinearProbeHashTable

namespace LinearProbeHashTable

open BufferPoolManager

variable {D K V : Type}

/-- The loop of `Insert`, when it returned: it had two frames to pin, computed
what the block pages say, and left the table in view. -/
theorem insertLoop_post [DecidableEq V] {cfg : HashTableConfig K V}
    {dm : DiskManager D (PageData K V)}
    {next : D → Int} (laws : DiskLaws dm) (al : AllocLaws dm next)
    {ht ht' : LinearProbeHashTable D K V} {hp : HashTableHeaderPage}
    {blocks : List (HashTableBlockPage K V)} (hv : TableInv cfg dm next ht hp blocks)
    {bucket_id prob : Nat} (hprob : prob < blocks.length * cfg.BLOCK_ARRAY_SIZE)
    {key : K} {value : V} {fuel : Nat} {st : Int}
    (h : insertLoop cfg dm bucket_id key value fuel ht prob = some (st, ht')) :
    Spare ht.buffer_pool_manager ∧
    ∃ blocks' : List (HashTableBlockPage K V),
      pureInsertLoop cfg bucket_id key value fuel blocks prob = some (st, blocks') ∧
      TableInv cfg dm next ht' hp blocks' ∧
      blocks'.length = blocks.length ∧
      ht'.header_page_id = ht.header_page_id ∧
      pinList ht'.buffer_pool_manager = pinList ht.buffer_pool_manager ∧
      ht'.buffer_pool_manager.pool_size = ht.buffer_pool_manager.pool_size := by
  have hsp : Spare ht.buffer_pool_manager := by
    cases fuel with
    | zero => simp [insertLoop] at h
    | succ fuel =>
      have h' := h
      unfold insertLoop at h'
      split at h'
      · simp at h'
      · rename_i hib
        exact (insert_bucket_post laws al hv hib).1
  refine ⟨hsp, ?_⟩
  have hsim := insertLoop_sim laws al hp bucket_id key value fuel ht blocks prob hv hsp hprob
  cases hres : pureInsertLoop cfg bucket_id key value fuel blocks prob with
  | none =>
    rw [hres] at hsim
    rw [hsim] at h
    simp at h
  | some r =>
    obtain ⟨st1, blocks1⟩ := r
    rw [hres] at hsim
    obtain ⟨ht1, g1, g2, g3, g4, g5, g6⟩ := hsim
    rw [g1] at h
    injection h with h
    injection h with a1 a2
    subst a1
    subst a2
    exact ⟨blocks1, rfl, g2, g3, g4, g5, g6⟩

/-- An `Insert` that returned leaves a table in view. -/
theorem Insert_inv [DecidableEq V] {cfg : HashTableConfig K V}
    {dm : DiskManager D (PageData K V)}
    {next : D → Int} (laws : DiskLaws dm) (al : AllocLaws dm next)
    (key : K) (value : V) (fuel : Nat) :
    ∀ (ht ht' : LinearProbeHashTable D K V) (hp : HashTableHeaderPage)
      (blocks : List (HashTableBlockPage K V)) (b : Bool),
      TableInv cfg dm next ht hp blocks →
      Insert cfg dm fuel ht key value = some (b, ht') →
      ∃ (hp' : HashTableHeaderPage) (blocks' : List (HashTableBlockPage K V)),
        TableInv cfg dm next ht' hp' blocks' := by
  induction fuel with
  | zero =>
    intro ht ht' hp blocks b _ h
    simp [Insert] at h
  | succ fuel ih =>
    intro ht ht' hp blocks b hv h
    unfold Insert at h
    split at h
    · simp at h
    · rename_i size ht0 hgs
      obtain ⟨esize, hv0, -⟩ := GetSize_post laws al hv hgs
      split at h
      · simp at h
      · rename_i hsz
        dsimp only at h
        split at h
        · simp at h
        · rename_i status ht1 hil
          have hb : cfg.hash_fn key % size < blocks.length * cfg.BLOCK_ARRAY_SIZE := by
            rw [← esize]
            exact Nat.mod_lt _ (by omega)
          obtain ⟨-, blocks1, -, hv1, -⟩ := insertLoop_post laws al hv0 hb hil
          split at h
          · split at h
            · simp at h
            · rename_i size1 ht2 hgs1
              obtain ⟨esize1, hv2, -⟩ := GetSize_post laws al hv1 hgs1
              split at h
              · simp at h
              · rename_i ht3 hrs
                obtain ⟨hp3, blocks3, hv3, -⟩ := Resize_inv laws al hv2.inv hv2.coh hv2.fresh
                  hv2.header_valid hv2.header_lt
                  (by rw [esize1]; exact hv1.nonempty) hrs
                exact ih ht3 ht' hp3 blocks3 b hv3 h
          · injection h with h
            injection h with _ h
            subst h
            exact ⟨hp, blocks1, hv1⟩

/-- The constructor, when it returned, has built a table that is in view. -/
theorem new_inv [DecidableEq V] {cfg : HashTableConfig K V}
    {dm : DiskManager D (PageData K V)}
    {next : D → Int} (laws : DiskLaws dm) (al : AllocLaws dm next)
    {s : BufferPoolManager D (PageData K V)} (hi : Inv s)
    (hc : Coh dm PageData.zero [] s) (hf : Fresh next s)
    {fuel num_buckets : Nat} {ht : LinearProbeHashTable D K V}
    (h : LinearProbeHashTable.new cfg dm fuel s num_buckets = some ht) :
    ∃ (hp : HashTableHeaderPage) (blocks : List (HashTableBlockPage K V)),
      TableInv cfg dm next ht hp blocks := by
  have hnil : Pinned [] s := fun _ h => absurd h (List.not_mem_nil _)
  unfold LinearProbeHashTable.new at h
  split at h
  · rename_i hid fh s1 hnew
    obtain ⟨hid1, hnext1, hinv1, hfresh1, hcoh1, hcont1, hfind1, ⟨pgh, hpgh, hzero⟩, hpin0,
      hpins1, hstay1, hpool1, -, hnone⟩ := new_post laws al hi hc hnil hf hnew
    obtain ⟨hfh_lt, -⟩ := List.getElem?_eq_some.1 hpin0
    have hp1 : (pinList s1)[fh]? = some 1 := by
      rw [hpins1]; simp [hfh_lt]
    obtain ⟨pgh', hpgh', hpgh_c⟩ := pinList_get_inv hp1
    obtain ⟨w1, w2, w3, w4, w5, w6⟩ :=
      write_content hinv1 hcoh1 hfind1 hpgh' (by omega)
        (PageData.header { page_id := hid, size := 0, block_page_ids := [] })
    obtain ⟨dw1, -, -⟩ := writeData_frame s1 fh
      (PageData.header { page_id := hid, size := 0, block_page_ids := [] })
    dsimp only at h
    split at h
    · simp at h
    · rename_i b3 s3 hun
      obtain ⟨f, c, u1, u2, u3, u4, u5, u6, u7, u8, u9, -, -, u12⟩ := unpin_post w1 w2 hun
      rw [w4, hfind1] at u1
      injection u1 with u1
      subst u1
      have hcoh3 : Coh dm PageData.zero [] s3 := by
        apply u12 rfl
        intro g hg _ hmem
        simp only [List.mem_cons, List.not_mem_nil, or_false] at hmem
        rcases hmem with e | e <;> exact hg e
      have hfresh3 : Fresh next s3 :=
        ⟨by rw [u7, dw1]; exact hfresh1.1, fun q g hq => by
          rw [u6, w4] at hq; rw [u7, dw1]; exact hfresh1.2 q g hq⟩
      have hn0 := hf.1
      refine (Resize_inv laws al ?_ ?_ ?_ ?_ ?_ (Nat.succ_pos _) h).imp
        (fun _ hx => hx.imp (fun _ hy => hy.1))
      · exact u4
      · exact hcoh3
      · exact hfresh3
      · simp only [INVALID_PAGE_ID]
        omega
      · simp only
        rw [u7, dw1, hnext1]
        omega
  · simp at h

end LinearProbeHashTable

namespace LinearProbeHashTable

open BufferPoolManager

variable {D K V : Type}

/-- The loop of `GetValue`, when it returned: it had two frames to pin,
computed what the block pages say, and left the table as it is. -/
theorem getValueLoop_post {cfg : HashTableConfig K V}
    {dm : DiskManager D (PageData K V)}
    {next : D → Int} (laws : DiskLaws dm) (al : AllocLaws dm next)
    {ht ht' : LinearProbeHashTable D K V} {hp : HashTableHeaderPage}
    {blocks : List (HashTableBlockPage K V)} (hv : TableInv cfg dm next ht hp blocks)
    {bucket_id prob : Nat} (hprob : prob < blocks.length * cfg.BLOCK_ARRAY_SIZE)
    {key : K} {fuel : Nat} {result res : List V}
    (h : getValueLoop cfg dm bucket_id key fuel ht prob result = some (res, ht')) :
    Spare ht.buffer_pool_manager ∧
      pureGetLoop cfg blocks bucket_id key fuel prob result = some res ∧
      TableInv cfg dm next ht' hp blocks ∧
      ht'.header_page_id = ht.header_page_id ∧
      pinList ht'.buffer_pool_manager = pinList ht.buffer_pool_manager ∧
      ht'.buffer_pool_manager.pool_size = ht.buffer_pool_manager.pool_size := by
  have hsp : Spare ht.buffer_pool_manager := by
    cases fuel with
    | zero => simp [getValueLoop] at h
    | succ fuel =>
      have h' := h
      unfold getValueLoop at h'
      split at h'
      · simp at h'
      · rename_i hgb
        unfold get_bucket_id_value at hgb
        split at hgb
        · simp at hgb
        · rename_i hopen
          exact (openBucket_spare laws al hv hopen).1
      · rename_i hgb
        unfold get_bucket_id_value at hgb
        split at hgb
        · simp at hgb
        · rename_i hopen
          exact (openBucket_spare laws al hv hopen).1
  refine ⟨hsp, ?_⟩
  have hsim := getValueLoop_sim laws al bucket_id key fuel ht prob result hv hsp hprob
  cases hres : pureGetLoop cfg blocks bucket_id key fuel prob result with
  | none =>
    rw [hres] at hsim
    rw [hsim] at h
    simp at h
  | some res1 =>
    rw [hres] at hsim
    obtain ⟨ht1, g1, g2, g4, g5, g6⟩ := hsim
    rw [g1] at h
    injection h with h
    injection h with a1 a2
    subst a1
    subst a2
    exact ⟨rfl, g2, g4, g5, g6⟩

/-- A `GetValue` that returned leaves the table as it is. -/
theorem GetValue_inv {cfg : HashTableConfig K V}
    {dm : DiskManager D (PageData K V)}
    {next : D → Int} (laws : DiskLaws dm) (al : AllocLaws dm next)
    {ht ht' : LinearProbeHashTable D K V} {hp : HashTableHeaderPage}
    {blocks : List (HashTableBlockPage K V)} (hv : TableInv cfg dm next ht hp blocks)
    {key : K} {result res : List V} {b : Bool}
    (h : GetValue cfg dm ht key result = some (b, res, ht')) :
    TableInv cfg dm next ht' hp blocks := by
  unfold GetValue at h
  split at h
  · simp at h
  · rename_i size ht0 hgs
    obtain ⟨esize, hv0, -⟩ := GetSize_post laws al hv hgs
    split at h
    · simp at h
    · rename_i hsz
      dsimp only at h
      split at h
      · simp at h
      · rename_i res1 ht1 hgl
        have hb : cfg.hash_fn key % size < blocks.length * cfg.BLOCK_ARRAY_SIZE := by
          rw [← esize]
          exact Nat.mod_lt _ (by omega)
        obtain ⟨-, -, hv1, -⟩ := getValueLoop_post laws al hv0 hb hgl
        injection h with h
        injection h with _ h
        injection h with _ h
        subst h
        exact hv1

/-- With two frames to spare `GetValue` returns what the loop over the block
pages computes. -/
theorem GetValue_total {cfg : HashTableConfig K V}
    {dm : DiskManager D (PageData K V)}
    {next : D → Int} (laws : DiskLaws dm) (al : AllocLaws dm next)
    {ht : LinearProbeHashTable D K V} {hp : HashTableHeaderPage}
    {blocks : List (HashTableBlockPage K V)} (hv : TableInv cfg dm next ht hp blocks)
    (hspare : Spare ht.buffer_pool_manager) (key : K) (result : List V) {res : List V}
    (hpure : pureGetLoop cfg blocks
      (cfg.hash_fn key % (blocks.length * cfg.BLOCK_ARRAY_SIZE)) key
      (blocks.length * cfg.BLOCK_ARRAY_SIZE)
      (cfg.hash_fn key % (blocks.length * cfg.BLOCK_ARRAY_SIZE)) result = some res) :
    ∃ ht' : LinearProbeHashTable D K V,
      GetValue cfg dm ht key result = some (!res.isEmpty, res, ht') ∧
      TableInv cfg dm next ht' hp blocks := by
  obtain ⟨ht0, hgs, hv0, e1, e2, e3⟩ := GetSize_total laws al hv hspare.hav
  have hsp0 : Spare ht0.buffer_pool_manager := hspare.keep e2 e3
  have hsim := getValueLoop_sim laws al
    (cfg.hash_fn key % (blocks.length * cfg.BLOCK_ARRAY_SIZE)) key
    (blocks.length * cfg.BLOCK_ARRAY_SIZE) ht0
    (cfg.hash_fn key % (blocks.length * cfg.BLOCK_ARRAY_SIZE)) result hv0 hsp0
    (Nat.mod_lt _ hv.nonempty)
  rw [hpure] at hsim
  obtain ⟨ht1, g1, g2, -⟩ := hsim
  refine ⟨ht1, ?_, g2⟩
  unfold GetValue
  simp only [hgs]
  rw [if_neg (by have := hv.nonempty; omega)]
  simp only [g1]

/-- Every reachable table is in view: its pool holds a header page and well
formed block pages. -/
theorem Reachable.tableInv [DecidableEq V] {cfg : HashTableConfig K V}
    {dm : DiskManager D (PageData K V)}
    {next : D → Int} (laws : DiskLaws dm) (al : AllocLaws dm next)
    {ht : LinearProbeHashTable D K V} (hr : Reachable cfg dm ht) :
    ∃ (hp : HashTableHeaderPage) (blocks : List (HashTableBlockPage K V)),
      TableInv cfg dm next ht hp blocks := by
  induction hr with
  | init pool_size disk ref0 fuel num_buckets hnn hnew =>
    refine new_inv laws al (Inv_init pool_size disk PageData.zero ref0) ?_ ?_ hnew
    · intro p f pg hfind
      simp [BufferPoolManager.new, PageTable.find] at hfind
    · refine ⟨?_, ?_⟩
      · rw [al.alloc_id] at hnn
        exact hnn
      · intro q g hq
        simp [BufferPoolManager.new, PageTable.find] at hq
  | insert fuel key value _ hins ih =>
    obtain ⟨hp, blocks, hv⟩ := ih
    exact Insert_inv laws al key value fuel _ _ hp blocks _ hv hins
  | remove key value _ hrem ih =>
    obtain ⟨hp, blocks, hv⟩ := ih
    obtain ⟨blocks', hv', -⟩ := Remove_inv laws al hv hrem
    exact ⟨hp, blocks', hv'⟩
  | getValue key result _ hget ih =>
    obtain ⟨hp, blocks, hv⟩ := ih
    exact ⟨hp, blocks, GetValue_inv laws al hv hget⟩

end LinearProbeHashTable

namespace LinearProbeHashTable

open BufferPoolManager

variable {D K V : Type}

/-- C10 (Insert-then-lookup).  For every hash table state reachable from
construction by `Insert`, `Remove` and `GetValue` calls, over a disk that
keeps what is written and hands out increasing page ids, and for every pair
`(key, value)` with `comparator(key, key) = 0` such that the probe chain of
`key` contains a slot that is not readable or already holds the pair: if
`Insert(key, value)` returns, it has not replaced the header page (no
`Resize`), and a following `GetValue(key)` returns `true` with `value` in its
result. -/
theorem C10_insert_then_lookup [DecidableEq V] {cfg : HashTableConfig K V}
    {dm : DiskManager D (PageData K V)} {next : D → Int} (laws : DiskLaws dm)
    (al : AllocLaws dm next) {ht : LinearProbeHashTable D K V}
    (hr : Reachable cfg dm ht) (key : K) (value : V)
    (hcmp : cfg.comparator key key = 0)
    (hchain : ∃ d, d < slots cfg dm ht ∧
      (gRd cfg (blocksOf cfg dm ht)
          ((cfg.hash_fn key % slots cfg dm ht + d) % slots cfg dm ht) = false ∨
        holdsPair cfg (blocksOf cfg dm ht)
          ((cfg.hash_fn key % slots cfg dm ht + d) % slots cfg dm ht) key value))
    {fuel : Nat} {b : Bool} {ht' : LinearProbeHashTable D K V}
    (hins : Insert cfg dm fuel ht key value = some (b, ht')) (result : List V) :
    ht'.header_page_id = ht.header_page_id ∧
    ∃ (res : List V) (ht'' : LinearProbeHashTable D K V),
      GetValue cfg dm ht' key result = some (true, res, ht'') ∧ value ∈ res := by
  obtain ⟨hp, blocks, hv⟩ := hr.tableInv laws al
  rw [hv.slots_eq, hv.blocksOf_eq] at hchain
  obtain ⟨d, hd, hstop⟩ := hchain
  have hS := hv.nonempty
  have hbk : cfg.hash_fn key % (blocks.length * cfg.BLOCK_ARRAY_SIZE)
      < blocks.length * cfg.BLOCK_ARRAY_SIZE := Nat.mod_lt _ hS
  cases fuel with
  | zero => simp [Insert] at hins
  | succ fuel =>
    unfold Insert at hins
    split at hins
    · simp at hins
    · rename_i size ht0 hgs
      obtain ⟨esize, hv0, e1, e2, e3⟩ := GetSize_post laws al hv hgs
      subst esize
      rw [if_neg (by omega)] at hins
      dsimp only at hins
      split at hins
      · simp at hins
      · rename_i status ht1 hil
        obtain ⟨hsp0, blocks1, hpure, hv1, len1, f1, f2, f3⟩ :=
          insertLoop_post laws al hv0 hbk hil
        obtain ⟨st, blocks', m, hstops, hne, -, -, hm, hpre, hpair⟩ :=
          pureInsertLoop_stops cfg
            (cfg.hash_fn key % (blocks.length * cfg.BLOCK_ARRAY_SIZE)) key value hcmp d
            blocks 0 (blocks.length * cfg.BLOCK_ARRAY_SIZE) hv.wf hbk (by omega) hd
            (fun j hj => absurd hj (Nat.not_lt_zero j))
            (by rw [Nat.zero_add]; exact hstop)
        rw [Nat.add_zero, Nat.mod_eq_of_lt hbk, hpure] at hstops
        injection hstops with hstops
        injection hstops with a1 a2
        subst a1
        subst a2
        rw [if_neg hne] at hins
        injection hins with hins
        injection hins with _ hins
        subst hins
        have hsp1 : Spare ht1.buffer_pool_manager := hsp0.keep f2 f3
        rw [← len1] at hm hpre hpair hbk
        obtain ⟨res, hres, hmem⟩ :=
          pureGetLoop_finds cfg hv1.wf hbk key value hm hpre hpair m 0
            (blocks1.length * cfg.BLOCK_ARRAY_SIZE) result (Nat.zero_add m) (by omega)
        rw [Nat.add_zero, Nat.mod_eq_of_lt hbk] at hres
        obtain ⟨ht2, hget, -⟩ := GetValue_total laws al hv1 hsp1 key result hres
        refine ⟨by rw [f1, e1], res, ht2, ?_, hmem⟩
        rw [hget]
        cases res with
        | nil => simp at hmem
        | cons x xs => rfl

end LinearProbeHashTable

/-! ## The concrete disk and table -/

theorem pageDisk_laws (B : Type) : BufferPoolManager.DiskLaws (pageDisk B) where
  read_write := by
    intro d p x buf
    simp [pageDisk, List.lookup]
  read_write_ne := by
    intro d p q x buf hne
    have h : (q == p) = false := by simpa using hne
    simp [pageDisk, List.lookup, h]
  read_dealloc := by
    intro d p q buf
    rfl

theorem pageDisk_alloc (B : Type) :
    BufferPoolManager.AllocLaws (pageDisk B) (fun d => d.next_page_id) where
  alloc_id := fun _ => rfl
  alloc_next := fun _ => rfl
  write_next := fun _ _ _ => rfl
  dealloc_next := fun _ _ => rfl
  read_alloc := fun _ _ _ => rfl

set_option maxRecDepth 100000 in
theorem scenarioTable_reachable :
    LinearProbeHashTable.Reachable collidingConfig (pageDisk (PageData Nat Nat))
      scenarioTable :=
  LinearProbeHashTable.Reachable.init 4 ⟨0, []⟩ false 8 2 (by decide) (by decide)

set_option maxRecDepth 100000 in
/-- C10, at a concrete input: the table built for two buckets has four free
slots; `Insert(5, 7)` returns `true` without replacing the header page, and
`GetValue(5)` then returns `true` with 7 in its result. -/
theorem C10_insert_then_lookup_witness :
    LinearProbeHashTable.Insert collidingConfig (pageDisk (PageData Nat Nat)) 1
      scenarioTable 5 7 = some (true, scenarioInserted) ∧
    scenarioInserted.header_page_id = scenarioTable.header_page_id ∧
    ∃ (res : List Nat)
      (ht'' : LinearProbeHashTable (PageDisk (PageData Nat Nat)) Nat Nat),
      LinearProbeHashTable.GetValue collidingConfig (pageDisk (PageData Nat Nat))
        scenarioInserted 5 [] = some (true, res, ht'') ∧ 7 ∈ res :=
  ⟨by decide,
    LinearProbeHashTable.C10_insert_then_lookup (pageDisk_laws _) (pageDisk_alloc _)
      scenarioTable_reachable 5 7 (by decide) ⟨0, by decide, Or.inl (by decide)⟩
      (show LinearProbeHashTable.Insert collidingConfig (pageDisk (PageData Nat Nat)) 1
        scenarioTable 5 7 = some (true, scenarioInserted) by decide) []⟩

/-! ## Duplicates behind a tombstone -/

set_option maxRecDepth 100000 in
theorem tombstoneTable_reachable :
    LinearProbeHashTable.Reachable collidingConfig (pageDisk (PageData Nat Nat))
      tombstoneTable := by
  have h1 : LinearProbeHashTable.Insert collidingConfig (pageDisk (PageData Nat Nat)) 1
      scenarioTable 1 1 = some (true, scenarioInsert scenarioTable 1 1) := by decide
  have h2 : LinearProbeHashTable.Insert collidingConfig (pageDisk (PageData Nat Nat)) 1
      (scenarioInsert scenarioTable 1 1) 5 7
      = some (true, scenarioInsert (scenarioInsert scenarioTable 1 1) 5 7) := by decide
  have h3 : LinearProbeHashTable.Remove collidingConfig (pageDisk (PageData Nat Nat))
      (scenarioInsert (scenarioInsert scenarioTable 1 1) 5 7) 1 1
      = some (true, tombstoneTable) := by decide
  exact LinearProbeHashTable.Reachable.remove 1 1
    (LinearProbeHashTable.Reachable.insert 1 5 7
      (LinearProbeHashTable.Reachable.insert 1 1 1 scenarioTable_reachable h1) h2) h3

set_option maxRecDepth 100000 in
/-- C11 (duplicate insert is rejected) fails on the code at a reachable table:
after `Insert(1, 1)`, `Insert(5, 7)`, `Remove(1, 1)` on a table where every key
hashes to slot 0, the pair `(5, 7)` is stored (`GetValue(5)` gives `[7]`) behind
the tombstone in slot 0; `Insert(5, 7)` returns `true` and writes the pair into
slot 0, so that it is stored in two readable slots. -/
theorem C11_duplicate_insert_failing_input :
    LinearProbeHashTable.Reachable collidingConfig (pageDisk (PageData Nat Nat))
      tombstoneTable ∧
    scenarioLookup tombstoneTable 5 = some (true, [7]) ∧
    LinearProbeHashTable.blocksOf collidingConfig (pageDisk (PageData Nat Nat)) tombstoneTable
      = [⟨[3], [2], [(1, 1), (5, 7), (0, 0), (0, 0)]⟩] ∧
    LinearProbeHashTable.Insert collidingConfig (pageDisk (PageData Nat Nat)) 1
      tombstoneTable 5 7 = some (true, duplicateTable) ∧
    LinearProbeHashTable.blocksOf collidingConfig (pageDisk (PageData Nat Nat)) duplicateTable
      = [⟨[3], [3], [(5, 7), (5, 7), (0, 0), (0, 0)]⟩] :=
  ⟨tombstoneTable_reachable, by decide, by decide, by decide, by decide⟩

set_option maxRecDepth 100000 in
/-- C12 (insert-remove round trip) fails on the code at a reachable table: on
the table with the pair `(5, 7)` behind a tombstone, `Insert(5, 7)` returns
without a `Resize` (the header page is the same), `Remove(5, 7)` then returns
`true`, and `GetValue(5)` still gives `[7]`. -/
theorem C12_insert_remove_failing_input :
    LinearProbeHashTable.Reachable collidingConfig (pageDisk (PageData Nat Nat))
      tombstoneTable ∧
    LinearProbeHashTable.Insert collidingConfig (pageDisk (PageData Nat Nat)) 1
      tombstoneTable 5 7 = some (true, duplicateTable) ∧
    duplicateTable.header_page_id = tombstoneTable.header_page_id ∧
    (LinearProbeHashTable.Remove collidingConfig (pageDisk (PageData Nat Nat))
      duplicateTable 5 7).map Prod.fst = some true ∧
    scenarioLookup (scenarioRemove duplicateTable 5 7) 5 = some (true, [7]) :=
  ⟨tombstoneTable_reachable, by decide, by decide, by decide, by decide⟩

/-! ## The result of a lookup -/

namespace LinearProbeHashTable

variable {K V : Type}

/-- The loop of `GetValue`, started at the `i`-th slot of the probe sequence
with `n` slots to go, appends the values of the matching slots among those
slots up to the first slot that is not occupied. -/
theorem pureGetLoop_eq (cfg : HashTableConfig K V)
    {blocks : List (HashTableBlockPage K V)}
    (hwf : ∀ bp ∈ blocks, bp.WF cfg.BLOCK_ARRAY_SIZE) {b : Nat}
    (hb : b < blocks.length * cfg.BLOCK_ARRAY_SIZE) (key : K) (n : Nat) :
    ∀ (i fuel : Nat) (res : List V),
      i + (n + 1) = blocks.length * cfg.BLOCK_ARRAY_SIZE → n < fuel →
      pureGetLoop cfg blocks b key fuel
          ((b + i) % (blocks.length * cfg.BLOCK_ARRAY_SIZE)) res
        = some (res ++ slotValues cfg blocks
            ((((List.range' i (n + 1)).map
              (fun j => (b + j) % (blocks.length * cfg.BLOCK_ARRAY_SIZE))).takeWhile
              (fun p => gOcc cfg blocks p)).filter (slotMatches cfg blocks key))) := by
  induction n with
  | zero =>
    intro i fuel res hin hf
    obtain ⟨fuel', rfl⟩ : ∃ f, fuel = f + 1 := ⟨fuel - 1, by omega⟩
    have hp : (b + i) % (blocks.length * cfg.BLOCK_ARRAY_SIZE)
        < blocks.length * cfg.BLOCK_ARRAY_SIZE := probe_lt hb
    obtain ⟨k, v, hkv, hg⟩ := pureGetBucket_eq cfg hwf hp key res
    have hwrap := probe_wrap hb (show i + 1 = _ by omega)
    rw [pureGetLoop, hg]
    cases ho : gOcc cfg blocks ((b + i) % (blocks.length * cfg.BLOCK_ARRAY_SIZE))
    · simp [List.range', List.takeWhile, ho, slotValues]
    · simp only [if_true, probe_next, ne_eq, hwrap, not_true_eq_false, if_false]
      cases hm : (gRd cfg blocks ((b + i) % (blocks.length * cfg.BLOCK_ARRAY_SIZE))
          && (cfg.comparator key k == 0))
      · simp [List.range', List.takeWhile, ho, slotValues, slotMatches, hkv, hm]
      · simp [List.range', List.takeWhile, ho, slotValues, slotMatches, hkv, hm]
  | succ n ih =>
    intro i fuel res hin hf
    obtain ⟨fuel', rfl⟩ : ∃ f, fuel = f + 1 := ⟨fuel - 1, by omega⟩
    have hp : (b + i) % (blocks.length * cfg.BLOCK_ARRAY_SIZE)
        < blocks.length * cfg.BLOCK_ARRAY_SIZE := probe_lt hb
    obtain ⟨k, v, hkv, hg⟩ := pureGetBucket_eq cfg hwf hp key res
    have hnw := probe_no_wrap hb (show i + 1 < _ by omega)
    rw [pureGetLoop, hg]
    cases ho : gOcc cfg blocks ((b + i) % (blocks.length * cfg.BLOCK_ARRAY_SIZE))
    · simp [List.range', List.takeWhile, ho, slotValues]
    · simp only [if_true, probe_next, ne_eq, hnw, not_false_eq_true]
      rw [ih (i + 1) fuel' _ (by omega) (by omega)]
      have hr : List.range' i (n + 1 + 1) = i :: List.range' (i + 1) (n + 1) := rfl
      rw [hr, List.map_cons, List.takeWhile_cons, ho]
      simp only [if_true, List.filter_cons]
      cases hm : (gRd cfg blocks ((b + i) % (blocks.length * cfg.BLOCK_ARRAY_SIZE))
          && (cfg.comparator key k == 0))
      · have hsm : slotMatches cfg blocks key
            ((b + i) % (blocks.length * cfg.BLOCK_ARRAY_SIZE)) = false := by
          simp only [slotMatches, hkv]; exact hm
        simp [hsm]
      · have hsm : slotMatches cfg blocks key
            ((b + i) % (blocks.length * cfg.BLOCK_ARRAY_SIZE)) = true := by
          simp only [slotMatches, hkv]; exact hm
        simp [hsm, slotValues, hkv]

/-- The loop of `GetValue` from the home slot appends `matchingValues`. -/
theorem pureGetLoop_matchingValues (cfg : HashTableConfig K V)
    {blocks : List (HashTableBlockPage K V)}
    (hwf : ∀ bp ∈ blocks, bp.WF cfg.BLOCK_ARRAY_SIZE) {b : Nat}
    (hb : b < blocks.length * cfg.BLOCK_ARRAY_SIZE) (key : K) (res : List V) :
    pureGetLoop cfg blocks b key (blocks.length * cfg.BLOCK_ARRAY_SIZE) b res
      = some (res ++ matchingValues cfg blocks key b) := by
  obtain ⟨n, hn⟩ : ∃ n, blocks.length * cfg.BLOCK_ARRAY_SIZE = n + 1 :=
    ⟨blocks.length * cfg.BLOCK_ARRAY_SIZE - 1, by omega⟩
  have h := pureGetLoop_eq cfg hwf hb key n 0 (blocks.length * cfg.BLOCK_ARRAY_SIZE) res
    (by omega) (by omega)
  rw [Nat.add_zero, Nat.mod_eq_of_lt hb] at h
  rw [h, matchingValues, visitedSlots, List.range_eq_range', hn]

end LinearProbeHashTable

/-! ## Removal on the block pages -/

namespace HashTableBlockPage

variable {K V : Type}

theorem testBit_clear (b j : Nat) (hb : b < 8) (hj : j < 8) :
    (255 ^^^ (1 <<< b)).testBit j = decide (j ≠ b) := by
  interval_cases b <;> interval_cases j <;> decide

/-- `Remove` of an occupied slot clears its readable bit and nothing else. -/
theorem Remove_occupied {n : Nat} {bp : HashTableBlockPage K V} (hwf : bp.WF n) {i : Nat}
    (hi : i < n) (ho : bp.occBit i = true) :
    ∃ bp', bp.Remove i = some bp' ∧ bp'.WF n ∧
      (∀ j, bp'.occBit j = bp.occBit j) ∧
      (∀ j, bp'.rdBit j = (bp.rdBit j && decide (j ≠ i))) ∧
      bp'.array = bp.array := by
  have hlt : i / 8 < bp.readable.length := by rw [hwf.readable_len]; exact byte_lt hi
  have hrd : bp.readable[i / 8]? = some bp.readable[i / 8] := List.getElem?_eq_getElem hlt
  have heq : bp.Remove i = some { bp with
      readable := bp.readable.set (i / 8)
        (bp.readable[i / 8] &&& (255 ^^^ (1 <<< (i % 8)))) } := by
    unfold Remove
    simp only [IsOccupied_eq hwf hi, ho, hrd]
  refine ⟨_, heq, Remove_WF hwf heq, fun _ => rfl, ?_, rfl⟩
  intro j
  simp only [rdBit]
  by_cases e : j / 8 = i / 8
  · rw [e]
    simp only [List.getD_eq_getElem?_getD, List.getElem?_set_self hlt, Option.getD_some, hrd,
      Nat.testBit_and]
    rw [testBit_clear _ _ (Nat.mod_lt _ (by omega)) (Nat.mod_lt _ (by omega))]
    congr 1
    by_cases e2 : j % 8 = i % 8
    · have : j = i := (slot_eq_iff i j).2 ⟨e, e2⟩
      simp [e2, this]
    · have : j ≠ i := fun h => e2 (by rw [h])
      simp [e2, this]
  · have : j ≠ i := fun h => e (by rw [h])
    simp only [List.getD_eq_getElem?_getD, List.getElem?_set_ne (fun e' => e e'.symm)]
    simp [this]

end HashTableBlockPage

namespace LinearProbeHashTable

variable {K V : Type}

/-- `remove_bucket_id_kv` on the block pages: the three outcomes. -/
theorem pureRemoveBucket_eq [DecidableEq V] (cfg : HashTableConfig K V)
    {blocks : List (HashTableBlockPage K V)}
    (hwf : ∀ bp ∈ blocks, bp.WF cfg.BLOCK_ARRAY_SIZE) {p : Nat}
    (hp : p < blocks.length * cfg.BLOCK_ARRAY_SIZE) (key : K) (value : V) :
    (gOcc cfg blocks p = false →
      pureRemoveBucket cfg blocks p key value = some (-1, blocks)) ∧
    (gOcc cfg blocks p = true → ¬ holdsPair cfg blocks p key value →
      pureRemoveBucket cfg blocks p key value = some (0, blocks)) ∧
    (holdsPair cfg blocks p key value →
      ∃ blocks', pureRemoveBucket cfg blocks p key value = some (1, blocks') ∧
        blocks'.length = blocks.length ∧ (∀ bp ∈ blocks', bp.WF cfg.BLOCK_ARRAY_SIZE) ∧
        (∀ q, gOcc cfg blocks' q = gOcc cfg blocks q) ∧
        (∀ q, gRd cfg blocks' q = (gRd cfg blocks q && decide (q ≠ p))) ∧
        (∀ q, gKV cfg blocks' q = gKV cfg blocks q)) := by
  obtain ⟨bp, k, v, hb, hw, hi, hkv⟩ := slot_block cfg hwf hp
  obtain ⟨hbl, -⟩ := List.getElem?_eq_some.1 hb
  have hpm := pairMatches_eq cfg hw hi key value hkv
  have hiff := holdsPair_iff cfg hb hkv key value
  have hocc := HashTableBlockPage.IsOccupied_eq hw hi
  refine ⟨?_, ?_, ?_⟩
  · intro ho
    have hob : bp.occBit (p % cfg.BLOCK_ARRAY_SIZE) = false := by
      simpa [gOcc, hb] using ho
    unfold pureRemoveBucket
    simp only [hb, hocc, hob]
  · intro ho hnh
    have hob : bp.occBit (p % cfg.BLOCK_ARRAY_SIZE) = true := by
      simpa [gOcc, hb] using ho
    have hfalse : (bp.rdBit (p % cfg.BLOCK_ARRAY_SIZE) && (cfg.comparator key k == 0)
        && decide (v = value)) = false := by
      cases h : (bp.rdBit (p % cfg.BLOCK_ARRAY_SIZE) && (cfg.comparator key k == 0)
        && decide (v = value))
      · rfl
      · exact absurd (hiff.2 h) hnh
    unfold pureRemoveBucket
    simp only [hb, hocc, hob, hpm, hfalse]
  · intro hh
    have ho := gOcc_of_gRd cfg hwf hp hh.1
    have hob : bp.occBit (p % cfg.BLOCK_ARRAY_SIZE) = true := by
      simpa [gOcc, hb] using ho
    obtain ⟨bp', hrem, hw', ho', hr', ha'⟩ := HashTableBlockPage.Remove_occupied hw hi hob
    refine ⟨blocks.set (p / cfg.BLOCK_ARRAY_SIZE) bp', ?_, by simp, ?_, ?_, ?_, ?_⟩
    · unfold pureRemoveBucket
      simp only [hb, hocc, hob, hpm, hiff.1 hh, hrem]
    · intro b hbm
      rcases List.mem_or_eq_of_mem_set hbm with h | h
      · exact hwf b h
      · rw [h]; exact hw'
    · intro q
      unfold gOcc
      by_cases hq : p / cfg.BLOCK_ARRAY_SIZE = q / cfg.BLOCK_ARRAY_SIZE
      · rw [← hq, List.getElem?_set_self hbl, hb]
        simp only [ho']
      · rw [List.getElem?_set_ne hq]
    · intro q
      unfold gRd
      by_cases hq : p / cfg.BLOCK_ARRAY_SIZE = q / cfg.BLOCK_ARRAY_SIZE
      · rw [← hq, List.getElem?_set_self hbl, hb]
        simp only [hr']
        congr 1
        by_cases e : q % cfg.BLOCK_ARRAY_SIZE = p % cfg.BLOCK_ARRAY_SIZE
        · have : q = p := (gslot_eq_iff _ p q).2 ⟨hq.symm, e⟩
          simp [e, this]
        · have : q ≠ p := fun h => e (by rw [h])
          simp [e, this]
      · have : q ≠ p := fun h => hq (by rw [h])
        rw [List.getElem?_set_ne hq]
        simp [this]
    · intro q
      unfold gKV
      by_cases hq : p / cfg.BLOCK_ARRAY_SIZE = q / cfg.BLOCK_ARRAY_SIZE
      · rw [← hq, List.getElem?_set_self hbl, hb]
        simp only [ha']
      · rw [List.getElem?_set_ne hq]

end LinearProbeHashTable

namespace LinearProbeHashTable

variable {K V : Type}

theorem probe_inj {S b j m : Nat} (hj : j < S) (hm : m < S)
    (h : (b + j) % S = (b + m) % S) : j = m := by
  have h1 : b + j ≡ b + m [MOD S] := h
  exact (Nat.ModEq.add_left_cancel' b h1).eq_of_lt_of_lt hj hm

/-- The loop of `Remove` reaches the first slot holding the pair, every slot
before it being occupied, and clears its readable bit. -/
theorem pureRemoveLoop_finds [DecidableEq V] (cfg : HashTableConfig K V)
    {blocks : List (HashTableBlockPage K V)}
    (hwf : ∀ bp ∈ blocks, bp.WF cfg.BLOCK_ARRAY_SIZE) {b : Nat}
    (hb : b < blocks.length * cfg.BLOCK_ARRAY_SIZE) (key : K) (value : V) {m : Nat}
    (hm : m < blocks.length * cfg.BLOCK_ARRAY_SIZE)
    (hpre : ∀ j, j < m →
      gOcc cfg blocks ((b + j) % (blocks.length * cfg.BLOCK_ARRAY_SIZE)) = true ∧
      ¬ holdsPair cfg blocks ((b + j) % (blocks.length * cfg.BLOCK_ARRAY_SIZE)) key value)
    (hpair : holdsPair cfg blocks ((b + m) % (blocks.length * cfg.BLOCK_ARRAY_SIZE))
      key value) (n : Nat) :
    ∀ (i fuel : Nat), i + n = m → n < fuel →
      ∃ blocks', pureRemoveLoop cfg b key value fuel blocks
          ((b + i) % (blocks.length * cfg.BLOCK_ARRAY_SIZE)) = some (1, blocks') ∧
        blocks'.length = blocks.length ∧ (∀ bp ∈ blocks', bp.WF cfg.BLOCK_ARRAY_SIZE) ∧
        (∀ q, gOcc cfg blocks' q = gOcc cfg blocks q) ∧
        (∀ q, gRd cfg blocks' q = (gRd cfg blocks q &&
          decide (q ≠ (b + m) % (blocks.length * cfg.BLOCK_ARRAY_SIZE)))) ∧
        (∀ q, gKV cfg blocks' q = gKV cfg blocks q) := by
  induction n with
  | zero =>
    intro i fuel him hf
    simp only [Nat.add_zero] at him
    subst him
    obtain ⟨fuel', rfl⟩ : ∃ f, fuel = f + 1 := ⟨fuel - 1, by omega⟩
    have hp : (b + i) % (blocks.length * cfg.BLOCK_ARRAY_SIZE)
        < blocks.length * cfg.BLOCK_ARRAY_SIZE := probe_lt hb
    obtain ⟨blocks', h1, h2, h3, h4, h5, h6⟩ :=
      (pureRemoveBucket_eq cfg hwf hp key value).2.2 hpair
    refine ⟨blocks', ?_, h2, h3, h4, h5, h6⟩
    rw [pureRemoveLoop, h1]
    simp
  | succ n ih =>
    intro i fuel him hf
    obtain ⟨fuel', rfl⟩ : ∃ f, fuel = f + 1 := ⟨fuel - 1, by omega⟩
    have hp : (b + i) % (blocks.length * cfg.BLOCK_ARRAY_SIZE)
        < blocks.length * cfg.BLOCK_ARRAY_SIZE := probe_lt hb
    obtain ⟨ho, hnh⟩ := hpre i (by omega)
    have h1 := (pureRemoveBucket_eq cfg hwf hp key value).2.1 ho hnh
    have hnw := probe_no_wrap hb (show i + 1 < _ by omega)
    rw [pureRemoveLoop, h1]
    simp only [ne_eq, not_true_eq_false, if_false, probe_next, hnw, not_false_eq_true, if_true]
    exact ih (i + 1) fuel' (by omega) (by omega)

/-- A value among the values a lookup delivers sits in a first slot holding
the pair, every slot before it in the probe sequence being occupied. -/
theorem mem_slotValues_first (cfg : HashTableConfig K V)
    {blocks : List (HashTableBlockPage K V)}
    (hwf : ∀ bp ∈ blocks, bp.WF cfg.BLOCK_ARRAY_SIZE) {b : Nat}
    (hb : b < blocks.length * cfg.BLOCK_ARRAY_SIZE) (key : K) (value : V) (n : Nat) :
    ∀ i : Nat,
      value ∈ slotValues cfg blocks
        ((((List.range' i n).map
          (fun j => (b + j) % (blocks.length * cfg.BLOCK_ARRAY_SIZE))).takeWhile
          (fun p => gOcc cfg blocks p)).filter (slotMatches cfg blocks key)) →
      ∃ m, i ≤ m ∧ m < i + n ∧
        (∀ j, i ≤ j → j < m →
          gOcc cfg blocks ((b + j) % (blocks.length * cfg.BLOCK_ARRAY_SIZE)) = true ∧
          ¬ holdsPair cfg blocks ((b + j) % (blocks.length * cfg.BLOCK_ARRAY_SIZE))
            key value) ∧
        holdsPair cfg blocks ((b + m) % (blocks.length * cfg.BLOCK_ARRAY_SIZE)) key value := by
  induction n with
  | zero =>
    intro i h
    simp [slotValues] at h
  | succ n ih =>
    intro i h
    have hp : (b + i) % (blocks.length * cfg.BLOCK_ARRAY_SIZE)
        < blocks.length * cfg.BLOCK_ARRAY_SIZE := probe_lt hb
    obtain ⟨bp, k, v, hbk, hw, hi, hkv0⟩ := slot_block cfg hwf hp
    have hkv : gKV cfg blocks ((b + i) % (blocks.length * cfg.BLOCK_ARRAY_SIZE)) = some (k, v) := by
      unfold gKV
      rw [hbk]
      exact hkv0
    have hr : List.range' i (n + 1) = i :: List.range' (i + 1) n := rfl
    rw [hr, List.map_cons, List.takeWhile_cons] at h
    cases ho : gOcc cfg blocks ((b + i) % (blocks.length * cfg.BLOCK_ARRAY_SIZE))
    · rw [ho] at h
      simp [slotValues] at h
    · rw [ho] at h
      simp only [if_true, List.filter_cons] at h
      by_cases hh : holdsPair cfg blocks ((b + i) % (blocks.length * cfg.BLOCK_ARRAY_SIZE))
          key value
      · exact ⟨i, le_refl _, by omega, fun j h1 h2 => absurd h2 (by omega), hh⟩
      · have hrest : value ∈ slotValues cfg blocks
            ((((List.range' (i + 1) n).map
              (fun j => (b + j) % (blocks.length * cfg.BLOCK_ARRAY_SIZE))).takeWhile
              (fun p => gOcc cfg blocks p)).filter (slotMatches cfg blocks key)) := by
          cases hsm : slotMatches cfg blocks key
              ((b + i) % (blocks.length * cfg.BLOCK_ARRAY_SIZE))
          · rw [hsm] at h
            simpa using h
          · rw [hsm] at h
            simp only [if_true, slotValues, List.filterMap_cons, hkv, Option.map_some',
              List.mem_cons] at h
            rcases h with e | h
            · exfalso
              apply hh
              simp only [slotMatches, hkv, Bool.and_eq_true, beq_iff_eq] at hsm
              exact ⟨hsm.1, k, v, hkv, hsm.2, e.symm⟩
            · exact h
        obtain ⟨m, h1, h2, h3, h4⟩ := ih (i + 1) hrest
        refine ⟨m, by omega, by omega, ?_, h4⟩
        intro j hj1 hj2
        by_cases e : j = i
        · subst e
          exact ⟨ho, hh⟩
        · exact h3 j (by omega) hj2

end LinearProbeHashTable

namespace LinearProbeHashTable

variable {K V : Type}

/-- Dropping one slot from the matching slots of a scan deletes the first
occurrence of its value from the values of the scan, when no matching slot
before it has that value. -/
theorem erase_scan {V : Type} [DecidableEq V] (f : Nat → Nat) (occ sm : Nat → Bool)
    (val : Nat → Option V) (m : Nat) (value : V)
    (hoccm : occ (f m) = true) (hsmm : sm (f m) = true) (hvalm : val (f m) = some value)
    (n : Nat) :
    ∀ i, i ≤ m → m < i + n →
      (∀ j, i ≤ j → j < m → occ (f j) = true ∧ (sm (f j) = true → val (f j) ≠ some value)) →
      (∀ j, i ≤ j → j < i + n → j ≠ m → f j ≠ f m) →
      ((((List.range' i n).map f).takeWhile occ).filter
          (fun q => sm q && decide (q ≠ f m))).filterMap val
        = (((((List.range' i n).map f).takeWhile occ).filter sm).filterMap val).erase value := by
  induction n with
  | zero => intro i h1 h2; omega
  | succ n ih =>
    intro i h1 h2 hpre hinj
    have hr : List.range' i (n + 1) = i :: List.range' (i + 1) n := rfl
    rw [hr, List.map_cons, List.takeWhile_cons]
    by_cases e : i = m
    · subst e
      rw [hoccm]
      simp only [if_true, List.filter_cons, hsmm, ne_eq, not_true_eq_false, decide_False,
        Bool.and_false, Bool.false_eq_true, if_false, List.filterMap_cons, hvalm,
        List.erase_cons_head]
      congr 1
      apply List.filter_congr
      intro q hq
      have hq1 := (List.takeWhile_sublist occ).subset hq
      rw [List.mem_map] at hq1
      obtain ⟨j, hj, rfl⟩ := hq1
      rw [List.mem_range'_1] at hj
      have := hinj j (by omega) (by omega) (by omega)
      simp [this]
    · obtain ⟨ho, hv⟩ := hpre i (le_refl _) (by omega)
      have hne := hinj i (le_refl _) (by omega) e
      have ih1 := ih (i + 1) (by omega) (by omega)
        (fun j a c => hpre j (by omega) c) (fun j a c d => hinj j (by omega) (by omega) d)
      rw [ho]
      simp only [if_true, List.filter_cons, hne, ne_eq, not_false_eq_true, decide_True,
        Bool.and_true]
      cases hsm : sm (f i)
      · simpa using ih1
      · simp only [if_true, List.filterMap_cons]
        cases hval : val (f i) with
        | none => simpa using ih1
        | some v =>
          have hvne : v ≠ value := by
            intro e2
            apply hv hsm
            rw [hval, e2]
          simp only
          rw [List.erase_cons_tail (by simpa using hvne), ih1]

end LinearProbeHashTable

namespace LinearProbeHashTable

variable {K V : Type}

/-- The values a lookup delivers once the readable bit of the first slot
holding `(key, value)` has been cleared: for `key` the values of before with
that one occurrence of `value` deleted, for a key that compares equal to no
key `key` compares equal to, the same values from any home slot. -/
theorem matchingValues_cleared [DecidableEq V] (cfg : HashTableConfig K V)
    {blocks blocks' : List (HashTableBlockPage K V)}
    (hwf : ∀ bp ∈ blocks, bp.WF cfg.BLOCK_ARRAY_SIZE) {b : Nat}
    (hb : b < blocks.length * cfg.BLOCK_ARRAY_SIZE) (key : K) (value : V) {m : Nat}
    (hm : m < blocks.length * cfg.BLOCK_ARRAY_SIZE)
    (hpre : ∀ j, j < m →
      gOcc cfg blocks ((b + j) % (blocks.length * cfg.BLOCK_ARRAY_SIZE)) = true ∧
      ¬ holdsPair cfg blocks ((b + j) % (blocks.length * cfg.BLOCK_ARRAY_SIZE)) key value)
    (hpair : holdsPair cfg blocks ((b + m) % (blocks.length * cfg.BLOCK_ARRAY_SIZE))
      key value)
    (hlen : blocks'.length = blocks.length)
    (hocc : ∀ q, gOcc cfg blocks' q = gOcc cfg blocks q)
    (hrd : ∀ q, gRd cfg blocks' q = (gRd cfg blocks q &&
      decide (q ≠ (b + m) % (blocks.length * cfg.BLOCK_ARRAY_SIZE))))
    (hkv : ∀ q, gKV cfg blocks' q = gKV cfg blocks q) :
    matchingValues cfg blocks' key b = (matchingValues cfg blocks key b).erase value ∧
    ∀ k2 b2, (∀ k, cfg.comparator key k = 0 → cfg.comparator k2 k ≠ 0) →
      matchingValues cfg blocks' k2 b2 = matchingValues cfg blocks k2 b2 := by
  have e1 : (fun p => gOcc cfg blocks' p) = (fun p => gOcc cfg blocks p) := funext hocc
  have e2 : ∀ k2, slotMatches cfg blocks' k2 = (fun q => slotMatches cfg blocks k2 q &&
      decide (q ≠ (b + m) % (blocks.length * cfg.BLOCK_ARRAY_SIZE))) := by
    intro k2
    funext q
    simp only [slotMatches, hrd, hkv]
    cases gRd cfg blocks q <;>
      cases (decide (q ≠ (b + m) % (blocks.length * cfg.BLOCK_ARRAY_SIZE))) <;> simp
  have e3 : ∀ ps, slotValues cfg blocks' ps = slotValues cfg blocks ps := by
    intro ps
    simp only [slotValues, hkv]
  obtain ⟨hrdm, k, v, hkvm, hcm, hvm⟩ := hpair
  have hoccm := gOcc_of_gRd cfg hwf (probe_lt hb) hrdm
  constructor
  · simp only [matchingValues, visitedSlots, hlen, e1, e2, e3, List.range_eq_range']
    simp only [slotValues]
    refine erase_scan (fun i => (b + i) % (blocks.length * cfg.BLOCK_ARRAY_SIZE))
      (fun p => gOcc cfg blocks p) (slotMatches cfg blocks key)
      (fun p => (gKV cfg blocks p).map Prod.snd) m value hoccm ?_ ?_
      (blocks.length * cfg.BLOCK_ARRAY_SIZE) 0 (Nat.zero_le _) (by omega) ?_ ?_
    · simp [slotMatches, hrdm, hkvm, hcm]
    · simp [hkvm, hvm]
    · intro j _ hj
      refine ⟨(hpre j hj).1, ?_⟩
      intro hs hval
      apply (hpre j hj).2
      dsimp only at hval hs
      simp only [slotMatches, Bool.and_eq_true] at hs
      cases hg : gKV cfg blocks ((b + j) % (blocks.length * cfg.BLOCK_ARRAY_SIZE)) with
      | none => rw [hg] at hval; simp at hval
      | some kv =>
        obtain ⟨k', v'⟩ := kv
        rw [hg] at hval
        rw [hg] at hs
        simp only [Option.map_some', Option.some.injEq] at hval
        exact ⟨hs.1, k', v', hg, by simpa using hs.2, hval⟩
    · intro j _ hj hne he
      exact hne (probe_inj (by omega) hm he)
  · intro k2 b2 hk2
    simp only [matchingValues, visitedSlots, hlen, e1, e2, e3]
    congr 1
    apply List.filter_congr
    intro q _
    by_cases hq : q = (b + m) % (blocks.length * cfg.BLOCK_ARRAY_SIZE)
    · subst hq
      have : ¬ cfg.comparator k2 k = 0 := hk2 k hcm
      simp [slotMatches, hkvm, this]
    · simp [hq]

end LinearProbeHashTable

namespace LinearProbeHashTable

open BufferPoolManager

variable {D K V : Type}

/-- `remove_bucket_id_kv` with two frames to spare computes what the block
pages say and leaves the table with the block pages so computed. -/
theorem remove_bucket_total [DecidableEq V] {cfg : HashTableConfig K V}
    {dm : DiskManager D (PageData K V)}
    {next : D → Int} (laws : DiskLaws dm) (al : AllocLaws dm next)
    {ht : LinearProbeHashTable D K V} {hp : HashTableHeaderPage}
    {blocks : List (HashTableBlockPage K V)} (hv : TableInv cfg dm next ht hp blocks)
    (hspare : Spare ht.buffer_pool_manager)
    {prob : Nat} (hprob : prob < blocks.length * cfg.BLOCK_ARRAY_SIZE) (key : K)
    (value : V) :
    ∃ (st : Int) (blocks' : List (HashTableBlockPage K V))
      (ht' : LinearProbeHashTable D K V),
      pureRemoveBucket cfg blocks prob key value = some (st, blocks') ∧
      remove_bucket_id_kv cfg dm ht prob key value = some (st, ht') ∧
      TableInv cfg dm next ht' hp blocks' ∧
      blocks'.length = blocks.length ∧
      ht'.header_page_id = ht.header_page_id ∧
      pinList ht'.buffer_pool_manager = pinList ht.buffer_pool_manager ∧
      ht'.buffer_pool_manager.pool_size = ht.buffer_pool_manager.pool_size := by
  obtain ⟨bid, fb, bp, s2, hopen⟩ := openBucket_total laws hv hspare hprob
  obtain ⟨fh, hbid, hbp, ho, hc2, hcont2⟩ := openBucket_post laws al hv hopen
  obtain ⟨bp0, k, v, hb0, hwf, hslot, hkv⟩ := slot_block cfg hv.wf hprob
  rw [hbp] at hb0
  injection hb0 with hb0
  subst hb0
  have hocc := HashTableBlockPage.IsOccupied_eq hwf hslot
  have hpm := pairMatches_eq cfg hwf hslot key value hkv
  cases ho1 : bp.occBit (prob % cfg.BLOCK_ARRAY_SIZE) with
  | false =>
    rw [ho1] at hocc
    obtain ⟨ht', hclose, hv', e1, e2, e3⟩ := closeBucket_keep hv ho hc2 hcont2 false
    refine ⟨-1, blocks, ht', ?_, ?_, hv', rfl, e1, e2, e3⟩
    · unfold pureRemoveBucket
      simp only [hbp, hocc]
    · unfold remove_bucket_id_kv
      simp only [hopen, hocc, hclose]
  | true =>
    rw [ho1] at hocc
    cases hm : (bp.rdBit (prob % cfg.BLOCK_ARRAY_SIZE) && (cfg.comparator key k == 0)
        && decide (v = value)) with
    | false =>
      rw [hm] at hpm
      obtain ⟨ht', hclose, hv', e1, e2, e3⟩ := closeBucket_keep hv ho hc2 hcont2 false
      refine ⟨0, blocks, ht', ?_, ?_, hv', rfl, e1, e2, e3⟩
      · unfold pureRemoveBucket
        simp only [hbp, hocc, hpm]
      · unfold remove_bucket_id_kv
        simp only [hopen, hocc, hpm, hclose]
    | true =>
      rw [hm] at hpm
      obtain ⟨bp', hrem, hwf', -⟩ := HashTableBlockPage.Remove_occupied hwf hslot ho1
      obtain ⟨ht', hclose, hv', e1, e2, e3⟩ :=
        closeBucket_write hv ho hc2 hcont2 hbid hwf'
      refine ⟨1, blocks.set (prob / cfg.BLOCK_ARRAY_SIZE) bp', ht', ?_, ?_, hv', by simp,
        e1, e2, e3⟩
      · unfold pureRemoveBucket
        simp only [hbp, hocc, hpm, hrem]
      · unfold remove_bucket_id_kv
        simp only [hopen, hocc, hpm, hrem, hclose]

/-- The loop of `Remove` with two frames to spare computes what the block
pages say. -/
theorem removeLoop_sim [DecidableEq V] {cfg : HashTableConfig K V}
    {dm : DiskManager D (PageData K V)}
    {next : D → Int} (laws : DiskLaws dm) (al : AllocLaws dm next)
    (hp : HashTableHeaderPage) (bucket_id : Nat) (key : K) (value : V) (fuel : Nat) :
    ∀ (ht : LinearProbeHashTable D K V) (blocks : List (HashTableBlockPage K V)) (prob : Nat),
      TableInv cfg dm next ht hp blocks → Spare ht.buffer_pool_manager →
      prob < blocks.length * cfg.BLOCK_ARRAY_SIZE →
      match pureRemoveLoop cfg bucket_id key value fuel blocks prob with
      | none => removeLoop cfg dm bucket_id key value fuel ht prob = none
      | some (st, blocks') =>
        ∃ ht' : LinearProbeHashTable D K V,
          removeLoop cfg dm bucket_id key value fuel ht prob = some (st, ht') ∧
          TableInv cfg dm next ht' hp blocks' ∧
          blocks'.length = blocks.length ∧
          ht'.header_page_id = ht.header_page_id ∧
          pinList ht'.buffer_pool_manager = pinList ht.buffer_pool_manager ∧
          ht'.buffer_pool_manager.pool_size = ht.buffer_pool_manager.pool_size := by
  induction fuel with
  | zero =>
    intro ht blocks prob _ _ _
    simp only [pureRemoveLoop, removeLoop]
  | succ fuel ih =>
    intro ht blocks prob hv hspare hprob
    obtain ⟨st1, blocks1, ht1, hpure, himpl, hv1, hlen1, e1, e2, e3⟩ :=
      remove_bucket_total laws al hv hspare hprob key value
    have hspare1 : Spare ht1.buffer_pool_manager := hspare.keep e2 e3
    by_cases hst : st1 ≠ 0
    · simp only [pureRemoveLoop, removeLoop, hpure, himpl, if_pos hst]
      exact ⟨ht1, rfl, hv1, hlen1, e1, e2, e3⟩
    · obtain ⟨ht2, hmod, hv2, f1, f2, f3⟩ := modSize_total laws al hv1 hspare1.hav (prob + 1)
      have hspare2 : Spare ht2.buffer_pool_manager := hspare1.keep f2 f3
      by_cases hpb : (prob + 1) % (blocks1.length * cfg.BLOCK_ARRAY_SIZE) ≠ bucket_id
      · have hih := ih ht2 blocks1 ((prob + 1) % (blocks1.length * cfg.BLOCK_ARRAY_SIZE))
          hv2 hspare2 (Nat.mod_lt _ hv1.nonempty)
        simp only [pureRemoveLoop, removeLoop, hpure, himpl, if_neg hst, hmod, if_pos hpb]
        cases hres : pureRemoveLoop cfg bucket_id key value fuel blocks1
            ((prob + 1) % (blocks1.length * cfg.BLOCK_ARRAY_SIZE)) with
        | none =>
          rw [hres] at hih
          exact hih
        | some r =>
          obtain ⟨st, blocks'⟩ := r
          rw [hres] at hih
          obtain ⟨ht', g1, g2, g3, g4, g5, g6⟩ := hih
          exact ⟨ht', g1, g2, by rw [g3, hlen1], by rw [g4, f1, e1], by rw [g5, f2, e2],
            by rw [g6, f3, e3]⟩
      · simp only [pureRemoveLoop, removeLoop, hpure, himpl, if_neg hst, hmod, if_neg hpb]
        exact ⟨ht2, rfl, hv2, hlen1, by rw [f1, e1], by rw [f2, e2], by rw [f3, e3]⟩

/-- `Remove` with two frames to spare returns what the block pages say. -/
theorem Remove_total [DecidableEq V] {cfg : HashTableConfig K V}
    {dm : DiskManager D (PageData K V)}
    {next : D → Int} (laws : DiskLaws dm) (al : AllocLaws dm next)
    {ht : LinearProbeHashTable D K V} {hp : HashTableHeaderPage}
    {blocks : List (HashTableBlockPage K V)} (hv : TableInv cfg dm next ht hp blocks)
    (hspare : Spare ht.buffer_pool_manager) (key : K) (value : V) {st : Int}
    {blocks' : List (HashTableBlockPage K V)}
    (hpure : pureRemoveLoop cfg (cfg.hash_fn key % (blocks.length * cfg.BLOCK_ARRAY_SIZE))
      key value (blocks.length * cfg.BLOCK_ARRAY_SIZE) blocks
      (cfg.hash_fn key % (blocks.length * cfg.BLOCK_ARRAY_SIZE)) = some (st, blocks')) :
    ∃ ht' : LinearProbeHashTable D K V,
      Remove cfg dm ht key value = some (decide (st = 1), ht') ∧
      TableInv cfg dm next ht' hp blocks' ∧
      pinList ht'.buffer_pool_manager = pinList ht.buffer_pool_manager ∧
      ht'.buffer_pool_manager.pool_size = ht.buffer_pool_manager.pool_size := by
  obtain ⟨ht0, hgs, hv0, e1, e2, e3⟩ := GetSize_total laws al hv hspare.hav
  have hsp0 : Spare ht0.buffer_pool_manager := hspare.keep e2 e3
  have hsim := removeLoop_sim laws al hp
    (cfg.hash_fn key % (blocks.length * cfg.BLOCK_ARRAY_SIZE)) key value
    (blocks.length * cfg.BLOCK_ARRAY_SIZE) ht0 blocks
    (cfg.hash_fn key % (blocks.length * cfg.BLOCK_ARRAY_SIZE)) hv0 hsp0
    (Nat.mod_lt _ hv.nonempty)
  rw [hpure] at hsim
  obtain ⟨ht1, g1, g2, -, -, g5, g6⟩ := hsim
  refine ⟨ht1, ?_, g2, by rw [g5, e2], by rw [g6, e3]⟩
  unfold Remove
  simp only [hgs]
  rw [if_neg (by have := hv.nonempty; omega)]
  simp only [g1]

end LinearProbeHashTable

namespace LinearProbeHashTable

open BufferPoolManager

variable {D K V : Type}

/-- A `GetValue` that returned had two frames to spare, has appended the
matching values of the visited slots, and has returned whether the result
list is non-empty. -/
theorem GetValue_post {cfg : HashTableConfig K V}
    {dm : DiskManager D (PageData K V)}
    {next : D → Int} (laws : DiskLaws dm) (al : AllocLaws dm next)
    {ht ht' : LinearProbeHashTable D K V} {hp : HashTableHeaderPage}
    {blocks : List (HashTableBlockPage K V)} (hv : TableInv cfg dm next ht hp blocks)
    {key : K} {result res : List V} {b : Bool}
    (h : GetValue cfg dm ht key result = some (b, res, ht')) :
    Spare ht.buffer_pool_manager ∧
      res = result ++ matchingValues cfg blocks key
        (cfg.hash_fn key % (blocks.length * cfg.BLOCK_ARRAY_SIZE)) ∧
      b = !res.isEmpty := by
  unfold GetValue at h
  split at h
  · simp at h
  · rename_i size ht0 hgs
    obtain ⟨esize, hv0, -, e2, e3⟩ := GetSize_post laws al hv hgs
    split at h
    · simp at h
    · rename_i hsz
      dsimp only at h
      split at h
      · simp at h
      · rename_i res1 ht1 hgl
        subst esize
        have hb : cfg.hash_fn key % (blocks.length * cfg.BLOCK_ARRAY_SIZE)
            < blocks.length * cfg.BLOCK_ARRAY_SIZE := Nat.mod_lt _ (by omega)
        obtain ⟨hsp0, hpure, -⟩ := getValueLoop_post laws al hv0 hb hgl
        rw [pureGetLoop_matchingValues cfg hv.wf hb key result] at hpure
        injection hpure with hpure
        injection h with h
        injection h with h1 h
        injection h with h2 _
        subst h2
        refine ⟨hsp0.keep e2.symm e3.symm, hpure.symm, h1.symm⟩

/-- With two frames to spare `GetValue` appends the matching values of the
visited slots and returns whether the result list is non-empty. -/
theorem GetValue_value {cfg : HashTableConfig K V}
    {dm : DiskManager D (PageData K V)}
    {next : D → Int} (laws : DiskLaws dm) (al : AllocLaws dm next)
    {ht : LinearProbeHashTable D K V} {hp : HashTableHeaderPage}
    {blocks : List (HashTableBlockPage K V)} (hv : TableInv cfg dm next ht hp blocks)
    (hspare : Spare ht.buffer_pool_manager) (key : K) (result : List V) :
    ∃ ht' : LinearProbeHashTable D K V,
      GetValue cfg dm ht key result
        = some (!(result ++ matchingValues cfg blocks key
            (cfg.hash_fn key % (blocks.length * cfg.BLOCK_ARRAY_SIZE))).isEmpty,
          result ++ matchingValues cfg blocks key
            (cfg.hash_fn key % (blocks.length * cfg.BLOCK_ARRAY_SIZE)), ht') ∧
      TableInv cfg dm next ht' hp blocks := by
  have hb : cfg.hash_fn key % (blocks.length * cfg.BLOCK_ARRAY_SIZE)
      < blocks.length * cfg.BLOCK_ARRAY_SIZE := Nat.mod_lt _ hv.nonempty
  exact GetValue_total laws al hv hspare key result
    (pureGetLoop_matchingValues cfg hv.wf hb key result)

end LinearProbeHashTable

namespace LinearProbeHashTable

open BufferPoolManager

variable {D K V : Type}

/-- C13 (tombstones do not break lookup).  For every hash table state
reachable from construction by `Insert`, `Remove` and `GetValue` calls, over a
disk that keeps what is written and hands out increasing page ids, with a
comparator that returns 0 only for equal keys, and for every stored pair
`(k1, v1)` (`GetValue(k1)` on an empty list returns with `v1` in its result):
`Remove(k1, v1)` returns `true`; there is a slot `p` that held the pair and is
occupied and not readable afterwards, every other bit, key and value of the
block pages being unchanged; and for every key `k2` and result list, the
values `GetValue(k2)` appends after the `Remove` are the values it appends
before it with the first occurrence of `v1` deleted when `k2 = k1`, and the
same values otherwise. -/
theorem C13_tombstone_keeps_lookup [DecidableEq V] {cfg : HashTableConfig K V}
    {dm : DiskManager D (PageData K V)}
    {next : D → Int} (laws : DiskLaws dm) (al : AllocLaws dm next)
    {ht : LinearProbeHashTable D K V} (hr : Reachable cfg dm ht) (k1 : K) (v1 : V)
    (hcmp : ∀ a b, cfg.comparator a b = 0 → a = b)
    {r : Bool × List V × LinearProbeHashTable D K V}
    (hget : GetValue cfg dm ht k1 [] = some r) (hmem : v1 ∈ r.2.1) :
    ∃ (ht' : LinearProbeHashTable D K V) (p : Nat),
      Remove cfg dm ht k1 v1 = some (true, ht') ∧
      p < slots cfg dm ht ∧
      holdsPair cfg (blocksOf cfg dm ht) p k1 v1 ∧
      gOcc cfg (blocksOf cfg dm ht') p = true ∧
      gRd cfg (blocksOf cfg dm ht') p = false ∧
      (∀ q, q ≠ p → gRd cfg (blocksOf cfg dm ht') q = gRd cfg (blocksOf cfg dm ht) q) ∧
      (∀ q, gOcc cfg (blocksOf cfg dm ht') q = gOcc cfg (blocksOf cfg dm ht) q ∧
        gKV cfg (blocksOf cfg dm ht') q = gKV cfg (blocksOf cfg dm ht) q) ∧
      ∀ (k2 : K) (result : List V),
        ∃ (xb xa : List V) (htb hta : LinearProbeHashTable D K V),
          GetValue cfg dm ht k2 result = some (!(result ++ xb).isEmpty, result ++ xb, htb) ∧
          GetValue cfg dm ht' k2 result = some (!(result ++ xa).isEmpty, result ++ xa, hta) ∧
          (k2 = k1 → xa = xb.erase v1) ∧ (k2 ≠ k1 → xa = xb) := by
  obtain ⟨b1, res1, ht1⟩ := r
  obtain ⟨hp, blocks, hv⟩ := hr.tableInv laws al
  obtain ⟨hsp, hres, -⟩ := GetValue_post laws al hv hget
  have hb : cfg.hash_fn k1 % (blocks.length * cfg.BLOCK_ARRAY_SIZE)
      < blocks.length * cfg.BLOCK_ARRAY_SIZE := Nat.mod_lt _ hv.nonempty
  have hmem1 : v1 ∈ matchingValues cfg blocks k1
      (cfg.hash_fn k1 % (blocks.length * cfg.BLOCK_ARRAY_SIZE)) := by
    simp only [List.nil_append] at hres
    rw [← hres]
    exact hmem
  unfold matchingValues visitedSlots at hmem1
  rw [List.range_eq_range'] at hmem1
  obtain ⟨m, -, hm, hpre, hpair⟩ := mem_slotValues_first cfg hv.wf hb k1 v1 _ 0 hmem1
  rw [Nat.zero_add] at hm
  have hpre1 : ∀ j, j < m →
      gOcc cfg blocks ((cfg.hash_fn k1 % (blocks.length * cfg.BLOCK_ARRAY_SIZE) + j)
        % (blocks.length * cfg.BLOCK_ARRAY_SIZE)) = true ∧
      ¬ holdsPair cfg blocks ((cfg.hash_fn k1 % (blocks.length * cfg.BLOCK_ARRAY_SIZE) + j)
        % (blocks.length * cfg.BLOCK_ARRAY_SIZE)) k1 v1 :=
    fun j hj => hpre j (Nat.zero_le _) hj
  obtain ⟨blocks', hloop, hlen, hwf', hocc, hrd, hkv⟩ :=
    pureRemoveLoop_finds cfg hv.wf hb k1 v1 hm hpre1 hpair m 0
      (blocks.length * cfg.BLOCK_ARRAY_SIZE) (Nat.zero_add _) hm
  rw [Nat.add_zero, Nat.mod_eq_of_lt hb] at hloop
  obtain ⟨ht', hrem, hv', hpins, hsize⟩ := Remove_total laws al hv hsp k1 v1 hloop
  have hsp' : Spare ht'.buffer_pool_manager := hsp.keep hpins hsize
  obtain ⟨herase, hother⟩ :=
    matchingValues_cleared cfg hv.wf hb k1 v1 hm hpre1 hpair hlen hocc hrd hkv
  refine ⟨ht', (cfg.hash_fn k1 % (blocks.length * cfg.BLOCK_ARRAY_SIZE) + m)
    % (blocks.length * cfg.BLOCK_ARRAY_SIZE), ?_, ?_, ?_, ?_, ?_, ?_, ?_, ?_⟩
  · simpa using hrem
  · rw [hv.slots_eq]
    exact probe_lt hb
  · rw [hv.blocksOf_eq]
    exact hpair
  · rw [hv'.blocksOf_eq, hocc]
    exact gOcc_of_gRd cfg hv.wf (probe_lt hb) hpair.1
  · rw [hv'.blocksOf_eq, hrd]
    simp
  · intro q hq
    rw [hv'.blocksOf_eq, hv.blocksOf_eq, hrd, decide_eq_true hq, Bool.and_true]
  · intro q
    rw [hv'.blocksOf_eq, hv.blocksOf_eq]
    exact ⟨hocc q, hkv q⟩
  · intro k2 result
    obtain ⟨htb, hgb, -⟩ := GetValue_value laws al hv hsp k2 result
    obtain ⟨hta, hga, -⟩ := GetValue_value laws al hv' hsp' k2 result
    rw [hlen] at hga
    refine ⟨_, _, htb, hta, hgb, hga, ?_, ?_⟩
    · intro e
      subst e
      exact herase
    · intro hne
      apply hother
      intro k hk hk2
      exact hne ((hcmp k2 k hk2).trans (hcmp k1 k hk).symm)

end LinearProbeHashTable

/-! ## A removal in front of a stored pair -/

set_option maxRecDepth 100000 in
theorem collidingTable_reachable :
    LinearProbeHashTable.Reachable collidingConfig (pageDisk (PageData Nat Nat))
      collidingTable := by
  have h1 : LinearProbeHashTable.Insert collidingConfig (pageDisk (PageData Nat Nat)) 1
      scenarioTable 1 1 = some (true, scenarioInsert scenarioTable 1 1) := by decide
  have h2 : LinearProbeHashTable.Insert collidingConfig (pageDisk (PageData Nat Nat)) 1
      (scenarioInsert scenarioTable 1 1) 5 7 = some (true, collidingTable) := by decide
  exact LinearProbeHashTable.Reachable.insert 1 5 7
    (LinearProbeHashTable.Reachable.insert 1 1 1 scenarioTable_reachable h1) h2

theorem collidingConfig_comparator (a b : Nat) (h : collidingConfig.comparator a b = 0) :
    a = b := by
  simp only [collidingConfig] at h
  omega

set_option maxRecDepth 100000 in
/-- C13, at a concrete input: keys 1 and 5 both hash to slot 0; after
`Insert(1, 1)` and `Insert(5, 7)` the pair `(1, 1)` is stored; `Remove(1, 1)`
returns `true`, leaves a slot occupied and not readable, and the lookups of
every key give the results of before, without the value 1 for key 1. -/
theorem C13_tombstone_keeps_lookup_witness :
    LinearProbeHashTable.GetValue collidingConfig (pageDisk (PageData Nat Nat))
      collidingTable 1 [] = some (true, [1], scenarioAfterLookup collidingTable 1) ∧
    ∃ (ht' : LinearProbeHashTable (PageDisk (PageData Nat Nat)) Nat Nat) (p : Nat),
      LinearProbeHashTable.Remove collidingConfig (pageDisk (PageData Nat Nat))
        collidingTable 1 1 = some (true, ht') ∧
      p < LinearProbeHashTable.slots collidingConfig (pageDisk (PageData Nat Nat))
        collidingTable ∧
      LinearProbeHashTable.holdsPair collidingConfig
        (LinearProbeHashTable.blocksOf collidingConfig (pageDisk (PageData Nat Nat))
          collidingTable) p 1 1 ∧
      LinearProbeHashTable.gOcc collidingConfig
        (LinearProbeHashTable.blocksOf collidingConfig (pageDisk (PageData Nat Nat)) ht')
        p = true ∧
      LinearProbeHashTable.gRd collidingConfig
        (LinearProbeHashTable.blocksOf collidingConfig (pageDisk (PageData Nat Nat)) ht')
        p = false ∧
      (∀ q, q ≠ p →
        LinearProbeHashTable.gRd collidingConfig
          (LinearProbeHashTable.blocksOf collidingConfig (pageDisk (PageData Nat Nat)) ht') q
        = LinearProbeHashTable.gRd collidingConfig
          (LinearProbeHashTable.blocksOf collidingConfig (pageDisk (PageData Nat Nat))
            collidingTable) q) ∧
      (∀ q,
        LinearProbeHashTable.gOcc collidingConfig
          (LinearProbeHashTable.blocksOf collidingConfig (pageDisk (PageData Nat Nat)) ht') q
        = LinearProbeHashTable.gOcc collidingConfig
          (LinearProbeHashTable.blocksOf collidingConfig (pageDisk (PageData Nat Nat))
            collidingTable) q ∧
        LinearProbeHashTable.gKV collidingConfig
          (LinearProbeHashTable.blocksOf collidingConfig (pageDisk (PageData Nat Nat)) ht') q
        = LinearProbeHashTable.gKV collidingConfig
          (LinearProbeHashTable.blocksOf collidingConfig (pageDisk (PageData Nat Nat))
            collidingTable) q) ∧
      ∀ (k2 : Nat) (result : List Nat),
        ∃ (xb xa : List Nat)
          (htb hta : LinearProbeHashTable (PageDisk (PageData Nat Nat)) Nat Nat),
          LinearProbeHashTable.GetValue collidingConfig (pageDisk (PageData Nat Nat))
            collidingTable k2 result = some (!(result ++ xb).isEmpty, result ++ xb, htb) ∧
          LinearProbeHashTable.GetValue collidingConfig (pageDisk (PageData Nat Nat))
            ht' k2 result = some (!(result ++ xa).isEmpty, result ++ xa, hta) ∧
          (k2 = 1 → xa = xb.erase 1) ∧ (k2 ≠ 1 → xa = xb) :=
  ⟨by decide,
    LinearProbeHashTable.C13_tombstone_keeps_lookup (pageDisk_laws _) (pageDisk_alloc _)
      collidingTable_reachable 1 1 collidingConfig_comparator
      (show LinearProbeHashTable.GetValue collidingConfig (pageDisk (PageData Nat Nat))
        collidingTable 1 [] = some (true, [1], scenarioAfterLookup collidingTable 1)
        by decide)
      (List.mem_singleton.2 rfl)⟩

/-! ## The value of a lookup -/

namespace LinearProbeHashTable

open BufferPoolManager

variable {D K V : Type}

/-- C14 (GetValue result), as the code has it.  For every hash table state
reachable from construction by `Insert`, `Remove` and `GetValue` calls whose
pool has two frames to spare, over a disk that keeps what is written and hands
out increasing page ids, and for every key and result list passed in:
`GetValue(key)` returns; the result list afterwards is the list passed in
followed, in probe order, by the values of the readable slots whose key
compares equal to `key` among the slots visited from the home slot
`hash(key) mod size` up to the first slot that is not occupied, at most once
around the table; and it returns `true` if and only if that list is not empty,
that is, if the list passed in was not empty or a value was appended. -/
theorem C14_lookup_result [DecidableEq V] {cfg : HashTableConfig K V}
    {dm : DiskManager D (PageData K V)}
    {next : D → Int} (laws : DiskLaws dm) (al : AllocLaws dm next)
    {ht : LinearProbeHashTable D K V} (hr : Reachable cfg dm ht)
    (hspare : Spare ht.buffer_pool_manager) (key : K) (result : List V) :
    ∃ (b : Bool) (ht' : LinearProbeHashTable D K V),
      GetValue cfg dm ht key result
        = some (b, result ++ matchingValues cfg (blocksOf cfg dm ht) key
            (cfg.hash_fn key % slots cfg dm ht), ht') ∧
      (b = true ↔ (result ≠ [] ∨ matchingValues cfg (blocksOf cfg dm ht) key
            (cfg.hash_fn key % slots cfg dm ht) ≠ [])) := by
  obtain ⟨hp, blocks, hv⟩ := hr.tableInv laws al
  obtain ⟨ht', hg, -⟩ := GetValue_value laws al hv hspare key result
  rw [hv.blocksOf_eq, hv.slots_eq]
  refine ⟨_, ht', hg, ?_⟩
  cases result with
  | nil =>
    cases matchingValues cfg blocks key
      (cfg.hash_fn key % (blocks.length * cfg.BLOCK_ARRAY_SIZE)) <;> simp
  | cons a rest => simp

end LinearProbeHashTable

theorem scenarioTable_spare :
    LinearProbeHashTable.Spare scenarioTable.buffer_pool_manager := by
  unfold LinearProbeHashTable.Spare
  decide

set_option maxRecDepth 100000 in
theorem collidingTable_spare :
    LinearProbeHashTable.Spare collidingTable.buffer_pool_manager := by
  unfold LinearProbeHashTable.Spare
  decide

/-- C14, at a concrete input: on the table holding `(1, 1)` and `(5, 7)`,
`GetValue(5)` with the result list `[9]` passed in returns with the matching
values appended. -/
theorem C14_lookup_result_witness :
    ∃ (b : Bool) (ht' : LinearProbeHashTable (PageDisk (PageData Nat Nat)) Nat Nat),
      LinearProbeHashTable.GetValue collidingConfig (pageDisk (PageData Nat Nat))
          collidingTable 5 [9]
        = some (b, [9] ++ LinearProbeHashTable.matchingValues collidingConfig
            (LinearProbeHashTable.blocksOf collidingConfig (pageDisk (PageData Nat Nat))
              collidingTable) 5
            (collidingConfig.hash_fn 5 % LinearProbeHashTable.slots collidingConfig
              (pageDisk (PageData Nat Nat)) collidingTable), ht') ∧
      (b = true ↔ (([9] : List Nat) ≠ [] ∨
        LinearProbeHashTable.matchingValues collidingConfig
            (LinearProbeHashTable.blocksOf collidingConfig (pageDisk (PageData Nat Nat))
              collidingTable) 5
            (collidingConfig.hash_fn 5 % LinearProbeHashTable.slots collidingConfig
              (pageDisk (PageData Nat Nat)) collidingTable) ≠ [])) :=
  LinearProbeHashTable.C14_lookup_result (pageDisk_laws _) (pageDisk_alloc _)
    collidingTable_reachable collidingTable_spare 5 [9]

set_option maxRecDepth 100000 in
/-- C14 as claimed fails: on the freshly built table, which stores nothing,
`GetValue(5)` with the result list `[9]` passed in appends no value (no slot
matches, the list is `[9]` afterwards) and returns `true`. -/
theorem C14_lookup_result_counterexample :
    LinearProbeHashTable.Reachable collidingConfig (pageDisk (PageData Nat Nat))
      scenarioTable ∧
    LinearProbeHashTable.matchingValues collidingConfig
      (LinearProbeHashTable.blocksOf collidingConfig (pageDisk (PageData Nat Nat))
        scenarioTable) 5
      (collidingConfig.hash_fn 5 % LinearProbeHashTable.slots collidingConfig
        (pageDisk (PageData Nat Nat)) scenarioTable) = [] ∧
    (LinearProbeHashTable.GetValue collidingConfig (pageDisk (PageData Nat Nat))
      scenarioTable 5 [9]).map (fun r => (r.1, r.2.1)) = some (true, [9]) :=
  ⟨scenarioTable_reachable, by decide, by decide⟩

/-! ## Resize -/

set_option maxRecDepth 100000 in
theorem scenarioInserted_reachable :
    LinearProbeHashTable.Reachable collidingConfig (pageDisk (PageData Nat Nat))
      scenarioInserted := by
  have h1 : LinearProbeHashTable.Insert collidingConfig (pageDisk (PageData Nat Nat)) 1
      scenarioTable 5 7 = some (true, scenarioInserted) := by decide
  exact LinearProbeHashTable.Reachable.insert 1 5 7 scenarioTable_reachable h1

set_option maxRecDepth 100000 in
/-- C15 (Resize preserves contents) fails on the code: the table built for two
buckets holds the pair `(5, 7)` after `Insert(5, 7)` (`GetValue(5)` gives
`[7]`); `Resize(4)` returns a table of two block pages in which no slot is
occupied or readable, and `GetValue(5)` gives nothing.  The loop over the old
block pages fetches the old header page in place of each block page, and a
header page read through the block page layout has no readable slot. -/
theorem C15_resize_contents_failing_input :
    LinearProbeHashTable.Reachable collidingConfig (pageDisk (PageData Nat Nat))
      scenarioInserted ∧
    LinearProbeHashTable.blocksOf collidingConfig (pageDisk (PageData Nat Nat))
      scenarioInserted = [⟨[1], [1], [(5, 7), (0, 0), (0, 0), (0, 0)]⟩] ∧
    scenarioLookup scenarioInserted 5 = some (true, [7]) ∧
    LinearProbeHashTable.Resize collidingConfig (pageDisk (PageData Nat Nat)) 8
      scenarioInserted 4 = some resizedTable ∧
    LinearProbeHashTable.blocksOf collidingConfig (pageDisk (PageData Nat Nat))
      resizedTable = [⟨[0], [0], [(0, 0), (0, 0), (0, 0), (0, 0)]⟩,
        ⟨[0], [0], [(0, 0), (0, 0), (0, 0), (0, 0)]⟩] ∧
    scenarioLookup resizedTable 5 = some (false, []) :=
  ⟨scenarioInserted_reachable, by decide, by decide, by decide, by decide, by decide⟩

set_option maxRecDepth 100000 in
/-- C17 (pinning discipline of the index) fails on the code: before
`Resize(4)` no frame of the pool is pinned and the header page 1 sits in frame
2; after it page 1 is still in the page table, in frame 2, with pin count 1.
`Resize` fetches the old header page once before the loop and once more for
each old block page, unpins it once, and its `DeletePage` then finds it
pinned. -/
theorem C17_resize_pins_failing_input :
    LinearProbeHashTable.Reachable collidingConfig (pageDisk (PageData Nat Nat))
      scenarioInserted ∧
    scenarioInserted.header_page_id = 1 ∧
    scenarioInserted.buffer_pool_manager.page_table.find 1 = some 2 ∧
    BufferPoolManager.pinList scenarioInserted.buffer_pool_manager = [0, 0, 0, 0] ∧
    LinearProbeHashTable.Resize collidingConfig (pageDisk (PageData Nat Nat)) 8
      scenarioInserted 4 = some resizedTable ∧
    resizedTable.header_page_id = 3 ∧
    resizedTable.buffer_pool_manager.page_table.find 1 = some 2 ∧
    BufferPoolManager.pinList resizedTable.buffer_pool_manager = [0, 0, 1, 0] :=
  ⟨scenarioInserted_reachable, by decide, by decide, by decide, by decide, by decide,
    by decide, by decide⟩

namespace LinearProbeHashTable

open BufferPoolManager

variable {D K V : Type}

/-- `Insert` with two frames to spare, when the loop over the block pages ends
without asking for a `Resize`, returns what the loop says. -/
theorem Insert_total [DecidableEq V] {cfg : HashTableConfig K V}
    {dm : DiskManager D (PageData K V)}
    {next : D → Int} (laws : DiskLaws dm) (al : AllocLaws dm next)
    {ht : LinearProbeHashTable D K V} {hp : HashTableHeaderPage}
    {blocks : List (HashTableBlockPage K V)} (hv : TableInv cfg dm next ht hp blocks)
    (hspare : Spare ht.buffer_pool_manager) (key : K) (value : V) {st : Int}
    {blocks' : List (HashTableBlockPage K V)}
    (hpure : pureInsertLoop cfg (cfg.hash_fn key % (blocks.length * cfg.BLOCK_ARRAY_SIZE))
      key value (blocks.length * cfg.BLOCK_ARRAY_SIZE) blocks
      (cfg.hash_fn key % (blocks.length * cfg.BLOCK_ARRAY_SIZE)) = some (st, blocks'))
    (hst : st ≠ -1) (fuel : Nat) :
    ∃ ht' : LinearProbeHashTable D K V,
      Insert cfg dm (fuel + 1) ht key value = some (decide (st = 1), ht') ∧
      TableInv cfg dm next ht' hp blocks' := by
  obtain ⟨ht0, hgs, hv0, e1, e2, e3⟩ := GetSize_total laws al hv hspare.hav
  have hsp0 : Spare ht0.buffer_pool_manager := hspare.keep e2 e3
  have hsim := insertLoop_sim laws al hp
    (cfg.hash_fn key % (blocks.length * cfg.BLOCK_ARRAY_SIZE)) key value
    (blocks.length * cfg.BLOCK_ARRAY_SIZE) ht0 blocks
    (cfg.hash_fn key % (blocks.length * cfg.BLOCK_ARRAY_SIZE)) hv0 hsp0
    (Nat.mod_lt _ hv.nonempty)
  rw [hpure] at hsim
  obtain ⟨ht1, g1, g2, -⟩ := hsim
  refine ⟨ht1, ?_, g2⟩
  unfold Insert
  simp only [hgs]
  rw [if_neg (by have := hv.nonempty; omega)]
  simp only [g1, if_neg hst]

/-- The number of block pages whose slots just cover `m` slots. -/
theorem blocks_cover {n bas m : Nat} (hbas : 0 < bas) (hm : 0 < m)
    (hge : ¬ (n * bas < m)) (hmin : (n - 1) * bas < m) :
    n * bas = (m + bas - 1) / bas * bas := by
  have hn : 1 ≤ n := by
    rcases Nat.eq_zero_or_pos n with e | e
    · subst e
      simp at hge
      omega
    · exact e
  have hsplit : n * bas = (n - 1) * bas + bas := by
    conv_lhs => rw [← Nat.sub_add_cancel hn, Nat.add_mul, Nat.one_mul]
  have hdiv : (m + bas - 1) / bas = n := by
    apply Nat.div_eq_of_lt_le
    · omega
    · rw [Nat.succ_mul]
      omega
  rw [hdiv]

end LinearProbeHashTable

namespace LinearProbeHashTable

open BufferPoolManager

variable {D K V : Type}

/-- C16 (size after Resize), as the code has it.  For every hash table state
reachable from construction by `Insert`, `Remove` and `GetValue` calls, over a
disk that keeps what is written and hands out increasing page ids, and every
`S ≥ 1`: if `Resize(S)` returns and leaves two frames to spare, then with `n`
the least multiple of `BLOCK_ARRAY_SIZE` that is at least `2 * S` (the slots of
whole block pages), the new table has `n` slots, `GetSize()` returns `n`, and
`GetValue`, `Insert` and `Remove` work from the home slot `hash(key) mod n`:
`GetValue` appends the matching values of the slots visited from there, and
`Insert` (when its loop does not ask for another `Resize`) and `Remove` return
what their loops over the block pages, started there, compute. -/
theorem C16_size_after_resize [DecidableEq V] {cfg : HashTableConfig K V}
    {dm : DiskManager D (PageData K V)}
    {next : D → Int} (laws : DiskLaws dm) (al : AllocLaws dm next)
    {ht ht' : LinearProbeHashTable D K V} (hr : Reachable cfg dm ht)
    {S : Nat} (hS : 1 ≤ S) {fuel : Nat} (hres : Resize cfg dm fuel ht S = some ht')
    (hspare : Spare ht'.buffer_pool_manager) :
    ∃ n : Nat,
      n = (2 * S + cfg.BLOCK_ARRAY_SIZE - 1) / cfg.BLOCK_ARRAY_SIZE * cfg.BLOCK_ARRAY_SIZE ∧
      slots cfg dm ht' = n ∧
      (∃ ht'', GetSize cfg dm ht' = some (n, ht'')) ∧
      (∀ (key : K) (result : List V), ∃ (b : Bool) (ht'' : LinearProbeHashTable D K V),
        GetValue cfg dm ht' key result
          = some (b, result ++ matchingValues cfg (blocksOf cfg dm ht') key
              (cfg.hash_fn key % n), ht'')) ∧
      (∀ (key : K) (value : V) (st : Int) (blocks'' : List (HashTableBlockPage K V))
        (fuel' : Nat),
        pureInsertLoop cfg (cfg.hash_fn key % n) key value n (blocksOf cfg dm ht')
          (cfg.hash_fn key % n) = some (st, blocks'') → st ≠ -1 →
        ∃ ht'', Insert cfg dm (fuel' + 1) ht' key value = some (decide (st = 1), ht'') ∧
          blocksOf cfg dm ht'' = blocks'') ∧
      (∀ (key : K) (value : V) (st : Int) (blocks'' : List (HashTableBlockPage K V)),
        pureRemoveLoop cfg (cfg.hash_fn key % n) key value n (blocksOf cfg dm ht')
          (cfg.hash_fn key % n) = some (st, blocks'') →
        ∃ ht'', Remove cfg dm ht' key value = some (decide (st = 1), ht'') ∧
          blocksOf cfg dm ht'' = blocks'') := by
  obtain ⟨hp, blocks, hv⟩ := hr.tableInv laws al
  obtain ⟨hp', blocks', hv', hge, hmin⟩ :=
    Resize_inv laws al hv.inv hv.coh hv.fresh hv.header_valid hv.header_lt hS hres
  have hbas : 0 < cfg.BLOCK_ARRAY_SIZE := by
    have := hv'.nonempty
    exact Nat.pos_of_mul_pos_left this
  have hn : blocks'.length * cfg.BLOCK_ARRAY_SIZE
      = (2 * S + cfg.BLOCK_ARRAY_SIZE - 1) / cfg.BLOCK_ARRAY_SIZE * cfg.BLOCK_ARRAY_SIZE :=
    blocks_cover hbas (by omega) hge hmin
  refine ⟨blocks'.length * cfg.BLOCK_ARRAY_SIZE, hn, hv'.slots_eq, ?_, ?_, ?_, ?_⟩
  · obtain ⟨ht0, hgs, -⟩ := GetSize_total laws al hv' hspare.hav
    exact ⟨ht0, hgs⟩
  · intro key result
    obtain ⟨ht'', hg, -⟩ := GetValue_value laws al hv' hspare key result
    rw [hv'.blocksOf_eq]
    exact ⟨_, ht'', hg⟩
  · intro key value st blocks'' fuel' hpure hst
    rw [hv'.blocksOf_eq] at hpure
    obtain ⟨ht'', hins, hv''⟩ := Insert_total laws al hv' hspare key value hpure hst fuel'
    exact ⟨ht'', hins, hv''.blocksOf_eq⟩
  · intro key value st blocks'' hpure
    rw [hv'.blocksOf_eq] at hpure
    obtain ⟨ht'', hrem, hv'', -⟩ := Remove_total laws al hv' hspare key value hpure
    exact ⟨ht'', hrem, hv''.blocksOf_eq⟩

end LinearProbeHashTable

set_option maxRecDepth 100000 in
theorem resizedTable_spare :
    LinearProbeHashTable.Spare resizedTable.buffer_pool_manager := by
  unfold LinearProbeHashTable.Spare
  decide

set_option maxRecDepth 100000 in
theorem resizedTable_eq :
    LinearProbeHashTable.Resize collidingConfig (pageDisk (PageData Nat Nat)) 8
      scenarioInserted 4 = some resizedTable := by decide

/-- C16, at a concrete input: `Resize(4)` on the table of one block page of
four slots returns a table of `8 = 2 * 4` slots. -/
theorem C16_size_after_resize_witness :
    ∃ n : Nat,
      n = (2 * 4 + collidingConfig.BLOCK_ARRAY_SIZE - 1) / collidingConfig.BLOCK_ARRAY_SIZE
        * collidingConfig.BLOCK_ARRAY_SIZE ∧
      LinearProbeHashTable.slots collidingConfig (pageDisk (PageData Nat Nat))
        resizedTable = n ∧
      (∃ ht'', LinearProbeHashTable.GetSize collidingConfig (pageDisk (PageData Nat Nat))
        resizedTable = some (n, ht'')) ∧
      (∀ (key : Nat) (result : List Nat), ∃ (b : Bool)
        (ht'' : LinearProbeHashTable (PageDisk (PageData Nat Nat)) Nat Nat),
        LinearProbeHashTable.GetValue collidingConfig (pageDisk (PageData Nat Nat))
            resizedTable key result
          = some (b, result ++ LinearProbeHashTable.matchingValues collidingConfig
              (LinearProbeHashTable.blocksOf collidingConfig (pageDisk (PageData Nat Nat))
                resizedTable) key
              (collidingConfig.hash_fn key % n), ht'')) ∧
      (∀ (key : Nat) (value : Nat) (st : Int)
        (blocks'' : List (HashTableBlockPage Nat Nat)) (fuel' : Nat),
        LinearProbeHashTable.pureInsertLoop collidingConfig
          (collidingConfig.hash_fn key % n) key value n
          (LinearProbeHashTable.blocksOf collidingConfig (pageDisk (PageData Nat Nat))
            resizedTable)
          (collidingConfig.hash_fn key % n) = some (st, blocks'') → st ≠ -1 →
        ∃ ht'', LinearProbeHashTable.Insert collidingConfig (pageDisk (PageData Nat Nat))
            (fuel' + 1) resizedTable key value = some (decide (st = 1), ht'') ∧
          LinearProbeHashTable.blocksOf collidingConfig (pageDisk (PageData Nat Nat)) ht''
            = blocks'') ∧
      (∀ (key : Nat) (value : Nat) (st : Int)
        (blocks'' : List (HashTableBlockPage Nat Nat)),
        LinearProbeHashTable.pureRemoveLoop collidingConfig
          (collidingConfig.hash_fn key % n) key value n
          (LinearProbeHashTable.blocksOf collidingConfig (pageDisk (PageData Nat Nat))
            resizedTable)
          (collidingConfig.hash_fn key % n) = some (st, blocks'') →
        ∃ ht'', LinearProbeHashTable.Remove collidingConfig (pageDisk (PageData Nat Nat))
            resizedTable key value = some (decide (st = 1), ht'') ∧
          LinearProbeHashTable.blocksOf collidingConfig (pageDisk (PageData Nat Nat)) ht''
            = blocks'') :=
  LinearProbeHashTable.C16_size_after_resize (pageDisk_laws _) (pageDisk_alloc _)
    scenarioInserted_reachable (by decide) resizedTable_eq resizedTable_spare

set_option maxRecDepth 100000 in
/-- C16 as claimed fails: `Resize(1)` on the table of one block page of four
slots returns a table whose header says size `2 = 2 * 1` and lists one block
page, and `GetSize()` then returns 4, the slots of the block page. -/
theorem C16_size_after_resize_counterexample :
    LinearProbeHashTable.Reachable collidingConfig (pageDisk (PageData Nat Nat))
      scenarioInserted ∧
    LinearProbeHashTable.Resize collidingConfig (pageDisk (PageData Nat Nat)) 8
      scenarioInserted 1 = some roundedTable ∧
    LinearProbeHashTable.headerOf (pageDisk (PageData Nat Nat)) roundedTable
      = some ⟨3, 2, [4]⟩ ∧
    (LinearProbeHashTable.GetSize collidingConfig (pageDisk (PageData Nat Nat))
      roundedTable).map Prod.fst = some 4 :=
  ⟨scenarioInserted_reachable, by decide, by decide, by decide⟩

/-! ## Clock replacer: reachable states -/

namespace ClockReplacer

/-- The loop of `Victim` takes one off the counter. -/
theorem victimLoop_counter (fuel : Nat) :
    ∀ {r r' : ClockReplacer} {f : Nat}, victimLoop fuel r = some (f, r') →
      r'.ClockReplacer_frame_counter = r.ClockReplacer_frame_counter - 1 := by
  induction fuel with
  | zero => intro r r' f h; simp [victimLoop] at h
  | succ fuel ih =>
    intro r r' f h
    cases hit : r.clock_vector[r.clock_hand]? with
    | none => rw [victimLoop] at h; simp [hit] at h
    | some it =>
      rw [victimLoop_succ _ _ it hit] at h
      by_cases c1 : ((!it.pin_flag) && (!it.ref_flag)) = true
      · rw [if_pos c1] at h
        injection h with h
        injection h with h1 h2
        subst h2
        have hp : it.pin_flag = false := by
          cases hq : it.pin_flag <;> simp [hq] at c1 ⊢
        simp [hp]
      · rw [if_neg c1] at h
        by_cases c2 : ((!it.pin_flag) && it.ref_flag) = true
        · rw [if_pos c2] at h
          have := ih h
          simpa using this
        · rw [if_neg c2] at h
          have := ih h
          simpa using this

/-- Every reachable replacer over `n` frames has `n` items, a counter that
agrees with the pin flags, and its hand inside the vector. -/
theorem Reachable.replacer_inv {n : Nat} {ref0 : Bool} {r : ClockReplacer}
    (hr : Reachable n ref0 r) :
    r.clock_vector.length = n ∧ r.CounterOk ∧ (r.clock_hand < n ∨ n = 0) := by
  induction hr with
  | init =>
    refine ⟨by simp [ClockReplacer.new], ?_, ?_⟩
    · unfold CounterOk
      simp [ClockReplacer.new, List.countP_replicate]
    · simp only [ClockReplacer.new]
      omega
  | pin f _ _ h ih =>
    obtain ⟨-, b, c, -, e⟩ := Pin_props h
    exact ⟨by rw [b]; exact ih.1, e ih.2.1, by rw [c]; exact ih.2.2⟩
  | unpin f _ _ h ih =>
    obtain ⟨-, b, c, -, e⟩ := Unpin_props h
    exact ⟨by rw [b]; exact ih.1, e ih.2.1, by rw [c]; exact ih.2.2⟩
  | victim hr0 h ih =>
    rename_i r0 r1 o
    cases o with
    | none =>
      obtain ⟨-, e⟩ := (Victim_none_iff _ _).1 h
      rw [e]
      exact ih
    | some f =>
      obtain ⟨-, hl⟩ := Victim_some h
      obtain ⟨a, b, c, -, -, e⟩ := victimLoop_props _ hl
      refine ⟨by rw [b]; exact ih.1, e ih.2.1, Or.inl ?_⟩
      rw [c, ← ih.1]
      exact a

/-- A sequence of calls with frames in `[0, n)` that all return leads from a
reachable replacer to a reachable replacer. -/
theorem Reachable.of_calls {n : Nat} {ref0 : Bool} (cs : List Call) :
    ∀ {r r' : ClockReplacer}, Reachable n ref0 r → cs.all (Call.ok n) = true →
      calls r cs = some r' → Reachable n ref0 r' := by
  induction cs with
  | nil =>
    intro r r' hr _ h
    simp only [calls] at h
    injection h with h
    subst h
    exact hr
  | cons c cs ih =>
    intro r r' hr hok h
    simp only [List.all_cons, Bool.and_eq_true] at hok
    simp only [calls] at h
    split at h
    · simp at h
    · rename_i r1 hc
      apply ih _ hok.2 h
      cases c with
      | pin f =>
        exact Reachable.pin f hr (by simpa [Call.ok] using hok.1) hc
      | unpin f =>
        exact Reachable.unpin f hr (by simpa [Call.ok] using hok.1) hc
      | victim =>
        simp only [call] at hc
        cases hv : r.Victim with
        | none => simp [hv] at hc
        | some x =>
          obtain ⟨o, r2⟩ := x
          simp only [hv, Option.map_some', Option.some.injEq] at hc
          subst hc
          exact Reachable.victim hr hv

end ClockReplacer

namespace ClockReplacer

theorem Pin_size {r r' : ClockReplacer} {f : Nat} (h : r.Pin f = some r') :
    r'.Size = if r.pinFlag f = some false then r.Size - 1 else r.Size := by
  unfold Pin at h
  cases hit : r.clock_vector[f]? with
  | none => simp [hit] at h
  | some it =>
    simp only [hit] at h
    injection h with h
    subst h
    simp only [Size, pinFlag, hit, Option.map_some', Option.some.injEq]
    cases it.pin_flag <;> simp

theorem Unpin_size {r r' : ClockReplacer} {f : Nat} (h : r.Unpin f = some r') :
    r'.Size = if r.pinFlag f = some true then r.Size + 1 else r.Size := by
  unfold Unpin at h
  cases hit : r.clock_vector[f]? with
  | none => simp [hit] at h
  | some it =>
    simp only [hit] at h
    injection h with h
    subst h
    simp only [Size, pinFlag, hit, Option.map_some', Option.some.injEq]

/-- `Unpin` leaves the reference flag of every frame as it was. -/
theorem Unpin_refFlag {r r' : ClockReplacer} {f : Nat} (h : r.Unpin f = some r') (g : Nat) :
    r'.refFlag g = r.refFlag g := by
  unfold Unpin at h
  cases hit : r.clock_vector[f]? with
  | none => simp [hit] at h
  | some it =>
    simp only [hit] at h
    obtain ⟨hf, -⟩ := List.getElem?_eq_some.1 hit
    injection h with h
    subst h
    simp only [refFlag, List.getElem?_set]
    by_cases hg : f = g
    · subst hg
      simp [hf, hit]
    · simp [hg]

/-- `Pin` sets the reference flag of the frame. -/
theorem Pin_refFlag {r r' : ClockReplacer} {f : Nat} (h : r.Pin f = some r') :
    r'.refFlag f = some true := by
  unfold Pin at h
  cases hit : r.clock_vector[f]? with
  | none => simp [hit] at h
  | some it =>
    simp only [hit] at h
    obtain ⟨hf, -⟩ := List.getElem?_eq_some.1 hit
    injection h with h
    subst h
    simp [refFlag, hf]

/-- C18 (Victim totality).  For every replacer state reachable from the
constructed replacer over `n` frames by `Pin(f)`, `Unpin(f)` with `f < n` and
`Victim` calls: `Victim` returns; it returns no frame if and only if
`Size() = 0`, and then changes nothing; and when it returns a frame `f`,
then `f < n` and the clock scan has ended within `2 * n + 1` iterations of its
loop, each of which but the last advances the hand once, that is, after at
most `2 * n` hand advances. -/
theorem C18_victim_totality {n : Nat} {ref0 : Bool} {r : ClockReplacer}
    (hr : Reachable n ref0 r) :
    ∃ (o : Option Nat) (r' : ClockReplacer), r.Victim = some (o, r') ∧
      (o = none ↔ r.Size = 0) ∧ (o = none → r' = r) ∧
      (∀ f, o = some f → f < n ∧ victimLoop (2 * n + 1) r = some (f, r')) := by
  obtain ⟨hlen, hc, hh⟩ := hr.replacer_inv
  rcases Victim_total r hc (by rw [hlen]; exact hh) with ⟨h0, hv⟩ | ⟨h0, f, r', hv⟩
  · refine ⟨none, r, hv, ?_, fun _ => rfl, ?_⟩
    · simp [Size, h0]
    · intro f hf
      simp at hf
  · obtain ⟨-, hl⟩ := Victim_some hv
    obtain ⟨a, -⟩ := victimLoop_props _ hl
    refine ⟨some f, r', hv, ?_, ?_, ?_⟩
    · simp [Size, h0]
    · intro e
      simp at e
    · intro g hg
      injection hg with hg
      subst hg
      rw [hlen] at a hl
      exact ⟨a, hl⟩

/-- C19 (replacer size invariant).  In every replacer state reachable from
the constructed replacer over `n` frames by `Pin(f)`, `Unpin(f)` with `f < n`
and `Victim` calls, `Size()` is the number of frames whose pin flag is false;
`Pin(f)` takes one off the size if the frame was unpinned and leaves it
otherwise, `Unpin(f)` adds one if the frame was pinned and leaves it
otherwise, and a `Victim` that returns a frame takes exactly one off. -/
theorem C19_size_invariant {n : Nat} {ref0 : Bool} {r : ClockReplacer}
    (hr : Reachable n ref0 r) :
    r.Size = r.unpinnedCount ∧
    (∀ f, f < n → ∃ r', r.Pin f = some r' ∧
      (r.pinFlag f = some false → r'.Size + 1 = r.Size) ∧
      (r.pinFlag f = some true → r'.Size = r.Size)) ∧
    (∀ f, f < n → ∃ r', r.Unpin f = some r' ∧
      (r.pinFlag f = some true → r'.Size = r.Size + 1) ∧
      (r.pinFlag f = some false → r'.Size = r.Size)) ∧
    (∀ f r', r.Victim = some (some f, r') → r'.Size + 1 = r.Size) := by
  obtain ⟨hlen, hc, hh⟩ := hr.replacer_inv
  refine ⟨hc, ?_, ?_, ?_⟩
  · intro f hf
    obtain ⟨r', h⟩ := Pin_isSome r (by rw [hlen]; exact hf)
    refine ⟨r', h, ?_, ?_⟩
    · intro hp
      have h0 := counter_pos_of_unpinned hc hp
      rw [Pin_size h, if_pos hp]
      simp only [Size]
      omega
    · intro hp
      rw [Pin_size h, if_neg (by rw [hp]; simp)]
  · intro f hf
    obtain ⟨r', h⟩ := Unpin_isSome r (by rw [hlen]; exact hf)
    refine ⟨r', h, ?_, ?_⟩
    · intro hp
      rw [Unpin_size h, if_pos hp]
    · intro hp
      rw [Unpin_size h, if_neg (by rw [hp]; simp)]
  · intro f r' hv
    obtain ⟨h0, hl⟩ := Victim_some hv
    have := victimLoop_counter _ hl
    simp only [Size]
    omega

/-- C20 (Unpin and the reference bit), as the code has it.  For every
replacer state reachable from construction over `n` frames by `Pin`, `Unpin`
and `Victim` calls and every frame `f < n`: `Unpin(f)` returns, afterwards
frame `f` is in the candidate set (pin flag false), and the reference flag of
every frame is what it was before the call; it is true for `f` when the call
follows a `Pin(f)`. -/
theorem C20_unpin_reference_bit {n : Nat} {ref0 : Bool} {r : ClockReplacer}
    (hr : Reachable n ref0 r) {f : Nat} (hf : f < n) :
    ∃ r', r.Unpin f = some r' ∧ r'.pinFlag f = some false ∧
      (∀ g, r'.refFlag g = r.refFlag g) ∧
      (∀ r0 : ClockReplacer, r0.Pin f = some r → r'.refFlag f = some true) := by
  obtain ⟨hlen, -, -⟩ := hr.replacer_inv
  obtain ⟨r', h⟩ := Unpin_isSome r (by rw [hlen]; exact hf)
  obtain ⟨-, -, -, hp, -⟩ := Unpin_props h
  refine ⟨r', h, by rw [hp f, if_pos rfl], Unpin_refFlag h, ?_⟩
  intro r0 h0
  rw [Unpin_refFlag h, Pin_refFlag h0]

end ClockReplacer

/-! ## Clock replacer: concrete scenarios -/

/-- C18, at a concrete input: over two frames, after `Unpin(0)`, `Victim`
returns. -/
theorem C18_victim_totality_witness :
    ∃ (o : Option Nat) (r' : ClockReplacer),
      (ClockReplacer.scenario false [ClockReplacer.Call.unpin 0]).Victim = some (o, r') ∧
      (o = none ↔ (ClockReplacer.scenario false [ClockReplacer.Call.unpin 0]).Size = 0) ∧
      (o = none → r' = ClockReplacer.scenario false [ClockReplacer.Call.unpin 0]) ∧
      (∀ f, o = some f → f < 2 ∧
        ClockReplacer.victimLoop (2 * 2 + 1)
          (ClockReplacer.scenario false [ClockReplacer.Call.unpin 0]) = some (f, r')) :=
  ClockReplacer.C18_victim_totality
    (ClockReplacer.Reachable.of_calls [ClockReplacer.Call.unpin 0]
      (ClockReplacer.Reachable.init : ClockReplacer.Reachable 2 false _)
      (by decide) (by decide))

/-- C19, at a concrete input: over two frames, after `Unpin(0)`, `Unpin(1)`,
`Pin(0)`. -/
theorem C19_size_invariant_witness :
    (ClockReplacer.scenario false [ClockReplacer.Call.unpin 0, ClockReplacer.Call.unpin 1,
      ClockReplacer.Call.pin 0]).Size
      = (ClockReplacer.scenario false [ClockReplacer.Call.unpin 0,
          ClockReplacer.Call.unpin 1, ClockReplacer.Call.pin 0]).unpinnedCount ∧
    (∀ f, f < 2 → ∃ r',
      (ClockReplacer.scenario false [ClockReplacer.Call.unpin 0, ClockReplacer.Call.unpin 1,
        ClockReplacer.Call.pin 0]).Pin f = some r' ∧
      ((ClockReplacer.scenario false [ClockReplacer.Call.unpin 0, ClockReplacer.Call.unpin 1,
        ClockReplacer.Call.pin 0]).pinFlag f = some false →
        r'.Size + 1 = (ClockReplacer.scenario false [ClockReplacer.Call.unpin 0,
          ClockReplacer.Call.unpin 1, ClockReplacer.Call.pin 0]).Size) ∧
      ((ClockReplacer.scenario false [ClockReplacer.Call.unpin 0, ClockReplacer.Call.unpin 1,
        ClockReplacer.Call.pin 0]).pinFlag f = some true →
        r'.Size = (ClockReplacer.scenario false [ClockReplacer.Call.unpin 0,
          ClockReplacer.Call.unpin 1, ClockReplacer.Call.pin 0]).Size)) ∧
    (∀ f, f < 2 → ∃ r',
      (ClockReplacer.scenario false [ClockReplacer.Call.unpin 0, ClockReplacer.Call.unpin 1,
        ClockReplacer.Call.pin 0]).Unpin f = some r' ∧
      ((ClockReplacer.scenario false [ClockReplacer.Call.unpin 0, ClockReplacer.Call.unpin 1,
        ClockReplacer.Call.pin 0]).pinFlag f = some true →
        r'.Size = (ClockReplacer.scenario false [ClockReplacer.Call.unpin 0,
          ClockReplacer.Call.unpin 1, ClockReplacer.Call.pin 0]).Size + 1) ∧
      ((ClockReplacer.scenario false [ClockReplacer.Call.unpin 0, ClockReplacer.Call.unpin 1,
        ClockReplacer.Call.pin 0]).pinFlag f = some false →
        r'.Size = (ClockReplacer.scenario false [ClockReplacer.Call.unpin 0,
          ClockReplacer.Call.unpin 1, ClockReplacer.Call.pin 0]).Size)) ∧
    (∀ f r',
      (ClockReplacer.scenario false [ClockReplacer.Call.unpin 0, ClockReplacer.Call.unpin 1,
        ClockReplacer.Call.pin 0]).Victim = some (some f, r') →
      r'.Size + 1 = (ClockReplacer.scenario false [ClockReplacer.Call.unpin 0,
        ClockReplacer.Call.unpin 1, ClockReplacer.Call.pin 0]).Size) :=
  ClockReplacer.C19_size_invariant
    (ClockReplacer.Reachable.of_calls
      [ClockReplacer.Call.unpin 0, ClockReplacer.Call.unpin 1, ClockReplacer.Call.pin 0]
      (ClockReplacer.Reachable.init : ClockReplacer.Reachable 2 false _)
      (by decide) (by decide))

/-- C20, at a concrete input: over two frames, `Unpin(1)` after `Pin(1)`
leaves frame 1 unpinned with its reference flag set. -/
theorem C20_unpin_reference_bit_witness :
    ∃ r', (ClockReplacer.scenario false [ClockReplacer.Call.pin 1]).Unpin 1 = some r' ∧
      r'.pinFlag 1 = some false ∧
      (∀ g, r'.refFlag g
        = (ClockReplacer.scenario false [ClockReplacer.Call.pin 1]).refFlag g) ∧
      (∀ r0 : ClockReplacer,
        r0.Pin 1 = some (ClockReplacer.scenario false [ClockReplacer.Call.pin 1]) →
        r'.refFlag 1 = some true) :=
  ClockReplacer.C20_unpin_reference_bit
    (ClockReplacer.Reachable.of_calls [ClockReplacer.Call.pin 1]
      (ClockReplacer.Reachable.init : ClockReplacer.Reachable 2 false _)
      (by decide) (by decide))
    (by decide)

/-- C20 as claimed fails, whatever the initial reference flag (`false` or
`true`): over two frames, after `Pin(0)`, `Pin(1)`, `Unpin(0)`, `Unpin(1)` and
a `Victim` (which clears both reference flags on its way and returns frame 0),
frame 1 is unpinned and not referenced, and after `Unpin(1)` it is in the
candidate set with its reference flag still false. -/
theorem C20_unpin_reference_bit_counterexample :
    (ClockReplacer.Reachable 2 false
        (ClockReplacer.scenario false [ClockReplacer.Call.pin 0, ClockReplacer.Call.pin 1,
          ClockReplacer.Call.unpin 0, ClockReplacer.Call.unpin 1,
          ClockReplacer.Call.victim]) ∧
      ((ClockReplacer.scenario false [ClockReplacer.Call.pin 0, ClockReplacer.Call.pin 1,
          ClockReplacer.Call.unpin 0, ClockReplacer.Call.unpin 1,
          ClockReplacer.Call.victim]).Unpin 1).map
        (fun r' => (r'.pinFlag 1, r'.refFlag 1)) = some (some false, some false)) ∧
    (ClockReplacer.Reachable 2 true
        (ClockReplacer.scenario true [ClockReplacer.Call.pin 0, ClockReplacer.Call.pin 1,
          ClockReplacer.Call.unpin 0, ClockReplacer.Call.unpin 1,
          ClockReplacer.Call.victim]) ∧
      ((ClockReplacer.scenario true [ClockReplacer.Call.pin 0, ClockReplacer.Call.pin 1,
          ClockReplacer.Call.unpin 0, ClockReplacer.Call.unpin 1,
          ClockReplacer.Call.victim]).Unpin 1).map
        (fun r' => (r'.pinFlag 1, r'.refFlag 1)) = some (some false, some false)) :=
  ⟨⟨ClockReplacer.Reachable.of_calls
      [ClockReplacer.Call.pin 0, ClockReplacer.Call.pin 1, ClockReplacer.Call.unpin 0,
        ClockReplacer.Call.unpin 1, ClockReplacer.Call.victim]
      ClockReplacer.Reachable.init (by decide) (by decide), by decide⟩,
    ⟨ClockReplacer.Reachable.of_calls
      [ClockReplacer.Call.pin 0, ClockReplacer.Call.pin 1, ClockReplacer.Call.unpin 0,
        ClockReplacer.Call.unpin 1, ClockReplacer.Call.victim]
      ClockReplacer.Reachable.init (by decide) (by decide), by decide⟩⟩

/-! ## Block page: slots and bits -/

namespace HashTableBlockPage

variable {K V : Type}

/-- `Clear` on a page of `n` slots gives a well formed page. -/
theorem Clear_WF {n : Nat} (bp : HashTableBlockPage K V)
    (ho : bp.occupied.length = (n - 1) / 8 + 1) (hr : bp.readable.length = (n - 1) / 8 + 1)
    (ha : bp.array.length = n) : bp.Clear.WF n where
  occupied_len := by simpa [Clear] using ho
  readable_len := by simpa [Clear] using hr
  array_len := by simpa [Clear] using ha
  readable_occupied := by
    intro i _ h
    have hz : ∀ (l : List Nat) (j : Nat), (l.map (fun _ => 0)).getD j 0 = 0 := by
      intro l j
      rw [List.getD_eq_getElem?_getD, List.getElem?_map]
      cases l[j]? <;> rfl
    simp only [rdBit, Clear, hz] at h
    simp at h

/-- `Remove` on a slot that is not occupied leaves the page as it is. -/
theorem Remove_unoccupied {n : Nat} {bp : HashTableBlockPage K V} (hwf : bp.WF n) {i : Nat}
    (hi : i < n) (ho : bp.occBit i = false) : bp.Remove i = some bp := by
  unfold Remove
  simp only [IsOccupied_eq hwf hi, ho]

/-- Every reachable block page is well formed. -/
theorem Reachable.block_wf {n : Nat} {bp : HashTableBlockPage K V} (hr : Reachable n bp) :
    bp.WF n := by
  induction hr with
  | clear bp ho hr ha => exact Clear_WF bp ho hr ha
  | insert i key value hr0 hi h ih =>
    rename_i b bp0 bp1
    cases hrd : bp0.rdBit i with
    | true =>
      rw [Insert_readable ih hi key value hrd] at h
      injection h with h
      injection h with _ h
      subst h
      exact ih
    | false =>
      obtain ⟨bp2, h2, hwf2, -⟩ := Insert_free ih hi key value hrd
      rw [h2] at h
      injection h with h
      injection h with _ h
      subst h
      exact hwf2
  | remove i _ _ h ih => exact Remove_WF ih h

theorem KeyAt_set {bp : HashTableBlockPage K V} {i : Nat} (hi : i < bp.array.length)
    (key : K) (value : V) (bp' : HashTableBlockPage K V)
    (h : bp'.array = bp.array.set i (key, value)) :
    bp'.KeyAt i = some key ∧ bp'.ValueAt i = some value ∧
      ∀ j, j ≠ i → bp'.KeyAt j = bp.KeyAt j ∧ bp'.ValueAt j = bp.ValueAt j := by
  refine ⟨by simp [KeyAt, h, hi], by simp [ValueAt, h, hi], ?_⟩
  intro j hj
  have : (bp.array.set i (key, value))[j]? = bp.array[j]? :=
    List.getElem?_set_ne (fun e => hj e.symm)
  simp [KeyAt, ValueAt, h, this]

/-- C21 (block-page slot insert).  For every block page of `n` slots
reachable from a cleared page by `Insert` and `Remove` calls, every slot
`i < n`, key and value: `Insert(i, key, value)` returns; it returns `true` if
and only if `IsReadable(i)` was false beforehand; when it returns `true`,
afterwards `IsOccupied(i)` and `IsReadable(i)` hold, `KeyAt(i) = key` and
`ValueAt(i) = value`; when it returns `false`, the occupied bit, readable bit,
key and value of slot `i` are as before. -/
theorem C21_slot_insert {n : Nat} {bp : HashTableBlockPage K V} (hr : Reachable n bp)
    {i : Nat} (hi : i < n) (key : K) (value : V) :
    ∃ (b : Bool) (bp' : HashTableBlockPage K V), bp.Insert i key value = some (b, bp') ∧
      (b = true ↔ bp.IsReadable i = some false) ∧
      (b = true → bp'.IsOccupied i = some true ∧ bp'.IsReadable i = some true ∧
        bp'.KeyAt i = some key ∧ bp'.ValueAt i = some value) ∧
      (b = false → bp'.IsOccupied i = bp.IsOccupied i ∧ bp'.IsReadable i = bp.IsReadable i ∧
        bp'.KeyAt i = bp.KeyAt i ∧ bp'.ValueAt i = bp.ValueAt i) := by
  have hwf := hr.block_wf
  cases hrd : bp.rdBit i with
  | true =>
    refine ⟨false, bp, Insert_readable hwf hi key value hrd, ?_, ?_, ?_⟩
    · rw [IsReadable_eq hwf hi, hrd]
      simp
    · intro h
      simp at h
    · intro _
      exact ⟨rfl, rfl, rfl, rfl⟩
  | false =>
    obtain ⟨bp', h, hwf', hocc, hrd', harr⟩ := Insert_free hwf hi key value hrd
    have hla : i < bp.array.length := by rw [hwf.array_len]; exact hi
    obtain ⟨hk, hv, -⟩ := KeyAt_set hla key value bp' harr
    refine ⟨true, bp', h, ?_, ?_, ?_⟩
    · rw [IsReadable_eq hwf hi, hrd]
      simp
    · intro _
      refine ⟨?_, ?_, hk, hv⟩
      · rw [IsOccupied_eq hwf' hi, hocc]
        simp
      · rw [IsReadable_eq hwf' hi, hrd']
        simp
    · intro h
      simp at h

end HashTableBlockPage

/-- C21, at a concrete input: on a cleared page of four slots, `Insert(1, 5,
7)` returns `true` and the slot then holds the pair. -/
theorem C21_slot_insert_witness :
    ∃ (b : Bool) (bp' : HashTableBlockPage Nat Nat),
      scenarioBlock.Insert 1 5 7 = some (b, bp') ∧
      (b = true ↔ scenarioBlock.IsReadable 1 = some false) ∧
      (b = true → bp'.IsOccupied 1 = some true ∧ bp'.IsReadable 1 = some true ∧
        bp'.KeyAt 1 = some 5 ∧ bp'.ValueAt 1 = some 7) ∧
      (b = false → bp'.IsOccupied 1 = scenarioBlock.IsOccupied 1 ∧
        bp'.IsReadable 1 = scenarioBlock.IsReadable 1 ∧
        bp'.KeyAt 1 = scenarioBlock.KeyAt 1 ∧ bp'.ValueAt 1 = scenarioBlock.ValueAt 1) :=
  HashTableBlockPage.C21_slot_insert
    (HashTableBlockPage.Reachable.clear
      (⟨[0], [0], [(0, 0), (0, 0), (0, 0), (0, 0)]⟩ : HashTableBlockPage Nat Nat)
      rfl rfl rfl : HashTableBlockPage.Reachable 4 scenarioBlock)
    (by decide : 1 < 4) 5 7

namespace HashTableBlockPage

variable {K V : Type}

theorem occupiedBit_eq (bp : HashTableBlockPage K V) {b t : Nat} (ht : t < 8) :
    bp.occupiedBit b t = bp.occBit (8 * b + t) := by
  have h1 : (8 * b + t) / 8 = b := by omega
  have h2 : (8 * b + t) % 8 = t := by omega
  simp only [occupiedBit, occBit, h1, h2]

theorem readableBit_eq (bp : HashTableBlockPage K V) {b t : Nat} (ht : t < 8) :
    bp.readableBit b t = bp.rdBit (8 * b + t) := by
  have h1 : (8 * b + t) / 8 = b := by omega
  have h2 : (8 * b + t) % 8 = t := by omega
  simp only [readableBit, rdBit, h1, h2]

theorem slot_ne_of_bit_ne {i b t : Nat} (ht : t < 8) (h : ¬ (b = i / 8 ∧ t = i % 8)) :
    8 * b + t ≠ i := by
  intro e
  apply h
  constructor <;> omega

/-- C25 (block-page slot isolation and bit layout).  For every block page of
`n` slots reachable from a cleared page by `Insert` and `Remove` calls and
slots `i ≠ j` below `n`: `Insert(i, key, value)` and `Remove(i)` return and
leave `IsOccupied(j)`, `IsReadable(j)`, `KeyAt(j)` and `ValueAt(j)` as they
were; every bit of the two bitmaps other than bit `i mod 8` of byte `i div 8`
is as before; `Remove(i)` on an occupied slot leaves the slot occupied and not
readable with its key and value in place, and the occupied bitmap untouched;
`Remove(i)` on a slot that is not occupied leaves the page as it is. -/
theorem C25_slot_isolation {n : Nat} {bp : HashTableBlockPage K V} (hr : Reachable n bp)
    {i j : Nat} (hi : i < n) (hj : j < n) (hne : i ≠ j) (key : K) (value : V) :
    (∃ (b : Bool) (bp' : HashTableBlockPage K V), bp.Insert i key value = some (b, bp') ∧
      bp'.IsOccupied j = bp.IsOccupied j ∧ bp'.IsReadable j = bp.IsReadable j ∧
      bp'.KeyAt j = bp.KeyAt j ∧ bp'.ValueAt j = bp.ValueAt j ∧
      ∀ b t, t < 8 → ¬ (b = i / 8 ∧ t = i % 8) →
        bp'.occupiedBit b t = bp.occupiedBit b t ∧
        bp'.readableBit b t = bp.readableBit b t) ∧
    (∃ bp' : HashTableBlockPage K V, bp.Remove i = some bp' ∧
      bp'.IsOccupied j = bp.IsOccupied j ∧ bp'.IsReadable j = bp.IsReadable j ∧
      bp'.KeyAt j = bp.KeyAt j ∧ bp'.ValueAt j = bp.ValueAt j ∧
      (∀ b t, t < 8 → bp'.occupiedBit b t = bp.occupiedBit b t) ∧
      (∀ b t, t < 8 → ¬ (b = i / 8 ∧ t = i % 8) →
        bp'.readableBit b t = bp.readableBit b t) ∧
      (bp.IsOccupied i = some true →
        bp'.IsOccupied i = some true ∧ bp'.IsReadable i = some false ∧
        bp'.KeyAt i = bp.KeyAt i ∧ bp'.ValueAt i = bp.ValueAt i) ∧
      (bp.IsOccupied i = some false → bp' = bp)) := by
  have hwf := hr.block_wf
  have hji : j ≠ i := fun e => hne e.symm
  constructor
  · cases hrd : bp.rdBit i with
    | true =>
      exact ⟨false, bp, Insert_readable hwf hi key value hrd, rfl, rfl, rfl, rfl,
        fun _ _ _ _ => ⟨rfl, rfl⟩⟩
    | false =>
      obtain ⟨bp', h, hwf', hocc, hrd', harr⟩ := Insert_free hwf hi key value hrd
      have hla : i < bp.array.length := by rw [hwf.array_len]; exact hi
      obtain ⟨-, -, hkv⟩ := KeyAt_set hla key value bp' harr
      refine ⟨true, bp', h, ?_, ?_, (hkv j hji).1, (hkv j hji).2, ?_⟩
      · rw [IsOccupied_eq hwf' hj, IsOccupied_eq hwf hj, hocc]
        simp [hji]
      · rw [IsReadable_eq hwf' hj, IsReadable_eq hwf hj, hrd']
        simp [hji]
      · intro b t ht hbt
        have hm := slot_ne_of_bit_ne ht hbt
        rw [occupiedBit_eq _ ht, occupiedBit_eq _ ht, readableBit_eq _ ht,
          readableBit_eq _ ht, hocc, hrd']
        simp [hm]
  · cases ho : bp.occBit i with
    | false =>
      refine ⟨bp, Remove_unoccupied hwf hi ho, rfl, rfl, rfl, rfl, fun _ _ _ => rfl,
        fun _ _ _ _ => rfl, ?_, fun _ => rfl⟩
      intro h
      rw [IsOccupied_eq hwf hi, ho] at h
      simp at h
    | true =>
      obtain ⟨bp', h, hwf', hocc, hrd', harr⟩ := Remove_occupied hwf hi ho
      refine ⟨bp', h, ?_, ?_, by simp [KeyAt, harr], by simp [ValueAt, harr], ?_, ?_, ?_, ?_⟩
      · rw [IsOccupied_eq hwf' hj, IsOccupied_eq hwf hj, hocc]
      · rw [IsReadable_eq hwf' hj, IsReadable_eq hwf hj, hrd']
        simp [hji]
      · intro b t ht
        rw [occupiedBit_eq _ ht, occupiedBit_eq _ ht, hocc]
      · intro b t ht hbt
        have hm := slot_ne_of_bit_ne ht hbt
        rw [readableBit_eq _ ht, readableBit_eq _ ht, hrd']
        simp [hm]
      · intro _
        refine ⟨?_, ?_, by simp [KeyAt, harr], by simp [ValueAt, harr]⟩
        · rw [IsOccupied_eq hwf' hi, hocc, ho]
        · rw [IsReadable_eq hwf' hi, hrd']
          simp
      · intro h
        rw [IsOccupied_eq hwf hi, ho] at h
        simp at h

end HashTableBlockPage

theorem scenarioBlockInserted_reachable :
    HashTableBlockPage.Reachable 4 scenarioBlockInserted :=
  HashTableBlockPage.Reachable.insert 1 5 7
    (HashTableBlockPage.Reachable.clear
      (⟨[0], [0], [(0, 0), (0, 0), (0, 0), (0, 0)]⟩ : HashTableBlockPage Nat Nat)
      rfl rfl rfl : HashTableBlockPage.Reachable 4 scenarioBlock)
    (by decide : 1 < 4)
    (by decide : scenarioBlock.Insert 1 5 7 = some (true, scenarioBlockInserted))

/-- C25, at a concrete input: on the page of four slots holding `(5, 7)` in
slot 1, for the slots `i = 1` and `j = 2`. -/
theorem C25_slot_isolation_witness :
    (∃ (b : Bool) (bp' : HashTableBlockPage Nat Nat),
      scenarioBlockInserted.Insert 1 6 8 = some (b, bp') ∧
      bp'.IsOccupied 2 = scenarioBlockInserted.IsOccupied 2 ∧
      bp'.IsReadable 2 = scenarioBlockInserted.IsReadable 2 ∧
      bp'.KeyAt 2 = scenarioBlockInserted.KeyAt 2 ∧
      bp'.ValueAt 2 = scenarioBlockInserted.ValueAt 2 ∧
      ∀ b t, t < 8 → ¬ (b = 1 / 8 ∧ t = 1 % 8) →
        bp'.occupiedBit b t = scenarioBlockInserted.occupiedBit b t ∧
        bp'.readableBit b t = scenarioBlockInserted.readableBit b t) ∧
    (∃ bp' : HashTableBlockPage Nat Nat, scenarioBlockInserted.Remove 1 = some bp' ∧
      bp'.IsOccupied 2 = scenarioBlockInserted.IsOccupied 2 ∧
      bp'.IsReadable 2 = scenarioBlockInserted.IsReadable 2 ∧
      bp'.KeyAt 2 = scenarioBlockInserted.KeyAt 2 ∧
      bp'.ValueAt 2 = scenarioBlockInserted.ValueAt 2 ∧
      (∀ b t, t < 8 → bp'.occupiedBit b t = scenarioBlockInserted.occupiedBit b t) ∧
      (∀ b t, t < 8 → ¬ (b = 1 / 8 ∧ t = 1 % 8) →
        bp'.readableBit b t = scenarioBlockInserted.readableBit b t) ∧
      (scenarioBlockInserted.IsOccupied 1 = some true →
        bp'.IsOccupied 1 = some true ∧ bp'.IsReadable 1 = some false ∧
        bp'.KeyAt 1 = scenarioBlockInserted.KeyAt 1 ∧
        bp'.ValueAt 1 = scenarioBlockInserted.ValueAt 1) ∧
      (scenarioBlockInserted.IsOccupied 1 = some false → bp' = scenarioBlockInserted)) :=
  HashTableBlockPage.C25_slot_isolation scenarioBlockInserted_reachable
    (by decide : 1 < 4) (by decide : 2 < 4) (by decide : 1 ≠ 2) 6 8

/-! ## Eviction and the disk -/

namespace BufferPoolManager

theorem cleanEvictionScenario_reachable : Reachable simpleDisk 0 cleanEvictionScenario :=
  Reachable.run [Op.newPage, Op.newPage, Op.newPage, Op.unpin 0 false]
    (Reachable.init 3 (⟨0, []⟩ : SimpleDisk) false) (by decide)

/-- C23 (eviction touches the disk only by write-back) fails on the code.  On
a pool of three frames after three `New` calls (pages 0, 1, 2) and
`Unpin(0, true)`, the free list is empty and page 0 is resident and dirty; a
`New` and a `Fetch` of the non-resident page 7 both evict page 0 and call
`DeallocatePage(0)`, then `WritePage(0, bytes)`.  After `Unpin(0, false)`
instead, page 0 is clean and the evicting `New` calls `DeallocatePage(0)`
alone.  `get_free_page` evicts through `DeletePageImpl`. -/
theorem C23_eviction_disk_calls_failing_input :
    Reachable simpleDisk 0 evictionScenario ∧
    evictionScenario.free_list = [] ∧
    evictionScenario.page_table.find 0 = some 2 ∧
    (evictionScenario.pages[2]?).map (fun pg => (pg.page_id, pg.pin_count, pg.is_dirty))
      = some (0, 0, true) ∧
    (NewPageImpl simpleDisk 0 evictionScenario).map
        (fun x => (x.1, x.2.events.drop evictionScenario.events.length))
      = some (some (3, 2), [Event.ReplacerVictim (some 2), Event.DeallocatePage 0,
          Event.WritePage 0 0, Event.ReplacerPin 2, Event.AllocatePage 3]) ∧
    (FetchPageImpl simpleDisk 0 evictionScenario 7).map
        (fun x => (x.1, x.2.events.drop evictionScenario.events.length))
      = some (some 2, [Event.ReplacerVictim (some 2), Event.DeallocatePage 0,
          Event.WritePage 0 0, Event.ReplacerPin 2, Event.ReadPage 7]) ∧
    Reachable simpleDisk 0 cleanEvictionScenario ∧
    (cleanEvictionScenario.pages[2]?).map (fun pg => (pg.page_id, pg.pin_count, pg.is_dirty))
      = some (0, 0, false) ∧
    (NewPageImpl simpleDisk 0 cleanEvictionScenario).map
        (fun x => (x.1, x.2.events.drop cleanEvictionScenario.events.length))
      = some (some (3, 2), [Event.ReplacerVictim (some 2), Event.DeallocatePage 0,
          Event.ReplacerPin 2, Event.AllocatePage 3]) :=
  ⟨evictionScenario_reachable, by decide, by decide, by decide, by decide, by decide,
    cleanEvictionScenario_reachable, by decide, by decide⟩

end BufferPoolManager

/-! ## Acquiring a frame -/

namespace ClockReplacer

/-- The frame the loop of `Victim` picks is left pinned and referenced. -/
theorem victimLoop_item (fuel : Nat) :
    ∀ {r r' : ClockReplacer} {f : Nat}, victimLoop fuel r = some (f, r') →
      r'.clock_vector[f]? = some ⟨true, true⟩ := by
  induction fuel with
  | zero => intro r r' f h; simp [victimLoop] at h
  | succ fuel ih =>
    intro r r' f h
    cases hit : r.clock_vector[r.clock_hand]? with
    | none => rw [victimLoop] at h; simp [hit] at h
    | some it =>
      obtain ⟨hh, -⟩ := List.getElem?_eq_some.1 hit
      rw [victimLoop_succ _ _ it hit] at h
      by_cases c1 : ((!it.pin_flag) && (!it.ref_flag)) = true
      · rw [if_pos c1] at h
        injection h with h
        injection h with h1 h2
        subst h1
        subst h2
        simp [hh]
      · rw [if_neg c1] at h
        by_cases c2 : ((!it.pin_flag) && it.ref_flag) = true
        · rw [if_pos c2] at h
          exact ih h
        · rw [if_neg c2] at h
          exact ih h

/-- `Pin` on a frame that is pinned and referenced changes nothing. -/
theorem Pin_self {r : ClockReplacer} {f : Nat}
    (h : r.clock_vector[f]? = some ⟨true, true⟩) : r.Pin f = some r := by
  unfold Pin
  simp only [h, Bool.not_true, Bool.false_eq_true, if_false, LinearProbeHashTable.set_same h]

end ClockReplacer

namespace BufferPoolManager

variable {D B : Type}

/-- C24 (AcquireFrame and the direct design), as the code has it.  For every
buffer pool state reachable from construction, `get_free_page` returns, and
the reference procedure returns the same frame (or failure) and leaves the
same frames, page table and free list; the replacer of the source is the
replacer of the reference after `Pin` of the returned frame (the source pins
the frame it hands out, the reference does not touch the replacer on the
free-list path), and the disk is the same for a disk manager whose
`DeallocatePage` leaves the disk as it is (the source deallocates the evicted
page).  The returned frame is marked pinned in the replacer.  When the free
list is empty, the frame read back from `free_list_.back()` is the victim the
replacer chose, the `Pin` changes nothing, and the victim hosts a resident
page with pin count 0. -/
theorem C24_acquire_frame (dm : DiskManager D B) (zero : B) {s : BufferPoolManager D B}
    (hr : Reachable dm zero s) :
    ∃ (o : Option Nat) (s' sr : BufferPoolManager D B),
      get_free_page dm s = some (o, s') ∧ AcquireFrame_reference dm s = some (o, sr) ∧
      s'.pages = sr.pages ∧ s'.page_table = sr.page_table ∧ s'.free_list = sr.free_list ∧
      s'.pool_size = sr.pool_size ∧
      ((∀ d p, dm.DeallocatePage d p = d) → s'.disk = sr.disk) ∧
      (∀ f, o = some f →
        sr.replacer.Pin f = some s'.replacer ∧ s'.replacer.pinFlag f = some true) ∧
      (o = none → s'.replacer = sr.replacer) ∧
      (s.free_list = [] → ∀ f, o = some f →
        s'.replacer = sr.replacer ∧ s.replacer.Victim = some (some f, sr.replacer) ∧
        ∃ pg : Page B, s.pages[f]? = some pg ∧ s.page_table.find pg.page_id = some f ∧
          pg.pin_count = 0) := by
  have hi := hr.inv
  by_cases hempty : s.free_list = []
  · have hE : s.free_list.isEmpty = true := by simp [hempty]
    by_cases hc : s.replacer.ClockReplacer_frame_counter = 0
    · have hv : s.replacer.Victim = some (none, s.replacer) :=
        (ClockReplacer.Victim_none_iff _ _).2 ⟨hc, rfl⟩
      refine ⟨none,
        { s with
          replacer := s.replacer
          events := s.events ++ [Event.ReplacerVictim none] },
        { s with replacer := s.replacer }, ?_, ?_, rfl, rfl, rfl, rfl, fun _ => rfl, ?_,
        fun _ => rfl, ?_⟩
      · unfold get_free_page
        simp only [hE, if_true, hv]
      · unfold AcquireFrame_reference
        simp only [hempty, List.getLast?_nil, hv]
      · intro f hf
        simp at hf
      · intro _ f hf
        simp at hf
    · obtain ⟨f, r', rp, pg, hv, hpg, hpin, hfind, hval, hrp, hget⟩ :=
        get_free_page_evict dm hi hempty hc
      obtain ⟨-, hloop⟩ := ClockReplacer.Victim_some hv
      have hitem := ClockReplacer.victimLoop_item _ hloop
      have hself := ClockReplacer.Pin_self hitem
      rw [hself] at hrp
      injection hrp with hrp
      subst hrp
      have hflag : r'.pinFlag f = some true := by
        simp [ClockReplacer.pinFlag, hitem]
      refine ⟨some f, _,
        { s with
          replacer := r'
          disk := if pg.is_dirty then dm.WritePage s.disk pg.page_id pg.data else s.disk
          page_table := s.page_table.erase pg.page_id
          pages := s.pages.set f
            { pg with page_id := INVALID_PAGE_ID, pin_count := 0, is_dirty := false } },
        hget, ?_, rfl, rfl, hempty.symm, rfl, ?_, ?_, ?_, ?_⟩
      · unfold AcquireFrame_reference
        simp only [hempty, List.getLast?_nil, hv, hpg, if_neg hval]
      · intro hnoop
        simp only [hnoop]
      · intro g hg
        injection hg with hg
        subst hg
        exact ⟨hself, hflag⟩
      · intro h
        simp at h
      · intro _ g hg
        injection hg with hg
        subst hg
        exact ⟨rfl, hv, pg, hpg, hfind, hpin⟩
  · obtain ⟨f, hlast⟩ : ∃ f, s.free_list.getLast? = some f := by
      cases hl : s.free_list.getLast? with
      | none => exact absurd (List.getLast?_eq_none_iff.1 hl) hempty
      | some f => exact ⟨f, rfl⟩
    have hmem : f ∈ s.free_list := List.mem_of_getLast?_eq_some hlast
    obtain ⟨pg, hpg, -⟩ := hi.free_pin f hmem
    have hlt : f < s.replacer.clock_vector.length := by
      rw [hi.clock_len, ← hi.pages_len]
      exact (List.getElem?_eq_some.1 hpg).1
    obtain ⟨rp, hrp⟩ := ClockReplacer.Pin_isSome s.replacer hlt
    obtain ⟨-, -, -, hflags, -⟩ := ClockReplacer.Pin_props hrp
    refine ⟨some f,
      { s with
        free_list := s.free_list.dropLast
        replacer := rp
        events := s.events ++ [Event.ReplacerPin f] },
      { s with free_list := s.free_list.dropLast }, ?_, ?_, rfl, rfl, rfl, rfl, fun _ => rfl,
      ?_, ?_, ?_⟩
    · rw [get_free_page_nonempty dm hempty]
      unfold take_free_frame
      simp only [hlast, hrp]
    · unfold AcquireFrame_reference
      simp only [hlast]
    · intro g hg
      injection hg with hg
      subst hg
      exact ⟨hrp, by rw [hflags f, if_pos rfl]⟩
    · intro h
      simp at h
    · intro h
      exact absurd h hempty

/-- C24, at a concrete input: the pool of three frames with an empty free
list and page 0 unpinned. -/
theorem C24_acquire_frame_witness :
    ∃ (o : Option Nat) (s' sr : BufferPoolManager SimpleDisk Nat),
      get_free_page simpleDisk evictionScenario = some (o, s') ∧
      AcquireFrame_reference simpleDisk evictionScenario = some (o, sr) ∧
      s'.pages = sr.pages ∧ s'.page_table = sr.page_table ∧ s'.free_list = sr.free_list ∧
      s'.pool_size = sr.pool_size ∧
      ((∀ d p, simpleDisk.DeallocatePage d p = d) → s'.disk = sr.disk) ∧
      (∀ f, o = some f →
        sr.replacer.Pin f = some s'.replacer ∧ s'.replacer.pinFlag f = some true) ∧
      (o = none → s'.replacer = sr.replacer) ∧
      (evictionScenario.free_list = [] → ∀ f, o = some f →
        s'.replacer = sr.replacer ∧
        evictionScenario.replacer.Victim = some (some f, sr.replacer) ∧
        ∃ pg : Page Nat, evictionScenario.pages[f]? = some pg ∧
          evictionScenario.page_table.find pg.page_id = some f ∧ pg.pin_count = 0) :=
  C24_acquire_frame simpleDisk 0 evictionScenario_reachable

theorem reclaimScenario_reachable : Reachable reclaimDisk 0 reclaimScenario :=
  Reachable.run [Op.newPage, Op.newPage, Op.newPage, Op.unpin 0 true, Op.newPage,
      Op.unpin 1 false, Op.fetch 0, Op.unpin 0 false]
    (Reachable.init 3 (⟨0, []⟩ : SimpleDisk) false) (by decide)

/-- C24 as claimed fails.  On the pool of one frame after `New`,
`Unpin(0, false)` and `Delete(0)`, frame 0 is on the free list and the
replacer still holds it as a candidate: `get_free_page` returns frame 0 and
pins it in the replacer (size 0), the reference procedure returns frame 0 and
leaves the replacer with frame 0 unpinned (size 1).  On a disk manager whose
`DeallocatePage` drops the bytes of the page, with page 0 resident, clean and
unpinned and its bytes on the disk, `get_free_page` evicts page 0 and leaves
the disk without its bytes, the reference procedure leaves them. -/
theorem C24_acquire_frame_counterexample :
    Reachable simpleDisk 0 deleteScenario ∧
    (get_free_page simpleDisk deleteScenario).map
        (fun x => (x.1, x.2.replacer.pinFlag 0, x.2.replacer.Size))
      = some (some 0, some true, 0) ∧
    (AcquireFrame_reference simpleDisk deleteScenario).map
        (fun x => (x.1, x.2.replacer.pinFlag 0, x.2.replacer.Size))
      = some (some 0, some false, 1) ∧
    Reachable reclaimDisk 0 reclaimScenario ∧
    reclaimScenario.disk = ⟨4, [(0, 0)]⟩ ∧
    (get_free_page reclaimDisk reclaimScenario).map (fun x => (x.1, x.2.disk))
      = some (some 1, ⟨4, []⟩) ∧
    (AcquireFrame_reference reclaimDisk reclaimScenario).map (fun x => (x.1, x.2.disk))
      = some (some 1, ⟨4, [(0, 0)]⟩) :=
  ⟨Reachable.run [Op.newPage, Op.unpin 0 false, Op.delete 0]
      (Reachable.init 1 (⟨0, []⟩ : SimpleDisk) false) (by decide),
    by decide, by decide, reclaimScenario_reachable, by decide, by decide, by decide⟩

end BufferPoolManager

/-! ## Clock replacer: what the scan selects -/

namespace ClockReplacer

theorem cyclicDist_self {n h : Nat} : cyclicDist n h h = 0 := by
  simp [cyclicDist]

theorem cyclicDist_behind {n h : Nat} (hh : h < n) :
    cyclicDist n (if h + 1 = n then 0 else h + 1) h = n - 1 := by
  unfold cyclicDist
  split_ifs <;> omega

theorem cyclicDist_reach {n h f : Nat} (_hh : h < n) (hf : f < n) :
    (h + cyclicDist n h f) % n = f := by
  unfold cyclicDist
  split_ifs with c
  · rw [Nat.add_sub_cancel' c]
    exact Nat.mod_eq_of_lt hf
  · have e : h + (f + n - h) = f + n := by omega
    rw [e, Nat.add_mod_right]
    exact Nat.mod_eq_of_lt hf

theorem hand_step {n h k : Nat} (_hh : h < n) :
    ((if h + 1 = n then 0 else h + 1) + k) % n = (h + (k + 1)) % n := by
  split_ifs with c
  · have e : h + (k + 1) = k + n := by omega
    rw [e, Nat.add_mod_right, Nat.zero_add]
  · congr 1
    omega

theorem not_clear_iff (it : ClockItem) :
    ¬ ((!it.pin_flag) && (!it.ref_flag)) = true ↔ it ≠ ⟨false, false⟩ := by
  obtain ⟨a, b⟩ := it
  cases a <;> cases b <;> simp

/-- One iteration that does not pick the frame under the hand, in full: the
hand advances, the counter and the other items are as before, and the item
left behind is swept. -/
theorem victimLoop_step (fuel : Nat) (r : ClockReplacer) (it : ClockItem)
    (hcur : r.clock_vector[r.clock_hand]? = some it)
    (c1 : it ≠ ⟨false, false⟩) :
    ∃ r1 : ClockReplacer, victimLoop (fuel + 1) r = victimLoop fuel r1 ∧
      r1.clock_vector.length = r.clock_vector.length ∧
      r1.clock_hand
        = (if r.clock_hand + 1 = r.clock_vector.length then 0 else r.clock_hand + 1) ∧
      r1.ClockReplacer_frame_counter = r.ClockReplacer_frame_counter ∧
      (∀ j, j ≠ r.clock_hand → r1.clock_vector[j]? = r.clock_vector[j]?) ∧
      r1.clock_vector[r.clock_hand]? = some (sweep it) := by
  obtain ⟨hh, -⟩ := List.getElem?_eq_some.1 hcur
  have c1' := (not_clear_iff it).2 c1
  rw [victimLoop_succ _ _ it hcur, if_neg c1']
  by_cases c2 : ((!it.pin_flag) && it.ref_flag) = true
  · rw [if_pos c2]
    refine ⟨_, rfl, by simp, ?_, by simp, ?_, ?_⟩
    · simp [move_clock_hand_hand]
    · intro j hj
      simp only [move_clock_hand_vector]
      rw [List.getElem?_set_ne (fun e => hj e.symm)]
    · have hp : it.pin_flag = false := by
        cases hq : it.pin_flag <;> simp [hq] at c2 ⊢
      simp [hh, sweep, hp]
  · rw [if_neg c2]
    refine ⟨_, rfl, by simp, ?_, by simp, ?_, ?_⟩
    · simp [move_clock_hand_hand]
    · intro j _
      simp
    · have hp : it.pin_flag = true := by
        obtain ⟨a, b⟩ := it
        cases a <;> cases b <;> simp at c1 c2 c1' ⊢
      simp [hcur, sweep, hp]

/-- The hand passes over `k` frames none of which is unpinned and
unreferenced: the loop goes on from the state with the hand `k` positions
further, the counter as before and the frames passed over swept. -/
theorem victimLoop_pass (n : Nat) (k : Nat) :
    ∀ (r : ClockReplacer) (fuel : Nat), r.clock_vector.length = n → r.clock_hand < n →
      k ≤ n →
      (∀ g, g < n → cyclicDist n r.clock_hand g < k →
        r.clock_vector[g]? ≠ some ⟨false, false⟩) →
      ∃ rk : ClockReplacer, victimLoop (k + fuel) r = victimLoop fuel rk ∧
        rk.clock_vector.length = n ∧ rk.clock_hand = (r.clock_hand + k) % n ∧
        rk.ClockReplacer_frame_counter = r.ClockReplacer_frame_counter ∧
        ∀ g, rk.clock_vector[g]?
          = if g < n ∧ cyclicDist n r.clock_hand g < k then (r.clock_vector[g]?).map sweep
            else r.clock_vector[g]? := by
  induction k with
  | zero =>
    intro r fuel hlen hh _ _
    refine ⟨r, by rw [Nat.zero_add], hlen, by rw [Nat.add_zero, Nat.mod_eq_of_lt hh], rfl, ?_⟩
    intro g
    simp
  | succ k ih =>
    intro r fuel hlen hh hk hpre
    have hcur : r.clock_vector[r.clock_hand]? = some r.clock_vector[r.clock_hand] :=
      List.getElem?_eq_getElem (by rw [hlen]; exact hh)
    have hnc : r.clock_vector[r.clock_hand] ≠ ⟨false, false⟩ := by
      intro e
      apply hpre r.clock_hand hh (by rw [cyclicDist_self]; omega)
      rw [hcur, e]
    obtain ⟨r1, e1, hlen1, hhand1, hcnt1, hother1, hat1⟩ :=
      victimLoop_step (k + fuel) r _ hcur hnc
    rw [hlen] at hlen1 hhand1
    have hh1 : r1.clock_hand < n := by
      rw [hhand1]
      split_ifs <;> omega
    have hpre1 : ∀ g, g < n → cyclicDist n r1.clock_hand g < k →
        r1.clock_vector[g]? ≠ some ⟨false, false⟩ := by
      intro g hg hd
      rw [hhand1] at hd
      by_cases e : g = r.clock_hand
      · subst e
        rw [cyclicDist_behind hh] at hd
        omega
      · rw [hother1 g e]
        have := cyclicDist_move hh hg e
        exact hpre g hg (by omega)
    obtain ⟨rk, e2, hlenk, hhandk, hcntk, hcv⟩ := ih r1 fuel hlen1 hh1 (by omega) hpre1
    refine ⟨rk, ?_, hlenk, ?_, by rw [hcntk, hcnt1], ?_⟩
    · have e : k + 1 + fuel = (k + fuel) + 1 := by omega
      rw [e, e1, e2]
    · rw [hhandk, hhand1]
      exact hand_step hh
    · intro g
      rw [hcv g, hhand1]
      by_cases e : g = r.clock_hand
      · subst e
        rw [cyclicDist_behind hh, cyclicDist_self, hat1, hcur]
        have h1 : ¬ (r.clock_hand < n ∧ n - 1 < k) := by omega
        have h2 : r.clock_hand < n ∧ 0 < k + 1 := ⟨hh, by omega⟩
        rw [if_neg h1, if_pos h2]
        rfl
      · rw [hother1 g e]
        by_cases hg : g < n
        · have hm := cyclicDist_move hh hg e
          by_cases hd : cyclicDist n r.clock_hand g < k + 1
          · rw [if_pos ⟨hg, by omega⟩, if_pos ⟨hg, hd⟩]
          · rw [if_neg (fun c => hd (by omega)), if_neg (fun c => hd c.2)]
        · rw [if_neg (fun c => hg c.1), if_neg (fun c => hg c.1)]

end ClockReplacer

namespace ClockReplacer

/-- The loop of `Victim` picks the first frame in cyclic order from the hand
that is unpinned and unreferenced, after sweeping the frames before it. -/
theorem victimLoop_first {n : Nat} {r : ClockReplacer} (hlen : r.clock_vector.length = n)
    (hh : r.clock_hand < n) {f : Nat} (hf : f < n)
    (hclear : r.clock_vector[f]? = some ⟨false, false⟩)
    (hpre : ∀ g, g < n → cyclicDist n r.clock_hand g < cyclicDist n r.clock_hand f →
      r.clock_vector[g]? ≠ some ⟨false, false⟩) :
    ∃ r' : ClockReplacer,
      victimLoop (cyclicDist n r.clock_hand f + 1) r = some (f, r') ∧ r'.clock_hand = f ∧
      ∀ g, r'.clock_vector[g]?
        = if g = f then some ⟨true, true⟩
          else if g < n ∧ cyclicDist n r.clock_hand g < cyclicDist n r.clock_hand f then
            (r.clock_vector[g]?).map sweep
          else r.clock_vector[g]? := by
  have hd := cyclicDist_lt hh hf
  obtain ⟨rk, e1, hlenk, hhandk, -, hcv⟩ :=
    victimLoop_pass n (cyclicDist n r.clock_hand f) r 1 hlen hh (by omega) hpre
  rw [cyclicDist_reach hh hf] at hhandk
  have hatf : rk.clock_vector[rk.clock_hand]? = some ⟨false, false⟩ := by
    rw [hhandk, hcv f, if_neg (fun c => Nat.lt_irrefl _ c.2)]
    exact hclear
  have hfk : f < rk.clock_vector.length := by rw [hlenk]; exact hf
  refine ⟨
    { rk with
      ClockReplacer_frame_counter := rk.ClockReplacer_frame_counter - 1
      clock_vector := rk.clock_vector.set rk.clock_hand ⟨true, true⟩ }, ?_, ?_, ?_⟩
  · rw [e1, victimLoop_succ _ _ _ hatf]
    simp [hhandk]
  · exact hhandk
  · intro g
    simp only [hhandk, List.getElem?_set]
    by_cases e : g = f
    · subst e
      simp [hfk]
    · rw [if_neg (fun c => e c.symm), if_neg e]
      exact hcv g

end ClockReplacer

namespace ClockReplacer

theorem exists_first (n h : Nat) (P : Nat → Prop) (hex : ∃ g, g < n ∧ P g) :
    ∃ f, f < n ∧ P f ∧ ∀ g, g < n → P g → cyclicDist n h f ≤ cyclicDist n h g := by
  classical
  have hq : ∃ d, ∃ g, g < n ∧ P g ∧ cyclicDist n h g = d := by
    obtain ⟨g, hg, hp⟩ := hex
    exact ⟨_, g, hg, hp, rfl⟩
  obtain ⟨f, hf, hp, hd⟩ := Nat.find_spec hq
  refine ⟨f, hf, hp, ?_⟩
  intro g hg hpg
  rw [hd]
  exact Nat.find_min' hq ⟨g, hg, hpg, rfl⟩

theorem sweep_pin_flag (it : ClockItem) : (sweep it).pin_flag = it.pin_flag := by
  unfold sweep
  split
  · rfl
  · rename_i h
    simp at h
    simp [h]

theorem sweep_pinned {it : ClockItem} (h : it.pin_flag = true) : sweep it = it := by
  simp [sweep, h]

theorem sweep_unpinned {it : ClockItem} (h : it.pin_flag = false) :
    sweep it = ⟨false, false⟩ := by
  simp [sweep, h]

theorem sweep_sweep (it : ClockItem) : sweep (sweep it) = sweep it := by
  cases h : it.pin_flag
  · rw [sweep_unpinned h]
    rfl
  · rw [sweep_pinned h, sweep_pinned h]

theorem item_of_flags {r : ClockReplacer} {g : Nat} {a b : Bool}
    (hp : r.pinFlag g = some a) (hr : r.refFlag g = some b) :
    r.clock_vector[g]? = some ⟨b, a⟩ := by
  unfold pinFlag at hp
  unfold refFlag at hr
  cases hit : r.clock_vector[g]? with
  | none => simp [hit] at hp
  | some it =>
    obtain ⟨x, y⟩ := it
    simp [hit] at hp hr
    subst hp
    subst hr
    rfl

/-- The flags of the frames after the hand has swept some of them and picked
frame `f`. -/
theorem flags_after_sweep {r r' : ClockReplacer} {f : Nat} (S : Nat → Prop)
    [DecidablePred S]
    (hcv : ∀ g, r'.clock_vector[g]?
      = if g = f then some ⟨true, true⟩
        else if S g then (r.clock_vector[g]?).map sweep else r.clock_vector[g]?)
    (hfu : r.pinFlag f = some false) :
    r'.pinFlag f = some true ∧ r'.refFlag f = some true ∧
    (∀ g, g ≠ f → r'.pinFlag g = r.pinFlag g) ∧
    (∀ g, r.pinFlag g = some true → r'.refFlag g = r.refFlag g) ∧
    (∀ g, g ≠ f → S g → r.pinFlag g = some false → r'.refFlag g = some false) ∧
    (∀ g, g ≠ f → ¬ S g → r'.refFlag g = r.refFlag g) := by
  refine ⟨by simp [pinFlag, hcv f], by simp [refFlag, hcv f], ?_, ?_, ?_, ?_⟩
  · intro g hg
    simp only [pinFlag, hcv g, if_neg hg]
    split
    · cases r.clock_vector[g]? with
      | none => rfl
      | some it => simp [sweep_pin_flag]
    · rfl
  · intro g hp
    have hg : g ≠ f := by
      intro e
      subst e
      rw [hfu] at hp
      simp at hp
    simp only [refFlag, hcv g, if_neg hg]
    split
    · cases hit : r.clock_vector[g]? with
      | none => rfl
      | some it =>
        simp only [pinFlag, hit, Option.map_some', Option.some.injEq] at hp
        simp [sweep_pinned hp]
    · rfl
  · intro g hg hs hp
    simp only [refFlag, hcv g, if_neg hg, if_pos hs]
    cases hit : r.clock_vector[g]? with
    | none => simp [pinFlag, hit] at hp
    | some it =>
      simp only [pinFlag, hit, Option.map_some', Option.some.injEq] at hp
      simp [sweep_unpinned hp]
  · intro g hg hs
    simp only [refFlag, hcv g, if_neg hg, if_neg hs]

end ClockReplacer

namespace ClockReplacer

theorem pinFlag_lt {r : ClockReplacer} {g : Nat} {a : Bool} (h : r.pinFlag g = some a) :
    ∃ it, r.clock_vector[g]? = some it ∧ it.pin_flag = a ∧ g < r.clock_vector.length := by
  unfold pinFlag at h
  cases hit : r.clock_vector[g]? with
  | none => simp [hit] at h
  | some it =>
    simp only [hit, Option.map_some', Option.some.injEq] at h
    exact ⟨it, rfl, h, (List.getElem?_eq_some.1 hit).1⟩

/-- C22 (second-chance selection).  For every replacer state reachable from
the constructed replacer over `n` frames by `Pin`, `Unpin` and `Victim` calls
in which some frame is unpinned, with the hand at `h`: `Victim` returns a
frame `f < n` that was unpinned; afterwards `f` is pinned and referenced and
the hand rests on `f`; the pin flag of every other frame and the reference
flag of every pinned frame are unchanged.  Either `f` was unreferenced and is
the first unpinned unreferenced frame in cyclic order from `h` (least number
of hand advances), every unpinned frame before it is unreferenced afterwards
and the reference flag of every frame behind it is unchanged; or no unpinned
frame was unreferenced, `f` is the first unpinned frame in cyclic order from
`h`, and every other unpinned frame is unreferenced afterwards. -/
theorem C22_second_chance {n : Nat} {ref0 : Bool} {r : ClockReplacer}
    (hr : Reachable n ref0 r) (hex : ∃ g, r.pinFlag g = some false) :
    ∃ (f : Nat) (r' : ClockReplacer), r.Victim = some (some f, r') ∧ f < n ∧
      r.pinFlag f = some false ∧
      r'.pinFlag f = some true ∧ r'.refFlag f = some true ∧ r'.clock_hand = f ∧
      (∀ g, g ≠ f → r'.pinFlag g = r.pinFlag g) ∧
      (∀ g, r.pinFlag g = some true → r'.refFlag g = r.refFlag g) ∧
      ((r.refFlag f = some false ∧
          (∀ g, g < n → r.pinFlag g = some false → r.refFlag g = some false →
            cyclicDist n r.clock_hand f ≤ cyclicDist n r.clock_hand g) ∧
          (∀ g, g < n → cyclicDist n r.clock_hand g < cyclicDist n r.clock_hand f →
            r.pinFlag g = some false → r'.refFlag g = some false) ∧
          (∀ g, g < n → cyclicDist n r.clock_hand f < cyclicDist n r.clock_hand g →
            r'.refFlag g = r.refFlag g)) ∨
        ((∀ g, r.pinFlag g = some false → r.refFlag g = some true) ∧
          (∀ g, g < n → r.pinFlag g = some false →
            cyclicDist n r.clock_hand f ≤ cyclicDist n r.clock_hand g) ∧
          (∀ g, g ≠ f → r.pinFlag g = some false → r'.refFlag g = some false))) := by
  obtain ⟨hlen, hc, hh⟩ := hr.replacer_inv
  obtain ⟨g0, hg0⟩ := hex
  obtain ⟨it0, hit0, hp0, hg0n⟩ := pinFlag_lt hg0
  rw [hlen] at hg0n
  have hh' : r.clock_hand < n := by
    rcases hh with h | h
    · exact h
    · omega
  have h0 : r.ClockReplacer_frame_counter ≠ 0 := counter_pos_of_unpinned hc hg0
  by_cases hA : ∃ g, g < n ∧ r.clock_vector[g]? = some ⟨false, false⟩
  · obtain ⟨f, hf, hclear, hmin⟩ :=
      exists_first n r.clock_hand (fun g => r.clock_vector[g]? = some ⟨false, false⟩) hA
    obtain ⟨r', hloop, hhand, hcv⟩ := victimLoop_first hlen hh' hf hclear
      (fun g hg hd hcl => absurd (hmin g hg hcl) (by omega))
    have hdf := cyclicDist_lt hh' hf
    have hV : r.Victim = some (some f, r') := by
      unfold Victim
      rw [if_neg h0, victimLoop_mono (by rw [hlen]; omega) _ _ hloop]
    have hfu : r.pinFlag f = some false := by simp [pinFlag, hclear]
    obtain ⟨a1, a2, a3, a4, a5, a6⟩ := flags_after_sweep
      (fun g => g < n ∧ cyclicDist n r.clock_hand g < cyclicDist n r.clock_hand f) hcv hfu
    refine ⟨f, r', hV, hf, hfu, a1, a2, hhand, a3, a4,
      Or.inl ⟨by simp [refFlag, hclear], ?_, ?_, ?_⟩⟩
    · intro g hg hp hrf
      exact hmin g hg (item_of_flags hp hrf)
    · intro g hg hd hp
      exact a5 g (fun e => by subst e; omega) ⟨hg, hd⟩ hp
    · intro g hg hd
      exact a6 g (fun e => by subst e; omega) (fun c => by omega)
  · have hnone : ∀ g, g < n → r.clock_vector[g]? ≠ some ⟨false, false⟩ :=
      fun g hg hcl => hA ⟨g, hg, hcl⟩
    obtain ⟨f, hf, hfu, hmin⟩ :=
      exists_first n r.clock_hand (fun g => r.pinFlag g = some false) ⟨g0, hg0n, hg0⟩
    have hdf := cyclicDist_lt hh' hf
    obtain ⟨rn, e1, hlenn, hhandn, -, hcvn⟩ :=
      victimLoop_pass n n r (cyclicDist n r.clock_hand f + 1) hlen hh' (le_refl _)
        (fun g hg _ => hnone g hg)
    have hhn : rn.clock_hand = r.clock_hand := by
      rw [hhandn, Nat.add_mod_right, Nat.mod_eq_of_lt hh']
    have hcvn' : ∀ g : Nat, rn.clock_vector[g]? = (r.clock_vector[g]?).map sweep := by
      intro g
      rw [hcvn g]
      by_cases hg : g < n
      · rw [if_pos ⟨hg, cyclicDist_lt hh' hg⟩]
      · rw [if_neg (fun c => hg c.1), List.getElem?_eq_none (by rw [hlen]; omega)]
        rfl
    obtain ⟨itf, hitf, hpf, -⟩ := pinFlag_lt hfu
    have hclear : rn.clock_vector[f]? = some ⟨false, false⟩ := by
      rw [hcvn' f, hitf]
      simp [sweep_unpinned hpf]
    have hpre : ∀ g, g < n →
        cyclicDist n rn.clock_hand g < cyclicDist n rn.clock_hand f →
        rn.clock_vector[g]? ≠ some ⟨false, false⟩ := by
      intro g hg hd hcl
      rw [hhn] at hd
      rw [hcvn' g] at hcl
      cases hit : r.clock_vector[g]? with
      | none => simp [hit] at hcl
      | some it =>
        rw [hit] at hcl
        simp only [Option.map_some', Option.some.injEq] at hcl
        cases hp : it.pin_flag with
        | false =>
          have := hmin g hg (by simp [pinFlag, hit, hp])
          omega
        | true =>
          rw [sweep_pinned hp] at hcl
          rw [hcl] at hp
          simp at hp
    obtain ⟨r', hloop, hhand, hcv⟩ :=
      victimLoop_first hlenn (by rw [hhn]; exact hh') hf hclear hpre
    rw [hhn] at hloop hcv
    have hcv' : ∀ g : Nat, r'.clock_vector[g]?
        = if g = f then some ⟨true, true⟩
          else if True then (r.clock_vector[g]?).map sweep else r.clock_vector[g]? := by
      intro g
      rw [hcv g]
      by_cases e : g = f
      · rw [if_pos e, if_pos e]
      · rw [if_neg e, if_neg e, if_pos trivial, hcvn' g]
        split
        · cases r.clock_vector[g]? with
          | none => rfl
          | some it => simp [sweep_sweep]
        · rfl
    have hV : r.Victim = some (some f, r') := by
      unfold Victim
      rw [if_neg h0]
      have h1 : victimLoop (n + (cyclicDist n r.clock_hand f + 1)) r = some (f, r') := by
        rw [e1, hloop]
      rw [victimLoop_mono (by rw [hlen]; omega) _ _ h1]
    obtain ⟨a1, a2, a3, a4, a5, -⟩ := flags_after_sweep (fun _ => True) hcv' hfu
    refine ⟨f, r', hV, hf, hfu, a1, a2, hhand, a3, a4, Or.inr ⟨?_, hmin, ?_⟩⟩
    · intro g hp
      obtain ⟨it, hit, hpi, hgl⟩ := pinFlag_lt hp
      rw [hlen] at hgl
      have hnc := hnone g hgl
      rw [hit] at hnc
      obtain ⟨x, y⟩ := it
      simp only at hpi
      subst hpi
      cases x with
      | false => exact absurd rfl hnc
      | true => simp [refFlag, hit]
    · intro g hg hp
      exact a5 g hg trivial hp

end ClockReplacer

/-- C22, at a concrete input: over two frames, both unpinned and referenced
(after `Pin(0)`, `Pin(1)`, `Unpin(0)`, `Unpin(1)`). -/
theorem C22_second_chance_witness :
    ∃ (f : Nat) (r' : ClockReplacer), referencedPair.Victim = some (some f, r') ∧ f < 2 ∧
      referencedPair.pinFlag f = some false ∧
      r'.pinFlag f = some true ∧ r'.refFlag f = some true ∧ r'.clock_hand = f ∧
      (∀ g, g ≠ f → r'.pinFlag g = referencedPair.pinFlag g) ∧
      (∀ g, referencedPair.pinFlag g = some true →
        r'.refFlag g = referencedPair.refFlag g) ∧
      ((referencedPair.refFlag f = some false ∧
          (∀ g, g < 2 → referencedPair.pinFlag g = some false →
            referencedPair.refFlag g = some false →
            ClockReplacer.cyclicDist 2 referencedPair.clock_hand f
              ≤ ClockReplacer.cyclicDist 2 referencedPair.clock_hand g) ∧
          (∀ g, g < 2 →
            ClockReplacer.cyclicDist 2 referencedPair.clock_hand g
              < ClockReplacer.cyclicDist 2 referencedPair.clock_hand f →
            referencedPair.pinFlag g = some false → r'.refFlag g = some false) ∧
          (∀ g, g < 2 →
            ClockReplacer.cyclicDist 2 referencedPair.clock_hand f
              < ClockReplacer.cyclicDist 2 referencedPair.clock_hand g →
            r'.refFlag g = referencedPair.refFlag g)) ∨
        ((∀ g, referencedPair.pinFlag g = some false →
            referencedPair.refFlag g = some true) ∧
          (∀ g, g < 2 → referencedPair.pinFlag g = some false →
            ClockReplacer.cyclicDist 2 referencedPair.clock_hand f
              ≤ ClockReplacer.cyclicDist 2 referencedPair.clock_hand g) ∧
          (∀ g, g ≠ f → referencedPair.pinFlag g = some false →
            r'.refFlag g = some false))) :=
  ClockReplacer.C22_second_chance
    (ClockReplacer.Reachable.of_calls
      [ClockReplacer.Call.pin 0, ClockReplacer.Call.pin 1, ClockReplacer.Call.unpin 0,
        ClockReplacer.Call.unpin 1]
      (ClockReplacer.Reachable.init : ClockReplacer.Reachable 2 false _)
      (by decide) (by decide))
    ⟨0, by decide⟩

end bustub
